import Mathlib

/-!
# Cluster extraction on a 2D pixel grid

A shallow embedding of the cluster-finding routines of `junkoda_cellularlib`
(`py_clusters.cpp`, `py_watershed.cpp`, `watershed_ncluster.cpp`,
`watershed_nuclei.cpp`, `ellipses.cpp`, `graph.h`) together with proofs of
their properties.

Conventions of the embedding.

* A pixel index is a natural number `index = ix * ny + iy`; the 2D
  coordinates handed to the image accessor are integers, because the source
  forms `ix1 + dx` with `dx = -1`.
* The image accessor `buf_img(ix, iy)` (class `Buffer<double>`, whose header
  is not part of the sources) is a parameter `img : Int → Int → Int`.  Pixel
  values are only ever compared (`<`, `>=`, `>`, `min`), so they are modelled
  by the linear order `Int`.
* `std::vector<bool>` flags are total maps `Nat → Bool`, updated pointwise.
* `while` loops whose trip count is not syntactically bounded carry a fuel
  argument and return `none` when the fuel runs out; the theorems show that
  the fuel supplied by the entry points always suffices.
-/

namespace Cellular

/-- Edge of `graph.h`: the two pixel indices joined and the edge value. -/
structure Edge where
  index0 : Nat
  index1 : Nat
  value : Int
deriving DecidableEq, Repr

/-- Cluster of `py_clusters.h`: member pixels and the edges found while growing it. -/
structure Cluster where
  pixels : List Nat
  edges : List Edge
deriving DecidableEq, Repr

/-- Value of the pixel with flattened index `index`: `buf_img(index / ny, index % ny)`. -/
def pixval (ny : Nat) (img : Int → Int → Int) (index : Nat) : Int :=
  img ((index / ny : Nat) : Int) ((index % ny : Nat) : Int)

/-- Pointwise update of a flag vector: `v[i] = b`. -/
def setFlag (v : Nat → Bool) (i : Nat) (b : Bool) : Nat → Bool :=
  fun k => if k = i then b else v k

/-- Vertex of `graph.h`: pixel value, `next` link (`-1` while the pixel is
under water), cluster size (meaningful at a top pixel) and the four edge
slots (`-1` for no edge). -/
structure Vertex where
  value : Int
  next : Int
  size : Int
  edge : Nat → Int

/-- Assignment `v[i] = x` to an array of vertices. -/
def setVertex (v : Nat → Vertex) (i : Nat) (x : Vertex) : Nat → Vertex :=
  fun k => if k = i then x else v k

/-- Assignment `a[i] = x` to an array of integers. -/
def setInt (a : Nat → Int) (i : Nat) (x : Int) : Nat → Int :=
  fun k => if k = i then x else a k

/-- Assignment `a[i] = x` to an array of pixel lists. -/
def setList (a : Nat → List Nat) (i : Nat) (x : List Nat) : Nat → List Nat :=
  fun k => if k = i then x else a k

/-- The loop of `get_top`: follow the `next` links from `i` until a pixel that
is its own `next`.  The fuel bounds the number of links followed; a link to
`-1` (a pixel under water) has no defined continuation. -/
def get_top (v_next : Nat → Int) : Nat → Nat → Option Nat
  | fuel, i =>
    if v_next i = (i : Int) then some i
    else if v_next i < 0 then none
    else
      match fuel with
      | 0 => none
      | fuel + 1 => get_top v_next fuel (v_next i).toNat

namespace graph

/-- Model of `graph::obtain_vertices` with `size_init = 0`: every pixel starts
under water, without edges. -/
def obtain_vertices (ny : Nat) (img : Int → Int → Int) : Nat → Vertex :=
  fun index => { value := pixval ny img index, next := -1, size := 0, edge := fun _ => -1 }

end graph

/-! ## Connected components of the thresholded grid (specification side) -/

/-- A pixel takes part at threshold `t` when it lies inside the `nx × ny` grid
and its value is `>= t`. -/
def InThr (nx ny : Nat) (img : Int → Int → Int) (t : Int) (p : Nat) : Prop :=
  p < nx * ny ∧ t ≤ pixval ny img p

/-- 4-adjacency of two pixels of the `nx × ny` grid, in terms of their
coordinates `(index / ny, index % ny)`: same `ix` and `iy` differing by one,
or same `iy` and `ix` differing by one. -/
def Adj4 (nx ny : Nat) (p q : Nat) : Prop :=
  p < nx * ny ∧ q < nx * ny ∧
    ((p / ny = q / ny ∧ (p % ny + 1 = q % ny ∨ q % ny + 1 = p % ny)) ∨
     (p % ny = q % ny ∧ (p / ny + 1 = q / ny ∨ q / ny + 1 = p / ny)))

/-- The pixels `a` and `b` are joined by a path of 4-adjacent pixels all of
which lie in `S`. -/
def JoinedIn (nx ny : Nat) (S : Finset Nat) (a b : Nat) : Prop :=
  Relation.ReflTransGen (fun x y => x ∈ S ∧ y ∈ S ∧ Adj4 nx ny x y) a b

/-- A set of pixels is 4-connected when any two of its pixels are joined inside it. -/
def Connected4 (nx ny : Nat) (S : Finset Nat) : Prop :=
  ∀ a ∈ S, ∀ b ∈ S, JoinedIn nx ny S a b

/-- The set `S` is a maximal 4-connected set of pixels with value `>= t`:
non-empty, made of such pixels, 4-connected, and not properly contained in
another set with these properties. -/
def IsComponent (nx ny : Nat) (img : Int → Int → Int) (t : Int) (S : Finset Nat) : Prop :=
  S.Nonempty ∧ (∀ p ∈ S, InThr nx ny img t p) ∧ Connected4 nx ny S ∧
    ∀ T : Finset Nat, S ⊆ T → (∀ p ∈ T, InThr nx ny img t p) → Connected4 nx ny T → T = S

/-- One step between 4-adjacent pixels that both have value `>= t`. -/
def Conn (nx ny : Nat) (img : Int → Int → Int) (t : Int) (p q : Nat) : Prop :=
  InThr nx ny img t p ∧ InThr nx ny img t q ∧ Adj4 nx ny p q

/-- The pixel `q` is reached from `p` through pixels of value `>= t`. -/
def Reach (nx ny : Nat) (img : Int → Int → Int) (t : Int) (p q : Nat) : Prop :=
  Relation.ReflTransGen (Conn nx ny img t) p q

/-- The pixel `q` is the neighbour of `p` at coordinate offset `(dx, dy)`. -/
def DirNbr (nx ny : Nat) (dx dy : Int) (p q : Nat) : Prop :=
  q < nx * ny ∧ ((q / ny : Nat) : Int) = ((p / ny : Nat) : Int) + dx ∧
    ((q % ny : Nat) : Int) = ((p % ny : Nat) : Int) + dy

/-- Union of the pixel lists of a collection of clusters, as a set. -/
def unionPixels (cs : List Cluster) : Finset Nat :=
  cs.foldr (fun c acc => c.pixels.toFinset ∪ acc) ∅

namespace Clusters

/-- Neighbour offsets of `Clusters::construct`: right, left, up, down. -/
def dx_list : List Int := [1, -1, 0, 0]

/-- Neighbour offsets of `Clusters::construct` (second coordinate). -/
def dy_list : List Int := [0, 0, -1, 1]

/-- Loop state of the breadth-first search in `Clusters::construct`. -/
structure State where
  visited : Nat → Bool
  q : List Nat
  c : Cluster
  sum : Int

/-- Body of the loop over the four neighbours (`py_clusters.cpp` lines 97-113)
for neighbour number `j` of the pixel `index1` with value `f1`. -/
def visitNeighbor (nx ny : Nat) (img : Int → Int → Int) (pixel_threshold : Int)
    (index1 : Nat) (f1 : Int) (st : State) (j : Nat) : State :=
  let ix1 : Int := ((index1 / ny : Nat) : Int)
  let iy1 : Int := ((index1 % ny : Nat) : Int)
  let ix2 : Int := ix1 + dx_list.getD j 0
  let iy2 : Int := iy1 + dy_list.getD j 0
  let f2 : Int := img ix2 iy2
  if ¬ (0 ≤ ix2 ∧ ix2 < (nx : Int) ∧ 0 ≤ iy2 ∧ iy2 < (ny : Int)) then st
  else
    let index2 : Nat := (ix2 * (ny : Int) + iy2).toNat
    if st.visited index2 = true ∨ f2 < pixel_threshold then st
    else
      { visited := setFlag st.visited index2 true
        q := st.q ++ [index2]
        c := { pixels := st.c.pixels, edges := st.c.edges ++ [⟨index1, index2, min f1 f2⟩] }
        sum := st.sum }

/-- The `while(!q.empty())` loop of `Clusters::construct` (lines 85-114). -/
def bfs (nx ny : Nat) (img : Int → Int → Int) (pixel_threshold : Int) :
    Nat → State → Option State
  | fuel, st =>
    match st.q, fuel with
    | [], _ => some st
    | _ :: _, 0 => none
    | index1 :: rest, fuel + 1 =>
      let f1 : Int := pixval ny img index1
      let st1 : State :=
        { visited := st.visited
          q := rest
          c := { pixels := st.c.pixels ++ [index1], edges := st.c.edges }
          sum := st.sum + 1 }
      bfs nx ny img pixel_threshold fuel
        ((List.range 4).foldl (visitNeighbor nx ny img pixel_threshold index1 f1) st1)

/-- Body of the loop over all pixels of `Clusters::construct` (lines 69-120):
the flags and the clusters found so far, after looking at `index0`. -/
def scanPixel (nx ny : Nat) (img : Int → Int → Int) (pixel_threshold size_threshold : Int)
    (acc : Option ((Nat → Bool) × List Cluster)) (index0 : Nat) :
    Option ((Nat → Bool) × List Cluster) :=
  match acc with
  | none => none
  | some (visited, clusters) =>
    if visited index0 = true ∨ pixval ny img index0 < pixel_threshold then
      some (visited, clusters)
    else
      match bfs nx ny img pixel_threshold (nx * ny + 1)
          { visited := setFlag visited index0 true, q := [index0], c := ⟨[], []⟩, sum := 0 } with
      | none => none
      | some st =>
        if st.sum < size_threshold then some (st.visited, clusters)
        else some (st.visited, clusters ++ [st.c])

/-- Model of `Clusters::construct` (`floodComponents`): the clusters held by the
object after the call.  The call starts with `clear()`, so the result does
not depend on what the object held before. -/
def construct (nx ny : Nat) (img : Int → Int → Int) (pixel_threshold size_threshold : Int) :
    Option (List Cluster) :=
  ((List.range (nx * ny)).foldl (scanPixel nx ny img pixel_threshold size_threshold)
    (some (fun _ => false, []))).map Prod.snd

/-- Invariant of the loop over all pixels of `Clusters::construct`: the visited
pixels have value `>= t` and no step leads out of them. -/
structure ScanInv (nx ny : Nat) (img : Int → Int → Int) (t : Int) (visited : Nat → Bool) :
    Prop where
  inthr : ∀ p, visited p = true → InThr nx ny img t p
  closed : ∀ p q, visited p = true → Conn nx ny img t p q → visited q = true

/-- Invariant of the breadth-first search started at `p0` from the flags `V0`.
The pixel `cur` is the one whose neighbours are being looked at and `k` is the
number of its neighbours already handled (`k = 4` between two pops). -/
structure BfsInv (nx ny : Nat) (img : Int → Int → Int) (t : Int) (V0 : Nat → Bool) (p0 : Nat)
    (cur k : Nat) (st : State) : Prop where
  vis : ∀ p, st.visited p = true ↔ (V0 p = true ∨ p ∈ st.c.pixels ∨ p ∈ st.q)
  reach : ∀ p, p ∈ st.c.pixels ∨ p ∈ st.q → Reach nx ny img t p0 p
  nodup : (st.c.pixels ++ st.q).Nodup
  fresh : ∀ p, p ∈ st.c.pixels ∨ p ∈ st.q → V0 p = false
  done : ∀ p ∈ st.c.pixels, ∀ r, Conn nx ny img t p r →
    st.visited r = true ∨
      (p = cur ∧ ∀ j, j < k → ¬ DirNbr nx ny (dx_list.getD j 0) (dy_list.getD j 0) p r)
  start : p0 ∈ st.c.pixels ∨ p0 ∈ st.q
  sum : st.sum = (st.c.pixels.length : Int)

/-- What holds of the flags `V` and of the clusters `cs` kept so far once the
pixels `0 .. k-1` have been looked at by `Clusters::construct` with size
threshold `s`. -/
structure ScanRes (nx ny : Nat) (img : Int → Int → Int) (t s : Int) (k : Nat)
    (V : Nat → Bool) (cs : List Cluster) : Prop where
  inv : ScanInv nx ny img t V
  seen : ∀ p, p < k → InThr nx ny img t p → V p = true
  sound : ∀ c ∈ cs, c.pixels.Nodup ∧ s ≤ (c.pixels.length : Int) ∧
    ∃ p0, V p0 = true ∧ ∀ q, q ∈ c.pixels ↔ Reach nx ny img t p0 q
  complete : ∀ p0, V p0 = true → ∀ l : List Nat, l.Nodup →
    (∀ q, q ∈ l ↔ Reach nx ny img t p0 q) → s ≤ (l.length : Int) →
    ∃ c ∈ cs, ∀ q, q ∈ c.pixels ↔ Reach nx ny img t p0 q
  disjoint : cs.Pairwise (fun c d => ∀ q, q ∈ c.pixels → q ∉ d.pixels)

/-- What holds of the edges recorded by the breadth-first search of
`Clusters::construct` at threshold `t`: every pixel that entered the queue
after the first one did so together with one edge ending at it, and every edge
leads from a pixel already taken out of the queue to a 4-adjacent pixel, both
of value `>= t`, and is weighted by the smaller of the two values. -/
structure EdgeInv (nx ny : Nat) (img : Int → Int → Int) (t : Int) (st : State) : Prop where
  targets : st.c.edges.map (fun e => e.index1) = (st.c.pixels ++ st.q).tail
  inthr : ∀ p, p ∈ st.c.pixels ∨ p ∈ st.q → InThr nx ny img t p
  edges : ∀ e ∈ st.c.edges, e.index0 ∈ st.c.pixels ∧ Adj4 nx ny e.index0 e.index1 ∧
    e.value = min (pixval ny img e.index0) (pixval ny img e.index1)

/-- What holds of the edge list of a cluster kept by `Clusters::construct` at
threshold `t`: the second end points of the edges are, in order, the pixels of
the cluster after the first, and every edge joins two 4-adjacent pixels of the
cluster, both of value `>= t`, and is weighted by the smaller of their values. -/
def TreeEdges (nx ny : Nat) (img : Int → Int → Int) (t : Int) (c : Cluster) : Prop :=
  c.edges.map (fun e => e.index1) = c.pixels.tail ∧
    ∀ e ∈ c.edges, e.index0 ∈ c.pixels ∧ e.index1 ∈ c.pixels ∧
      InThr nx ny img t e.index0 ∧ InThr nx ny img t e.index1 ∧
      Adj4 nx ny e.index0 e.index1 ∧
      e.value = min (pixval ny img e.index0) (pixval ny img e.index1)

/-- Python exception set by an accessor of the extension module. -/
inductive PyError where
  | IndexError
deriving DecidableEq, Repr

/-- Model of `py_clusters_get_cluster` (lines 157-186) for the C `int`
argument `i`: a negative `i` is replaced by `size + i`, the result is
converted to the 64-bit `size_t` taken by `vector::at`, and `std::out_of_range`
becomes `IndexError`.  On success the function returns the cluster together
with the stored grid shape. -/
def py_clusters_get_cluster (clusters : List Cluster) (_nx _ny : Int) (i : Int) :
    Except PyError (Cluster × Int × Int) :=
  let i1 : Int := if i < 0 then (clusters.length : Int) + i else i
  let pos : Nat := (i1 % 18446744073709551616).toNat
  match clusters.get? pos with
  | some cluster => Except.ok (cluster, _nx, _ny)
  | none => Except.error PyError.IndexError

/-- Model of `py_clusters_cluster_nvertices` (lines 250-262). -/
def py_clusters_cluster_nvertices (c : Cluster) : Nat := c.pixels.length

/-- Model of `py_clusters_cluster_nedges` (lines 265-277): the value built is
`c->pixels.size()`. -/
def py_clusters_cluster_nedges (c : Cluster) : Nat := c.pixels.length

end Clusters

/-! ## Union-find forests of `next` links (specification side) -/

/-- Following the `next` links from `p` reaches the top pixel `r` after `d` links. -/
inductive TopD (v_next : Nat → Int) : Nat → Nat → Nat → Prop
  | root {r : Nat} : v_next r = (r : Int) → TopD v_next 0 r r
  | step {d p r : Nat} : v_next p ≠ (p : Int) → 0 ≤ v_next p →
      TopD v_next d (v_next p).toNat r → TopD v_next (d + 1) p r

/-- The pixel `r` is the top of the pixel `p`. -/
def Top (v_next : Nat → Int) (p r : Nat) : Prop := ∃ d, TopD v_next d p r

/-- Two pixels have the same top. -/
def SameTop (v_next : Nat → Int) (p q : Nat) : Prop :=
  ∃ r, Top v_next p r ∧ Top v_next q r

/-- The unordered pair `{a, b}` as a relation. -/
def Pair (a b x y : Nat) : Prop := (x = a ∧ y = b) ∨ (x = b ∧ y = a)

/-- Adjacency among the flooded pixels `F` while the pixel `a` is being
flooded: two flooded 4-adjacent pixels, where a pair involving `a` counts only
once the direction from `a` to the other pixel has been handled (`H`). -/
def RelH (nx ny : Nat) (dxl dyl : List Int) (F : Nat → Prop) (a : Nat) (H : Nat → Prop)
    (x y : Nat) : Prop :=
  F x ∧ F y ∧ Adj4 nx ny x y ∧
    (x = a → ∃ d, H d ∧ DirNbr nx ny (dxl.getD d 0) (dyl.getD d 0) a y) ∧
    (y = a → ∃ d, H d ∧ DirNbr nx ny (dxl.getD d 0) (dyl.getD d 0) a x)

/-- Adjacency among the flooded pixels `F`. -/
def AdjF (nx ny : Nat) (F : Nat → Prop) (x y : Nat) : Prop := F x ∧ F y ∧ Adj4 nx ny x y

/-- The `next` links form a union-find forest on the flooded pixels `F` of a
grid of `n` pixels whose classes are the classes of the relation `R`. -/
structure UF (n : Nat) (v_next : Nat → Int) (F : Nat → Prop) (R : Nat → Nat → Prop) : Prop where
  flooded : ∀ p, F p ↔ 0 ≤ v_next p
  bound : ∀ p, F p → p < n
  closed : ∀ p, F p → F (v_next p).toNat
  top : ∀ p, F p → ∃ r, Top v_next p r
  rel : ∀ x y, R x y → F x ∧ F y
  conn : ∀ p q, F p → F q → (SameTop v_next p q ↔ Relation.ReflTransGen R p q)

/-- The two offset tables list the four unit offsets: every 4-neighbour of a
pixel is its neighbour at one of the four offsets, and conversely. -/
def Dirs4 (dxl dyl : List Int) : Prop :=
  ∀ nx ny p q, Adj4 nx ny p q ↔
    (p < nx * ny ∧ ∃ d, d < 4 ∧ DirNbr nx ny (dxl.getD d 0) (dyl.getD d 0) p q)

/-- The intensity order `buf_arg` is a permutation of the `n` pixel indices. -/
structure ValidOrder (n : Nat) (buf_arg : Nat → Nat) : Prop where
  range : ∀ j, j < n → buf_arg j < n
  inj : ∀ i j, i < n → j < n → buf_arg i = buf_arg j → i = j
  surj : ∀ p, p < n → ∃ j, j < n ∧ buf_arg j = p

/-- The intensity order lists the pixels by ascending value. -/
def Ascending (n ny : Nat) (img : Int → Int → Int) (buf_arg : Nat → Nat) : Prop :=
  ∀ i j, i ≤ j → j < n → pixval ny img (buf_arg i) ≤ pixval ny img (buf_arg j)

/-- The pixels flooded once the positions `k, ..., n-1` of the intensity order
have been processed. -/
def Flooded (n : Nat) (buf_arg : Nat → Nat) (k : Nat) (p : Nat) : Prop :=
  ∃ j, k ≤ j ∧ j < n ∧ buf_arg j = p

/-- The integer `k` is the number of maximal 4-connected sets of pixels of
value `>= t` that have at least `s` pixels: these sets form a finite
collection of `k` members. -/
def CountsComponents (nx ny : Nat) (img : Int → Int → Int) (t s : Int) (k : Int) : Prop :=
  ∃ comps : Finset (Finset Nat),
    (∀ S, S ∈ comps ↔ (IsComponent nx ny img t S ∧ s ≤ (S.card : Int))) ∧
      k = (comps.card : Int)

/-- The list `l` enumerates without repetition the pixels whose top is `r`. -/
def ClassList (v_next : Nat → Int) (r : Nat) (l : List Nat) : Prop :=
  l.Nodup ∧ ∀ p, p ∈ l ↔ Top v_next p r

/-- 1 if `r` is a top pixel whose stored size is `>= s`, else 0. -/
def counted (v_next v_size : Nat → Int) (s : Int) (r : Nat) : Int :=
  if v_next r = (r : Int) ∧ s ≤ v_size r then 1 else 0

/-- Number of top pixels whose stored size is `>= s`. -/
def rootCount (n : Nat) (v_next v_size : Nat → Int) (s : Int) : Int :=
  Finset.sum (Finset.range n) (counted v_next v_size s)

/-! ## The pixel graph builder (`py_watershed.cpp`) -/

namespace Watershed

/-- Neighbour offsets of `Watershed::construct_graph`: up, right, down, left. -/
def dx_list : List Int := [0, 1, 0, -1]

/-- Neighbour offsets of `Watershed::construct_graph` (second coordinate). -/
def dy_list : List Int := [1, 0, -1, 0]

/-- State of `Watershed::construct_graph`: the vertices, the edges recorded so
far, their number, the top of the cluster joined by the pixel being flooded
(`-1` when none yet) and whether every `assert` met so far held. -/
structure State where
  v : Nat → Vertex
  v_edge : List Edge
  n_edges : Nat
  another_top : Int
  asserts : Bool

/-- The two slot assignments and the `push_back` that record the edge
`(index1, index2, f1)` (lines 181-189 and 215-223), with the two slot-empty
assertions checked first. -/
def recordEdge (st : State) (v : Nat → Vertex) (another_top : Int) (index1 index2 j1 j2 : Nat)
    (f1 : Int) : State :=
  let ok : Bool := decide ((v index1).edge j1 = -1) && decide ((v index2).edge j2 = -1)
  let v1 := setVertex v index1
    { v index1 with edge := setInt (v index1).edge j1 (st.n_edges : Int) }
  let v2 := setVertex v1 index2
    { v1 index2 with edge := setInt (v1 index2).edge j2 (st.n_edges : Int) }
  { v := v2
    v_edge := st.v_edge ++ [⟨index1, index2, f1⟩]
    n_edges := st.n_edges + 1
    another_top := another_top
    asserts := st.asserts && ok }

/-- Body of the loop over the four directions (lines 152-225) for the loop
counter `j1`, the pixel `index1` being flooded having value `f1`. -/
def visitNeighbor (nx ny : Nat) (merge_threshold : Int) (index1 : Nat) (f1 : Int)
    (random_direction : Nat) (st : State) (j1 : Nat) : Option State :=
  let inbr : Nat := (random_direction + j1) % 4
  let ix2 : Int := ((index1 / ny : Nat) : Int) + dx_list.getD inbr 0
  let iy2 : Int := ((index1 % ny : Nat) : Int) + dy_list.getD inbr 0
  if ¬ (0 ≤ ix2 ∧ ix2 < (nx : Int) ∧ 0 ≤ iy2 ∧ iy2 < (ny : Int)) then some st
  else
    let index2 : Nat := (ix2 * (ny : Int) + iy2).toNat
    if (st.v index2).next < 0 then some st
    else
      match get_top (fun k => (st.v k).next) (nx * ny) index2 with
      | none => none
      | some top =>
        let j2 : Nat := (j1 + 2) % 4
        if st.another_top = -1 then
          let v1 := setVertex st.v index1 { st.v index1 with next := (top : Int) }
          let v2 := setVertex v1 top { v1 top with size := (v1 top).size + 1 }
          some (recordEdge st v2 (top : Int) index1 index2 j1 j2 f1)
        else if 0 ≤ st.another_top ∧ st.another_top ≠ (top : Int) then
          let atop : Nat := st.another_top.toNat
          if merge_threshold ≤ (st.v top).size ∧ merge_threshold ≤ (st.v atop).size then some st
          else if (st.v atop).value < (st.v top).value then
            let v1 := setVertex st.v atop { st.v atop with next := (top : Int) }
            let v2 := setVertex v1 top { v1 top with size := (v1 top).size + (v1 atop).size }
            some (recordEdge st v2 (top : Int) index1 index2 j1 j2 f1)
          else
            let v1 := setVertex st.v top { st.v top with next := (atop : Int) }
            let v2 := setVertex v1 atop { v1 atop with size := (v1 atop).size + (v1 top).size }
            some (recordEdge st v2 st.another_top index1 index2 j1 j2 f1)
        else some st

/-- Flooding of one pixel (lines 139-225): the pixel becomes a top of size 1
and its four neighbours are visited in turn. -/
def floodPixel (nx ny : Nat) (merge_threshold : Int) (index1 : Nat) (f1 : Int)
    (random_direction : Nat) (st : State) : Option State :=
  let v1 := setVertex st.v index1 { st.v index1 with next := (index1 : Int) }
  let v2 := setVertex v1 index1 { v1 index1 with size := 1 }
  let st0 : State := { st with v := v2, another_top := -1 }
  (visitNeighbor nx ny merge_threshold index1 f1 random_direction st0 0).bind fun st1 =>
  (visitNeighbor nx ny merge_threshold index1 f1 random_direction st1 1).bind fun st2 =>
  (visitNeighbor nx ny merge_threshold index1 f1 random_direction st2 2).bind fun st3 =>
  visitNeighbor nx ny merge_threshold index1 f1 random_direction st3 3

/-- The loop `for(int i=n-1; i>=0; --i)` of `construct_graph` (lines 128-226),
entered with `i + 1 = k`.  `buf_arg` is the intensity order; `rand4 i` is the
number drawn from the random generator for position `i`, used only when the
seed is not zero. -/
def flood (nx ny : Nat) (img : Int → Int → Int) (buf_arg : Nat → Nat) (pixel_threshold : Int)
    (merge_threshold : Int) (seed_random_direction : Int) (rand4 : Nat → Nat) :
    Nat → State → Option State
  | 0, st => some st
  | i + 1, st =>
    let index1 : Nat := buf_arg i
    let f1 : Int := pixval ny img index1
    let st' : State := { st with asserts := st.asserts && decide (index1 < nx * ny) }
    if f1 < pixel_threshold then some st'
    else
      let random_direction : Nat := if seed_random_direction = 0 then 0 else rand4 i
      match floodPixel nx ny merge_threshold index1 f1 random_direction st' with
      | none => none
      | some st1 =>
        flood nx ny img buf_arg pixel_threshold merge_threshold seed_random_direction rand4 i st1

/-- Model of `Watershed::construct_graph` (`buildGraph`): the vertices and
edges held by the object after the call, which first clears both. -/
def construct_graph (nx ny : Nat) (img : Int → Int → Int) (buf_arg : Nat → Nat)
    (pixel_threshold : Int) (merge_threshold : Int) (seed_random_direction : Int)
    (rand4 : Nat → Nat) : Option State :=
  flood nx ny img buf_arg pixel_threshold merge_threshold seed_random_direction rand4 (nx * ny)
    { v := graph.obtain_vertices ny img, v_edge := [], n_edges := 0, another_top := -1,
      asserts := true }

/-! ### The weighted component extractor (`obtain_clusters`) -/

/-- Loop state of `obtain_clusters`: the explored flags, the queue of edge
indices, the cluster being grown and whether every `assert` met so far held. -/
structure XState where
  edge_explored : Nat → Bool
  pixel_explored : Nat → Bool
  q : List Nat
  c : Cluster
  asserts : Bool

/-- The loop over the four edge slots of a newly explored pixel (lines
336-341): the slots that hold an unexplored edge, in slot order. -/
def adjacentEdges (p : Vertex) (edge_explored : Nat → Bool) : List Nat :=
  (List.range 4).filterMap fun j =>
    let adj_edge : Int := p.edge j
    if 0 ≤ adj_edge ∧ edge_explored adj_edge.toNat = false then some adj_edge.toNat else none

/-- Handling of one end-point pixel of a popped edge (lines 327-342). -/
def visitEndpoint (v_pixel : Nat → Vertex) (pixel_threshold : Int) (st : XState) (index : Nat) :
    XState :=
  if st.pixel_explored index = true then st
  else
    { edge_explored := st.edge_explored
      pixel_explored := setFlag st.pixel_explored index true
      q := st.q ++ adjacentEdges (v_pixel index) st.edge_explored
      c := { pixels :=
               if pixel_threshold ≤ (v_pixel index).value then st.c.pixels ++ [index]
               else st.c.pixels
             edges := st.c.edges }
      asserts := st.asserts }

/-- The `while(!q.empty())` loop of `obtain_clusters` (lines 311-344). -/
def grow (v_pixel : Nat → Vertex) (v_edge : List Edge) (pixel_threshold edge_threshold : Int) :
    Nat → XState → Option XState
  | fuel, st =>
    match st.q, fuel with
    | [], _ => some st
    | _ :: _, 0 => none
    | j_edge :: rest, fuel + 1 =>
      let edge : Edge := v_edge.getD j_edge ⟨0, 0, 0⟩
      let st1 : XState :=
        { st with q := rest
                  asserts := st.asserts && decide (st.edge_explored j_edge = false)
                  edge_explored := setFlag st.edge_explored j_edge true }
      if edge.value < edge_threshold then grow v_pixel v_edge pixel_threshold edge_threshold fuel st1
      else
        let st2 : XState := { st1 with c := { pixels := st1.c.pixels, edges := st1.c.edges ++ [edge] } }
        let st3 := visitEndpoint v_pixel pixel_threshold st2 edge.index0
        let st4 := visitEndpoint v_pixel pixel_threshold st3 edge.index1
        grow v_pixel v_edge pixel_threshold edge_threshold fuel st4

/-- Body of the loop over all edges of `obtain_clusters` (lines 293-351): the
flags, the assertion flag and the clusters after looking at edge `i_new_edge`. -/
def seedEdge (v_pixel : Nat → Vertex) (img_size : Nat) (v_edge : List Edge)
    (pixel_threshold edge_threshold : Int) (size_threshold : Nat)
    (acc : Option (XState × List Cluster)) (i_new_edge : Nat) : Option (XState × List Cluster) :=
  match acc with
  | none => none
  | some (st, clusters) =>
    let e : Edge := v_edge.getD i_new_edge ⟨0, 0, 0⟩
    if st.edge_explored i_new_edge = true ∨
        (st.pixel_explored e.index0 = true ∧ st.pixel_explored e.index1 = true) then
      some (st, clusters)
    else
      match grow v_pixel v_edge pixel_threshold edge_threshold (4 * img_size + 1)
          { st with q := st.q ++ [i_new_edge], c := ⟨[], []⟩,
                    asserts := st.asserts && decide (st.q = []) } with
      | none => none
      | some st' =>
        let cluster_size : Nat := st'.c.pixels.length
        if cluster_size = 0 ∨ cluster_size < size_threshold then some (st', clusters)
        else some (st', clusters ++ [st'.c])

/-- Model of `obtain_clusters` with its final loop state: `v_pixel` with its
size `img_size` and `v_edge` are the graph, `clusters` is the collection the
new clusters are appended to. -/
def obtain_clusters_run (v_pixel : Nat → Vertex) (img_size : Nat) (v_edge : List Edge)
    (pixel_threshold edge_threshold : Int) (size_threshold : Nat) (clusters : List Cluster) :
    Option (XState × List Cluster) :=
  let st0 : XState :=
    { edge_explored := fun _ => false, pixel_explored := fun _ => false, q := [],
      c := ⟨[], []⟩, asserts := true }
  if v_edge.length = 0 then some (st0, clusters)
  else
    (List.range v_edge.length).foldl
      (seedEdge v_pixel img_size v_edge pixel_threshold edge_threshold size_threshold)
      (some (st0, clusters))

/-- Model of `obtain_clusters` (`extractComponents`): the contents of
`clusters` after the call. -/
def obtain_clusters (v_pixel : Nat → Vertex) (img_size : Nat) (v_edge : List Edge)
    (pixel_threshold edge_threshold : Int) (size_threshold : Nat) (clusters : List Cluster) :
    Option (List Cluster) :=
  (obtain_clusters_run v_pixel img_size v_edge pixel_threshold edge_threshold size_threshold
    clusters).map Prod.snd

/-- Number of pixels of the graph not yet explored by `obtain_clusters`. -/
def unexplored (img_size : Nat) (pixel_explored : Nat → Bool) : Nat :=
  ((Finset.range img_size).filter (fun p => pixel_explored p = false)).card

/-- The vertex/edge graph handed to `obtain_clusters` is well formed: the end
points of every edge are pixels of the graph and every edge slot of a pixel is
`-1` or the index of an edge. -/
structure GraphOK (v_pixel : Nat → Vertex) (img_size : Nat) (v_edge : List Edge) : Prop where
  ends : ∀ e ∈ v_edge, e.index0 < img_size ∧ e.index1 < img_size
  slots : ∀ p j, p < img_size → j < 4 →
    -1 ≤ (v_pixel p).edge j ∧ (v_pixel p).edge j < (v_edge.length : Int)

/-- The `next` links of an array of vertices. -/
def nextOf (v : Nat → Vertex) : Nat → Int := fun k => (v k).next

/-- Two pixels are the end points of a recorded edge. -/
def EdgeRel (v_edge : List Edge) (x y : Nat) : Prop :=
  ∃ e ∈ v_edge, Pair e.index0 e.index1 x y

/-- What holds of an edge recorded by `construct_graph` while the positions
`k, ..., n-1` of the order are flooded: its first end point was flooded at a
position `i >= k`, its second end point in an earlier step of the descending
loop, that is at a position `j > i`; the two are 4-adjacent and the edge value
is the value of the first end point, which is `>= pixel_threshold`. -/
def EdgeOK (nx ny : Nat) (img : Int → Int → Int) (buf_arg : Nat → Nat) (pixel_threshold : Int)
    (k : Nat) (e : Edge) : Prop :=
  ∃ i j, k ≤ i ∧ i < j ∧ j < nx * ny ∧ buf_arg i = e.index0 ∧ buf_arg j = e.index1 ∧
    Adj4 nx ny e.index0 e.index1 ∧ e.value = pixval ny img e.index0 ∧
    pixel_threshold ≤ e.value

/-- Invariant of `construct_graph` between two pixels, the positions
`k, ..., n-1` of the order having been flooded: the `next` links form a forest
on the flooded pixels whose classes are those of the recorded edges. -/
structure GInv (nx ny : Nat) (img : Int → Int → Int) (buf_arg : Nat → Nat)
    (pixel_threshold : Int) (k : Nat) (st : State) : Prop where
  uf : UF (nx * ny) (nextOf st.v) (Flooded (nx * ny) buf_arg k) (EdgeRel st.v_edge)
  edges : ∀ e ∈ st.v_edge, EdgeOK nx ny img buf_arg pixel_threshold k e
  above : ∀ j, k ≤ j → j < nx * ny → pixel_threshold ≤ pixval ny img (buf_arg j)

/-- Invariant of `construct_graph` inside the loop over the neighbours of the
pixel at position `i` of the order: as `GInv`, and `another_top` is `-1` while
the pixel is still its own top and no edge ends at it, and the top of the
pixel afterwards. -/
structure GVInv (nx ny : Nat) (img : Int → Int → Int) (buf_arg : Nat → Nat)
    (pixel_threshold : Int) (i : Nat) (st : State) : Prop where
  inv : GInv nx ny img buf_arg pixel_threshold i st
  cur : (st.another_top = -1 ∧ (st.v (buf_arg i)).next = (buf_arg i : Int) ∧
      ∀ e ∈ st.v_edge, e.index0 ≠ buf_arg i ∧ e.index1 ≠ buf_arg i) ∨
    (∃ c : Nat, st.another_top = (c : Int) ∧ Top (nextOf st.v) (buf_arg i) c)

/-- The pixel lists of the clusters `cs` are duplicate-free and pairwise
disjoint. -/
def PixelsOnce (cs : List Cluster) : Prop :=
  (∀ c ∈ cs, c.pixels.Nodup) ∧ cs.Pairwise (fun c d => ∀ p, p ∈ c.pixels → p ∉ d.pixels)

/-- The pixels of the cluster being grown are distinct, explored, and were not
explored when the cluster was seeded (`E0` are the flags at that time), and no
flag has been cleared since. -/
def GrowOnce (E0 : Nat → Bool) (st : XState) : Prop :=
  st.c.pixels.Nodup ∧
    (∀ p ∈ st.c.pixels, st.pixel_explored p = true ∧ E0 p = false) ∧
    (∀ p, E0 p = true → st.pixel_explored p = true)

/-- With direction seed 0 every edge slot `d` of a pixel is empty or holds the
index of the recorded edge that joins the pixel with its neighbour in
direction `d`; every recorded edge is held by a slot of each of its two end
points; the edge counter is the number of recorded edges; no assertion has
failed. -/
structure SlotInv (nx ny : Nat) (st : State) : Prop where
  len : st.n_edges = st.v_edge.length
  sound : ∀ p d k : Nat, d < 4 → (st.v p).edge d = (k : Int) →
    ∃ e, st.v_edge.get? k = some e ∧
      ((e.index0 = p ∧ DirNbr nx ny (dx_list.getD d 0) (dy_list.getD d 0) p e.index1) ∨
       (e.index1 = p ∧ DirNbr nx ny (dx_list.getD d 0) (dy_list.getD d 0) p e.index0))
  range : ∀ p d, -1 ≤ (st.v p).edge d
  complete : ∀ k e, st.v_edge.get? k = some e →
    (∃ d, d < 4 ∧ (st.v e.index0).edge d = (k : Int)) ∧
    (∃ d, d < 4 ∧ (st.v e.index1).edge d = (k : Int))
  asserts : st.asserts = true

/-- The slot invariant while the neighbours of the pixel `a` are visited, the
directions below `j1` having been handled: the edges recorded from `a` lead
to its neighbours in those directions. -/
structure SVInv (nx ny : Nat) (a j1 : Nat) (st : State) : Prop where
  slots : SlotInv nx ny st
  froma : ∀ e ∈ st.v_edge, e.index0 = a →
    ∃ d, d < j1 ∧ DirNbr nx ny (dx_list.getD d 0) (dy_list.getD d 0) a e.index1

/-- Two pixels are the end points of a recorded edge of value `>= et`. -/
def EdgeRelT (v_edge : List Edge) (et : Int) (x y : Nat) : Prop :=
  ∃ e ∈ v_edge, et ≤ e.value ∧ Pair e.index0 e.index1 x y

/-- The pixel `p` is an end point of the edge number `k`. -/
def Incident (v_edge : List Edge) (k p : Nat) : Prop :=
  ∃ e, v_edge.get? k = some e ∧ (e.index0 = p ∨ e.index1 = p)

/-- The edge slots of the vertices list the edges of the graph: a slot that
holds an edge number belongs to an end point of that edge, and every edge is
held by a slot of each of its end points. -/
structure SlotsOK (v_pixel : Nat → Vertex) (v_edge : List Edge) : Prop where
  sound : ∀ p d k : Nat, d < 4 → (v_pixel p).edge d = (k : Int) → Incident v_edge k p
  complete : ∀ k p, Incident v_edge k p → ∃ d, d < 4 ∧ (v_pixel p).edge d = (k : Int)

/-- Invariant of the loop `grow` for the cluster seeded with the edge `e0` of
number `i0`; `E0` and `P0` are the explored flags when the cluster was seeded
and `W` are the end points of the edge being handled that are still to be
visited. -/
structure XInv (v_pixel : Nat → Vertex) (v_edge : List Edge) (pt et : Int)
    (E0 P0 : Nat → Bool) (i0 : Nat) (e0 : Edge) (W : Nat → Prop) (st : XState) : Prop where
  qinc : ∀ k ∈ st.q, k = i0 ∨
    ∃ x, Incident v_edge k x ∧ st.pixel_explored x = true ∧ P0 x = false
  inc : ∀ p, st.pixel_explored p = true → ∀ k, Incident v_edge k p →
    st.edge_explored k = true ∨ k ∈ st.q
  ends : ∀ k e, v_edge.get? k = some e → st.edge_explored k = true → et ≤ e.value →
    (st.pixel_explored e.index0 = true ∨ W e.index0) ∧
      (st.pixel_explored e.index1 = true ∨ W e.index1)
  pmono : ∀ p, P0 p = true → st.pixel_explored p = true
  emono : ∀ k, E0 k = true → st.edge_explored k = true
  reach : ∀ p, st.pixel_explored p = true → P0 p = false →
    Relation.ReflTransGen (EdgeRelT v_edge et) e0.index0 p
  started : ∀ p, st.pixel_explored p = true → P0 p = false →
    st.pixel_explored e0.index0 = true ∧ et ≤ e0.value
  seed : st.edge_explored i0 = true ∨ i0 ∈ st.q
  nodup : st.c.pixels.Nodup
  pix : ∀ p, p ∈ st.c.pixels ↔
    (st.pixel_explored p = true ∧ P0 p = false ∧ pt ≤ (v_pixel p).value)

/-- What holds between two clusters of `obtain_clusters`, the edges
`0, ..., i-1` having been looked at, `new` being the clusters emitted so far. -/
structure OInv (v_pixel : Nat → Vertex) (v_edge : List Edge) (pt et : Int) (sz : Nat) (i : Nat)
    (st : XState) (new : List Cluster) : Prop where
  q : st.q = []
  inc : ∀ p, st.pixel_explored p = true → ∀ k, Incident v_edge k p → st.edge_explored k = true
  ends : ∀ k e, v_edge.get? k = some e → st.edge_explored k = true → et ≤ e.value →
    st.pixel_explored e.index0 = true ∧ st.pixel_explored e.index1 = true
  seen : ∀ k, k < i → k < v_edge.length → st.edge_explored k = true
  sound : ∀ c ∈ new, c.pixels.Nodup ∧ max 1 sz ≤ c.pixels.length ∧
    ∃ e ∈ v_edge, et ≤ e.value ∧
      ∀ p, p ∈ c.pixels ↔
        (Relation.ReflTransGen (EdgeRelT v_edge et) e.index0 p ∧ pt ≤ (v_pixel p).value)
  complete : ∀ k e, v_edge.get? k = some e → st.edge_explored k = true → et ≤ e.value →
    ∀ l : List Nat, l.Nodup →
      (∀ p, p ∈ l ↔
        (Relation.ReflTransGen (EdgeRelT v_edge et) e.index0 p ∧ pt ≤ (v_pixel p).value)) →
      max 1 sz ≤ l.length → ∃ c ∈ new, ∀ p, p ∈ c.pixels ↔ p ∈ l

/-- What `obtain_clusters` guarantees of a cluster it emits. -/
def Emitted (v_pixel : Nat → Vertex) (pixel_threshold edge_threshold : Int)
    (size_threshold : Nat) (c : Cluster) : Prop :=
  c.pixels ≠ [] ∧ size_threshold ≤ c.pixels.length ∧
    (∀ p ∈ c.pixels, pixel_threshold ≤ (v_pixel p).value) ∧
    (∀ e ∈ c.edges, edge_threshold ≤ e.value)

/-- The stored sizes of an array of vertices. -/
def sizesOf (v : Nat → Vertex) : Nat → Int := fun k => (v k).size

/-- What holds in addition to `GVInv` inside the loop over the neighbours of
the pixel at position `i`, the directions in `H` having been handled, when no
union is skipped: every top stores the size of its class, the pixel has size 1
while it is its own top, and two 4-adjacent flooded pixels (for the pixel
itself: in a handled direction) are joined by recorded edges whose weights are
at least the smaller of their two values. -/
structure GXInv (nx ny : Nat) (img : Int → Int → Int) (buf_arg : Nat → Nat) (i : Nat)
    (H : Nat → Prop) (st : State) : Prop where
  sizes : ∀ r, nextOf st.v r = (r : Int) →
    ∃ l, ClassList (nextOf st.v) r l ∧ sizesOf st.v r = (l.length : Int)
  one : st.another_top = -1 → sizesOf st.v (buf_arg i) = 1
  joined : ∀ x y, RelH nx ny dx_list dy_list (Flooded (nx * ny) buf_arg i) (buf_arg i) H x y →
    Relation.ReflTransGen
      (EdgeRelT st.v_edge (min (pixval ny img x) (pixval ny img y))) x y

/-- What holds in addition to `GInv` between two pixels when no union is
skipped. -/
structure GFInv (nx ny : Nat) (img : Int → Int → Int) (buf_arg : Nat → Nat) (k : Nat)
    (st : State) : Prop where
  sizes : ∀ r, nextOf st.v r = (r : Int) →
    ∃ l, ClassList (nextOf st.v) r l ∧ sizesOf st.v r = (l.length : Int)
  joined : ∀ x y, AdjF nx ny (Flooded (nx * ny) buf_arg k) x y →
    Relation.ReflTransGen
      (EdgeRelT st.v_edge (min (pixval ny img x) (pixval ny img y))) x y

end Watershed

/-! ## The incremental threshold counter (`watershed_ncluster.cpp`) -/

namespace Ncluster

/-- Neighbour offsets of `compute_nclusters`: up, right, down, left. -/
def dx_list : List Int := [0, 1, 0, -1]

/-- Neighbour offsets of `compute_nclusters` (second coordinate). -/
def dy_list : List Int := [1, 0, -1, 0]

/-- State of `compute_nclusters`. -/
structure State where
  v_next : Nat → Int
  v_size : Nat → Int
  n_clusters : Int
  i_threshold : Nat
  buf_nclusters : Nat → Int
  the_cluster : Int
  asserts : Bool

/-- The loop `for(; i_threshold < n_thresholds; ++i_threshold)` of lines
110-113, run on the thresholds from the current one on: the number of
increments before it stops. -/
def advance (f1 : Int) : List Int → Nat
  | [] => 0
  | th :: rest => if th ≤ f1 then 0 else advance f1 rest + 1

/-- Body of the loop over the four directions (lines 131-190). -/
def visitNeighbor (nx ny : Nat) (size_threshold : Int) (index1 : Nat)
    (random_direction : Nat) (st : State) (j1 : Nat) : Option State :=
  let inbr : Nat := (random_direction + j1) % 4
  let ix2 : Int := ((index1 / ny : Nat) : Int) + dx_list.getD inbr 0
  let iy2 : Int := ((index1 % ny : Nat) : Int) + dy_list.getD inbr 0
  if ¬ (0 ≤ ix2 ∧ ix2 < (nx : Int) ∧ 0 ≤ iy2 ∧ iy2 < (ny : Int)) then some st
  else
    let index2 : Nat := (ix2 * (ny : Int) + iy2).toNat
    if st.v_next index2 < 0 then some st
    else
      match get_top st.v_next (nx * ny) index2 with
      | none => none
      | some nbr_cluster =>
        if st.the_cluster = -1 then
          let v_next1 := setInt st.v_next index1 (nbr_cluster : Int)
          let v_size1 := setInt st.v_size nbr_cluster (st.v_size nbr_cluster + 1)
          some { st with the_cluster := (nbr_cluster : Int)
                         v_next := v_next1
                         v_size := v_size1
                         n_clusters :=
                           if v_size1 nbr_cluster = size_threshold then st.n_clusters + 1
                           else st.n_clusters }
        else if 0 ≤ st.the_cluster ∧ st.the_cluster ≠ (nbr_cluster : Int) then
          let the_cluster : Nat := st.the_cluster.toNat
          let v_next1 := setInt st.v_next nbr_cluster (the_cluster : Int)
          let s1 : Int := st.v_size the_cluster
          let s2 : Int := st.v_size nbr_cluster
          some { st with v_next := v_next1
                         n_clusters :=
                           if s1 < size_threshold ∧ s2 < size_threshold ∧
                               size_threshold ≤ s1 + s2 then st.n_clusters + 1
                           else if size_threshold ≤ s1 ∧ size_threshold ≤ s2 then
                             st.n_clusters - 1
                           else st.n_clusters
                         v_size := setInt st.v_size the_cluster (st.v_size the_cluster + s2) }
        else some st

/-- Flooding of one pixel (lines 121-201) once the current threshold index
is known. -/
def floodPixel (nx ny : Nat) (size_threshold : Int) (index1 : Nat) (random_direction : Nat)
    (st : State) : Option State :=
  let st0 : State :=
    { st with v_next := setInt st.v_next index1 (index1 : Int)
              v_size := setInt st.v_size index1 1
              the_cluster := -1 }
  ((visitNeighbor nx ny size_threshold index1 random_direction st0 0).bind fun st1 =>
   (visitNeighbor nx ny size_threshold index1 random_direction st1 1).bind fun st2 =>
   (visitNeighbor nx ny size_threshold index1 random_direction st2 2).bind fun st3 =>
   visitNeighbor nx ny size_threshold index1 random_direction st3 3).map fun st4 =>
    let isolated : Bool := decide (st4.v_next index1 = (index1 : Int))
    let n_clusters : Int :=
      if isolated = true ∧ size_threshold ≤ 1 then st4.n_clusters + 1 else st4.n_clusters
    { st4 with asserts := st4.asserts && (!isolated || decide (st4.v_size index1 = 1))
               n_clusters := n_clusters
               buf_nclusters := setInt st4.buf_nclusters st4.i_threshold n_clusters }

/-- The loop `for(int i=n-1; i>=0; --i)` of `compute_nclusters` (lines
100-202), entered with `i + 1 = k`. -/
def flood (nx ny : Nat) (img : Int → Int → Int) (buf_arg : Nat → Nat)
    (buf_thresholds : List Int) (size_threshold : Int) (seed_random_direction : Int)
    (rand4 : Nat → Nat) : Nat → State → Option State
  | 0, st => some st
  | i + 1, st =>
    let index1 : Nat := buf_arg i
    let f1 : Int := pixval ny img index1
    let i_threshold : Nat := st.i_threshold + advance f1 (buf_thresholds.drop st.i_threshold)
    let st' : State :=
      { st with i_threshold := i_threshold
                asserts := st.asserts && decide (index1 < nx * ny) }
    if i_threshold = buf_thresholds.length then some st'
    else
      let random_direction : Nat := if seed_random_direction = 0 then 0 else rand4 i
      match floodPixel nx ny size_threshold index1 random_direction st' with
      | none => none
      | some st1 =>
        flood nx ny img buf_arg buf_thresholds size_threshold seed_random_direction rand4 i st1

/-- Model of `compute_nclusters` (`countByThreshold`): the final state, whose
field `buf_nclusters` is the output buffer after the call; the argument
`buf_nclusters` is the output buffer before the call. -/
def compute_nclusters (nx ny : Nat) (img : Int → Int → Int) (buf_arg : Nat → Nat)
    (buf_thresholds : List Int) (buf_nclusters : Nat → Int) (size_threshold : Int)
    (seed_random_direction : Int) (rand4 : Nat → Nat) : Option State :=
  flood nx ny img buf_arg buf_thresholds size_threshold seed_random_direction rand4 (nx * ny)
    { v_next := fun _ => -1, v_size := fun _ => 0, n_clusters := 0, i_threshold := 0,
      buf_nclusters := buf_nclusters, the_cluster := -1, asserts := true }

/-- Invariant of `compute_nclusters` between two pixels, the positions
`k, ..., n-1` of the order having been processed: the links form the forest of
the flooded pixels under 4-adjacency, every top stores the size of its class
and the running count is the number of tops of size `>= s`. -/
structure PInv (nx ny : Nat) (buf_arg : Nat → Nat) (s : Int) (k : Nat) (st : State) : Prop where
  uf : UF (nx * ny) st.v_next (Flooded (nx * ny) buf_arg k)
    (AdjF nx ny (Flooded (nx * ny) buf_arg k))
  sizes : ∀ r, st.v_next r = (r : Int) →
    ∃ l, ClassList st.v_next r l ∧ st.v_size r = (l.length : Int)
  count : st.n_clusters = rootCount (nx * ny) st.v_next st.v_size s

/-- Invariant of `compute_nclusters` inside the loop over the neighbours of
the pixel `a`, the directions in `H` having been handled; `F` are the flooded
pixels, `a` included.  While `a` has met no cluster it is a top of size 1 that
the running count does not yet include. -/
structure VInv (nx ny : Nat) (s : Int) (F : Nat → Prop) (a : Nat) (H : Nat → Prop)
    (st : State) : Prop where
  uf : UF (nx * ny) st.v_next F (RelH nx ny dx_list dy_list F a H)
  cur : (st.the_cluster = -1 ∧ st.v_next a = (a : Int) ∧ st.v_size a = 1) ∨
    (∃ c : Nat, st.the_cluster = (c : Int) ∧ Top st.v_next a c ∧ c ≠ a)
  sizes : ∀ r, st.v_next r = (r : Int) →
    ∃ l, ClassList st.v_next r l ∧ st.v_size r = (l.length : Int)
  count : st.n_clusters =
    rootCount (nx * ny) st.v_next st.v_size s -
      (if st.the_cluster = -1 ∧ s ≤ 1 then 1 else 0)

end Ncluster

/-! ## The bounded-size region marker (`watershed_nuclei.cpp`) -/

namespace Nuclei

/-- Neighbour offsets of `mark_nuclei`: left, right, top, down. -/
def dx_list : List Int := [-1, 1, 0, 0]

/-- Neighbour offsets of `mark_nuclei` (second coordinate). -/
def dy_list : List Int := [0, 0, -1, 1]

/-- State of `mark_nuclei`.  The `std::set` of updated clusters is kept as a
duplicate-free list in ascending order. -/
structure State where
  v_next : Nat → Int
  v_pixels : Nat → List Nat
  updated_clusters : List Nat
  buf_nuclei : Nat → Bool
  the_cluster : Int
  asserts : Bool

/-- Insertion into a `std::set<int>`. -/
def setInsert (x : Nat) (l : List Nat) : List Nat :=
  if x ∈ l then l else List.orderedInsert (fun a b => a ≤ b) x l

/-- Model of `merge_pixels`: the pixels of `index2` are inserted in front of
those of `index1` and the list of `index2` is cleared. -/
def merge_pixels (v_pixels : Nat → List Nat) (index1 index2 : Nat) : Nat → List Nat :=
  let q1 := v_pixels index1
  let q2 := v_pixels index2
  setList (setList v_pixels index1 (q2 ++ q1)) index2 []

/-- Model of `mark_pixels`: every pixel of `q` is set to `true`. -/
def mark_pixels (q : List Nat) (buf_nuclei : Nat → Bool) : Nat → Bool :=
  q.foldl (fun buf i => setFlag buf i true) buf_nuclei

/-- Body of the loop over the four directions (lines 136-185). -/
def visitNeighbor (nx ny : Nat) (size_min size_max : Nat) (index1 : Nat) (st : State)
    (j1 : Nat) : Option State :=
  let ix2 : Int := ((index1 / ny : Nat) : Int) + dx_list.getD j1 0
  let iy2 : Int := ((index1 % ny : Nat) : Int) + dy_list.getD j1 0
  if ¬ (0 ≤ ix2 ∧ ix2 < (nx : Int) ∧ 0 ≤ iy2 ∧ iy2 < (ny : Int)) then some st
  else
    let index2 : Nat := (ix2 * (ny : Int) + iy2).toNat
    if st.v_next index2 < 0 then some st
    else
      match get_top st.v_next (nx * ny) index2 with
      | none => none
      | some nbr_cluster =>
        if st.the_cluster = -1 then
          let v_pixels1 := setList st.v_pixels nbr_cluster (st.v_pixels nbr_cluster ++ [index1])
          let s1 : Nat := (v_pixels1 nbr_cluster).length
          some { st with the_cluster := (nbr_cluster : Int)
                         v_next := setInt st.v_next index1 (nbr_cluster : Int)
                         v_pixels := v_pixels1
                         updated_clusters :=
                           if size_min ≤ s1 ∧ s1 ≤ size_max then
                             setInsert nbr_cluster st.updated_clusters
                           else st.updated_clusters }
        else if 0 ≤ st.the_cluster ∧ st.the_cluster ≠ (nbr_cluster : Int) then
          let the_cluster : Nat := st.the_cluster.toNat
          let s1 : Nat := (st.v_pixels the_cluster).length
          let s2 : Nat := (st.v_pixels nbr_cluster).length
          let s : Nat := s1 + s2
          let v_pixels1 := merge_pixels st.v_pixels the_cluster nbr_cluster
          some { st with v_next := setInt st.v_next nbr_cluster (the_cluster : Int)
                         v_pixels := v_pixels1
                         asserts := st.asserts && decide (v_pixels1 nbr_cluster = [])
                         updated_clusters :=
                           if size_min ≤ s ∧ s < size_max then
                             setInsert the_cluster st.updated_clusters
                           else st.updated_clusters }
        else some st

/-- Flooding of one pixel (lines 129-191). -/
def floodPixel (nx ny : Nat) (size_min size_max : Nat) (index1 : Nat) (st : State) :
    Option State :=
  let st0 : State :=
    { st with v_next := setInt st.v_next index1 (index1 : Int), the_cluster := -1 }
  ((visitNeighbor nx ny size_min size_max index1 st0 0).bind fun st1 =>
   (visitNeighbor nx ny size_min size_max index1 st1 1).bind fun st2 =>
   (visitNeighbor nx ny size_min size_max index1 st2 2).bind fun st3 =>
   visitNeighbor nx ny size_min size_max index1 st3 3).map fun st4 =>
    if st4.v_next index1 = (index1 : Int) then
      { st4 with v_pixels := setList st4.v_pixels index1 (st4.v_pixels index1 ++ [index1]) }
    else st4

/-- The loop `while(i >= 0)` of lines 117-192 for the threshold
`pixel_threshold`, entered with `i + 1 = k`; it returns the value of `i + 1`
at which it stops together with the state. -/
def batch (nx ny : Nat) (img : Int → Int → Int) (buf_arg : Nat → Nat) (pixel_threshold : Int)
    (size_min size_max : Nat) : Nat → State → Option (Nat × State)
  | 0, st => some (0, st)
  | i + 1, st =>
    let index1 : Nat := buf_arg i
    let f1 : Int := pixval ny img index1
    let st' : State := { st with asserts := st.asserts && decide (index1 < nx * ny) }
    if f1 < pixel_threshold then some (i + 1, st')
    else
      match floodPixel nx ny size_min size_max index1 st' with
      | none => none
      | some st1 => batch nx ny img buf_arg pixel_threshold size_min size_max i st1

/-- The update of the mask after a batch (lines 195-199). -/
def markUpdated (size_min size_max : Nat) (st : State) : Nat → Bool :=
  st.updated_clusters.foldl
    (fun buf c =>
      let s : Nat := (st.v_pixels c).length
      if size_min ≤ s ∧ s ≤ size_max then mark_pixels (st.v_pixels c) buf else buf)
    st.buf_nuclei

/-- The loop over the thresholds (lines 112-200), `k` being the current value
of `i + 1`. -/
def sweep (nx ny : Nat) (img : Int → Int → Int) (buf_arg : Nat → Nat) (size_min size_max : Nat) :
    List Int → Nat → State → Option State
  | [], _, st => some st
  | pixel_threshold :: rest, k, st =>
    match batch nx ny img buf_arg pixel_threshold size_min size_max k
        { st with updated_clusters := [] } with
    | none => none
    | some (k', st1) =>
      sweep nx ny img buf_arg size_min size_max rest k'
        { st1 with buf_nuclei := markUpdated size_min size_max st1 }

/-- Model of `mark_nuclei` (`markRegions`): the final state, whose field
`buf_nuclei` is the mask after the call; the argument `buf_nuclei` is the mask
before the call.  The computation time returned by the source is not
modelled. -/
def mark_nuclei (nx ny : Nat) (img : Int → Int → Int) (buf_arg : Nat → Nat)
    (buf_thresholds : List Int) (size_min size_max : Nat) (buf_nuclei : Nat → Bool) :
    Option State :=
  sweep nx ny img buf_arg size_min size_max buf_thresholds (nx * ny)
    { v_next := fun _ => -1, v_pixels := fun _ => [], updated_clusters := [],
      buf_nuclei := buf_nuclei, the_cluster := -1, asserts := true }

/-- Invariant of `mark_nuclei` between two pixels, the positions `k, ..., n-1`
of the order having been processed: the links form the forest of the flooded
pixels under 4-adjacency, the pixel list of every top enumerates its class and
the other pixel lists are empty.  When `track` holds (inside the batch of the
first threshold) every top whose list has at least 2 and at least `size_min`
but fewer than `size_max` pixels is among the updated clusters. -/
structure PInv (nx ny : Nat) (buf_arg : Nat → Nat) (size_min size_max : Nat) (track : Prop)
    (k : Nat) (st : State) : Prop where
  uf : UF (nx * ny) st.v_next (Flooded (nx * ny) buf_arg k)
    (AdjF nx ny (Flooded (nx * ny) buf_arg k))
  lists : ∀ r, st.v_next r = (r : Int) → ClassList st.v_next r (st.v_pixels r)
  empty : ∀ p, st.v_next p ≠ (p : Int) → st.v_pixels p = []
  upd : track → ∀ r, st.v_next r = (r : Int) → 2 ≤ (st.v_pixels r).length →
    size_min ≤ (st.v_pixels r).length → (st.v_pixels r).length < size_max →
    r ∈ st.updated_clusters

/-- Invariant of `mark_nuclei` inside the loop over the neighbours of the
pixel `a`, the directions in `H` having been handled; `F` are the flooded
pixels, `a` included.  While `a` has met no cluster it is a top, alone in its
class, whose own pixel list is still empty. -/
structure VInv (nx ny : Nat) (size_min size_max : Nat) (track : Prop) (F : Nat → Prop) (a : Nat)
    (H : Nat → Prop) (st : State) : Prop where
  uf : UF (nx * ny) st.v_next F (RelH nx ny dx_list dy_list F a H)
  cur : (st.the_cluster = -1 ∧ st.v_next a = (a : Int) ∧ st.v_pixels a = [] ∧
      ∀ p, Top st.v_next p a → p = a) ∨
    (∃ c : Nat, st.the_cluster = (c : Int) ∧ Top st.v_next a c ∧ c ≠ a)
  lists : ∀ r, st.v_next r = (r : Int) → (r = a → st.the_cluster ≠ -1) →
    ClassList st.v_next r (st.v_pixels r)
  empty : ∀ p, st.v_next p ≠ (p : Int) → st.v_pixels p = []
  upd : track → ∀ r, st.v_next r = (r : Int) → 2 ≤ (st.v_pixels r).length →
    size_min ≤ (st.v_pixels r).length → (st.v_pixels r).length < size_max →
    r ∈ st.updated_clusters

end Nuclei

/-! ## Ellipses of clusters (`ellipses.cpp`)

The accumulators `mu` and `cov` of `obtain_ellipses` are `double`s holding sums
of products of pixel coordinates; the embedding keeps them as exact rationals.
The eigen-decomposition of the corrected covariance is done by
`Eigen::SelfAdjointEigenSolver`, which is not part of the sources: the
embedding of `obtain_ellipses` stops at the matrix handed to the solver, and
the values pushed afterwards are given as functions of the solver's output
over the real numbers. -/

namespace Ellipses

/-- Neighbour offsets of `obtain_ellipses`: right, left, up, down. -/
def dx_list : List Int := [1, -1, 0, 0]

/-- Neighbour offsets of `obtain_ellipses` (second coordinate). -/
def dy_list : List Int := [0, 0, -1, 1]

/-- A 2 × 2 matrix (`Eigen::Matrix2d`). -/
structure Mat2 where
  c00 : ℚ
  c01 : ℚ
  c10 : ℚ
  c11 : ℚ
deriving DecidableEq

/-- Loop state of the breadth-first search in `obtain_ellipses`. -/
structure State where
  visited : Nat → Bool
  q : List Nat
  sum : Int
  mu : ℚ × ℚ
  cov : Mat2

/-- What `obtain_ellipses` has computed for one cluster when it calls the
eigen solver (line 146): the number of pixels, the mean position and the
corrected covariance. -/
structure Moments where
  sum : Int
  mu : ℚ × ℚ
  cov : Mat2
deriving DecidableEq

/-- Body of the loop over the four neighbours (lines 117-131). -/
def visitNeighbor (nx ny : Nat) (img : Int → Int → Int) (pixel_threshold : Int)
    (index1 : Nat) (st : State) (j : Nat) : State :=
  let ix1 : Int := ((index1 / ny : Nat) : Int)
  let iy1 : Int := ((index1 % ny : Nat) : Int)
  let ix2 : Int := ix1 + dx_list.getD j 0
  let iy2 : Int := iy1 + dy_list.getD j 0
  if ¬ (0 ≤ ix2 ∧ ix2 < (nx : Int) ∧ 0 ≤ iy2 ∧ iy2 < (ny : Int)) then st
  else
    let index2 : Nat := (ix2 * (ny : Int) + iy2).toNat
    if st.visited index2 = true ∨ img ix2 iy2 < pixel_threshold then st
    else
      { visited := setFlag st.visited index2 true
        q := st.q ++ [index2]
        sum := st.sum
        mu := st.mu
        cov := st.cov }

/-- The `while(!q.empty())` loop of `obtain_ellipses` (lines 103-132). -/
def bfs (nx ny : Nat) (img : Int → Int → Int) (pixel_threshold : Int) :
    Nat → State → Option State
  | fuel, st =>
    match st.q, fuel with
    | [], _ => some st
    | _ :: _, 0 => none
    | index1 :: rest, fuel + 1 =>
      let x : ℚ := ((index1 / ny : Nat) : ℚ)
      let y : ℚ := ((index1 % ny : Nat) : ℚ)
      let st1 : State :=
        { visited := st.visited
          q := rest
          sum := st.sum + 1
          mu := (st.mu.1 + x, st.mu.2 + y)
          cov := ⟨st.cov.c00 + x * x, st.cov.c01 + x * y, st.cov.c10 + y * x,
                  st.cov.c11 + y * y⟩ }
      bfs nx ny img pixel_threshold fuel
        ((List.range 4).foldl (visitNeighbor nx ny img pixel_threshold index1) st1)

/-- Lines 139-142: the sums are divided by the number of pixels, the outer
product of the mean is subtracted and `1/12` is added to the diagonal. -/
def normalise (sum : Int) (mu : ℚ × ℚ) (cov : Mat2) : Moments :=
  let m : ℚ × ℚ := (mu.1 / (sum : ℚ), mu.2 / (sum : ℚ))
  { sum := sum
    mu := m
    cov := ⟨cov.c00 / (sum : ℚ) - m.1 * m.1 + 1 / 12, cov.c01 / (sum : ℚ) - m.1 * m.2,
            cov.c10 / (sum : ℚ) - m.2 * m.1, cov.c11 / (sum : ℚ) - m.2 * m.2 + 1 / 12⟩ }

/-- Body of the loop over all pixels of `obtain_ellipses` (lines 83-179). -/
def scanPixel (nx ny : Nat) (img : Int → Int → Int) (pixel_threshold size_threshold : Int)
    (acc : Option ((Nat → Bool) × List Moments)) (index0 : Nat) :
    Option ((Nat → Bool) × List Moments) :=
  match acc with
  | none => none
  | some (visited, ellipses) =>
    if visited index0 = true ∨ pixval ny img index0 < pixel_threshold then
      some (visited, ellipses)
    else
      match bfs nx ny img pixel_threshold (nx * ny + 1)
          { visited := setFlag visited index0 true, q := [index0], sum := 0, mu := (0, 0),
            cov := ⟨0, 0, 0, 0⟩ } with
      | none => none
      | some st =>
        if st.sum < size_threshold then some (st.visited, ellipses)
        else some (st.visited, ellipses ++ [normalise st.sum st.mu st.cov])

/-- Model of `obtain_ellipses` (`describeEllipses`) up to the calls of the
eigen solver: one entry per cluster kept, in the order of emission. -/
def obtain_ellipses (nx ny : Nat) (img : Int → Int → Int)
    (pixel_threshold size_threshold : Int) : Option (List Moments) :=
  ((List.range (nx * ny)).foldl (scanPixel nx ny img pixel_threshold size_threshold)
    (some (fun _ => false, []))).map Prod.snd

/-- Line 168: the angle reported for the eigenvector `(ex, ey)` of the major
axis, `ex >= 0 ? asin(ey) : M_PI - asin(ey)`. -/
noncomputable def orientation (ex ey : ℝ) : ℝ :=
  if 0 ≤ ex then Real.arcsin ey else Real.pi - Real.arcsin ey

/-- Lines 149-178: the six numbers pushed for one cluster, given the
eigenvalues `l0`, `l1` and the eigenvectors `v0`, `v1` returned by the solver. -/
noncomputable def describe (m : Moments) (l0 l1 : ℝ) (v0 v1 : ℝ × ℝ) : List ℝ :=
  let a : ℝ := if l0 ≥ l1 then l0 else l1
  let b : ℝ := if l0 ≥ l1 then l1 else l0
  let ex : ℝ := if l0 ≥ l1 then v0.1 else v1.1
  let ey : ℝ := if l0 ≥ l1 then v0.2 else v1.2
  let theta : ℝ := orientation ex ey
  [((m.sum : ℚ) : ℝ), (m.mu.1 : ℝ), (m.mu.2 : ℝ), Real.sqrt (5.991 * a), Real.sqrt (5.991 * b),
    theta]

/-- The real number `l` and the non-zero vector `v` are an eigenvalue and an
eigenvector of the matrix `m`: what the eigen solver is specified to return. -/
def IsEigenpair (m : Mat2) (l : ℝ) (v : ℝ × ℝ) : Prop :=
  v ≠ (0, 0) ∧ (m.c00 : ℝ) * v.1 + (m.c01 : ℝ) * v.2 = l * v.1 ∧
    (m.c10 : ℝ) * v.1 + (m.c11 : ℝ) * v.2 = l * v.2

/-- Specification side: the moments of a list of pixels, computed from the
coordinates `(index / ny, index % ny)` of its members: their number, the
arithmetic mean of the coordinates, and the covariance of the coordinates
with `1/12` added to both diagonal entries. -/
def momentsOf (ny : Nat) (pixels : List Nat) : Moments :=
  let n : ℚ := (pixels.length : ℚ)
  let mx : ℚ := (pixels.map fun p => ((p / ny : Nat) : ℚ)).sum / n
  let my : ℚ := (pixels.map fun p => ((p % ny : Nat) : ℚ)).sum / n
  { sum := (pixels.length : Int)
    mu := (mx, my)
    cov := ⟨(pixels.map fun p => ((p / ny : Nat) : ℚ) * ((p / ny : Nat) : ℚ)).sum / n - mx * mx
              + 1 / 12,
            (pixels.map fun p => ((p / ny : Nat) : ℚ) * ((p % ny : Nat) : ℚ)).sum / n - mx * my,
            (pixels.map fun p => ((p % ny : Nat) : ℚ) * ((p / ny : Nat) : ℚ)).sum / n - my * mx,
            (pixels.map fun p => ((p % ny : Nat) : ℚ) * ((p % ny : Nat) : ℚ)).sum / n - my * my
              + 1 / 12⟩ }

/-- The two breadth-first searches, of `Clusters::construct` and of
`obtain_ellipses`, are in step: same flags, same queue, same count, and the
accumulated sums are those of the pixels taken out of the queue so far. -/
structure Sim (ny : Nat) (cst : Clusters.State) (est : State) : Prop where
  visited : est.visited = cst.visited
  q : est.q = cst.q
  sum : est.sum = cst.sum
  count : est.sum = (cst.c.pixels.length : Int)
  mux : est.mu.1 = (cst.c.pixels.map fun p => ((p / ny : Nat) : ℚ)).sum
  muy : est.mu.2 = (cst.c.pixels.map fun p => ((p % ny : Nat) : ℚ)).sum
  c00 : est.cov.c00 =
    (cst.c.pixels.map fun p => ((p / ny : Nat) : ℚ) * ((p / ny : Nat) : ℚ)).sum
  c01 : est.cov.c01 =
    (cst.c.pixels.map fun p => ((p / ny : Nat) : ℚ) * ((p % ny : Nat) : ℚ)).sum
  c10 : est.cov.c10 =
    (cst.c.pixels.map fun p => ((p % ny : Nat) : ℚ) * ((p / ny : Nat) : ℚ)).sum
  c11 : est.cov.c11 =
    (cst.c.pixels.map fun p => ((p % ny : Nat) : ℚ) * ((p % ny : Nat) : ℚ)).sum

end Ellipses

end Cellular

namespace Cellular

/-! ## States reached inside the three flooding loops -/

/-- The links `v_next` of `n` pixels stay inside the grid and `get_top` finds
a top for every flooded pixel: a flooded pixel and the pixel it links to are
among the `n` pixels, and `get_top`, following at most `n` links, returns a
pixel of the grid that is its own `next`. -/
def TopsFound (n : Nat) (v_next : Nat → Int) : Prop :=
  ∀ p, 0 ≤ v_next p →
    p < n ∧ (v_next p).toNat < n ∧
      ∃ r, get_top v_next n p = some r ∧ r < n ∧ v_next r = (r : Int)

namespace Watershed

/-- The states that `construct_graph` passes through: `Reached i j st` says
that `st` is the state in the iteration of the main loop for position `i` of
the intensity order once `j` of the four directions have been handled (lines
139-225); the state before the first iteration counts as the end of an
iteration for position `nx * ny`.  An iteration is entered from the end of the
previous one when the value of the pixel is not below the pixel threshold. -/
inductive Reached (nx ny : Nat) (img : Int → Int → Int) (buf_arg : Nat → Nat)
    (pixel_threshold merge_threshold seed_random_direction : Int) (rand4 : Nat → Nat) :
    Nat → Nat → State → Prop
  | init : Reached nx ny img buf_arg pixel_threshold merge_threshold seed_random_direction rand4
      (nx * ny) 4
      { v := graph.obtain_vertices ny img, v_edge := [], n_edges := 0, another_top := -1,
        asserts := true }
  | start {i : Nat} {st : State} :
      Reached nx ny img buf_arg pixel_threshold merge_threshold seed_random_direction rand4
        (i + 1) 4 st →
      ¬ (pixval ny img (buf_arg i) < pixel_threshold) →
      Reached nx ny img buf_arg pixel_threshold merge_threshold seed_random_direction rand4 i 0
        { ({ st with asserts := st.asserts && decide (buf_arg i < nx * ny) } : State) with
          v := setVertex (setVertex st.v (buf_arg i)
                { st.v (buf_arg i) with next := (buf_arg i : Int) }) (buf_arg i)
                { setVertex st.v (buf_arg i) { st.v (buf_arg i) with next := (buf_arg i : Int) }
                    (buf_arg i) with size := 1 }
          another_top := -1 }
  | visit {i j : Nat} {st st' : State} :
      Reached nx ny img buf_arg pixel_threshold merge_threshold seed_random_direction rand4
        i j st →
      j < 4 →
      visitNeighbor nx ny merge_threshold (buf_arg i) (pixval ny img (buf_arg i))
        (if seed_random_direction = 0 then 0 else rand4 i) st j = some st' →
      Reached nx ny img buf_arg pixel_threshold merge_threshold seed_random_direction rand4
        i (j + 1) st'

/-- No recorded edge joins two pixels that the edges recorded before it
already join: the recorded edges form a forest. -/
def Forest (v_edge : List Edge) : Prop :=
  ∀ k e, v_edge.get? k = some e →
    ¬ Relation.ReflTransGen (EdgeRel (v_edge.take k)) e.index0 e.index1

/-- What holds of every state reached by `construct_graph` in the iteration
for position `i`, whatever the merge threshold and the directions: every top
stores the size of its class, the recorded edges and the tops together are as
many as the flooded pixels, the recorded edges form a forest, the vertices
keep the pixel values, and on an ascending order no pixel has a larger value
than its top. -/
structure GCInv (nx ny : Nat) (img : Int → Int → Int) (buf_arg : Nat → Nat) (i : Nat)
    (st : State) : Prop where
  sizes : ∀ r, nextOf st.v r = (r : Int) →
    ∃ l, ClassList (nextOf st.v) r l ∧ sizesOf st.v r = (l.length : Int)
  count : (st.v_edge.length : Int) + rootCount (nx * ny) (nextOf st.v) (sizesOf st.v) 1 =
    ((nx * ny - i : Nat) : Int)
  forest : Forest st.v_edge
  vals : ∀ p, (st.v p).value = pixval ny img p
  maxv : Ascending (nx * ny) ny img buf_arg →
    ∀ p r, Top (nextOf st.v) p r → pixval ny img p ≤ pixval ny img r

/-- Every top among the vertices `v` stores the number of pixels whose chain
of `next` links ends at it, and the sizes stored at the tops add up to the
number of flooded pixels (those with a non-negative link) of the `n` pixels. -/
def RootSizes (n : Nat) (v : Nat → Vertex) : Prop :=
  (∀ r, (v r).next = (r : Int) →
    ∃ l : List Nat, ClassList (nextOf v) r l ∧ (v r).size = (l.length : Int)) ∧
  Finset.sum ((Finset.range n).filter (fun r => (v r).next = (r : Int))) (fun r => (v r).size) =
    (((Finset.range n).filter (fun p => 0 ≤ (v p).next)).card : Int)

/-- Model of `Watershed::obtain_cluster_sizes` (lines 230-245): the stored
sizes of the pixels that are their own `next`, have value `>= pixel_threshold`
and size `>= size_threshold`, by ascending pixel index. -/
def obtain_cluster_sizes (v : Nat → Vertex) (n : Nat) (pixel_threshold : Int)
    (size_threshold : Int) : List Int :=
  ((List.range n).filter (fun i =>
    decide ((v i).next = (i : Int) ∧ pixel_threshold ≤ (v i).value ∧
      size_threshold ≤ (v i).size))).map (fun i => (v i).size)

end Watershed

namespace Ncluster

/-- The states that `compute_nclusters` passes through: `Reached i j st` says
that `st` is the state in the iteration of the main loop for position `i` of
the intensity order once `j` of the four directions have been handled, `j = 5`
standing for the end of the iteration (lines 100-202); the state before the
first iteration counts as the end of an iteration for position `nx * ny`.  An
iteration is entered from the end of the previous one when the threshold index
has not run past the last threshold. -/
inductive Reached (nx ny : Nat) (img : Int → Int → Int) (buf_arg : Nat → Nat)
    (buf_thresholds : List Int) (buf_nclusters : Nat → Int) (size_threshold : Int)
    (seed_random_direction : Int) (rand4 : Nat → Nat) : Nat → Nat → State → Prop
  | init : Reached nx ny img buf_arg buf_thresholds buf_nclusters size_threshold
      seed_random_direction rand4 (nx * ny) 5
      { v_next := fun _ => -1, v_size := fun _ => 0, n_clusters := 0, i_threshold := 0,
        buf_nclusters := buf_nclusters, the_cluster := -1, asserts := true }
  | start {i : Nat} {st : State} :
      Reached nx ny img buf_arg buf_thresholds buf_nclusters size_threshold
        seed_random_direction rand4 (i + 1) 5 st →
      st.i_threshold + advance (pixval ny img (buf_arg i)) (buf_thresholds.drop st.i_threshold) ≠
        buf_thresholds.length →
      Reached nx ny img buf_arg buf_thresholds buf_nclusters size_threshold
        seed_random_direction rand4 i 0
        { ({ st with
              i_threshold := st.i_threshold +
                advance (pixval ny img (buf_arg i)) (buf_thresholds.drop st.i_threshold)
              asserts := st.asserts && decide (buf_arg i < nx * ny) } : State) with
          v_next := setInt st.v_next (buf_arg i) ((buf_arg i : Nat) : Int)
          v_size := setInt st.v_size (buf_arg i) 1
          the_cluster := -1 }
  | visit {i j : Nat} {st st' : State} :
      Reached nx ny img buf_arg buf_thresholds buf_nclusters size_threshold
        seed_random_direction rand4 i j st →
      j < 4 →
      visitNeighbor nx ny size_threshold (buf_arg i)
        (if seed_random_direction = 0 then 0 else rand4 i) st j = some st' →
      Reached nx ny img buf_arg buf_thresholds buf_nclusters size_threshold
        seed_random_direction rand4 i (j + 1) st'
  | finish {i : Nat} {st : State} :
      Reached nx ny img buf_arg buf_thresholds buf_nclusters size_threshold
        seed_random_direction rand4 i 4 st →
      Reached nx ny img buf_arg buf_thresholds buf_nclusters size_threshold
        seed_random_direction rand4 i 5
        { st with
          asserts := st.asserts &&
            (!decide (st.v_next (buf_arg i) = ((buf_arg i : Nat) : Int)) ||
              decide (st.v_size (buf_arg i) = 1))
          n_clusters :=
            if decide (st.v_next (buf_arg i) = ((buf_arg i : Nat) : Int)) = true ∧
                size_threshold ≤ 1 then st.n_clusters + 1 else st.n_clusters
          buf_nclusters := setInt st.buf_nclusters st.i_threshold
            (if decide (st.v_next (buf_arg i) = ((buf_arg i : Nat) : Int)) = true ∧
                size_threshold ≤ 1 then st.n_clusters + 1 else st.n_clusters) }

end Ncluster

namespace Nuclei

/-- The states that `mark_nuclei` passes through: `Reached ths i j st` says
that `st` is the state while the thresholds `ths` remain, the first of them
being the current one, in the iteration of the `while` loop for position `i`
of the intensity order once `j` of the four directions have been handled,
`j = 5` standing for the end of the iteration (lines 112-200); the state after
`updated_clusters.clear()` for the first threshold counts as the end of an
iteration for position `nx * ny`.  The next threshold is entered, after the
update of the mask, when the `while` loop has stopped. -/
inductive Reached (nx ny : Nat) (img : Int → Int → Int) (buf_arg : Nat → Nat)
    (buf_thresholds : List Int) (size_min size_max : Nat) (buf_nuclei : Nat → Bool) :
    List Int → Nat → Nat → State → Prop
  | init {t : Int} {rest : List Int} : buf_thresholds = t :: rest →
      Reached nx ny img buf_arg buf_thresholds size_min size_max buf_nuclei (t :: rest)
        (nx * ny) 5
        { v_next := fun _ => -1, v_pixels := fun _ => [], updated_clusters := [],
          buf_nuclei := buf_nuclei, the_cluster := -1, asserts := true }
  | start {t : Int} {rest : List Int} {i : Nat} {st : State} :
      Reached nx ny img buf_arg buf_thresholds size_min size_max buf_nuclei (t :: rest)
        (i + 1) 5 st →
      ¬ (pixval ny img (buf_arg i) < t) →
      Reached nx ny img buf_arg buf_thresholds size_min size_max buf_nuclei (t :: rest) i 0
        { ({ st with asserts := st.asserts && decide (buf_arg i < nx * ny) } : State) with
          v_next := setInt st.v_next (buf_arg i) ((buf_arg i : Nat) : Int)
          the_cluster := -1 }
  | visit {ths : List Int} {i j : Nat} {st st' : State} :
      Reached nx ny img buf_arg buf_thresholds size_min size_max buf_nuclei ths i j st →
      j < 4 →
      visitNeighbor nx ny size_min size_max (buf_arg i) st j = some st' →
      Reached nx ny img buf_arg buf_thresholds size_min size_max buf_nuclei ths i (j + 1) st'
  | finish {ths : List Int} {i : Nat} {st : State} :
      Reached nx ny img buf_arg buf_thresholds size_min size_max buf_nuclei ths i 4 st →
      Reached nx ny img buf_arg buf_thresholds size_min size_max buf_nuclei ths i 5
        (if st.v_next (buf_arg i) = ((buf_arg i : Nat) : Int) then
          { st with
            v_pixels := setList st.v_pixels (buf_arg i) (st.v_pixels (buf_arg i) ++ [buf_arg i]) }
         else st)
  | next {t t2 : Int} {rest : List Int} {k : Nat} {st : State} :
      Reached nx ny img buf_arg buf_thresholds size_min size_max buf_nuclei (t :: t2 :: rest)
        k 5 st →
      (k = 0 ∨ pixval ny img (buf_arg (k - 1)) < t) →
      Reached nx ny img buf_arg buf_thresholds size_min size_max buf_nuclei (t2 :: rest) k 5
        { st with
          asserts := if k = 0 then st.asserts
            else st.asserts && decide (buf_arg (k - 1) < nx * ny)
          buf_nuclei := markUpdated size_min size_max st
          updated_clusters := [] }

end Nuclei

end Cellular

namespace Cellular

/-! ## Further invariants of the flood fill and of the extractor -/

namespace Clusters

/-- One of the edges `edges` leads from the pixel `x` to the pixel `y`. -/
def EdgeStep (edges : List Edge) (x y : Nat) : Prop :=
  ∃ e ∈ edges, e.index0 = x ∧ e.index1 = y

/-- What holds of the edges recorded by the breadth-first search started at
`p0`: `p0` is the first pixel that entered the queue, and every pixel that
entered the queue is reached from `p0` along recorded edges, each followed
from its first to its second end point. -/
structure SpanInv (p0 : Nat) (st : State) : Prop where
  head : (st.c.pixels ++ st.q).head? = some p0
  span : ∀ p, p ∈ st.c.pixels ∨ p ∈ st.q →
    Relation.ReflTransGen (EdgeStep st.c.edges) p0 p

/-- The edges of the cluster `c` lead from its first listed pixel to every
pixel of the cluster. -/
def Spanned (c : Cluster) : Prop :=
  ∃ p0, c.pixels.head? = some p0 ∧
    ∀ p ∈ c.pixels, Relation.ReflTransGen (EdgeStep c.edges) p0 p

end Clusters

namespace Watershed

/-- Two pixels are the end points of an edge of the list other than the edge
number `j`. -/
def EdgeRelBut (v_edge : List Edge) (j : Nat) (x y : Nat) : Prop :=
  ∃ k e, k ≠ j ∧ v_edge.get? k = some e ∧ Pair e.index0 e.index1 x y

/-- Every edge of the list is a bridge: the other edges do not join its two
end points. -/
def Bridges (v_edge : List Edge) : Prop :=
  ∀ j e, v_edge.get? j = some e →
    ¬ Relation.ReflTransGen (EdgeRelBut v_edge j) e.index0 e.index1

/-- No two of the four edge slots of a pixel hold the same edge. -/
def SlotsOnce (v_pixel : Nat → Vertex) : Prop :=
  ∀ (p d d' k : Nat), d < 4 → d' < 4 → (v_pixel p).edge d = (k : Int) →
    (v_pixel p).edge d' = (k : Int) → d = d'

/-- Two pixels are the end points of an explored edge both of whose end
points are explored. -/
def ExploredRel (v_edge : List Edge) (st : XState) (x y : Nat) : Prop :=
  ∃ k e, v_edge.get? k = some e ∧ st.edge_explored k = true ∧
    st.pixel_explored e.index0 = true ∧ st.pixel_explored e.index1 = true ∧
    Pair e.index0 e.index1 x y

/-- What holds of the work queue of `obtain_clusters` while the cluster seeded
with the edge number `i0` is grown, `P0` being the explored pixels when it was
seeded: no edge is queued twice, no queued edge is explored, the pixels
explored since are joined by explored edges between explored pixels, the seed
edge is explored unless it is the only queued edge and no pixel has been
explored since, and no assertion has failed. -/
structure QInv (v_edge : List Edge) (P0 : Nat → Bool) (i0 : Nat) (st : XState) : Prop where
  nodup : st.q.Nodup
  fresh : ∀ k ∈ st.q, st.edge_explored k = false
  conn : ∀ x y, st.pixel_explored x = true → P0 x = false → st.pixel_explored y = true →
    P0 y = false → Relation.ReflTransGen (ExploredRel v_edge st) x y
  first : st.edge_explored i0 = true ∨
    (st.q = [i0] ∧ ∀ p, st.pixel_explored p = true → P0 p = true)
  asserts : st.asserts = true

end Watershed

namespace Ncluster

/-- What holds of the output buffer `buf` of `compute_nclusters` once the
positions `k, ..., n-1` of the order have been processed, `buf0` being the
buffer before the call: a slot that is the threshold index of a processed
position holds the running count reached when the lowest such position had
been processed; every other slot holds its value before the call. -/
def SlotsInv (nx ny : Nat) (img : Int → Int → Int) (buf_arg : Nat → Nat) (ths : List Int)
    (s : Int) (buf0 : Nat → Int) (k : Nat) (buf : Nat → Int) : Prop :=
  ∀ slot,
    (slot < ths.length ∧
      ∃ j, k ≤ j ∧ j < nx * ny ∧ advance (pixval ny img (buf_arg j)) ths = slot ∧
        (∀ j', k ≤ j' → j' < j → advance (pixval ny img (buf_arg j')) ths ≠ slot) ∧
        ∃ st0 : State, PInv nx ny buf_arg s j st0 ∧ buf slot = st0.n_clusters) ∨
    ((∀ j, k ≤ j → j < nx * ny → advance (pixval ny img (buf_arg j)) ths ≠ slot) ∧
      buf slot = buf0 slot)

end Ncluster

namespace Nuclei

/-- The pixel `p` belongs, for a threshold `t` of the sequence `ths`, to a
maximal 4-connected set of pixels of value `>= t` whose number of pixels lies
in the window `[size_min, size_max]`. -/
def InWindow (nx ny : Nat) (img : Int → Int → Int) (ths : List Int) (size_min size_max : Nat)
    (p : Nat) : Prop :=
  ∃ t ∈ ths, ∃ S : Finset Nat, IsComponent nx ny img t S ∧ p ∈ S ∧
    size_min ≤ S.card ∧ S.card ≤ size_max

end Nuclei

end Cellular

namespace Cellular

/-! ## Arithmetic of flattened indices -/

theorem flat_lt {nx ny a b : Nat} (ha : a < nx) (hb : b < ny) : a * ny + b < nx * ny := by
  have h1 : (a + 1) * ny ≤ nx * ny := Nat.mul_le_mul_right ny ha
  have h2 : (a + 1) * ny = a * ny + ny := by ring
  omega

theorem flat_div {ny a b : Nat} (hb : b < ny) : (a * ny + b) / ny = a := by
  have hpos : 0 < ny := by omega
  rw [Nat.add_comm, Nat.add_mul_div_right _ _ hpos, Nat.div_eq_of_lt hb]
  simp

theorem flat_mod {ny a b : Nat} (hb : b < ny) : (a * ny + b) % ny = b := by
  rw [Nat.add_comm, Nat.add_mul_mod_self_right, Nat.mod_eq_of_lt hb]

theorem div_lt_of_lt_mul {nx ny p : Nat} (hp : p < nx * ny) : p / ny < nx := by
  have hpos : 0 < ny := by
    rcases Nat.eq_zero_or_pos ny with h | h
    · subst h; simp at hp
    · exact h
  exact (Nat.div_lt_iff_lt_mul hpos).2 hp

theorem ny_pos_of_lt {nx ny p : Nat} (hp : p < nx * ny) : 0 < ny := by
  rcases Nat.eq_zero_or_pos ny with h | h
  · subst h; simp at hp
  · exact h

/-- A pixel is determined by its two coordinates. -/
theorem eq_of_coords {ny p q : Nat} (h1 : p / ny = q / ny) (h2 : p % ny = q % ny) : p = q := by
  rw [← Nat.div_add_mod p ny, ← Nat.div_add_mod q ny, h1, h2]

/-- Index computed by the source from in-range integer coordinates. -/
theorem toNat_flat {nx ny : Nat} {x y : Int} (hx0 : 0 ≤ x) (hx : x < nx) (hy0 : 0 ≤ y)
    (hy : y < ny) :
    (x * (ny : Int) + y).toNat < nx * ny ∧
      (((x * (ny : Int) + y).toNat / ny : Nat) : Int) = x ∧
      (((x * (ny : Int) + y).toNat % ny : Nat) : Int) = y := by
  obtain ⟨a, rfl⟩ := Int.eq_ofNat_of_zero_le hx0
  obtain ⟨b, rfl⟩ := Int.eq_ofNat_of_zero_le hy0
  have ha : a < nx := by exact_mod_cast hx
  have hb : b < ny := by exact_mod_cast hy
  have e : ((a : Int) * (ny : Int) + (b : Int)).toNat = a * ny + b := by
    have : ((a : Int) * (ny : Int) + (b : Int)) = ((a * ny + b : Nat) : Int) := by push_cast; ring
    rw [this, Int.toNat_ofNat]
  rw [e, flat_div hb, flat_mod hb]
  exact ⟨flat_lt ha hb, rfl, rfl⟩

theorem adj4_symm {nx ny p q : Nat} (h : Adj4 nx ny p q) : Adj4 nx ny q p := by
  obtain ⟨hp, hq, h⟩ := h
  refine ⟨hq, hp, ?_⟩
  rcases h with ⟨h1, h2⟩ | ⟨h1, h2⟩
  · exact Or.inl ⟨h1.symm, h2.symm⟩
  · exact Or.inr ⟨h1.symm, h2.symm⟩

/-- Every 4-neighbour is the neighbour at one of the four unit offsets. -/
theorem adj4_iff_dirNbr {nx ny p q : Nat} :
    Adj4 nx ny p q ↔ p < nx * ny ∧
      (DirNbr nx ny 1 0 p q ∨ DirNbr nx ny (-1) 0 p q ∨ DirNbr nx ny 0 (-1) p q ∨
        DirNbr nx ny 0 1 p q) := by
  unfold Adj4 DirNbr
  constructor
  · rintro ⟨hp, hq, h⟩
    refine ⟨hp, ?_⟩
    omega
  · rintro ⟨hp, h⟩
    refine ⟨hp, ?_⟩
    omega

/-! ## Reachability and components -/

theorem conn_symm {nx ny : Nat} {img : Int → Int → Int} {t : Int} {p q : Nat}
    (h : Conn nx ny img t p q) : Conn nx ny img t q p :=
  ⟨h.2.1, h.1, adj4_symm h.2.2⟩

theorem reach_symm {nx ny : Nat} {img : Int → Int → Int} {t : Int} {p q : Nat}
    (h : Reach nx ny img t p q) : Reach nx ny img t q p :=
  Relation.ReflTransGen.symmetric (fun _ _ h => conn_symm h) h

theorem reach_inThr {nx ny : Nat} {img : Int → Int → Int} {t : Int} {p q : Nat}
    (hp : InThr nx ny img t p) (h : Reach nx ny img t p q) : InThr nx ny img t q := by
  induction h with
  | refl => exact hp
  | tail _ hbc _ => exact hbc.2.1

/-- A path inside a set of in-threshold pixels is a path of in-threshold pixels. -/
theorem joinedIn_reach {nx ny : Nat} {img : Int → Int → Int} {t : Int} {S : Finset Nat}
    (hS : ∀ p ∈ S, InThr nx ny img t p) {a b : Nat} (h : JoinedIn nx ny S a b) :
    Reach nx ny img t a b := by
  induction h with
  | refl => exact Relation.ReflTransGen.refl
  | tail _ hbc ih => exact ih.tail ⟨hS _ hbc.1, hS _ hbc.2.1, hbc.2.2⟩

/-- Inside a set closed under steps, reachability is realised by paths in the set. -/
theorem reach_joinedIn {nx ny : Nat} {img : Int → Int → Int} {t : Int} {S : Finset Nat}
    (hcl : ∀ p ∈ S, ∀ q, Conn nx ny img t p q → q ∈ S) {a b : Nat} (ha : a ∈ S)
    (h : Reach nx ny img t a b) : JoinedIn nx ny S a b ∧ b ∈ S := by
  induction h with
  | refl => exact ⟨Relation.ReflTransGen.refl, ha⟩
  | tail _ hbc ih =>
    have hc := hcl _ ih.2 _ hbc
    exact ⟨ih.1.tail ⟨ih.2, hc, hbc.2.2⟩, hc⟩

/-- The maximal 4-connected sets are exactly the reachability classes of the
in-threshold pixels. -/
theorem isComponent_iff_class {nx ny : Nat} {img : Int → Int → Int} {t : Int} {S : Finset Nat} :
    IsComponent nx ny img t S ↔
      ∃ p0, InThr nx ny img t p0 ∧ ∀ q, q ∈ S ↔ Reach nx ny img t p0 q := by
  constructor
  · rintro ⟨⟨p0, hp0⟩, hin, hconn, hmax⟩
    refine ⟨p0, hin p0 hp0, fun q => ⟨fun hq => joinedIn_reach hin (hconn p0 hp0 q hq), ?_⟩⟩
    intro hq
    classical
    let T : Finset Nat := (Finset.range (nx * ny)).filter (fun q => Reach nx ny img t p0 q)
    have hT : ∀ q, q ∈ T ↔ Reach nx ny img t p0 q := by
      intro q
      simp only [T, Finset.mem_filter, Finset.mem_range]
      exact ⟨fun h => h.2, fun h => ⟨(reach_inThr (hin p0 hp0) h).1, h⟩⟩
    have hST : S ⊆ T := fun x hx => (hT x).2 (joinedIn_reach hin (hconn p0 hp0 x hx))
    have hTin : ∀ p ∈ T, InThr nx ny img t p := fun p hp =>
      reach_inThr (hin p0 hp0) ((hT p).1 hp)
    have hTcl : ∀ p ∈ T, ∀ q, Conn nx ny img t p q → q ∈ T := fun p hp q hpq =>
      (hT q).2 (((hT p).1 hp).tail hpq)
    have hTconn : Connected4 nx ny T := by
      intro a ha b hb
      have hab : Reach nx ny img t a b := (reach_symm ((hT a).1 ha)).trans ((hT b).1 hb)
      exact (reach_joinedIn hTcl ha hab).1
    have := hmax T hST hTin hTconn
    rw [← this]
    exact (hT q).2 hq
  · rintro ⟨p0, hp0, hS⟩
    have hp0S : p0 ∈ S := (hS p0).2 Relation.ReflTransGen.refl
    have hin : ∀ p ∈ S, InThr nx ny img t p := fun p hp => reach_inThr hp0 ((hS p).1 hp)
    have hcl : ∀ p ∈ S, ∀ q, Conn nx ny img t p q → q ∈ S := fun p hp q hpq =>
      (hS q).2 (((hS p).1 hp).tail hpq)
    refine ⟨⟨p0, hp0S⟩, hin, ?_, ?_⟩
    · intro a ha b hb
      exact (reach_joinedIn hcl ha ((reach_symm ((hS a).1 ha)).trans ((hS b).1 hb))).1
    · intro T hST hTin hTconn
      apply Finset.Subset.antisymm _ hST
      intro x hx
      exact (hS x).2 (joinedIn_reach hTin (hTconn p0 (hST hp0S) x hx))

/-- Two pixels at the same offset from a pixel coincide. -/
theorem dirNbr_unique {nx ny : Nat} {dx dy : Int} {p q r : Nat}
    (hq : DirNbr nx ny dx dy p q) (hr : DirNbr nx ny dx dy p r) : q = r := by
  obtain ⟨_, h1, h2⟩ := hq
  obtain ⟨_, h3, h4⟩ := hr
  apply @eq_of_coords ny <;> omega

/-- A neighbour inside the grid has in-range coordinates. -/
theorem dirNbr_bounds {nx ny : Nat} {dx dy : Int} {p q : Nat} (h : DirNbr nx ny dx dy p q) :
    0 ≤ ((p / ny : Nat) : Int) + dx ∧ ((p / ny : Nat) : Int) + dx < nx ∧
      0 ≤ ((p % ny : Nat) : Int) + dy ∧ ((p % ny : Nat) : Int) + dy < ny := by
  obtain ⟨hq, h1, h2⟩ := h
  have h3 := div_lt_of_lt_mul hq
  have h4 := Nat.mod_lt q (ny_pos_of_lt hq)
  generalize q / ny = a at h1 h3
  generalize q % ny = b at h2 h4
  omega

/-- The index formed by the source from in-range neighbour coordinates is the
neighbour at that offset. -/
theorem dirNbr_toNat {nx ny : Nat} {dx dy : Int} {p : Nat}
    (h : 0 ≤ ((p / ny : Nat) : Int) + dx ∧ ((p / ny : Nat) : Int) + dx < nx ∧
      0 ≤ ((p % ny : Nat) : Int) + dy ∧ ((p % ny : Nat) : Int) + dy < ny) :
    DirNbr nx ny dx dy p
      ((((p / ny : Nat) : Int) + dx) * (ny : Int) + (((p % ny : Nat) : Int) + dy)).toNat :=
  toNat_flat h.1 h.2.1 h.2.2.1 h.2.2.2

theorem pixval_dirNbr {nx ny : Nat} {img : Int → Int → Int} {dx dy : Int} {p q : Nat}
    (h : DirNbr nx ny dx dy p q) :
    pixval ny img q = img (((p / ny : Nat) : Int) + dx) (((p % ny : Nat) : Int) + dy) := by
  unfold pixval
  rw [h.2.1, h.2.2]

namespace Clusters

theorem dirs_unit {j : Nat} (hj : j < 4) :
    (dx_list.getD j 0 = 1 ∧ dy_list.getD j 0 = 0) ∨
      (dx_list.getD j 0 = -1 ∧ dy_list.getD j 0 = 0) ∨
      (dx_list.getD j 0 = 0 ∧ dy_list.getD j 0 = -1) ∨
      (dx_list.getD j 0 = 0 ∧ dy_list.getD j 0 = 1) := by
  interval_cases j <;> simp [dx_list, dy_list]

theorem dirNbr_adj4 {nx ny j p q : Nat} (hp : p < nx * ny) (hj : j < 4)
    (h : DirNbr nx ny (dx_list.getD j 0) (dy_list.getD j 0) p q) : Adj4 nx ny p q := by
  refine adj4_iff_dirNbr.2 ⟨hp, ?_⟩
  rcases dirs_unit hj with ⟨h1, h2⟩ | ⟨h1, h2⟩ | ⟨h1, h2⟩ | ⟨h1, h2⟩ <;> rw [h1, h2] at h <;> simp [h]

theorem adj4_dirNbr {nx ny p q : Nat} (h : Adj4 nx ny p q) :
    ∃ j, j < 4 ∧ DirNbr nx ny (dx_list.getD j 0) (dy_list.getD j 0) p q := by
  rcases (adj4_iff_dirNbr.1 h).2 with h | h | h | h
  · exact ⟨0, by norm_num, by simpa [dx_list, dy_list] using h⟩
  · exact ⟨1, by norm_num, by simpa [dx_list, dy_list] using h⟩
  · exact ⟨2, by norm_num, by simpa [dx_list, dy_list] using h⟩
  · exact ⟨3, by norm_num, by simpa [dx_list, dy_list] using h⟩

/-- Handling neighbour `j` of the pixel `cur` keeps the invariant of the search
and does not touch the pixel list. -/
theorem visitNeighbor_inv {nx ny : Nat} {img : Int → Int → Int} {t : Int} {V0 : Nat → Bool}
    {p0 cur j : Nat} {st : State} (hp0 : InThr nx ny img t p0) (hj : j < 4)
    (hcur : cur ∈ st.c.pixels) (h : BfsInv nx ny img t V0 p0 cur j st) :
    BfsInv nx ny img t V0 p0 cur (j + 1)
        (visitNeighbor nx ny img t cur (pixval ny img cur) st j) ∧
      (visitNeighbor nx ny img t cur (pixval ny img cur) st j).c.pixels = st.c.pixels := by
  have hcurR : Reach nx ny img t p0 cur := h.reach cur (Or.inl hcur)
  have hcurI : InThr nx ny img t cur := reach_inThr hp0 hcurR
  unfold visitNeighbor
  simp only []
  by_cases hb : (0 ≤ ((cur / ny : Nat) : Int) + dx_list.getD j 0 ∧
      ((cur / ny : Nat) : Int) + dx_list.getD j 0 < (nx : Int) ∧
      0 ≤ ((cur % ny : Nat) : Int) + dy_list.getD j 0 ∧
      ((cur % ny : Nat) : Int) + dy_list.getD j 0 < (ny : Int))
  · rw [if_neg (not_not.2 hb)]
    have hd := dirNbr_toNat hb
    generalize hi2 : ((((cur / ny : Nat) : Int) + dx_list.getD j 0) * (ny : Int) +
      (((cur % ny : Nat) : Int) + dy_list.getD j 0)).toNat = index2 at hd
    have hval := @pixval_dirNbr nx ny img _ _ _ _ hd
    rw [← hval]
    by_cases hc : st.visited index2 = true ∨ pixval ny img index2 < t
    · rw [if_pos hc]
      refine ⟨⟨h.vis, h.reach, h.nodup, h.fresh, ?_, h.start, h.sum⟩, rfl⟩
      intro p hp r hpr
      rcases h.done p hp r hpr with hv | ⟨hpc, hn⟩
      · exact Or.inl hv
      · subst hpc
        by_cases hdr : DirNbr nx ny (dx_list.getD j 0) (dy_list.getD j 0) p r
        · have hr : r = index2 := dirNbr_unique hdr hd
          subst hr
          rcases hc with hc | hc
          · exact Or.inl hc
          · exact absurd hpr.2.1.2 (not_le.2 hc)
        · refine Or.inr ⟨rfl, fun j' hj' => ?_⟩
          rcases Nat.lt_succ_iff_lt_or_eq.1 hj' with h1 | h1
          · exact hn j' h1
          · subst h1; exact hdr
    · rw [if_neg hc]
      push_neg at hc
      obtain ⟨hnv, hge⟩ := hc
      have hnv' : st.visited index2 = false := by simpa using hnv
      have hnot : ¬ (V0 index2 = true ∨ index2 ∈ st.c.pixels ∨ index2 ∈ st.q) :=
        fun hx => hnv ((h.vis index2).2 hx)
      push_neg at hnot
      have hI2 : InThr nx ny img t index2 := ⟨hd.1, hge⟩
      have hconn : Conn nx ny img t cur index2 := ⟨hcurI, hI2, dirNbr_adj4 hcurI.1 hj hd⟩
      refine ⟨⟨?_, ?_, ?_, ?_, ?_, ?_, h.sum⟩, rfl⟩
      · intro p
        simp only [setFlag, List.mem_append, List.mem_singleton]
        by_cases hp : p = index2
        · simp [hp]
        · simp [hp, h.vis p]
      · intro p hp
        simp only [List.mem_append, List.mem_singleton] at hp
        rcases hp with hp | hp | hp
        · exact h.reach p (Or.inl hp)
        · exact h.reach p (Or.inr hp)
        · subst hp; exact hcurR.tail hconn
      · simp only []
        rw [← List.append_assoc]
        apply List.Nodup.append h.nodup (List.nodup_singleton _)
        intro x hx hx'
        simp only [List.mem_singleton] at hx'
        subst hx'
        simp only [List.mem_append] at hx
        rcases hx with hx | hx
        · exact hnot.2.1 hx
        · exact hnot.2.2 hx
      · intro p hp
        simp only [List.mem_append, List.mem_singleton] at hp
        rcases hp with hp | hp | hp
        · exact h.fresh p (Or.inl hp)
        · exact h.fresh p (Or.inr hp)
        · subst hp; simpa using hnot.1
      · intro p hp r hpr
        simp only [setFlag]
        by_cases hr : r = index2
        · simp [hr]
        · rw [if_neg hr]
          rcases h.done p hp r hpr with hv | ⟨hpc, hn⟩
          · exact Or.inl hv
          · refine Or.inr ⟨hpc, fun j' hj' => ?_⟩
            rcases Nat.lt_succ_iff_lt_or_eq.1 hj' with h1 | h1
            · exact hn j' h1
            · subst h1 hpc
              exact fun hdr => hr (dirNbr_unique hdr hd)
      · simp only [List.mem_append, List.mem_singleton]
        rcases h.start with hs | hs
        · exact Or.inl hs
        · exact Or.inr (Or.inl hs)
  · rw [if_pos hb]
    refine ⟨⟨h.vis, h.reach, h.nodup, h.fresh, ?_, h.start, h.sum⟩, rfl⟩
    intro p hp r hpr
    rcases h.done p hp r hpr with hv | ⟨hpc, hn⟩
    · exact Or.inl hv
    · refine Or.inr ⟨hpc, fun j' hj' => ?_⟩
      rcases Nat.lt_succ_iff_lt_or_eq.1 hj' with h1 | h1
      · exact hn j' h1
      · subst h1 hpc
        exact fun hdr => hb (dirNbr_bounds hdr)

theorem neighbors_inv {nx ny : Nat} {img : Int → Int → Int} {t : Int} {V0 : Nat → Bool}
    {p0 cur : Nat} {st : State} (hp0 : InThr nx ny img t p0)
    (hcur : cur ∈ st.c.pixels) (h : BfsInv nx ny img t V0 p0 cur 0 st) :
    BfsInv nx ny img t V0 p0 cur 4
        ((List.range 4).foldl (visitNeighbor nx ny img t cur (pixval ny img cur)) st) ∧
      ((List.range 4).foldl (visitNeighbor nx ny img t cur (pixval ny img cur)) st).c.pixels =
        st.c.pixels := by
  have e : (List.range 4).foldl (visitNeighbor nx ny img t cur (pixval ny img cur)) st =
      visitNeighbor nx ny img t cur (pixval ny img cur)
        (visitNeighbor nx ny img t cur (pixval ny img cur)
          (visitNeighbor nx ny img t cur (pixval ny img cur)
            (visitNeighbor nx ny img t cur (pixval ny img cur) st 0) 1) 2) 3 := rfl
  rw [e]
  obtain ⟨h1, e1⟩ := visitNeighbor_inv hp0 (by norm_num) hcur h
  obtain ⟨h2, e2⟩ := visitNeighbor_inv hp0 (by norm_num) (e1 ▸ hcur) h1
  obtain ⟨h3, e3⟩ := visitNeighbor_inv hp0 (by norm_num) (e2 ▸ e1 ▸ hcur) h2
  obtain ⟨h4, e4⟩ := visitNeighbor_inv hp0 (by norm_num) (e3 ▸ e2 ▸ e1 ▸ hcur) h3
  exact ⟨h4, by rw [e4, e3, e2, e1]⟩

end Clusters

theorem nodup_length_le {l : List Nat} {n : Nat} (hn : l.Nodup) (hlt : ∀ x ∈ l, x < n) :
    l.length ≤ n := by
  have hsub : l.toFinset ⊆ Finset.range n := by
    intro x hx
    exact Finset.mem_range.2 (hlt x (List.mem_toFinset.1 hx))
  calc l.length = l.toFinset.card := (List.toFinset_card_of_nodup hn).symm
    _ ≤ (Finset.range n).card := Finset.card_le_card hsub
    _ = n := Finset.card_range n

namespace Clusters

/-- The search loop ends with an empty queue, keeping its invariant, whenever
the fuel covers the pixels not yet popped. -/
theorem bfs_inv {nx ny : Nat} {img : Int → Int → Int} {t : Int} {V0 : Nat → Bool} {p0 : Nat}
    (hp0 : InThr nx ny img t p0) :
    ∀ (fuel : Nat) (st : State) (cur : Nat), BfsInv nx ny img t V0 p0 cur 4 st →
      nx * ny + 1 ≤ fuel + st.c.pixels.length →
      ∃ st' cur', bfs nx ny img t fuel st = some st' ∧ BfsInv nx ny img t V0 p0 cur' 4 st' ∧
        st'.q = [] := by
  intro fuel
  induction fuel with
  | zero =>
    intro st cur h hf
    cases hq : st.q with
    | nil => exact ⟨st, cur, by unfold bfs; rw [hq], h, hq⟩
    | cons a rest =>
      exfalso
      have hlen : (st.c.pixels ++ st.q).length ≤ nx * ny :=
        nodup_length_le h.nodup (fun x hx => by
          have := h.reach x (List.mem_append.1 hx)
          exact (reach_inThr hp0 this).1)
      simp only [List.length_append] at hlen
      omega
  | succ fuel ih =>
    intro st cur h hf
    cases hq : st.q with
    | nil => exact ⟨st, cur, by unfold bfs; rw [hq], h, hq⟩
    | cons index1 rest =>
      have hstep : bfs nx ny img t (fuel + 1) st =
          bfs nx ny img t fuel
            ((List.range 4).foldl (visitNeighbor nx ny img t index1 (pixval ny img index1))
              { visited := st.visited, q := rest,
                c := { pixels := st.c.pixels ++ [index1], edges := st.c.edges },
                sum := st.sum + 1 }) := by
        conv_lhs => unfold bfs
        rw [hq]
      rw [hstep]
      have hnd := h.nodup
      rw [hq] at hnd
      have h0 : BfsInv nx ny img t V0 p0 index1 0
          { visited := st.visited, q := rest,
            c := { pixels := st.c.pixels ++ [index1], edges := st.c.edges },
            sum := st.sum + 1 } := by
        refine ⟨?_, ?_, ?_, ?_, ?_, ?_, ?_⟩
        · intro p
          rw [h.vis p, hq]
          simp only [List.mem_append, List.mem_singleton, List.mem_cons]
          tauto
        · intro p hp
          apply h.reach p
          rw [hq]
          simp only [List.mem_append, List.mem_singleton, List.mem_cons] at hp ⊢
          tauto
        · simpa [List.append_assoc] using hnd
        · intro p hp
          apply h.fresh p
          rw [hq]
          simp only [List.mem_append, List.mem_singleton, List.mem_cons] at hp ⊢
          tauto
        · intro p hp r hpr
          simp only [List.mem_append, List.mem_singleton] at hp
          rcases hp with hp | hp
          · rcases h.done p hp r hpr with hv | ⟨_, hn⟩
            · exact Or.inl hv
            · obtain ⟨j, hj, hd⟩ := adj4_dirNbr hpr.2.2
              exact absurd hd (hn j hj)
          · exact Or.inr ⟨hp, fun j hj => absurd hj (Nat.not_lt_zero j)⟩
        · have := h.start
          rw [hq] at this
          simp only [List.mem_append, List.mem_singleton, List.mem_cons] at this ⊢
          tauto
        · simp only [List.length_append, List.length_singleton, h.sum]
          push_cast
          ring
      obtain ⟨h4, e4⟩ := neighbors_inv hp0 (by simp) h0
      apply ih _ index1 h4
      rw [e4]
      simp only [List.length_append, List.length_singleton]
      omega

/-- Two duplicate-free enumerations of the same set have the same length. -/
theorem length_eq_of_same_members {l1 l2 : List Nat} (h1 : l1.Nodup) (h2 : l2.Nodup)
    (h : ∀ q, q ∈ l1 ↔ q ∈ l2) : l1.length = l2.length :=
  ((List.perm_ext_iff_of_nodup h1 h2).2 h).length_eq

/-- Looking at pixel `k` keeps the outer invariant. -/
theorem scanPixel_inv {nx ny : Nat} {img : Int → Int → Int} {t s : Int} {k : Nat}
    {V : Nat → Bool} {cs : List Cluster} (hk : k < nx * ny)
    (h : ScanRes nx ny img t s k V cs) :
    ∃ V' cs', scanPixel nx ny img t s (some (V, cs)) k = some (V', cs') ∧
      ScanRes nx ny img t s (k + 1) V' cs' := by
  unfold scanPixel
  simp only []
  by_cases hc : V k = true ∨ pixval ny img k < t
  · rw [if_pos hc]
    refine ⟨V, cs, rfl, h.inv, ?_, h.sound, h.complete, h.disjoint⟩
    intro p hp hpI
    rcases Nat.lt_succ_iff_lt_or_eq.1 hp with h1 | h1
    · exact h.seen p h1 hpI
    · subst h1
      rcases hc with hc | hc
      · exact hc
      · exact absurd hpI.2 (not_le.2 hc)
  · rw [if_neg hc]
    push_neg at hc
    obtain ⟨hVk, hge⟩ := hc
    have hVk' : V k = false := by simpa using hVk
    have hkI : InThr nx ny img t k := ⟨hk, hge⟩
    have h0 : BfsInv nx ny img t V k k 4
        { visited := setFlag V k true, q := [k], c := ⟨[], []⟩, sum := 0 } := by
      refine ⟨?_, ?_, ?_, ?_, ?_, ?_, ?_⟩
      · intro p
        simp only [setFlag, List.mem_singleton, List.not_mem_nil, false_or]
        by_cases hp : p = k
        · simp [hp]
        · simp [hp]
      · intro p hp
        simp only [List.mem_singleton, List.not_mem_nil, false_or] at hp
        subst hp
        exact Relation.ReflTransGen.refl
      · simp
      · intro p hp
        simp only [List.mem_singleton, List.not_mem_nil, false_or] at hp
        subst hp
        exact hVk'
      · intro p hp
        simp at hp
      · simp
      · simp
    obtain ⟨st, cur, hrun, hst, hq⟩ := bfs_inv hkI (nx * ny + 1) _ k h0 (by simp)
    rw [hrun]
    simp only []
    -- the pixel list is the reachability class of `k`
    have hvis : ∀ p, st.visited p = true ↔ (V p = true ∨ p ∈ st.c.pixels) := by
      intro p
      rw [hst.vis p, hq]
      simp
    have hnd : st.c.pixels.Nodup := by
      have := hst.nodup
      rw [hq] at this
      simpa using this
    have hfresh : ∀ p ∈ st.c.pixels, V p = false := fun p hp => hst.fresh p (Or.inl hp)
    have hcls : ∀ q, q ∈ st.c.pixels ↔ Reach nx ny img t k q := by
      intro q
      constructor
      · exact fun hq' => hst.reach q (Or.inl hq')
      · intro hr
        induction hr with
        | refl =>
          rcases hst.start with hs | hs
          · exact hs
          · rw [hq] at hs; simp at hs
        | tail _ hbc ih =>
          rcases hst.done _ ih _ hbc with hv | ⟨_, hn⟩
          · rcases (hvis _).1 hv with hv0 | hv0
            · have := h.inv.closed _ _ hv0 (conn_symm hbc)
              rw [hfresh _ ih] at this
              exact absurd this (by simp)
            · exact hv0
          · obtain ⟨j, hj, hd⟩ := adj4_dirNbr hbc.2.2
            exact absurd hd (hn j hj)
    have hinv' : ScanInv nx ny img t st.visited := by
      refine ⟨?_, ?_⟩
      · intro p hp
        rcases (hvis p).1 hp with hp | hp
        · exact h.inv.inthr p hp
        · exact reach_inThr hkI ((hcls p).1 hp)
      · intro p q hp hpq
        rcases (hvis p).1 hp with hp | hp
        · exact (hvis q).2 (Or.inl (h.inv.closed p q hp hpq))
        · exact (hvis q).2 (Or.inr ((hcls q).2 (((hcls p).1 hp).tail hpq)))
    have hseen' : ∀ p, p < k + 1 → InThr nx ny img t p → st.visited p = true := by
      intro p hp hpI
      rcases Nat.lt_succ_iff_lt_or_eq.1 hp with h1 | h1
      · exact (hvis p).2 (Or.inl (h.seen p h1 hpI))
      · subst h1
        exact (hvis p).2 (Or.inr ((hcls p).2 Relation.ReflTransGen.refl))
    have hsound_old : ∀ c ∈ cs, c.pixels.Nodup ∧ s ≤ (c.pixels.length : Int) ∧
        ∃ p0, st.visited p0 = true ∧ ∀ q, q ∈ c.pixels ↔ Reach nx ny img t p0 q := by
      intro c hc
      obtain ⟨h1, h2, p0, h3, h4⟩ := h.sound c hc
      exact ⟨h1, h2, p0, (hvis p0).2 (Or.inl h3), h4⟩
    have hsum : st.sum = (st.c.pixels.length : Int) := hst.sum
    by_cases hsz : st.sum < s
    · rw [if_pos hsz]
      refine ⟨st.visited, cs, rfl, hinv', hseen', hsound_old, ?_, h.disjoint⟩
      intro p0 hp0 l hl hlcls hls
      rcases (hvis p0).1 hp0 with hp0 | hp0
      · exact h.complete p0 hp0 l hl hlcls hls
      · exfalso
        have hk0 : Reach nx ny img t k p0 := (hcls p0).1 hp0
        have hsame : ∀ q, q ∈ l ↔ q ∈ st.c.pixels := by
          intro q
          rw [hlcls q, hcls q]
          exact ⟨fun hr => hk0.trans hr, fun hr => (reach_symm hk0).trans hr⟩
        have := length_eq_of_same_members hl hnd hsame
        rw [hsum] at hsz
        rw [this] at hls
        exact absurd hls (not_le.2 hsz)
    · rw [if_neg hsz]
      refine ⟨st.visited, cs ++ [st.c], rfl, hinv', hseen', ?_, ?_, ?_⟩
      · intro c hc
        rcases List.mem_append.1 hc with hc | hc
        · exact hsound_old c hc
        · rw [List.mem_singleton] at hc
          subst hc
          refine ⟨hnd, ?_, k, hseen' k (Nat.lt_succ_self k) hkI, hcls⟩
          rw [← hsum]
          exact not_lt.1 hsz
      · intro p0 hp0 l hl hlcls hls
        rcases (hvis p0).1 hp0 with hp0 | hp0
        · obtain ⟨c, hc, hcc⟩ := h.complete p0 hp0 l hl hlcls hls
          exact ⟨c, List.mem_append.2 (Or.inl hc), hcc⟩
        · refine ⟨st.c, List.mem_append.2 (Or.inr (List.mem_singleton.2 rfl)), ?_⟩
          have hk0 : Reach nx ny img t k p0 := (hcls p0).1 hp0
          intro q
          rw [hcls q]
          exact ⟨fun hr => (reach_symm hk0).trans hr, fun hr => hk0.trans hr⟩
      · rw [List.pairwise_append]
        refine ⟨h.disjoint, List.pairwise_singleton _ _, ?_⟩
        intro c hc d hd q hqc hqd
        rw [List.mem_singleton] at hd
        subst hd
        obtain ⟨_, _, p0, hp0, hcc⟩ := h.sound c hc
        have hVq : V q = true := by
          have hr : Reach nx ny img t p0 q := (hcc q).1 hqc
          clear hqc hqd
          induction hr with
          | refl => exact hp0
          | tail _ hbc ih => exact h.inv.closed _ _ ih hbc
        rw [hfresh q hqd] at hVq
        exact absurd hVq (by simp)

/-- The loop over all pixels runs to completion and establishes the outer
invariant for every prefix of the pixels. -/
theorem scan_upto {nx ny : Nat} {img : Int → Int → Int} {t s : Int} :
    ∀ k, k ≤ nx * ny → ∃ V cs,
      (List.range k).foldl (scanPixel nx ny img t s) (some (fun _ => false, [])) =
        some (V, cs) ∧ ScanRes nx ny img t s k V cs := by
  intro k
  induction k with
  | zero =>
    intro _
    refine ⟨fun _ => false, [], rfl, ⟨?_, ?_⟩, ?_, ?_, ?_, List.Pairwise.nil⟩
    · intro p hp; simp at hp
    · intro p q hp; simp at hp
    · intro p hp; exact absurd hp (Nat.not_lt_zero p)
    · intro c hc; simp at hc
    · intro p0 hp0; simp at hp0
  | succ k ih =>
    intro hk
    obtain ⟨V, cs, hrun, hres⟩ := ih (Nat.le_of_succ_le hk)
    obtain ⟨V', cs', hstep, hres'⟩ := scanPixel_inv (Nat.lt_of_succ_le hk) hres
    refine ⟨V', cs', ?_, hres'⟩
    rw [List.range_succ, List.foldl_append, hrun]
    simpa using hstep

/-- The call of `construct` returns, and the flags and clusters it ends with
satisfy the outer invariant for the whole grid. -/
theorem construct_scanRes (nx ny : Nat) (img : Int → Int → Int) (t s : Int) :
    ∃ V cs, construct nx ny img t s = some cs ∧ ScanRes nx ny img t s (nx * ny) V cs := by
  obtain ⟨V, cs, hrun, hres⟩ := @scan_upto nx ny img t s (nx * ny) le_rfl
  exact ⟨V, cs, by unfold construct; rw [hrun]; rfl, hres⟩

/-- The pixel sets of the clusters returned by `construct` are the maximal
4-connected sets of at least `s` pixels. -/
theorem construct_components {nx ny : Nat} {img : Int → Int → Int} {t s : Int} {V : Nat → Bool}
    {cs : List Cluster} (hres : ScanRes nx ny img t s (nx * ny) V cs) (S : Finset Nat) :
    (∃ c ∈ cs, c.pixels.toFinset = S) ↔
      (IsComponent nx ny img t S ∧ s ≤ (S.card : Int)) := by
  constructor
  · rintro ⟨c, hc, rfl⟩
    obtain ⟨hnd, hlen, p0, hp0, hcls⟩ := hres.sound c hc
    refine ⟨isComponent_iff_class.2 ⟨p0, hres.inv.inthr p0 hp0, fun q => ?_⟩, ?_⟩
    · rw [List.mem_toFinset]; exact hcls q
    · rw [List.toFinset_card_of_nodup hnd]; exact hlen
  · rintro ⟨hcomp, hcard⟩
    obtain ⟨p0, hp0, hcls⟩ := isComponent_iff_class.1 hcomp
    have hl : ∀ q, q ∈ S.toList ↔ Reach nx ny img t p0 q := fun q => by
      rw [Finset.mem_toList]; exact hcls q
    obtain ⟨c, hc, hcc⟩ := hres.complete p0 (hres.seen p0 hp0.1 hp0) S.toList
      (Finset.nodup_toList S) hl (by rw [Finset.length_toList]; exact hcard)
    refine ⟨c, hc, ?_⟩
    ext q
    rw [List.mem_toFinset, hcc q, hcls q]

end Clusters

/-- **C1.** For every grid, pixel threshold and size threshold the call of
`Clusters::construct` (floodComponents) returns, and the pixel lists of the
clusters it returns, taken as sets, are exactly the maximal 4-connected sets of
pixels of value `>= pixel_threshold` that contain at least `size_threshold`
pixels: a set is the pixel set of a returned cluster if and only if it is such
a maximal set. -/
theorem C1_floodComponents_maximal_connected (nx ny : Nat) (img : Int → Int → Int)
    (pixel_threshold size_threshold : Int) :
    ∃ cs, Clusters.construct nx ny img pixel_threshold size_threshold = some cs ∧
      ∀ S : Finset Nat, (∃ c ∈ cs, c.pixels.toFinset = S) ↔
        (IsComponent nx ny img pixel_threshold S ∧ size_threshold ≤ (S.card : Int)) := by
  obtain ⟨V, cs, hrun, hres⟩ :=
    Clusters.construct_scanRes nx ny img pixel_threshold size_threshold
  exact ⟨cs, hrun, Clusters.construct_components hres⟩

end Cellular

namespace Cellular

theorem mem_unionPixels {cs : List Cluster} {p : Nat} :
    p ∈ unionPixels cs ↔ ∃ c ∈ cs, p ∈ c.pixels := by
  induction cs with
  | nil => simp [unionPixels]
  | cons c cs ih =>
    have e : unionPixels (c :: cs) = c.pixels.toFinset ∪ unionPixels cs := rfl
    rw [e, Finset.mem_union, ih, List.mem_toFinset]
    simp

theorem inThr_mono {nx ny : Nat} {img : Int → Int → Int} {t1 t2 : Int} (h : t1 ≤ t2) {p : Nat}
    (hp : InThr nx ny img t2 p) : InThr nx ny img t1 p :=
  ⟨hp.1, le_trans h hp.2⟩

theorem reach_mono {nx ny : Nat} {img : Int → Int → Int} {t1 t2 : Int} (h : t1 ≤ t2) {p q : Nat}
    (hr : Reach nx ny img t2 p q) : Reach nx ny img t1 p q := by
  induction hr with
  | refl => exact Relation.ReflTransGen.refl
  | tail _ hbc ih => exact ih.tail ⟨inThr_mono h hbc.1, inThr_mono h hbc.2.1, hbc.2.2⟩

/-- The reachability class of an in-threshold pixel has a duplicate-free
enumeration. -/
theorem class_enum {nx ny : Nat} {img : Int → Int → Int} {t : Int} {p : Nat}
    (hp : InThr nx ny img t p) :
    ∃ l : List Nat, l.Nodup ∧ ∀ q, q ∈ l ↔ Reach nx ny img t p q := by
  classical
  refine ⟨((Finset.range (nx * ny)).filter (fun q => Reach nx ny img t p q)).toList,
    Finset.nodup_toList _, fun q => ?_⟩
  rw [Finset.mem_toList, Finset.mem_filter, Finset.mem_range]
  exact ⟨fun h => h.2, fun h => ⟨(reach_inThr hp h).1, h⟩⟩

/-- A duplicate-free list whose members all occur in a second duplicate-free
list is not longer than it. -/
theorem length_le_of_members {l1 l2 : List Nat} (h1 : l1.Nodup) (h : ∀ q, q ∈ l1 → q ∈ l2) :
    l1.length ≤ l2.length := by
  have hsub : l1.toFinset ⊆ l2.toFinset := fun x hx =>
    List.mem_toFinset.2 (h x (List.mem_toFinset.1 hx))
  calc l1.length = l1.toFinset.card := (List.toFinset_card_of_nodup h1).symm
    _ ≤ l2.toFinset.card := Finset.card_le_card hsub
    _ ≤ l2.length := List.toFinset_card_le l2

namespace Clusters

/-- A pixel kept at the higher threshold is kept at the lower one. -/
theorem kept_mono {nx ny : Nat} {img : Int → Int → Int} {t1 t2 s : Int} (h : t1 ≤ t2)
    {V1 V2 : Nat → Bool} {cs1 cs2 : List Cluster}
    (h1 : ScanRes nx ny img t1 s (nx * ny) V1 cs1)
    (h2 : ScanRes nx ny img t2 s (nx * ny) V2 cs2) {p : Nat}
    (hp : ∃ c ∈ cs2, p ∈ c.pixels) : ∃ c ∈ cs1, p ∈ c.pixels := by
  obtain ⟨c, hc, hpc⟩ := hp
  obtain ⟨hnd, hlen, p0, hp0, hcls⟩ := h2.sound c hc
  have hp0I : InThr nx ny img t2 p0 := h2.inv.inthr p0 hp0
  have hpI : InThr nx ny img t1 p := inThr_mono h (reach_inThr hp0I ((hcls p).1 hpc))
  obtain ⟨l, hl, hlcls⟩ := class_enum hpI
  have hsub : ∀ q, q ∈ c.pixels → q ∈ l := by
    intro q hq
    rw [hlcls q]
    exact reach_mono h ((reach_symm ((hcls p).1 hpc)).trans ((hcls q).1 hq))
  have hle := length_le_of_members hnd hsub
  obtain ⟨c1, hc1, hcc1⟩ := h1.complete p (h1.seen p hpI.1 hpI) l hl hlcls
    (le_trans hlen (by exact_mod_cast hle))
  exact ⟨c1, hc1, (hcc1 p).2 Relation.ReflTransGen.refl⟩

end Clusters

/-- **C8.** For a fixed grid and size threshold, lowering the pixel threshold
from `t2` to `t1 <= t2` keeps every pixel: the union of the pixel lists of
`construct` at `t2` is contained in the union at `t1`, so the number of pixels
in the union does not decrease. -/
theorem C8_flood_union_monotone (nx ny : Nat) (img : Int → Int → Int) (t1 t2 s : Int)
    (h : t1 ≤ t2) :
    ∃ cs1 cs2, Clusters.construct nx ny img t1 s = some cs1 ∧
      Clusters.construct nx ny img t2 s = some cs2 ∧
      unionPixels cs2 ⊆ unionPixels cs1 ∧
      (unionPixels cs2).card ≤ (unionPixels cs1).card := by
  obtain ⟨V1, cs1, hrun1, hres1⟩ := Clusters.construct_scanRes nx ny img t1 s
  obtain ⟨V2, cs2, hrun2, hres2⟩ := Clusters.construct_scanRes nx ny img t2 s
  have hsub : unionPixels cs2 ⊆ unionPixels cs1 := fun p hp =>
    mem_unionPixels.2 (Clusters.kept_mono h hres1 hres2 (mem_unionPixels.1 hp))
  exact ⟨cs1, cs2, hrun1, hrun2, hsub, Finset.card_le_card hsub⟩

/-- Instance of C8 on the 2 × 2 grid with values 3, 1, 0, 3 and thresholds 1 and 2. -/
theorem C8_flood_union_monotone_witness :
    (1 : Int) ≤ 2 ∧
    ∃ cs1 cs2,
      Clusters.construct 2 2 (fun ix iy => if ix = iy then 3 else if ix = 0 then 1 else 0) 1 1
        = some cs1 ∧
      Clusters.construct 2 2 (fun ix iy => if ix = iy then 3 else if ix = 0 then 1 else 0) 2 1
        = some cs2 ∧
      unionPixels cs2 ⊆ unionPixels cs1 ∧
      (unionPixels cs2).card ≤ (unionPixels cs1).card :=
  ⟨by decide, C8_flood_union_monotone 2 2 _ 1 2 1 (by decide)⟩

end Cellular

namespace Cellular

/-! ## Tops of a union-find forest -/

theorem topD_root {v_next : Nat → Int} {d p r : Nat} (h : TopD v_next d p r) :
    v_next r = (r : Int) := by
  induction h with
  | root h => exact h
  | step _ _ _ ih => exact ih

theorem topD_det {v_next : Nat → Int} {d p r : Nat} (h : TopD v_next d p r) :
    ∀ {d' r' : Nat}, TopD v_next d' p r' → d = d' ∧ r = r' := by
  induction h with
  | root h =>
    intro d' r' h'
    cases h' with
    | root _ => exact ⟨rfl, rfl⟩
    | step hne _ _ => exact absurd h hne
  | step hne _ _ ih =>
    intro d' r' h'
    cases h' with
    | root h'' => exact absurd h'' hne
    | step _ _ ht =>
      obtain ⟨h1, h2⟩ := ih ht
      exact ⟨by rw [h1], h2⟩

theorem top_det {v_next : Nat → Int} {p r r' : Nat} (h : Top v_next p r) (h' : Top v_next p r') :
    r = r' := by
  obtain ⟨d, hd⟩ := h
  obtain ⟨d', hd'⟩ := h'
  exact (topD_det hd hd').2

theorem top_root {v_next : Nat → Int} {p r : Nat} (h : Top v_next p r) : v_next r = (r : Int) := by
  obtain ⟨d, hd⟩ := h
  exact topD_root hd

theorem top_self {v_next : Nat → Int} {r : Nat} (h : v_next r = (r : Int)) : Top v_next r r :=
  ⟨0, TopD.root h⟩

/-- The top of a top pixel is the pixel itself. -/
theorem top_of_root {v_next : Nat → Int} {r r' : Nat} (h : v_next r = (r : Int))
    (h' : Top v_next r r') : r' = r :=
  top_det h' (top_self h)

/-- With enough fuel `get_top` returns the top. -/
theorem get_top_of_topD {v_next : Nat → Int} {d p r : Nat} (h : TopD v_next d p r) :
    ∀ fuel, d ≤ fuel → get_top v_next fuel p = some r := by
  induction h with
  | root h =>
    intro fuel _
    unfold get_top
    rw [if_pos h]
  | step hne h0 _ ih =>
    intro fuel hf
    cases fuel with
    | zero => omega
    | succ fuel =>
      unfold get_top
      rw [if_neg hne, if_neg (not_lt.2 h0)]
      exact ih fuel (by omega)

/-- Whatever `get_top` returns is the top. -/
theorem top_of_get_top {v_next : Nat → Int} :
    ∀ (fuel p r : Nat), get_top v_next fuel p = some r → Top v_next p r := by
  intro fuel
  induction fuel with
  | zero =>
    intro p r h
    unfold get_top at h
    by_cases h1 : v_next p = (p : Int)
    · rw [if_pos h1] at h
      cases h
      exact top_self h1
    · rw [if_neg h1] at h
      by_cases h2 : v_next p < 0
      · rw [if_pos h2] at h; cases h
      · rw [if_neg h2] at h; cases h
  | succ fuel ih =>
    intro p r h
    unfold get_top at h
    by_cases h1 : v_next p = (p : Int)
    · rw [if_pos h1] at h
      cases h
      exact top_self h1
    · rw [if_neg h1] at h
      by_cases h2 : v_next p < 0
      · rw [if_pos h2] at h; cases h
      · rw [if_neg h2] at h
        obtain ⟨d, hd⟩ := ih _ _ h
        exact ⟨d + 1, TopD.step h1 (not_lt.1 h2) hd⟩

theorem setInt_same (a : Nat → Int) (i : Nat) (x : Int) : setInt a i x i = x := by
  simp [setInt]

theorem setInt_other (a : Nat → Int) {i k : Nat} (x : Int) (h : k ≠ i) :
    setInt a i x k = a k := by
  simp [setInt, h]

/-- The top of a flooded pixel is flooded. -/
theorem topD_flooded {n : Nat} {v_next : Nat → Int} {F : Nat → Prop} {R : Nat → Nat → Prop}
    (hu : UF n v_next F R) {d p r : Nat} (h : TopD v_next d p r) (hp : F p) : F r := by
  induction h with
  | root _ => exact hp
  | step _ _ _ ih => exact ih (hu.closed _ hp)

theorem top_flooded {n : Nat} {v_next : Nat → Int} {F : Nat → Prop} {R : Nat → Nat → Prop}
    (hu : UF n v_next F R) {p r : Nat} (h : Top v_next p r) (hp : F p) : F r := by
  obtain ⟨d, hd⟩ := h
  exact topD_flooded hu hd hp

/-- A pixel with a top is flooded. -/
theorem flooded_of_top {n : Nat} {v_next : Nat → Int} {F : Nat → Prop} {R : Nat → Nat → Prop}
    (hu : UF n v_next F R) {p r : Nat} (h : Top v_next p r) : F p := by
  obtain ⟨d, hd⟩ := h
  cases hd with
  | root h => exact (hu.flooded _).2 (by rw [h]; exact Int.ofNat_nonneg _)
  | step _ h0 _ => exact (hu.flooded _).2 h0

/-- The pixels met on the way to the top are pairwise distinct. -/
theorem topD_chain {n : Nat} {v_next : Nat → Int} {F : Nat → Prop} {R : Nat → Nat → Prop}
    (hu : UF n v_next F R) {d p r : Nat} (h : TopD v_next d p r) (hp : F p) :
    ∃ l : List Nat, l.length = d + 1 ∧ l.Nodup ∧
      ∀ x ∈ l, F x ∧ ∃ d', d' ≤ d ∧ TopD v_next d' x r := by
  induction h with
  | @root r h =>
    exact ⟨[r], rfl, List.nodup_singleton _, fun x hx => by
      rw [List.mem_singleton] at hx
      subst hx
      exact ⟨hp, 0, le_rfl, TopD.root h⟩⟩
  | @step d p r hne h0 ht ih =>
    obtain ⟨l, hlen, hnd, hl⟩ := ih (hu.closed _ hp)
    refine ⟨p :: l, by simp [hlen], List.nodup_cons.2 ⟨?_, hnd⟩, ?_⟩
    · intro hmem
      obtain ⟨_, d', hd', ht'⟩ := hl p hmem
      have := (topD_det ht' (TopD.step hne h0 ht)).1
      omega
    · intro x hx
      rcases List.mem_cons.1 hx with hx | hx
      · subst hx
        exact ⟨hp, d + 1, le_rfl, TopD.step hne h0 ht⟩
      · obtain ⟨hF, d', hd', ht'⟩ := hl x hx
        exact ⟨hF, d', by omega, ht'⟩

/-- In a forest on a grid of `n` pixels a top is reached after fewer than `n` links. -/
theorem topD_lt {n : Nat} {v_next : Nat → Int} {F : Nat → Prop} {R : Nat → Nat → Prop}
    (hu : UF n v_next F R) {d p r : Nat} (h : TopD v_next d p r) (hp : F p) : d < n := by
  obtain ⟨l, hlen, hnd, hl⟩ := topD_chain hu h hp
  have := nodup_length_le hnd (fun x hx => hu.bound x (hl x hx).1)
  omega

/-- In a forest on a grid of `n` pixels `get_top` with fuel `n` returns the
top of every flooded pixel. -/
theorem get_top_eq {n : Nat} {v_next : Nat → Int} {F : Nat → Prop} {R : Nat → Nat → Prop}
    (hu : UF n v_next F R) {p : Nat} (hp : F p) :
    ∃ r, get_top v_next n p = some r ∧ Top v_next p r ∧ F r := by
  obtain ⟨r, d, hd⟩ := hu.top p hp
  exact ⟨r, get_top_of_topD hd n (le_of_lt (topD_lt hu hd hp)), ⟨d, hd⟩, topD_flooded hu hd hp⟩

/-- Two pixels with known tops have the same top exactly when these coincide. -/
theorem sameTop_iff {v_next : Nat → Int} {p q tp tq : Nat} (hp : Top v_next p tp)
    (hq : Top v_next q tq) : SameTop v_next p q ↔ tp = tq := by
  constructor
  · rintro ⟨r, h1, h2⟩
    rw [top_det hp h1, top_det hq h2]
  · intro h
    subst h
    exact ⟨tp, hp, hq⟩

/-! ### Linking one top under another -/

theorem topD_link_other {v_next : Nat → Int} {ra : Nat} (rb : Int) (hra : v_next ra = (ra : Int))
    {d p r : Nat} (h : TopD v_next d p r) (hr : r ≠ ra) :
    TopD (setInt v_next ra rb) d p r := by
  induction h with
  | root h =>
    exact TopD.root (by rw [setInt_other _ _ hr]; exact h)
  | @step d p r hne h0 _ ih =>
    have hp : p ≠ ra := fun e => hne (by rw [e]; exact hra)
    have e : setInt v_next ra rb p = v_next p := setInt_other _ _ hp
    exact TopD.step (by rw [e]; exact hne) (by rw [e]; exact h0) (by rw [e]; exact ih hr)

theorem topD_link_under {v_next : Nat → Int} {ra rb : Nat} (hra : v_next ra = (ra : Int))
    (hrb : v_next rb = (rb : Int)) (hne : ra ≠ rb) {d p r : Nat} (h : TopD v_next d p r)
    (hr : r = ra) : TopD (setInt v_next ra (rb : Int)) (d + 1) p rb := by
  induction h with
  | root h =>
    subst hr
    refine TopD.step ?_ ?_ ?_
    · rw [setInt_same]
      exact fun e => hne (Int.ofNat_inj.1 e).symm
    · rw [setInt_same]; exact Int.ofNat_nonneg _
    · rw [setInt_same, Int.toNat_ofNat]
      exact TopD.root (by rw [setInt_other _ _ (Ne.symm hne)]; exact hrb)
  | @step d p r hne' h0 _ ih =>
    have hp : p ≠ ra := fun e => hne' (by rw [e]; exact hra)
    have e : setInt v_next ra (rb : Int) p = v_next p := setInt_other _ _ hp
    exact TopD.step (by rw [e]; exact hne') (by rw [e]; exact h0) (by rw [e]; exact ih hr)

/-- Tops after the link `next[ra] = rb` of the top `ra` under the top `rb`. -/
theorem top_link {v_next : Nat → Int} {ra rb : Nat} (hra : v_next ra = (ra : Int))
    (hrb : v_next rb = (rb : Int)) (hne : ra ≠ rb) {p t : Nat} (hp : Top v_next p t) :
    Top (setInt v_next ra (rb : Int)) p (if t = ra then rb else t) := by
  obtain ⟨d, hd⟩ := hp
  by_cases ht : t = ra
  · rw [if_pos ht]
    exact ⟨d + 1, topD_link_under hra hrb hne hd ht⟩
  · rw [if_neg ht]
    exact ⟨d, topD_link_other _ hra hd ht⟩

/-- Adding the pair `{a, b}` to a relation: what becomes reachable. -/
theorem reflTransGen_pair {R : Nat → Nat → Prop} {a b x y : Nat} :
    Relation.ReflTransGen (fun u w => R u w ∨ Pair a b u w) x y ↔
      (Relation.ReflTransGen R x y ∨
        (Relation.ReflTransGen R x a ∧ Relation.ReflTransGen R b y) ∨
        (Relation.ReflTransGen R x b ∧ Relation.ReflTransGen R a y)) := by
  constructor
  · intro h
    induction h with
    | refl => exact Or.inl Relation.ReflTransGen.refl
    | tail _ hbc ih =>
      rename_i z y
      rcases hbc with hbc | ⟨h1, h2⟩ | ⟨h1, h2⟩
      · rcases ih with ih | ⟨i1, i2⟩ | ⟨i1, i2⟩
        · exact Or.inl (ih.tail hbc)
        · exact Or.inr (Or.inl ⟨i1, i2.tail hbc⟩)
        · exact Or.inr (Or.inr ⟨i1, i2.tail hbc⟩)
      · subst h1 h2
        rcases ih with ih | ⟨i1, _⟩ | ⟨i1, _⟩
        · exact Or.inr (Or.inl ⟨ih, Relation.ReflTransGen.refl⟩)
        · exact Or.inr (Or.inl ⟨i1, Relation.ReflTransGen.refl⟩)
        · exact Or.inl i1
      · subst h1 h2
        rcases ih with ih | ⟨i1, _⟩ | ⟨i1, _⟩
        · exact Or.inr (Or.inr ⟨ih, Relation.ReflTransGen.refl⟩)
        · exact Or.inl i1
        · exact Or.inr (Or.inr ⟨i1, Relation.ReflTransGen.refl⟩)
  · have hmono : ∀ {u w : Nat}, Relation.ReflTransGen R u w →
        Relation.ReflTransGen (fun u w => R u w ∨ Pair a b u w) u w := fun h =>
      Relation.ReflTransGen.mono (fun _ _ h => Or.inl h) h
    have hab : Relation.ReflTransGen (fun u w => R u w ∨ Pair a b u w) a b :=
      Relation.ReflTransGen.single (Or.inr (Or.inl ⟨rfl, rfl⟩))
    have hba : Relation.ReflTransGen (fun u w => R u w ∨ Pair a b u w) b a :=
      Relation.ReflTransGen.single (Or.inr (Or.inr ⟨rfl, rfl⟩))
    rintro (h | ⟨h1, h2⟩ | ⟨h1, h2⟩)
    · exact hmono h
    · exact ((hmono h1).trans hab).trans (hmono h2)
    · exact ((hmono h1).trans hba).trans (hmono h2)

/-- Linking the top of `a` and the top of `b`, which differ, merges their
classes: the forest then represents the relation with the pair `{a, b}` added.
`ra` is the top that is put under `rb`. -/
theorem uf_link {n : Nat} {v_next : Nat → Int} {F : Nat → Prop} {R : Nat → Nat → Prop}
    (hu : UF n v_next F R) {a b ra rb : Nat} (ha : F a) (hb : F b) (hne : ra ≠ rb)
    (htop : (Top v_next a ra ∧ Top v_next b rb) ∨ (Top v_next a rb ∧ Top v_next b ra)) :
    UF n (setInt v_next ra (rb : Int)) F (fun u w => R u w ∨ Pair a b u w) := by
  have hra : v_next ra = (ra : Int) := by
    rcases htop with h | h
    · exact top_root h.1
    · exact top_root h.2
  have hrb : v_next rb = (rb : Int) := by
    rcases htop with h | h
    · exact top_root h.2
    · exact top_root h.1
  have hFra : F ra := (hu.flooded _).2 (by rw [hra]; exact Int.ofNat_nonneg _)
  have hFrb : F rb := (hu.flooded _).2 (by rw [hrb]; exact Int.ofNat_nonneg _)
  refine ⟨?_, hu.bound, ?_, ?_, ?_, ?_⟩
  · intro p
    by_cases hp : p = ra
    · subst hp
      rw [setInt_same]
      exact ⟨fun _ => Int.ofNat_nonneg _, fun _ => hFra⟩
    · rw [setInt_other _ _ hp]
      exact hu.flooded p
  · intro p hp
    by_cases hpa : p = ra
    · subst hpa
      rw [setInt_same, Int.toNat_ofNat]
      exact hFrb
    · rw [setInt_other _ _ hpa]
      exact hu.closed p hp
  · intro p hp
    obtain ⟨t, ht⟩ := hu.top p hp
    exact ⟨_, top_link hra hrb hne ht⟩
  · rintro x y (h | ⟨h1, h2⟩ | ⟨h1, h2⟩)
    · exact hu.rel x y h
    · subst h1 h2; exact ⟨ha, hb⟩
    · subst h1 h2; exact ⟨hb, ha⟩
  · intro p q hp hq
    obtain ⟨tp, htp⟩ := hu.top p hp
    obtain ⟨tq, htq⟩ := hu.top q hq
    rw [sameTop_iff (top_link hra hrb hne htp) (top_link hra hrb hne htq),
      reflTransGen_pair, ← hu.conn p q hp hq, ← hu.conn p a hp ha, ← hu.conn b q hb hq,
      ← hu.conn p b hp hb, ← hu.conn a q ha hq, sameTop_iff htp htq]
    rcases htop with ⟨h1, h2⟩ | ⟨h1, h2⟩
    · rw [sameTop_iff htp h1, sameTop_iff h2 htq, sameTop_iff htp h2, sameTop_iff h1 htq]
      split_ifs <;> omega
    · rw [sameTop_iff htp h1, sameTop_iff h2 htq, sameTop_iff htp h2, sameTop_iff h1 htq]
      split_ifs <;> omega

/-- A pair of pixels that already have the same top can be added to the
relation without changing the forest. -/
theorem uf_same {n : Nat} {v_next : Nat → Int} {F : Nat → Prop} {R : Nat → Nat → Prop}
    (hu : UF n v_next F R) {a b : Nat} (ha : F a) (hb : F b) (hab : SameTop v_next a b) :
    UF n v_next F (fun u w => R u w ∨ Pair a b u w) := by
  refine ⟨hu.flooded, hu.bound, hu.closed, hu.top, ?_, ?_⟩
  · rintro x y (h | ⟨h1, h2⟩ | ⟨h1, h2⟩)
    · exact hu.rel x y h
    · subst h1 h2; exact ⟨ha, hb⟩
    · subst h1 h2; exact ⟨hb, ha⟩
  · intro p q hp hq
    have h1 : Relation.ReflTransGen R a b := (hu.conn a b ha hb).1 hab
    have h2 : Relation.ReflTransGen R b a :=
      (hu.conn b a hb ha).1 (by obtain ⟨r, x, y⟩ := hab; exact ⟨r, y, x⟩)
    rw [hu.conn p q hp hq, reflTransGen_pair]
    constructor
    · exact fun h => Or.inl h
    · rintro (h | ⟨i1, i2⟩ | ⟨i1, i2⟩)
      · exact h
      · exact (i1.trans h1).trans i2
      · exact (i1.trans h2).trans i2

/-- Replacing the relation by an equivalent one. -/
theorem uf_congr {n : Nat} {v_next : Nat → Int} {F : Nat → Prop} {R R' : Nat → Nat → Prop}
    (hu : UF n v_next F R) (h : ∀ x y, R x y ↔ R' x y) : UF n v_next F R' := by
  have e : R = R' := by
    funext x y
    exact propext (h x y)
  rw [← e]
  exact hu

/-! ### A newly flooded pixel -/

theorem topD_new {n : Nat} {v_next : Nat → Int} {F : Nat → Prop} {R : Nat → Nat → Prop}
    (hu : UF n v_next F R) {a : Nat} (ha : ¬ F a) {d p r : Nat} (h : TopD v_next d p r)
    (hp : F p) : TopD (setInt v_next a (a : Int)) d p r := by
  induction h with
  | @root r h =>
    have hr : r ≠ a := fun e => ha (e ▸ hp)
    exact TopD.root (by rw [setInt_other _ _ hr]; exact h)
  | @step d p r hne h0 _ ih =>
    have hpa : p ≠ a := fun e => ha (e ▸ hp)
    have e : setInt v_next a (a : Int) p = v_next p := setInt_other _ _ hpa
    exact TopD.step (by rw [e]; exact hne) (by rw [e]; exact h0)
      (by rw [e]; exact ih (hu.closed _ hp))

/-- Making the pixel `a`, not yet flooded, a top of its own adds the class
`{a}` to the forest. -/
theorem uf_new {n : Nat} {v_next : Nat → Int} {F : Nat → Prop} {R : Nat → Nat → Prop}
    (hu : UF n v_next F R) {a : Nat} (ha : ¬ F a) (han : a < n) :
    UF n (setInt v_next a (a : Int)) (fun x => F x ∨ x = a) R := by
  have htop : ∀ p, F p → ∀ r, Top v_next p r → Top (setInt v_next a (a : Int)) p r :=
    fun p hp r ⟨d, hd⟩ => ⟨d, topD_new hu ha hd hp⟩
  have hself : Top (setInt v_next a (a : Int)) a a := top_self (setInt_same _ _ _)
  have hnoR : ∀ {x y : Nat}, Relation.ReflTransGen R x y → x = a ∨ y = a → x = y := by
    intro x y h
    induction h with
    | refl => exact fun _ => rfl
    | @tail z y hxz hzy ih =>
      intro hxy
      rcases hxy with hx | hy
      · have := ih (Or.inl hx)
        subst this
        exact absurd (hx ▸ (hu.rel _ _ hzy).1) ha
      · exact absurd (hy ▸ (hu.rel _ _ hzy).2) ha
  refine ⟨?_, ?_, ?_, ?_, ?_, ?_⟩
  · intro p
    by_cases hp : p = a
    · subst hp
      rw [setInt_same]
      exact ⟨fun _ => Int.ofNat_nonneg _, fun _ => Or.inr rfl⟩
    · rw [setInt_other _ _ hp, ← hu.flooded p]
      exact ⟨fun h => h.resolve_right hp, Or.inl⟩
  · rintro p (hp | hp)
    · exact hu.bound p hp
    · subst hp; exact han
  · rintro p (hp | hp)
    · have hpa : p ≠ a := fun e => ha (e ▸ hp)
      rw [setInt_other _ _ hpa]
      exact Or.inl (hu.closed p hp)
    · subst hp
      rw [setInt_same, Int.toNat_ofNat]
      exact Or.inr rfl
  · rintro p (hp | hp)
    · obtain ⟨r, hr⟩ := hu.top p hp
      exact ⟨r, htop p hp r hr⟩
    · subst hp; exact ⟨p, hself⟩
  · intro x y h
    exact ⟨Or.inl (hu.rel x y h).1, Or.inl (hu.rel x y h).2⟩
  · rintro p q (hp | hp) (hq | hq)
    · obtain ⟨tp, htp⟩ := hu.top p hp
      obtain ⟨tq, htq⟩ := hu.top q hq
      rw [sameTop_iff (htop p hp tp htp) (htop q hq tq htq), ← hu.conn p q hp hq,
        sameTop_iff htp htq]
    · subst hq
      obtain ⟨tp, htp⟩ := hu.top p hp
      have hpq : p ≠ q := fun e => ha (e ▸ hp)
      have htq : tp ≠ q := fun e => ha (e ▸ top_flooded hu htp hp)
      rw [sameTop_iff (htop p hp tp htp) hself]
      exact ⟨fun e => absurd e htq, fun h => absurd (hnoR h (Or.inr rfl)) hpq⟩
    · subst hp
      obtain ⟨tq, htq⟩ := hu.top q hq
      have hpq : p ≠ q := fun e => ha (e ▸ hq)
      have htq' : p ≠ tq := fun e => ha (e ▸ top_flooded hu htq hq)
      rw [sameTop_iff hself (htop q hq tq htq)]
      exact ⟨fun e => absurd e htq', fun h => absurd (hnoR h (Or.inl rfl)) hpq⟩
    · subst hp hq
      exact ⟨fun _ => Relation.ReflTransGen.refl, fun _ => ⟨_, hself, hself⟩⟩

/-! ### Adjacency while a pixel is being flooded -/

theorem adj4_irrefl {nx ny p : Nat} : ¬ Adj4 nx ny p p := by
  rintro ⟨_, _, h⟩
  omega

/-- Before any direction is handled the pixel being flooded is isolated. -/
theorem relH_init {nx ny : Nat} {dxl dyl : List Int} {F : Nat → Prop} {a : Nat} (ha : ¬ F a)
    (x y : Nat) :
    AdjF nx ny F x y ↔ RelH nx ny dxl dyl (fun x => F x ∨ x = a) a (fun _ => False) x y := by
  constructor
  · rintro ⟨hx, hy, hxy⟩
    refine ⟨Or.inl hx, Or.inl hy, hxy, fun e => absurd (e ▸ hx) ha, fun e => absurd (e ▸ hy) ha⟩
  · rintro ⟨hx, hy, hxy, h1, h2⟩
    have hxa : x ≠ a := fun e => by obtain ⟨d, hd, _⟩ := h1 e; exact hd
    have hya : y ≠ a := fun e => by obtain ⟨d, hd, _⟩ := h2 e; exact hd
    exact ⟨hx.resolve_right hxa, hy.resolve_right hya, hxy⟩

/-- Once all four directions are handled the relation is plain adjacency. -/
theorem relH_final {nx ny : Nat} {dxl dyl : List Int} (hdirs : Dirs4 dxl dyl) {F : Nat → Prop}
    {a : Nat} {H : Nat → Prop} (hH : ∀ d, d < 4 → H d) (x y : Nat) :
    RelH nx ny dxl dyl F a H x y ↔ AdjF nx ny F x y := by
  constructor
  · rintro ⟨hx, hy, hxy, _, _⟩
    exact ⟨hx, hy, hxy⟩
  · rintro ⟨hx, hy, hxy⟩
    refine ⟨hx, hy, hxy, ?_, ?_⟩
    · intro e
      subst e
      obtain ⟨_, d, hd, hdn⟩ := (hdirs nx ny x y).1 hxy
      exact ⟨d, hH d hd, hdn⟩
    · intro e
      subst e
      obtain ⟨_, d, hd, hdn⟩ := (hdirs nx ny y x).1 (adj4_symm hxy)
      exact ⟨d, hH d hd, hdn⟩

/-- Handling a direction in which there is no flooded pixel changes nothing. -/
theorem relH_none {nx ny : Nat} {dxl dyl : List Int} {F : Nat → Prop} {a d : Nat}
    {H : Nat → Prop}
    (hno : ∀ y, DirNbr nx ny (dxl.getD d 0) (dyl.getD d 0) a y → ¬ F y) (x y : Nat) :
    RelH nx ny dxl dyl F a H x y ↔ RelH nx ny dxl dyl F a (fun d' => H d' ∨ d' = d) x y := by
  constructor
  · rintro ⟨hx, hy, hxy, h1, h2⟩
    refine ⟨hx, hy, hxy, fun e => ?_, fun e => ?_⟩
    · obtain ⟨d', hd', hn⟩ := h1 e
      exact ⟨d', Or.inl hd', hn⟩
    · obtain ⟨d', hd', hn⟩ := h2 e
      exact ⟨d', Or.inl hd', hn⟩
  · rintro ⟨hx, hy, hxy, h1, h2⟩
    refine ⟨hx, hy, hxy, fun e => ?_, fun e => ?_⟩
    · obtain ⟨d', hd' | hd', hn⟩ := h1 e
      · exact ⟨d', hd', hn⟩
      · subst hd'; exact absurd hy (hno y hn)
    · obtain ⟨d', hd' | hd', hn⟩ := h2 e
      · exact ⟨d', hd', hn⟩
      · subst hd'; exact absurd hx (hno x hn)

/-- Handling the direction of the flooded neighbour `b` adds the pair `{a, b}`. -/
theorem relH_some {nx ny : Nat} {dxl dyl : List Int} {F : Nat → Prop} {a b d : Nat}
    {H : Nat → Prop} (hdn : DirNbr nx ny (dxl.getD d 0) (dyl.getD d 0) a b) (ha : F a)
    (hb : F b) (hab : Adj4 nx ny a b) (x y : Nat) :
    (RelH nx ny dxl dyl F a H x y ∨ Pair a b x y) ↔
      RelH nx ny dxl dyl F a (fun d' => H d' ∨ d' = d) x y := by
  have hne : a ≠ b := fun e => adj4_irrefl (e ▸ hab)
  constructor
  · rintro (⟨hx, hy, hxy, h1, h2⟩ | ⟨h1, h2⟩ | ⟨h1, h2⟩)
    · refine ⟨hx, hy, hxy, fun e => ?_, fun e => ?_⟩
      · obtain ⟨d', hd', hn⟩ := h1 e
        exact ⟨d', Or.inl hd', hn⟩
      · obtain ⟨d', hd', hn⟩ := h2 e
        exact ⟨d', Or.inl hd', hn⟩
    · subst h1 h2
      exact ⟨ha, hb, hab, fun _ => ⟨d, Or.inr rfl, hdn⟩, fun e => absurd e.symm hne⟩
    · subst h1 h2
      exact ⟨hb, ha, adj4_symm hab, fun e => absurd e hne.symm, fun _ => ⟨d, Or.inr rfl, hdn⟩⟩
  · rintro ⟨hx, hy, hxy, h1, h2⟩
    have hxy' : x ≠ y := fun e => adj4_irrefl (e ▸ hxy)
    by_cases hxa : x = a
    · obtain ⟨d', hd' | hd', hn⟩ := h1 hxa
      · exact Or.inl ⟨hx, hy, hxy, fun _ => ⟨d', hd', hn⟩, fun e => absurd (hxa.trans e.symm) hxy'⟩
      · subst hd'
        exact Or.inr (Or.inl ⟨hxa, dirNbr_unique hn hdn⟩)
    · by_cases hya : y = a
      · obtain ⟨d', hd' | hd', hn⟩ := h2 hya
        · exact Or.inl ⟨hx, hy, hxy, fun e => absurd e hxa, fun _ => ⟨d', hd', hn⟩⟩
        · subst hd'
          exact Or.inr (Or.inr ⟨dirNbr_unique hn hdn, hya⟩)
      · exact Or.inl ⟨hx, hy, hxy, fun e => absurd e hxa, fun e => absurd e hya⟩

theorem dirs4_clusters : Dirs4 Clusters.dx_list Clusters.dy_list := by
  intro nx ny p q
  constructor
  · intro h
    exact ⟨h.1, Clusters.adj4_dirNbr h⟩
  · rintro ⟨hp, d, hd, hdn⟩
    exact Clusters.dirNbr_adj4 hp hd hdn

/-- Offsets `(0,1), (1,0), (0,-1), (-1,0)` used by the graph builder and by
the threshold counter. -/
theorem dirs4_watershed : Dirs4 Watershed.dx_list Watershed.dy_list := by
  intro nx ny p q
  rw [adj4_iff_dirNbr]
  constructor
  · rintro ⟨hp, h | h | h | h⟩
    · exact ⟨hp, 1, by norm_num, by simpa [Watershed.dx_list, Watershed.dy_list] using h⟩
    · exact ⟨hp, 3, by norm_num, by simpa [Watershed.dx_list, Watershed.dy_list] using h⟩
    · exact ⟨hp, 2, by norm_num, by simpa [Watershed.dx_list, Watershed.dy_list] using h⟩
    · exact ⟨hp, 0, by norm_num, by simpa [Watershed.dx_list, Watershed.dy_list] using h⟩
  · rintro ⟨hp, d, hd, hdn⟩
    refine ⟨hp, ?_⟩
    interval_cases d <;> simp [Watershed.dx_list, Watershed.dy_list] at hdn <;> simp [hdn]

theorem dirs4_nuclei : Dirs4 Nuclei.dx_list Nuclei.dy_list := by
  intro nx ny p q
  rw [adj4_iff_dirNbr]
  constructor
  · rintro ⟨hp, h | h | h | h⟩
    · exact ⟨hp, 1, by norm_num, by simpa [Nuclei.dx_list, Nuclei.dy_list] using h⟩
    · exact ⟨hp, 0, by norm_num, by simpa [Nuclei.dx_list, Nuclei.dy_list] using h⟩
    · exact ⟨hp, 2, by norm_num, by simpa [Nuclei.dx_list, Nuclei.dy_list] using h⟩
    · exact ⟨hp, 3, by norm_num, by simpa [Nuclei.dx_list, Nuclei.dy_list] using h⟩
  · rintro ⟨hp, d, hd, hdn⟩
    refine ⟨hp, ?_⟩
    interval_cases d <;> simp [Nuclei.dx_list, Nuclei.dy_list] at hdn <;> simp [hdn]

/-! ### Classes and sizes under a link -/

/-- Tops after the link `next[ra] = rb`, as an equivalence. -/
theorem top_link_iff {n : Nat} {v_next : Nat → Int} {F : Nat → Prop} {R : Nat → Nat → Prop}
    (hu : UF n v_next F R) {ra rb : Nat} (hra : v_next ra = (ra : Int))
    (hrb : v_next rb = (rb : Int)) (hne : ra ≠ rb) (p r : Nat) :
    Top (setInt v_next ra (rb : Int)) p r ↔
      ((r = rb ∧ (Top v_next p ra ∨ Top v_next p rb)) ∨
        (r ≠ rb ∧ r ≠ ra ∧ Top v_next p r)) := by
  constructor
  · intro h
    have hFp : F p := by
      obtain ⟨d, hd⟩ := h
      cases hd with
      | root h1 =>
        by_cases e : p = ra
        · subst e
          exact (hu.flooded _).2 (by rw [hra]; exact Int.ofNat_nonneg _)
        · rw [setInt_other _ _ e] at h1
          exact (hu.flooded _).2 (by rw [h1]; exact Int.ofNat_nonneg _)
      | step _ h0 _ =>
        by_cases e : p = ra
        · subst e
          exact (hu.flooded _).2 (by rw [hra]; exact Int.ofNat_nonneg _)
        · rw [setInt_other _ _ e] at h0
          exact (hu.flooded _).2 h0
    obtain ⟨t, ht⟩ := hu.top p hFp
    have h' := top_link hra hrb hne ht
    have e := top_det h h'
    by_cases hta : t = ra
    · rw [if_pos hta] at e
      subst hta
      exact Or.inl ⟨e, Or.inl ht⟩
    · rw [if_neg hta] at e
      subst e
      by_cases hrb' : r = rb
      · subst hrb'
        exact Or.inl ⟨rfl, Or.inr ht⟩
      · exact Or.inr ⟨hrb', hta, ht⟩
  · rintro (⟨e, h | h⟩ | ⟨h1, h2, h3⟩)
    · subst e
      have := top_link hra hrb hne h
      rwa [if_pos rfl] at this
    · subst e
      have := top_link hra hrb hne h
      rwa [if_neg (Ne.symm hne)] at this
    · have := top_link hra hrb hne h3
      rwa [if_neg h2] at this

/-- The top pixels after the link `next[ra] = rb` are the old ones except `ra`. -/
theorem root_link_iff {v_next : Nat → Int} {ra rb : Nat} (hne : ra ≠ rb) (r : Nat) :
    setInt v_next ra (rb : Int) r = (r : Int) ↔ (v_next r = (r : Int) ∧ r ≠ ra) := by
  by_cases e : r = ra
  · subst e
    rw [setInt_same]
    constructor
    · intro h
      exact absurd (Int.ofNat_inj.1 h).symm hne
    · exact fun h => absurd rfl h.2
  · rw [setInt_other _ _ e]
    exact ⟨fun h => ⟨h, e⟩, fun h => h.1⟩

/-- A top belongs to its own class. -/
theorem classList_self {v_next : Nat → Int} {r : Nat} {l : List Nat}
    (hr : v_next r = (r : Int)) (h : ClassList v_next r l) : r ∈ l :=
  (h.2 r).2 (top_self hr)

/-- The class of `rb` after the link `next[ra] = rb` is enumerated by any
duplicate-free list made of the two old classes. -/
theorem classList_link {n : Nat} {v_next : Nat → Int} {F : Nat → Prop} {R : Nat → Nat → Prop}
    (hu : UF n v_next F R) {ra rb : Nat} (hra : v_next ra = (ra : Int))
    (hrb : v_next rb = (rb : Int)) (hne : ra ≠ rb) {la lb l : List Nat}
    (hla : ClassList v_next ra la) (hlb : ClassList v_next rb lb)
    (hl : l = la ++ lb ∨ l = lb ++ la) :
    ClassList (setInt v_next ra (rb : Int)) rb l ∧ l.length = la.length + lb.length := by
  have hdisj : ∀ x, x ∈ la → x ∈ lb → False := fun x h1 h2 =>
    hne (top_det ((hla.2 x).1 h1) ((hlb.2 x).1 h2))
  have hmem : ∀ p, p ∈ l ↔ (p ∈ la ∨ p ∈ lb) := by
    intro p
    rcases hl with e | e
    · rw [e, List.mem_append]
    · rw [e, List.mem_append, or_comm]
  have hnd : l.Nodup := by
    rcases hl with e | e
    · rw [e]
      exact List.Nodup.append hla.1 hlb.1 (fun x h1 h2 => hdisj x h1 h2)
    · rw [e]
      exact List.Nodup.append hlb.1 hla.1 (fun x h1 h2 => hdisj x h2 h1)
  refine ⟨⟨hnd, fun p => ?_⟩, ?_⟩
  · rw [hmem, top_link_iff hu hra hrb hne, hla.2 p, hlb.2 p]
    constructor
    · exact fun h => Or.inl ⟨rfl, h⟩
    · rintro (⟨_, h⟩ | ⟨h, _, _⟩)
      · exact h
      · exact absurd rfl h
  · rcases hl with e | e
    · rw [e, List.length_append]
    · rw [e, List.length_append, Nat.add_comm]

/-- The classes of the other tops are not changed by the link `next[ra] = rb`. -/
theorem classList_link_other {n : Nat} {v_next : Nat → Int} {F : Nat → Prop}
    {R : Nat → Nat → Prop} (hu : UF n v_next F R) {ra rb : Nat} (hra : v_next ra = (ra : Int))
    (hrb : v_next rb = (rb : Int)) (hne : ra ≠ rb) {r : Nat} (h1 : r ≠ rb) (h2 : r ≠ ra)
    {l : List Nat} (hl : ClassList v_next r l) : ClassList (setInt v_next ra (rb : Int)) r l := by
  refine ⟨hl.1, fun p => ?_⟩
  rw [hl.2 p, top_link_iff hu hra hrb hne]
  constructor
  · exact fun h => Or.inr ⟨h1, h2, h⟩
  · rintro (⟨e, _⟩ | ⟨_, _, h⟩)
    · exact absurd e h1
    · exact h

/-- Stored sizes stay the class sizes when the link `next[ra] = rb` comes with
`size[rb] += size[ra]`. -/
theorem sizes_link {n : Nat} {v_next : Nat → Int} {F : Nat → Prop} {R : Nat → Nat → Prop}
    (hu : UF n v_next F R) {ra rb : Nat} (hra : v_next ra = (ra : Int))
    (hrb : v_next rb = (rb : Int)) (hne : ra ≠ rb) {v_size : Nat → Int}
    (hs : ∀ r, v_next r = (r : Int) → ∃ l, ClassList v_next r l ∧ v_size r = (l.length : Int)) :
    ∀ r, setInt v_next ra (rb : Int) r = (r : Int) →
      ∃ l, ClassList (setInt v_next ra (rb : Int)) r l ∧
        setInt v_size rb (v_size rb + v_size ra) r = (l.length : Int) := by
  intro r hr
  obtain ⟨hr1, hr2⟩ := (root_link_iff hne r).1 hr
  by_cases e : r = rb
  · subst e
    obtain ⟨la, hla, hsa⟩ := hs ra hra
    obtain ⟨lb, hlb, hsb⟩ := hs r hrb
    obtain ⟨h1, h2⟩ := classList_link hu hra hrb hne hla hlb (Or.inl rfl)
    refine ⟨la ++ lb, h1, ?_⟩
    rw [setInt_same, hsa, hsb, h2]
    push_cast
    ring
  · obtain ⟨l, hl, hsl⟩ := hs r hr1
    exact ⟨l, classList_link_other hu hra hrb hne e hr2 hl, by rw [setInt_other _ _ e]; exact hsl⟩

/-- The stored size of a top is at least 1. -/
theorem size_pos {v_next v_size : Nat → Int} {r : Nat}
    (hs : ∀ r, v_next r = (r : Int) → ∃ l, ClassList v_next r l ∧ v_size r = (l.length : Int))
    (hr : v_next r = (r : Int)) : 1 ≤ v_size r := by
  obtain ⟨l, hl, hsl⟩ := hs r hr
  have := List.length_pos_of_mem (classList_self hr hl)
  rw [hsl]
  exact_mod_cast this

/-! ### Counting tops -/

/-- Changing a function at one point changes its sum by the difference there. -/
theorem sum_change_one {n : Nat} {f g : Nat → Int} {x : Nat} (hx : x < n)
    (h : ∀ r, r ≠ x → g r = f r) :
    Finset.sum (Finset.range n) g = Finset.sum (Finset.range n) f + (g x - f x) := by
  have hxm : x ∈ Finset.range n := Finset.mem_range.2 hx
  rw [← Finset.add_sum_erase _ g hxm, ← Finset.add_sum_erase _ f hxm]
  have : Finset.sum ((Finset.range n).erase x) g = Finset.sum ((Finset.range n).erase x) f :=
    Finset.sum_congr rfl (fun r hr => h r (Finset.ne_of_mem_erase hr))
  rw [this]
  ring

/-- Changing a function at two points changes its sum by the two differences. -/
theorem sum_change_two {n : Nat} {f g : Nat → Int} {x y : Nat} (hx : x < n) (hy : y < n)
    (hxy : x ≠ y) (h : ∀ r, r ≠ x → r ≠ y → g r = f r) :
    Finset.sum (Finset.range n) g =
      Finset.sum (Finset.range n) f + (g x - f x) + (g y - f y) := by
  have h1 := sum_change_one (f := f) (g := fun r => if r = x then g x else f r) hx
    (fun r hr => by simp [hr])
  have h2 := sum_change_one (f := fun r => if r = x then g x else f r) (g := g) hy
    (fun r hr => by
      by_cases e : r = x
      · simp [e]
      · simp [e, h r e hr])
  rw [h2, h1]
  simp [hxy.symm]

/-- The number of counted tops after the link `next[ra] = rb` with
`size[rb] += size[ra]`. -/
theorem rootCount_link {n : Nat} {v_next v_size : Nat → Int} {ra rb : Nat} (s : Int)
    (hra : v_next ra = (ra : Int)) (hrb : v_next rb = (rb : Int)) (hne : ra ≠ rb)
    (han : ra < n) (hbn : rb < n) :
    rootCount n (setInt v_next ra (rb : Int)) (setInt v_size rb (v_size rb + v_size ra)) s =
      rootCount n v_next v_size s - (if s ≤ v_size ra then 1 else 0)
        - (if s ≤ v_size rb then 1 else 0)
        + (if s ≤ v_size rb + v_size ra then 1 else 0) := by
  unfold rootCount
  rw [sum_change_two han hbn hne (f := counted v_next v_size s)]
  · have e1 : counted (setInt v_next ra (rb : Int)) (setInt v_size rb (v_size rb + v_size ra)) s
        ra = 0 := by
      unfold counted
      rw [setInt_same, if_neg]
      rintro ⟨h, _⟩
      exact hne (Int.ofNat_inj.1 h).symm
    have e2 : counted (setInt v_next ra (rb : Int)) (setInt v_size rb (v_size rb + v_size ra)) s
        rb = (if s ≤ v_size rb + v_size ra then 1 else 0) := by
      unfold counted
      rw [setInt_other _ _ (Ne.symm hne), setInt_same]
      simp [hrb]
    have e3 : counted v_next v_size s ra = (if s ≤ v_size ra then 1 else 0) := by
      unfold counted; simp [hra]
    have e4 : counted v_next v_size s rb = (if s ≤ v_size rb then 1 else 0) := by
      unfold counted; simp [hrb]
    rw [e1, e2, e3, e4]
    ring
  · intro r h1 h2
    unfold counted
    rw [setInt_other _ _ h1, setInt_other _ _ h2]

/-- Replacing the set of flooded pixels by an equivalent description. -/
theorem uf_congrF {n : Nat} {v_next : Nat → Int} {F F' : Nat → Prop} {R : Nat → Nat → Prop}
    (hu : UF n v_next F R) (h : ∀ x, F x ↔ F' x) : UF n v_next F' R := by
  have e : F = F' := by
    funext x
    exact propext (h x)
  rw [← e]
  exact hu

/-- Tops after the pixel `a`, not yet flooded, is made a top of its own. -/
theorem top_new_iff {n : Nat} {v_next : Nat → Int} {F : Nat → Prop} {R : Nat → Nat → Prop}
    (hu : UF n v_next F R) {a : Nat} (ha : ¬ F a) (han : a < n) (p r : Nat) :
    Top (setInt v_next a (a : Int)) p r ↔ ((p = a ∧ r = a) ∨ Top v_next p r) := by
  have hu' := uf_new hu ha han
  have hself : Top (setInt v_next a (a : Int)) a a := top_self (setInt_same _ _ _)
  have hold : ∀ {p r : Nat}, Top v_next p r → Top (setInt v_next a (a : Int)) p r :=
    fun {p r} h => by
      have hp := flooded_of_top hu h
      obtain ⟨d, hd⟩ := h
      exact ⟨d, topD_new hu ha hd hp⟩
  constructor
  · intro h
    rcases flooded_of_top hu' h with hp | hp
    · obtain ⟨t, ht⟩ := hu.top p hp
      rw [top_det h (hold ht)]
      exact Or.inr ht
    · subst hp
      exact Or.inl ⟨rfl, top_det h hself⟩
  · rintro (⟨h1, h2⟩ | h)
    · subst h1 h2; exact hself
    · exact hold h

/-- Classes and sizes after the pixel `a`, not yet flooded, is made a top of
size 1. -/
theorem sizes_new {n : Nat} {v_next : Nat → Int} {F : Nat → Prop} {R : Nat → Nat → Prop}
    (hu : UF n v_next F R) {a : Nat} (ha : ¬ F a) (han : a < n) {v_size : Nat → Int}
    (hs : ∀ r, v_next r = (r : Int) → ∃ l, ClassList v_next r l ∧ v_size r = (l.length : Int)) :
    ∀ r, setInt v_next a (a : Int) r = (r : Int) →
      ∃ l, ClassList (setInt v_next a (a : Int)) r l ∧ setInt v_size a 1 r = (l.length : Int) := by
  intro r hr
  by_cases e : r = a
  · subst e
    refine ⟨[r], ⟨List.nodup_singleton _, fun p => ?_⟩, by rw [setInt_same]; rfl⟩
    rw [List.mem_singleton, top_new_iff hu ha han]
    constructor
    · exact fun h => Or.inl ⟨h, rfl⟩
    · rintro (⟨h, _⟩ | h)
      · exact h
      · exact absurd (top_flooded hu h (flooded_of_top hu h)) ha
  · rw [setInt_other _ _ e] at hr
    obtain ⟨l, hl, hsl⟩ := hs r hr
    refine ⟨l, ⟨hl.1, fun p => ?_⟩, by rw [setInt_other _ _ e]; exact hsl⟩
    rw [hl.2 p, top_new_iff hu ha han]
    constructor
    · exact fun h => Or.inr h
    · rintro (⟨_, h⟩ | h)
      · exact absurd h e
      · exact h

/-- The number of counted tops after the pixel `a`, not yet flooded, is made a
top of size 1. -/
theorem rootCount_new {n : Nat} {v_next v_size : Nat → Int} {a : Nat} (s : Int)
    (ha : v_next a < 0) (han : a < n) :
    rootCount n (setInt v_next a (a : Int)) (setInt v_size a 1) s =
      rootCount n v_next v_size s + (if s ≤ 1 then 1 else 0) := by
  unfold rootCount
  rw [sum_change_one han (f := counted v_next v_size s)]
  · have e1 : counted (setInt v_next a (a : Int)) (setInt v_size a 1) s a =
        (if s ≤ 1 then 1 else 0) := by
      unfold counted
      rw [setInt_same, setInt_same]
      simp
    have e2 : counted v_next v_size s a = 0 := by
      unfold counted
      rw [if_neg]
      rintro ⟨h, _⟩
      rw [h] at ha
      exact absurd (Int.ofNat_nonneg a) (not_le.2 ha)
    rw [e1, e2]
    ring
  · intro r hr
    unfold counted
    rw [setInt_other _ _ hr, setInt_other _ _ hr]

/-- Flooding position `i` adds the pixel `buf_arg i` to the flooded pixels. -/
theorem flooded_succ {n : Nat} {buf_arg : Nat → Nat} {i : Nat} (hi : i < n) (p : Nat) :
    (Flooded n buf_arg (i + 1) p ∨ p = buf_arg i) ↔ Flooded n buf_arg i p := by
  constructor
  · rintro (⟨j, h1, h2, h3⟩ | h)
    · exact ⟨j, by omega, h2, h3⟩
    · exact ⟨i, le_rfl, hi, h.symm⟩
  · rintro ⟨j, h1, h2, h3⟩
    rcases Nat.eq_or_lt_of_le h1 with e | e
    · subst e; exact Or.inr h3.symm
    · exact Or.inl ⟨j, e, h2, h3⟩

/-- The pixel at position `i` is not flooded before position `i` is processed. -/
theorem not_flooded_self {n : Nat} {buf_arg : Nat → Nat} (hv : ValidOrder n buf_arg) {i : Nat}
    (hi : i < n) : ¬ Flooded n buf_arg (i + 1) (buf_arg i) := by
  rintro ⟨j, h1, h2, h3⟩
  have := hv.inj j i h2 hi h3
  omega

end Cellular

namespace Cellular

/-! ## Counting the pixels of a forest -/

/-- In a forest whose tops store the sizes of their classes, the stored sizes
of the tops add up to the number of flooded pixels. -/
theorem class_sizes_sum {n : Nat} {v_next : Nat → Int} {F : Nat → Prop} {R : Nat → Nat → Prop}
    (hu : UF n v_next F R) (sz : Nat → Int)
    (hs : ∀ r, v_next r = (r : Int) → ∃ l, ClassList v_next r l ∧ sz r = (l.length : Int)) :
    Finset.sum ((Finset.range n).filter (fun r => v_next r = (r : Int))) sz =
      (((Finset.range n).filter (fun p => 0 ≤ v_next p)).card : Int) := by
  classical
  have ht : ∀ p, p ∈ (Finset.range n).filter (fun p => 0 ≤ v_next p) →
      Top v_next p ((get_top v_next n p).getD 0) ∧
        (get_top v_next n p).getD 0 ∈
          (Finset.range n).filter (fun r => v_next r = (r : Int)) := by
    intro p hp
    have hF : F p := (hu.flooded p).2 (Finset.mem_filter.1 hp).2
    obtain ⟨r, h1, h2, h3⟩ := get_top_eq hu hF
    rw [h1]
    exact ⟨h2, Finset.mem_filter.2 ⟨Finset.mem_range.2 (hu.bound r h3), top_root h2⟩⟩
  rw [Finset.card_eq_sum_card_fiberwise (f := fun p => (get_top v_next n p).getD 0)
    (fun p hp => (ht p hp).2)]
  push_cast
  refine Finset.sum_congr rfl (fun r hr => ?_)
  have hroot : v_next r = (r : Int) := (Finset.mem_filter.1 hr).2
  obtain ⟨l, hl, hsl⟩ := hs r hroot
  rw [hsl, ← List.toFinset_card_of_nodup hl.1]
  congr 2
  ext p
  rw [List.mem_toFinset, hl.2 p, Finset.mem_filter]
  constructor
  · intro h
    have hF : F p := flooded_of_top hu h
    have hp : p ∈ (Finset.range n).filter (fun p => 0 ≤ v_next p) :=
      Finset.mem_filter.2 ⟨Finset.mem_range.2 (hu.bound p hF), (hu.flooded p).1 hF⟩
    exact ⟨hp, top_det (ht p hp).1 h⟩
  · rintro ⟨hp, e⟩
    rw [← e]
    exact (ht p hp).1

/-- Once the positions `k, ..., n-1` of a valid order are flooded, `n - k`
pixels have a non-negative link. -/
theorem flooded_card {n : Nat} {buf_arg : Nat → Nat} (hv : ValidOrder n buf_arg) {k : Nat}
    {v_next : Nat → Int} {R : Nat → Nat → Prop} (hu : UF n v_next (Flooded n buf_arg k) R) :
    ((Finset.range n).filter (fun p => 0 ≤ v_next p)).card = n - k := by
  classical
  have e : (Finset.range n).filter (fun p => 0 ≤ v_next p) = (Finset.Ico k n).image buf_arg := by
    ext p
    rw [Finset.mem_filter, Finset.mem_image, Finset.mem_range]
    constructor
    · rintro ⟨_, h⟩
      obtain ⟨j, h1, h2, h3⟩ := (hu.flooded p).2 h
      exact ⟨j, Finset.mem_Ico.2 ⟨h1, h2⟩, h3⟩
    · rintro ⟨j, hj, h3⟩
      have hF : Flooded n buf_arg k p := ⟨j, (Finset.mem_Ico.1 hj).1, (Finset.mem_Ico.1 hj).2, h3⟩
      exact ⟨hu.bound p hF, (hu.flooded p).1 hF⟩
  rw [e, Finset.card_image_of_injOn, Nat.card_Ico]
  intro i hi j hj hij
  exact hv.inj i j (Finset.mem_Ico.1 (Finset.mem_coe.1 hi)).2
    (Finset.mem_Ico.1 (Finset.mem_coe.1 hj)).2 hij

/-- When every top stores the size of its class, the number of tops of size
`>= 1` is the number of tops. -/
theorem rootCount_one {n : Nat} {v_next v_size : Nat → Int}
    (hs : ∀ r, v_next r = (r : Int) → ∃ l, ClassList v_next r l ∧ v_size r = (l.length : Int)) :
    rootCount n v_next v_size 1 =
      (((Finset.range n).filter (fun r => v_next r = (r : Int))).card : Int) := by
  classical
  unfold rootCount
  rw [Finset.card_filter]
  push_cast
  refine Finset.sum_congr rfl (fun r _ => ?_)
  unfold counted
  by_cases hr : v_next r = (r : Int)
  · rw [if_pos ⟨hr, size_pos hs hr⟩, if_pos hr]
  · rw [if_neg (fun h => hr h.1), if_neg hr]

end Cellular

namespace Cellular

/-! ## Counting components -/

/-- The number of components is determined. -/
theorem countsComponents_unique {nx ny : Nat} {img : Int → Int → Int} {t s : Int} {k k' : Int}
    (h : CountsComponents nx ny img t s k) (h' : CountsComponents nx ny img t s k') : k = k' := by
  obtain ⟨c, hc, hk⟩ := h
  obtain ⟨c', hc', hk'⟩ := h'
  have : c = c' := by
    ext S
    rw [hc, hc']
  rw [hk, hk', this]

/-- The clusters returned by `construct` are as many as the components of at
least `s` pixels. -/
theorem construct_counts {nx ny : Nat} {img : Int → Int → Int} {t s : Int} {V : Nat → Bool}
    {cs : List Cluster} (hres : Clusters.ScanRes nx ny img t s (nx * ny) V cs) :
    CountsComponents nx ny img t s (cs.length : Int) := by
  refine ⟨(cs.map (fun c => c.pixels.toFinset)).toFinset, fun S => ?_, ?_⟩
  · rw [← Clusters.construct_components hres S, List.mem_toFinset, List.mem_map]
  · have hnd : (cs.map (fun c => c.pixels.toFinset)).Nodup := by
      unfold List.Nodup
      rw [List.pairwise_map]
      refine List.Pairwise.imp_of_mem ?_ hres.disjoint
      intro c d hc _ hcd e
      obtain ⟨_, _, p0, _, hcls⟩ := hres.sound c hc
      have h1 : p0 ∈ c.pixels := (hcls p0).2 Relation.ReflTransGen.refl
      have h2 : p0 ∈ d.pixels := by
        have : p0 ∈ c.pixels.toFinset := List.mem_toFinset.2 h1
        rw [e] at this
        exact List.mem_toFinset.1 this
      exact hcd p0 h1 h2
    rw [List.toFinset_card_of_nodup hnd, List.length_map]

/-- In a forest whose classes are the reachability classes at threshold `t`
and whose tops store the class sizes, the number of tops of size `>= s` is the
number of components of at least `s` pixels. -/
theorem rootCount_counts {nx ny : Nat} {img : Int → Int → Int} {t s : Int}
    {v_next v_size : Nat → Int}
    (hu : UF (nx * ny) v_next (InThr nx ny img t) (AdjF nx ny (InThr nx ny img t)))
    (hs : ∀ r, v_next r = (r : Int) → ∃ l, ClassList v_next r l ∧ v_size r = (l.length : Int)) :
    CountsComponents nx ny img t s (rootCount (nx * ny) v_next v_size s) := by
  classical
  have hreach : ∀ p q, InThr nx ny img t p → InThr nx ny img t q →
      (SameTop v_next p q ↔ Reach nx ny img t p q) := fun p q hp hq => hu.conn p q hp hq
  have hrootF : ∀ r, v_next r = (r : Int) → InThr nx ny img t r := fun r hr =>
    (hu.flooded r).2 (by rw [hr]; exact Int.ofNat_nonneg _)
  let cls : Nat → Finset Nat := fun r =>
    (Finset.range (nx * ny)).filter (fun p => Top v_next p r)
  have hcls : ∀ r p, p ∈ cls r ↔ Top v_next p r := by
    intro r p
    simp only [cls, Finset.mem_filter, Finset.mem_range]
    exact ⟨fun h => h.2, fun h => ⟨hu.bound p (flooded_of_top hu h), h⟩⟩
  have hcard : ∀ r, v_next r = (r : Int) → ((cls r).card : Int) = v_size r := by
    intro r hr
    obtain ⟨l, hl, hsl⟩ := hs r hr
    have : cls r = l.toFinset := by
      ext p
      rw [hcls, List.mem_toFinset, hl.2 p]
    rw [this, List.toFinset_card_of_nodup hl.1, hsl]
  have hclsReach : ∀ r, v_next r = (r : Int) → ∀ q, q ∈ cls r ↔ Reach nx ny img t r q := by
    intro r hr q
    rw [hcls]
    constructor
    · intro h
      exact (hreach r q (hrootF r hr) (flooded_of_top hu h)).1 ⟨r, top_self hr, h⟩
    · intro h
      have hq := reach_inThr (hrootF r hr) h
      obtain ⟨r', h1, h2⟩ := (hreach r q (hrootF r hr) hq).2 h
      rw [top_of_root hr h1] at h2
      exact h2
  refine ⟨((Finset.range (nx * ny)).filter (fun r => v_next r = (r : Int) ∧ s ≤ v_size r)).image
    cls, fun S => ?_, ?_⟩
  · rw [Finset.mem_image]
    constructor
    · rintro ⟨r, hr, rfl⟩
      rw [Finset.mem_filter] at hr
      obtain ⟨_, hr1, hr2⟩ := hr
      exact ⟨isComponent_iff_class.2 ⟨r, hrootF r hr1, hclsReach r hr1⟩, by
        rw [hcard r hr1]; exact hr2⟩
    · rintro ⟨hcomp, hsz⟩
      obtain ⟨p0, hp0, hS⟩ := isComponent_iff_class.1 hcomp
      obtain ⟨r, hr⟩ := hu.top p0 hp0
      have hroot := top_root hr
      have hrF := hrootF r hroot
      have hpr : Reach nx ny img t p0 r := (hreach p0 r hp0 hrF).1 ⟨r, hr, top_self hroot⟩
      have hSeq : cls r = S := by
        ext q
        rw [hclsReach r hroot, hS]
        exact ⟨fun h => hpr.trans h, fun h => (reach_symm hpr).trans h⟩
      refine ⟨r, ?_, hSeq⟩
      rw [Finset.mem_filter, Finset.mem_range]
      refine ⟨hu.bound r hrF, hroot, ?_⟩
      rw [← hcard r hroot, hSeq]
      exact hsz
  · rw [Finset.card_image_of_injOn]
    · unfold rootCount counted
      rw [Finset.sum_boole]
    · intro r hr r' hr' e
      rw [Finset.mem_coe, Finset.mem_filter] at hr hr'
      have h1 : r ∈ cls r := (hcls r r).2 (top_self hr.2.1)
      have h2 : r ∈ cls r' := by
        have e' : cls r = cls r' := e
        rw [← e']
        exact h1
      exact (top_of_root hr.2.1 ((hcls r' r).1 h2)).symm

/-- In a forest whose classes are the reachability classes at threshold `t`,
every component is the set of pixels of one top. -/
theorem component_top {nx ny : Nat} {img : Int → Int → Int} {t : Int} {v_next : Nat → Int}
    (hu : UF (nx * ny) v_next (InThr nx ny img t) (AdjF nx ny (InThr nx ny img t)))
    {S : Finset Nat} (hS : IsComponent nx ny img t S) :
    ∃ r, v_next r = (r : Int) ∧ ∀ q, q ∈ S ↔ Top v_next q r := by
  obtain ⟨p0, hp0, hcls⟩ := isComponent_iff_class.1 hS
  obtain ⟨r, hr⟩ := hu.top p0 hp0
  refine ⟨r, top_root hr, fun q => ?_⟩
  rw [hcls]
  constructor
  · intro h
    have hq := reach_inThr hp0 h
    obtain ⟨r', h1, h2⟩ := (hu.conn p0 q hp0 hq).2 h
    rw [top_det hr h1]
    exact h2
  · intro h
    exact (hu.conn p0 q hp0 (flooded_of_top hu h)).1 ⟨r, hr, h⟩

/-- With an ascending order, the positions flooded when the loop stops at the
first value below `t` are exactly the pixels of value `>= t`. -/
theorem flooded_iff_inThr {nx ny : Nat} {img : Int → Int → Int} {buf_arg : Nat → Nat} {t : Int}
    (hv : ValidOrder (nx * ny) buf_arg) (hasc : Ascending (nx * ny) ny img buf_arg) {k : Nat}
    (hk : k ≤ nx * ny) (hge : ∀ j, k ≤ j → j < nx * ny → t ≤ pixval ny img (buf_arg j))
    (hstop : k = 0 ∨ pixval ny img (buf_arg (k - 1)) < t) (p : Nat) :
    Flooded (nx * ny) buf_arg k p ↔ InThr nx ny img t p := by
  constructor
  · rintro ⟨j, h1, h2, rfl⟩
    exact ⟨hv.range j h2, hge j h1 h2⟩
  · rintro ⟨h1, h2⟩
    obtain ⟨j, hj, rfl⟩ := hv.surj p h1
    refine ⟨j, ?_, hj, rfl⟩
    by_contra hx
    rcases hstop with e | e
    · omega
    · have := hasc j (k - 1) (by omega) (by omega)
      exact absurd h2 (not_le.2 (lt_of_le_of_lt this e))

end Cellular

namespace Cellular

theorem dirs4_ncluster : Dirs4 Ncluster.dx_list Ncluster.dy_list := dirs4_watershed

namespace Ncluster

/-- While the pixel being flooded has met no cluster, it is alone in its class. -/
theorem alone_of_size_one {v_next v_size : Nat → Int} {a b : Nat}
    (hs : ∀ r, v_next r = (r : Int) → ∃ l, ClassList v_next r l ∧ v_size r = (l.length : Int))
    (ha : v_next a = (a : Int)) (h1 : v_size a = 1) (hb : Top v_next b a) : b = a := by
  obtain ⟨l, hl, hsl⟩ := hs a ha
  rw [h1] at hsl
  have hlen : l.length = 1 := by exact_mod_cast hsl.symm
  obtain ⟨x, hx⟩ := List.length_eq_one.1 hlen
  have h2 : a ∈ l := classList_self ha hl
  have h3 : b ∈ l := (hl.2 b).2 hb
  rw [hx, List.mem_singleton] at h2 h3
  rw [h2, h3]

/-- Handling one neighbour of the pixel `a` keeps the invariant of the loop
over the neighbours and touches neither the threshold index nor the output. -/
theorem count_visitNeighbor_inv {nx ny : Nat} {s : Int} {F : Nat → Prop} {a : Nat} {H : Nat → Prop}
    {st : State} (rd j1 : Nat) (hF : F a) (h : VInv nx ny s F a H st) :
    ∃ st', visitNeighbor nx ny s a rd st j1 = some st' ∧
      VInv nx ny s F a (fun d' => H d' ∨ d' = (rd + j1) % 4) st' ∧
      st'.i_threshold = st.i_threshold ∧ st'.buf_nclusters = st.buf_nclusters ∧
      st'.asserts = st.asserts := by
  have han : a < nx * ny := h.uf.bound a hF
  unfold visitNeighbor
  simp only []
  by_cases hb : (0 ≤ ((a / ny : Nat) : Int) + dx_list.getD ((rd + j1) % 4) 0 ∧
      ((a / ny : Nat) : Int) + dx_list.getD ((rd + j1) % 4) 0 < (nx : Int) ∧
      0 ≤ ((a % ny : Nat) : Int) + dy_list.getD ((rd + j1) % 4) 0 ∧
      ((a % ny : Nat) : Int) + dy_list.getD ((rd + j1) % 4) 0 < (ny : Int))
  · rw [if_neg (not_not.2 hb)]
    have hd := dirNbr_toNat hb
    generalize ((((a / ny : Nat) : Int) + dx_list.getD ((rd + j1) % 4) 0) * (ny : Int) +
      (((a % ny : Nat) : Int) + dy_list.getD ((rd + j1) % 4) 0)).toNat = index2 at hd
    by_cases hfl : st.v_next index2 < 0
    · rw [if_pos hfl]
      refine ⟨st, rfl, ⟨uf_congr h.uf (relH_none ?_), h.cur, h.sizes, h.count⟩, rfl, rfl, rfl⟩
      intro y hy hFy
      rw [dirNbr_unique hy hd] at hFy
      exact absurd ((h.uf.flooded _).1 hFy) (not_le.2 hfl)
    · rw [if_neg hfl]
      have hFb : F index2 := (h.uf.flooded _).2 (not_lt.1 hfl)
      obtain ⟨top, hget, htop, hFtop⟩ := get_top_eq h.uf hFb
      rw [hget]
      simp only []
      have hab : Adj4 nx ny a index2 :=
        (dirs4_ncluster nx ny a index2).2 ⟨han, _, Nat.mod_lt _ (by norm_num), hd⟩
      have hrel := relH_some (H := H) hd hF hFb hab
      have hroot : st.v_next top = (top : Int) := top_root htop
      have htn : top < nx * ny := h.uf.bound top hFtop
      rcases h.cur with ⟨hcl, hna, hsa⟩ | ⟨c, hcl, hac, hca⟩
      · rw [if_pos hcl]
        have hta : a ≠ top := by
          intro e
          have := alone_of_size_one h.sizes hna hsa (e ▸ htop)
          exact adj4_irrefl (this ▸ hab)
        have hu' := uf_link h.uf hF hFb hta (Or.inl ⟨top_self hna, htop⟩)
        have hnm1 : ¬ ((top : Int) = -1 ∧ s ≤ 1) := fun hx => by
          have := Int.ofNat_nonneg top
          omega
        refine ⟨_, rfl, ⟨uf_congr hu' hrel, Or.inr ⟨top, rfl, ?_, Ne.symm hta⟩, ?_, ?_⟩,
          rfl, rfl, rfl⟩
        · have := top_link hna hroot hta (top_self hna)
          rwa [if_pos rfl] at this
        · have := sizes_link h.uf hna hroot hta h.sizes
          rw [hsa] at this
          exact this
        · have hrc := @rootCount_link (nx * ny) st.v_next st.v_size _ _ s hna hroot hta han htn
          rw [hsa] at hrc
          have hc := h.count
          simp only [hcl, true_and] at hc
          dsimp only
          rw [setInt_same, if_neg hnm1, hrc, hc]
          split_ifs <;> omega
      · have hcm1 : ¬ st.the_cluster = -1 := by
          rw [hcl]
          have := Int.ofNat_nonneg c
          omega
        have hcroot : st.v_next c = (c : Int) := top_root hac
        have hFc : F c := top_flooded h.uf hac hF
        have hcn : c < nx * ny := h.uf.bound c hFc
        rw [if_neg hcm1]
        by_cases hct : c = top
        · have hcond : ¬ (0 ≤ st.the_cluster ∧ st.the_cluster ≠ (top : Int)) := by
            rw [hcl, hct]
            exact fun hx => hx.2 rfl
          rw [if_neg hcond]
          refine ⟨st, rfl, ⟨uf_congr (uf_same h.uf hF hFb ⟨c, hac, hct ▸ htop⟩) hrel,
            h.cur, h.sizes, h.count⟩, rfl, rfl, rfl⟩
        · have hcond : 0 ≤ st.the_cluster ∧ st.the_cluster ≠ (top : Int) := by
            rw [hcl]
            exact ⟨Int.ofNat_nonneg c, fun e => hct (Int.ofNat_inj.1 e)⟩
          rw [if_pos hcond]
          have hcnat : st.the_cluster.toNat = c := by rw [hcl, Int.toNat_ofNat]
          rw [hcnat]
          have hne : top ≠ c := Ne.symm hct
          have hu' := uf_link h.uf hF hFb hne (Or.inr ⟨hac, htop⟩)
          have hs1 := size_pos h.sizes hcroot
          have hs2 := size_pos h.sizes hroot
          refine ⟨_, rfl, ⟨uf_congr hu' hrel, Or.inr ⟨c, hcl, ?_, hca⟩, ?_, ?_⟩, rfl, rfl, rfl⟩
          · have := top_link hroot hcroot hne hac
            rwa [if_neg hct] at this
          · exact sizes_link h.uf hroot hcroot hne h.sizes
          · have hrc := @rootCount_link (nx * ny) st.v_next st.v_size _ _ s hroot hcroot hne
              htn hcn
            have hc := h.count
            simp only [hcm1, false_and, if_false, sub_zero] at hc
            dsimp only
            simp only [hcm1, false_and, if_false, sub_zero]
            rw [hrc, hc]
            split_ifs <;> omega
  · rw [if_pos hb]
    refine ⟨st, rfl, ⟨uf_congr h.uf (relH_none ?_), h.cur, h.sizes, h.count⟩, rfl, rfl, rfl⟩
    intro y hy
    exact absurd (dirNbr_bounds hy) hb

/-- The four directions `(rd + j1) % 4`, `j1 = 0..3`, are all the directions. -/
theorem all_dirs (rd : Nat) (d : Nat) (hd : d < 4) :
    (((False ∨ d = (rd + 0) % 4) ∨ d = (rd + 1) % 4) ∨ d = (rd + 2) % 4) ∨ d = (rd + 3) % 4 := by
  omega

/-- Making the pixel at position `i` a top of size 1 establishes the invariant
of the loop over its neighbours, no direction having been handled. -/
theorem count_start_inv {nx ny : Nat} {buf_arg : Nat → Nat} {s : Int} {i : Nat} {st : State}
    (hv : ValidOrder (nx * ny) buf_arg) (hi : i < nx * ny)
    (h : PInv nx ny buf_arg s (i + 1) st) :
    VInv nx ny s (fun x => Flooded (nx * ny) buf_arg (i + 1) x ∨ x = buf_arg i)
      (buf_arg i) (fun _ => False)
      { st with v_next := setInt st.v_next (buf_arg i) ((buf_arg i : Nat) : Int)
                v_size := setInt st.v_size (buf_arg i) 1
                the_cluster := -1 } := by
  have han : buf_arg i < nx * ny := hv.range i hi
  have hna : ¬ Flooded (nx * ny) buf_arg (i + 1) (buf_arg i) := not_flooded_self hv hi
  have hneg : st.v_next (buf_arg i) < 0 := by
    by_contra hx
    exact hna ((h.uf.flooded _).2 (not_lt.1 hx))
  refine ⟨uf_congr (uf_new h.uf hna han) (relH_init hna),
    Or.inl ⟨rfl, setInt_same _ _ _, setInt_same _ _ _⟩, sizes_new h.uf hna han h.sizes, ?_⟩
  dsimp only
  rw [rootCount_new s hneg han, h.count]
  split_ifs <;> omega

/-- Once the four directions of the pixel at position `i` are handled, the
final test of the iteration re-establishes the invariant between pixels. -/
theorem count_finish_inv {nx ny : Nat} {buf_arg : Nat → Nat} {s : Int} {i : Nat} {st4 : State}
    {H : Nat → Prop} (hi : i < nx * ny) (hH : ∀ d, d < 4 → H d)
    (v4 : VInv nx ny s (fun x => Flooded (nx * ny) buf_arg (i + 1) x ∨ x = buf_arg i)
      (buf_arg i) H st4) :
    PInv nx ny buf_arg s i
      { st4 with
        asserts := st4.asserts &&
          (!decide (st4.v_next (buf_arg i) = ((buf_arg i : Nat) : Int)) ||
            decide (st4.v_size (buf_arg i) = 1))
        n_clusters :=
          if decide (st4.v_next (buf_arg i) = ((buf_arg i : Nat) : Int)) = true ∧ s ≤ 1 then
            st4.n_clusters + 1 else st4.n_clusters
        buf_nclusters := setInt st4.buf_nclusters st4.i_threshold
          (if decide (st4.v_next (buf_arg i) = ((buf_arg i : Nat) : Int)) = true ∧ s ≤ 1 then
            st4.n_clusters + 1 else st4.n_clusters) } := by
  have hiso : st4.v_next (buf_arg i) = ((buf_arg i : Nat) : Int) ↔ st4.the_cluster = -1 := by
    rcases v4.cur with ⟨h1, h2, _⟩ | ⟨c, h1, h2, h3⟩
    · exact ⟨fun _ => h1, fun _ => h2⟩
    · constructor
      · intro hx
        exact absurd (top_of_root hx h2) h3
      · intro hx
        rw [h1] at hx
        have := Int.ofNat_nonneg c
        omega
  refine ⟨?_, v4.sizes, ?_⟩
  · have hu := uf_congr v4.uf (relH_final dirs4_ncluster hH)
    have e : (fun x => Flooded (nx * ny) buf_arg (i + 1) x ∨ x = buf_arg i) =
        Flooded (nx * ny) buf_arg i := funext (fun x => propext (flooded_succ hi x))
    rw [e] at hu
    exact hu
  · dsimp only
    rw [v4.count]
    simp only [decide_eq_true_eq, hiso]
    split_ifs <;> omega

/-- Flooding the pixel at position `i` re-establishes the invariant between
pixels and writes the running count to the current output slot. -/
theorem count_floodPixel_inv {nx ny : Nat} {buf_arg : Nat → Nat} {s : Int} {i : Nat} {st : State}
    (hv : ValidOrder (nx * ny) buf_arg) (hi : i < nx * ny) (rd : Nat)
    (h : PInv nx ny buf_arg s (i + 1) st) :
    ∃ st', floodPixel nx ny s (buf_arg i) rd st = some st' ∧ PInv nx ny buf_arg s i st' ∧
      st'.i_threshold = st.i_threshold ∧
      st'.buf_nclusters = setInt st.buf_nclusters st.i_threshold st'.n_clusters := by
  have hFa : (fun x => Flooded (nx * ny) buf_arg (i + 1) x ∨ x = buf_arg i) (buf_arg i) :=
    Or.inr rfl
  have h0 := count_start_inv hv hi h
  unfold floodPixel
  simp only []
  obtain ⟨st1, e1, v1, i1, b1, -⟩ := count_visitNeighbor_inv rd 0 hFa h0
  obtain ⟨st2, e2, v2, i2, b2, -⟩ := count_visitNeighbor_inv rd 1 hFa v1
  obtain ⟨st3, e3, v3, i3, b3, -⟩ := count_visitNeighbor_inv rd 2 hFa v2
  obtain ⟨st4, e4, v4, i4, b4, -⟩ := count_visitNeighbor_inv rd 3 hFa v3
  rw [e1, Option.some_bind, e2, Option.some_bind, e3, Option.some_bind, e4, Option.map_some']
  refine ⟨_, rfl, count_finish_inv hi (all_dirs rd) v4, ?_, ?_⟩
  · dsimp only
    rw [i4, i3, i2, i1]
  · dsimp only
    rw [b4, b3, b2, b1, i4, i3, i2, i1]

theorem advance_zero {f1 t : Int} (rest : List Int) (h : t ≤ f1) : advance f1 (t :: rest) = 0 := by
  simp [advance, h]

theorem advance_all {f1 : Int} : ∀ l : List Int, (∀ th ∈ l, f1 < th) → advance f1 l = l.length := by
  intro l
  induction l with
  | nil => intro _; rfl
  | cons th rest ih =>
    intro h
    have h1 : ¬ th ≤ f1 := not_le.2 (h th (List.mem_cons_self _ _))
    have h2 := ih (fun x hx => h x (List.mem_cons_of_mem _ hx))
    simp [advance, h1, h2]

/-- The invariant between pixels does not depend on the threshold index, the
output buffer or the assertion flag. -/
theorem count_pinv_frame {nx ny : Nat} {buf_arg : Nat → Nat} {s : Int} {k : Nat} {st st' : State}
    (h : PInv nx ny buf_arg s k st) (h1 : st'.v_next = st.v_next) (h2 : st'.v_size = st.v_size)
    (h3 : st'.n_clusters = st.n_clusters) : PInv nx ny buf_arg s k st' := by
  refine ⟨?_, ?_, ?_⟩
  · rw [h1]; exact h.uf
  · rw [h1, h2]; exact h.sizes
  · rw [h1, h2, h3]; exact h.count

/-- The main loop with thresholds `t :: rest`, none of `rest` below `t`: it
ends having flooded exactly the positions of value `>= t`, with the running
count in slot 0 if a pixel was flooded, and no other slot written. -/
theorem count_flood_inv {nx ny : Nat} {img : Int → Int → Int} {buf_arg : Nat → Nat} {t : Int}
    {rest : List Int} {s seed : Int} {rand4 : Nat → Nat}
    (hv : ValidOrder (nx * ny) buf_arg) (hasc : Ascending (nx * ny) ny img buf_arg)
    (hmin : ∀ th ∈ rest, t ≤ th) :
    ∀ (k : Nat) (st : State), k ≤ nx * ny → PInv nx ny buf_arg s k st → st.i_threshold = 0 →
      (∀ j, k ≤ j → j < nx * ny → t ≤ pixval ny img (buf_arg j)) →
      (k < nx * ny → st.buf_nclusters 0 = st.n_clusters) →
      ∃ st' k', flood nx ny img buf_arg (t :: rest) s seed rand4 k st = some st' ∧
        PInv nx ny buf_arg s k' st' ∧
        (∀ j, k' ≤ j → j < nx * ny → t ≤ pixval ny img (buf_arg j)) ∧
        (∀ j, j < k' → pixval ny img (buf_arg j) < t) ∧
        (∀ slot, slot ≠ 0 → st'.buf_nclusters slot = st.buf_nclusters slot) ∧
        st'.buf_nclusters 0 = (if k' < nx * ny then st'.n_clusters else st.buf_nclusters 0) := by
  intro k
  induction k with
  | zero =>
    intro st _ h _ hge hbuf
    refine ⟨st, 0, rfl, h, hge, fun j hj => absurd hj (Nat.not_lt_zero j), fun _ _ => rfl, ?_⟩
    by_cases hn : 0 < nx * ny
    · rw [if_pos hn]; exact hbuf hn
    · rw [if_neg hn]
  | succ k ih =>
    intro st hk h h0 hge hbuf
    have hkn : k < nx * ny := Nat.lt_of_succ_le hk
    have hadv : st.i_threshold +
        advance (pixval ny img (buf_arg k)) ((t :: rest).drop st.i_threshold) =
        advance (pixval ny img (buf_arg k)) (t :: rest) := by
      rw [h0]; simp
    unfold flood
    simp only []
    rw [hadv]
    by_cases hlt : pixval ny img (buf_arg k) < t
    · have hall : advance (pixval ny img (buf_arg k)) (t :: rest) = (t :: rest).length := by
        apply advance_all
        intro th hth
        rcases List.mem_cons.1 hth with e | e
        · rw [e]; exact hlt
        · exact lt_of_lt_of_le hlt (hmin th e)
      rw [if_pos hall]
      refine ⟨_, k + 1, rfl, count_pinv_frame h rfl rfl rfl, hge, ?_, fun _ _ => rfl, ?_⟩
      · intro j hj
        exact lt_of_le_of_lt (hasc j k (Nat.le_of_lt_succ hj) hkn) hlt
      · dsimp only
        by_cases hn : k + 1 < nx * ny
        · rw [if_pos hn]; exact hbuf hn
        · rw [if_neg hn]
    · have hz : advance (pixval ny img (buf_arg k)) (t :: rest) = 0 :=
        advance_zero rest (not_lt.1 hlt)
      rw [hz, if_neg (by simp)]
      have hp' : PInv nx ny buf_arg s (k + 1)
          { st with i_threshold := 0,
                    asserts := st.asserts && decide (buf_arg k < nx * ny) } :=
        count_pinv_frame h rfl rfl rfl
      obtain ⟨st1, e1, p1, i1, b1⟩ := count_floodPixel_inv hv hkn
        (if seed = 0 then 0 else rand4 k) hp'
      rw [e1]
      simp only []
      dsimp only at i1 b1
      have hb0 : st1.buf_nclusters 0 = st1.n_clusters := by rw [b1, setInt_same]
      obtain ⟨st', k', e', p', hge', hlt', hslots, hslot0⟩ := ih st1 (Nat.le_of_lt hkn) p1 i1
        (fun j hj hjn => by
          rcases Nat.eq_or_lt_of_le hj with e | e
          · rw [← e]; exact not_lt.1 hlt
          · exact hge j e hjn)
        (fun _ => hb0)
      have hk' : k' ≤ k := by
        by_contra hx
        exact hlt (hlt' k (not_le.1 hx))
      refine ⟨st', k', e', p', hge', hlt', ?_, ?_⟩
      · intro slot hslot
        rw [hslots slot hslot, b1, setInt_other _ _ hslot]
      · rw [hslot0, if_pos (lt_of_le_of_lt hk' hkn), if_pos (lt_of_le_of_lt hk' hkn)]

/-- The empty forest before any pixel is flooded. -/
theorem count_pinv_init (nx ny : Nat) (buf_arg : Nat → Nat) (s : Int) (buf : Nat → Int) :
    PInv nx ny buf_arg s (nx * ny)
      { v_next := fun _ => -1, v_size := fun _ => 0, n_clusters := 0, i_threshold := 0,
        buf_nclusters := buf, the_cluster := -1, asserts := true } := by
  have hF : ∀ p, ¬ Flooded (nx * ny) buf_arg (nx * ny) p := by
    rintro p ⟨j, h1, h2, _⟩
    omega
  have hroot : ∀ r : Nat, ¬ ((-1 : Int) = (r : Int)) := fun r e => by
    have := Int.ofNat_nonneg r
    omega
  refine ⟨⟨?_, ?_, ?_, ?_, ?_, ?_⟩, ?_, ?_⟩
  · intro p
    exact ⟨fun h => absurd h (hF p), fun h => absurd h (by norm_num)⟩
  · exact fun p h => absurd h (hF p)
  · exact fun p h => absurd h (hF p)
  · exact fun p h => absurd h (hF p)
  · exact fun x y h => ⟨h.1, h.2.1⟩
  · exact fun p q h => absurd h (hF p)
  · intro r hr
    exact absurd hr (hroot r)
  · unfold rootCount counted
    dsimp only
    symm
    apply Finset.sum_eq_zero
    intro r _
    rw [if_neg]
    exact fun hx => hroot r hx.1

/-- The run of `compute_nclusters` on thresholds `t :: rest`, none of `rest`
below `t`: it returns; slot 0 ends with the number of components at `t` if
some pixel has value `>= t` and is untouched otherwise; no other slot is
written. -/
theorem compute_head {nx ny : Nat} {img : Int → Int → Int} {buf_arg : Nat → Nat} {t : Int}
    {rest : List Int} {s seed : Int} {rand4 : Nat → Nat} (buf : Nat → Int)
    (hv : ValidOrder (nx * ny) buf_arg) (hasc : Ascending (nx * ny) ny img buf_arg)
    (hmin : ∀ th ∈ rest, t ≤ th) :
    ∃ st, compute_nclusters nx ny img buf_arg (t :: rest) buf s seed rand4 = some st ∧
      (∀ slot, slot ≠ 0 → st.buf_nclusters slot = buf slot) ∧
      ((∃ p, InThr nx ny img t p) → CountsComponents nx ny img t s (st.buf_nclusters 0)) ∧
      ((¬ ∃ p, InThr nx ny img t p) → st.buf_nclusters 0 = buf 0 ∧
        CountsComponents nx ny img t s 0) := by
  obtain ⟨st, k', hrun, hp, hge, hlt, hslots, hslot0⟩ :=
    @count_flood_inv nx ny img buf_arg t rest s seed rand4 hv hasc hmin (nx * ny) _ le_rfl
      (count_pinv_init nx ny buf_arg s buf) rfl (fun j h1 h2 => absurd h2 (not_lt.2 h1))
      (fun h => absurd h (lt_irrefl _))
  have hFl : ∀ p, Flooded (nx * ny) buf_arg k' p ↔ InThr nx ny img t p := by
    intro p
    constructor
    · rintro ⟨j, h1, h2, rfl⟩
      exact ⟨hv.range j h2, hge j h1 h2⟩
    · rintro ⟨h1, h2⟩
      obtain ⟨j, hj, rfl⟩ := hv.surj p h1
      refine ⟨j, ?_, hj, rfl⟩
      by_contra hx
      exact absurd h2 (not_le.2 (hlt j (not_le.1 hx)))
  have hu : UF (nx * ny) st.v_next (InThr nx ny img t) (AdjF nx ny (InThr nx ny img t)) := by
    have e : Flooded (nx * ny) buf_arg k' = InThr nx ny img t :=
      funext (fun x => propext (hFl x))
    rw [← e]
    exact hp.uf
  have hcount : CountsComponents nx ny img t s st.n_clusters := by
    rw [hp.count]
    exact rootCount_counts hu hp.sizes
  refine ⟨st, hrun, hslots, ?_, ?_⟩
  · rintro ⟨p, hpI⟩
    obtain ⟨j, h1, h2, _⟩ := (hFl p).2 hpI
    rw [hslot0, if_pos (lt_of_le_of_lt h1 h2)]
    exact hcount
  · intro hno
    have hk : ¬ k' < nx * ny := by
      intro hx
      exact hno ⟨buf_arg k', (hFl _).1 ⟨k', le_rfl, hx, rfl⟩⟩
    rw [hslot0, if_neg hk]
    refine ⟨rfl, ?_⟩
    have hz : st.n_clusters = 0 := by
      rw [hp.count]
      unfold rootCount counted
      apply Finset.sum_eq_zero
      intro r _
      rw [if_neg]
      rintro ⟨hr, _⟩
      exact hno ⟨r, (hu.flooded r).2 (by rw [hr]; exact Int.ofNat_nonneg _)⟩
    rw [← hz]
    exact hcount

end Ncluster

/-- **C4.** For every grid, intensity order that is a permutation sorted by
ascending value, threshold `t`, size threshold `s` and direction seed (with
any stream of random directions), `compute_nclusters` on the one-element
threshold sequence `[t]` with output slot 0 initialised to 0 returns and
leaves in slot 0 the number of clusters that `Clusters::construct` returns for
`(t, s)`, which is the number of maximal 4-connected sets of pixels of value
`>= t` with at least `s` pixels. -/
theorem C4_count_single_threshold (nx ny : Nat) (img : Int → Int → Int) (buf_arg : Nat → Nat)
    (t s seed : Int) (rand4 : Nat → Nat) (buf : Nat → Int)
    (hv : ValidOrder (nx * ny) buf_arg) (hasc : Ascending (nx * ny) ny img buf_arg)
    (hbuf : buf 0 = 0) :
    ∃ st cs, Ncluster.compute_nclusters nx ny img buf_arg [t] buf s seed rand4 = some st ∧
      Clusters.construct nx ny img t s = some cs ∧
      st.buf_nclusters 0 = (cs.length : Int) ∧
      CountsComponents nx ny img t s (st.buf_nclusters 0) := by
  obtain ⟨st, hrun, _, h1, h2⟩ :=
    @Ncluster.compute_head nx ny img buf_arg t [] s seed rand4 buf hv hasc
      (fun th hth => absurd hth (List.not_mem_nil th))
  obtain ⟨V, cs, hcs, hres⟩ := Clusters.construct_scanRes nx ny img t s
  have hcount : CountsComponents nx ny img t s (st.buf_nclusters 0) := by
    by_cases hex : ∃ p, InThr nx ny img t p
    · exact h1 hex
    · obtain ⟨e, hz⟩ := h2 hex
      rw [e, hbuf]
      exact hz
  exact ⟨st, cs, hrun, hcs, countsComponents_unique hcount (construct_counts hres), hcount⟩

/-- Instance of C4 on the 2 × 2 grid with values 0, 1, 2, 3 (the value of a
pixel is its index), the identity order, threshold 2 and size threshold 1. -/
theorem C4_count_single_threshold_witness :
    ValidOrder (2 * 2) (fun i => i) ∧
    Ascending (2 * 2) 2 (fun ix iy => ix * 2 + iy) (fun i => i) ∧
    (fun _ : Nat => (0 : Int)) 0 = 0 ∧
    ∃ st cs, Ncluster.compute_nclusters 2 2 (fun ix iy => ix * 2 + iy) (fun i => i) [2]
        (fun _ => 0) 1 0 (fun _ => 0) = some st ∧
      Clusters.construct 2 2 (fun ix iy => ix * 2 + iy) 2 1 = some cs ∧
      st.buf_nclusters 0 = (cs.length : Int) ∧
      CountsComponents 2 2 (fun ix iy => ix * 2 + iy) 2 1 (st.buf_nclusters 0) :=
  have hv : ValidOrder (2 * 2) (fun i => i) :=
    ⟨fun _ h => h, fun _ _ _ _ h => h, fun p h => ⟨p, h, rfl⟩⟩
  have hasc : Ascending (2 * 2) 2 (fun ix iy => ix * 2 + iy) (fun i => i) := by
    intro i j hij hj
    simp only [pixval]
    omega
  ⟨hv, hasc, rfl, C4_count_single_threshold 2 2 _ _ 2 1 0 (fun _ => 0) (fun _ => 0) hv hasc rfl⟩

/-- **C5, counterexample.** On the 1 × 1 grid of value 10 with the ascending
thresholds `[1, 2]`, size threshold 1 and the output initialised to 0, slot 1
is left at 0 although there is one component at threshold 2. -/
theorem C5_counterexample :
    ∃ st, Ncluster.compute_nclusters 1 1 (fun _ _ => 10) (fun i => i) [1, 2] (fun _ => 0) 1 0
        (fun _ => 0) = some st ∧
      st.buf_nclusters 1 = 0 ∧ CountsComponents 1 1 (fun _ _ => 10) 2 1 1 ∧
      ¬ CountsComponents 1 1 (fun _ _ => 10) 2 1 (st.buf_nclusters 1) := by
  have hc : CountsComponents 1 1 (fun _ _ => 10) 2 1 1 := by
    obtain ⟨V, cs, hcs, hres⟩ := Clusters.construct_scanRes 1 1 (fun _ _ => 10) 2 1
    have e : Clusters.construct 1 1 (fun _ _ => 10) 2 1 = some [⟨[0], []⟩] := by decide
    rw [e] at hcs
    cases hcs
    exact construct_counts hres
  have hrun : (Ncluster.compute_nclusters 1 1 (fun _ _ => 10) (fun i => i) [1, 2] (fun _ => 0) 1 0
      (fun _ => 0)).map (fun st => st.buf_nclusters 1) = some 0 := by decide
  cases hst : Ncluster.compute_nclusters 1 1 (fun _ _ => 10) (fun i => i) [1, 2] (fun _ => 0) 1 0
      (fun _ => 0) with
  | none => rw [hst] at hrun; cases hrun
  | some st =>
    rw [hst] at hrun
    have e : st.buf_nclusters 1 = 0 := by
      simpa using hrun
    refine ⟨st, rfl, e, hc, ?_⟩
    rw [e]
    intro h0
    have := countsComponents_unique h0 hc
    omega

/-- **C5, amended.** For every grid, intensity order that is a permutation
sorted by ascending value, ascending threshold sequence `t :: rest`, size
threshold and direction seed, `compute_nclusters` returns and writes slot 0
only: if some pixel has value `>= t`, slot 0 holds the number of maximal
4-connected sets of pixels of value `>= t` with at least `s` pixels, and
otherwise slot 0 too keeps the value it had before the call; every other slot
keeps the value it had before the call. -/
theorem C5_count_ascending_thresholds (nx ny : Nat) (img : Int → Int → Int)
    (buf_arg : Nat → Nat) (t : Int) (rest : List Int) (s seed : Int) (rand4 : Nat → Nat)
    (buf : Nat → Int) (hv : ValidOrder (nx * ny) buf_arg)
    (hasc : Ascending (nx * ny) ny img buf_arg)
    (hths : (t :: rest).Pairwise (fun a b => a ≤ b)) :
    ∃ st, Ncluster.compute_nclusters nx ny img buf_arg (t :: rest) buf s seed rand4 = some st ∧
      (∀ slot, slot ≠ 0 → st.buf_nclusters slot = buf slot) ∧
      ((∃ p, InThr nx ny img t p) → CountsComponents nx ny img t s (st.buf_nclusters 0)) ∧
      ((¬ ∃ p, InThr nx ny img t p) → st.buf_nclusters 0 = buf 0) := by
  obtain ⟨st, hrun, h0, h1, h2⟩ :=
    @Ncluster.compute_head nx ny img buf_arg t rest s seed rand4 buf hv hasc
      (List.pairwise_cons.1 hths).1
  exact ⟨st, hrun, h0, h1, fun hno => (h2 hno).1⟩

/-- Instance of the amended C5 on the 2 × 2 grid with values 0, 1, 2, 3, the
identity order and the thresholds `[2, 3]`. -/
theorem C5_count_ascending_thresholds_witness :
    ValidOrder (2 * 2) (fun i => i) ∧
    Ascending (2 * 2) 2 (fun ix iy => ix * 2 + iy) (fun i => i) ∧
    ([2, 3] : List Int).Pairwise (fun a b => a ≤ b) ∧
    ∃ st, Ncluster.compute_nclusters 2 2 (fun ix iy => ix * 2 + iy) (fun i => i) [2, 3]
        (fun _ => 7) 1 0 (fun _ => 0) = some st ∧
      (∀ slot, slot ≠ 0 → st.buf_nclusters slot = (fun _ : Nat => (7 : Int)) slot) ∧
      ((∃ p, InThr 2 2 (fun ix iy => ix * 2 + iy) 2 p) →
        CountsComponents 2 2 (fun ix iy => ix * 2 + iy) 2 1 (st.buf_nclusters 0)) ∧
      ((¬ ∃ p, InThr 2 2 (fun ix iy => ix * 2 + iy) 2 p) →
        st.buf_nclusters 0 = (fun _ : Nat => (7 : Int)) 0) :=
  have hv : ValidOrder (2 * 2) (fun i => i) :=
    ⟨fun _ h => h, fun _ _ _ _ h => h, fun p h => ⟨p, h, rfl⟩⟩
  have hasc : Ascending (2 * 2) 2 (fun ix iy => ix * 2 + iy) (fun i => i) := by
    intro i j hij hj
    simp only [pixval]
    omega
  have hths : ([2, 3] : List Int).Pairwise (fun a b => a ≤ b) := by decide
  ⟨hv, hasc, hths,
    C5_count_ascending_thresholds 2 2 _ _ 2 [3] 1 0 (fun _ => 0) (fun _ => 7) hv hasc hths⟩

end Cellular

namespace Cellular

namespace Watershed

/-! ## The weighted component extractor: termination and emitted clusters -/

theorem setFlag_same (v : Nat → Bool) (i : Nat) (b : Bool) : setFlag v i b i = b := by
  simp [setFlag]

theorem setFlag_other (v : Nat → Bool) {i k : Nat} (b : Bool) (h : k ≠ i) :
    setFlag v i b k = v k := by
  simp [setFlag, h]

/-- Exploring an unexplored pixel of the graph lowers the number of unexplored
pixels by one. -/
theorem unexplored_set {img_size : Nat} {pe : Nat → Bool} {i : Nat} (hi : i < img_size)
    (h : pe i = false) : unexplored img_size (setFlag pe i true) + 1 = unexplored img_size pe := by
  unfold unexplored
  have hmem : i ∈ (Finset.range img_size).filter (fun p => pe p = false) := by
    rw [Finset.mem_filter, Finset.mem_range]
    exact ⟨hi, h⟩
  have e : (Finset.range img_size).filter (fun p => setFlag pe i true p = false) =
      ((Finset.range img_size).filter (fun p => pe p = false)).erase i := by
    ext p
    rw [Finset.mem_erase, Finset.mem_filter, Finset.mem_filter]
    by_cases hp : p = i
    · subst hp
      simp [setFlag_same]
    · rw [setFlag_other _ _ hp]
      simp [hp]
  rw [e, Finset.card_erase_of_mem hmem]
  have := Finset.card_pos.2 ⟨i, hmem⟩
  omega

theorem adjacentEdges_length (p : Vertex) (ee : Nat → Bool) : (adjacentEdges p ee).length ≤ 4 := by
  unfold adjacentEdges
  exact le_trans (List.length_filterMap_le _ _) (by simp)

/-- Handling an end point does not raise the termination measure. -/
theorem visitEndpoint_measure {v_pixel : Nat → Vertex} {img_size : Nat} {pt : Int}
    {st : XState} {index : Nat} (hi : index < img_size) :
    (visitEndpoint v_pixel pt st index).q.length +
        4 * unexplored img_size (visitEndpoint v_pixel pt st index).pixel_explored ≤
      st.q.length + 4 * unexplored img_size st.pixel_explored := by
  unfold visitEndpoint
  by_cases h : st.pixel_explored index = true
  · rw [if_pos h]
  · rw [if_neg h]
    have h' : st.pixel_explored index = false := by simpa using h
    have h1 := unexplored_set hi h'
    have h2 := adjacentEdges_length (v_pixel index) st.edge_explored
    dsimp only
    rw [List.length_append]
    omega

/-- The edge read at a queue entry has its end points in the graph. -/
theorem getD_ends {img_size : Nat} {v_edge : List Edge}
    (hends : ∀ e ∈ v_edge, e.index0 < img_size ∧ e.index1 < img_size) (hpos : 0 < img_size)
    (j : Nat) :
    (v_edge.getD j ⟨0, 0, 0⟩).index0 < img_size ∧ (v_edge.getD j ⟨0, 0, 0⟩).index1 < img_size := by
  by_cases hj : j < v_edge.length
  · have : v_edge.getD j ⟨0, 0, 0⟩ ∈ v_edge := by
      rw [List.getD_eq_getElem _ _ hj]
      exact List.getElem_mem _
    exact hends _ this
  · rw [List.getD_eq_default _ _ (not_lt.1 hj)]
    exact ⟨hpos, hpos⟩

/-- Induction principle for the loop `grow`: a property kept by the handling
of one popped edge holds when the loop ends, and the loop does end with an
empty queue when the fuel covers the termination measure. -/
theorem grow_induct {v_pixel : Nat → Vertex} {img_size : Nat} {v_edge : List Edge} {pt et : Int}
    (hends : ∀ e ∈ v_edge, e.index0 < img_size ∧ e.index1 < img_size) (hpos : 0 < img_size)
    (I : XState → Prop)
    (hlow : ∀ (st : XState) (j : Nat) (rest : List Nat), I st → st.q = j :: rest →
      (v_edge.getD j ⟨0, 0, 0⟩).value < et →
      I { st with q := rest
                  asserts := st.asserts && decide (st.edge_explored j = false)
                  edge_explored := setFlag st.edge_explored j true })
    (hhigh : ∀ (st : XState) (j : Nat) (rest : List Nat), I st → st.q = j :: rest →
      ¬ (v_edge.getD j ⟨0, 0, 0⟩).value < et →
      I (visitEndpoint v_pixel pt
          (visitEndpoint v_pixel pt
            { st with q := rest
                      asserts := st.asserts && decide (st.edge_explored j = false)
                      edge_explored := setFlag st.edge_explored j true
                      c := { pixels := st.c.pixels
                             edges := st.c.edges ++ [v_edge.getD j ⟨0, 0, 0⟩] } }
            (v_edge.getD j ⟨0, 0, 0⟩).index0)
          (v_edge.getD j ⟨0, 0, 0⟩).index1)) :
    ∀ (fuel : Nat) (st : XState), I st →
      st.q.length + 4 * unexplored img_size st.pixel_explored ≤ fuel →
      ∃ st', grow v_pixel v_edge pt et fuel st = some st' ∧ I st' ∧ st'.q = [] := by
  intro fuel
  induction fuel with
  | zero =>
    intro st hI hf
    cases hq : st.q with
    | nil => exact ⟨st, by unfold grow; rw [hq], hI, hq⟩
    | cons j rest =>
      rw [hq] at hf
      simp at hf
  | succ fuel ih =>
    intro st hI hf
    cases hq : st.q with
    | nil => exact ⟨st, by unfold grow; rw [hq], hI, hq⟩
    | cons j rest =>
      rw [hq, List.length_cons] at hf
      unfold grow
      rw [hq]
      simp only []
      by_cases hv : (v_edge.getD j ⟨0, 0, 0⟩).value < et
      · rw [if_pos hv]
        exact ih _ (hlow st j rest hI hq hv) (by dsimp only; omega)
      · rw [if_neg hv]
        refine ih _ (hhigh st j rest hI hq hv) ?_
        have he := getD_ends hends hpos j
        have h1 := @visitEndpoint_measure v_pixel img_size pt
          { st with q := rest
                    asserts := st.asserts && decide (st.edge_explored j = false)
                    edge_explored := setFlag st.edge_explored j true
                    c := { pixels := st.c.pixels
                           edges := st.c.edges ++ [v_edge.getD j ⟨0, 0, 0⟩] } }
          (v_edge.getD j ⟨0, 0, 0⟩).index0 he.1
        have h2 := @visitEndpoint_measure v_pixel img_size pt
          (visitEndpoint v_pixel pt
            { st with q := rest
                      asserts := st.asserts && decide (st.edge_explored j = false)
                      edge_explored := setFlag st.edge_explored j true
                      c := { pixels := st.c.pixels
                             edges := st.c.edges ++ [v_edge.getD j ⟨0, 0, 0⟩] } }
            (v_edge.getD j ⟨0, 0, 0⟩).index0)
          (v_edge.getD j ⟨0, 0, 0⟩).index1 he.2
        dsimp only at h1 h2 ⊢
        omega

theorem unexplored_le (img_size : Nat) (pe : Nat → Bool) : unexplored img_size pe ≤ img_size := by
  unfold unexplored
  exact le_trans (Finset.card_filter_le _ _) (by simp)

/-- Handling an end point keeps the thresholds of the cluster being grown. -/
theorem visitEndpoint_thresholds {v_pixel : Nat → Vertex} {pt et : Int} {st : XState}
    {index : Nat}
    (h : (∀ p ∈ st.c.pixels, pt ≤ (v_pixel p).value) ∧ (∀ e ∈ st.c.edges, et ≤ e.value)) :
    (∀ p ∈ (visitEndpoint v_pixel pt st index).c.pixels, pt ≤ (v_pixel p).value) ∧
      (∀ e ∈ (visitEndpoint v_pixel pt st index).c.edges, et ≤ e.value) := by
  unfold visitEndpoint
  by_cases hx : st.pixel_explored index = true
  · rw [if_pos hx]; exact h
  · rw [if_neg hx]
    dsimp only
    refine ⟨?_, h.2⟩
    by_cases hv : pt ≤ (v_pixel index).value
    · rw [if_pos hv]
      intro p hp
      rcases List.mem_append.1 hp with hp | hp
      · exact h.1 p hp
      · rw [List.mem_singleton] at hp
        rw [hp]; exact hv
    · rw [if_neg hv]; exact h.1

/-- Looking at one edge of the list keeps the clusters already present and
appends at most one cluster, which respects the three thresholds. -/
theorem seedEdge_emitted {v_pixel : Nat → Vertex} {img_size : Nat} {v_edge : List Edge}
    {pt et : Int} {sz : Nat} (hends : ∀ e ∈ v_edge, e.index0 < img_size ∧ e.index1 < img_size)
    (hpos : 0 < img_size) {cl0 : List Cluster} {st : XState} {new : List Cluster} (i : Nat)
    (hq : st.q = []) (hnew : ∀ c ∈ new, Emitted v_pixel pt et sz c) :
    ∃ st' new', seedEdge v_pixel img_size v_edge pt et sz (some (st, cl0 ++ new)) i =
        some (st', cl0 ++ new') ∧ st'.q = [] ∧ ∀ c ∈ new', Emitted v_pixel pt et sz c := by
  unfold seedEdge
  simp only []
  by_cases hc : st.edge_explored i = true ∨
      (st.pixel_explored (v_edge.getD i ⟨0, 0, 0⟩).index0 = true ∧
        st.pixel_explored (v_edge.getD i ⟨0, 0, 0⟩).index1 = true)
  · rw [if_pos hc]
    exact ⟨st, new, rfl, hq, hnew⟩
  · rw [if_neg hc]
    obtain ⟨st', hrun, hI, hq'⟩ := @grow_induct v_pixel img_size v_edge pt et
      hends hpos
      (fun s => (∀ p ∈ s.c.pixels, pt ≤ (v_pixel p).value) ∧ (∀ e ∈ s.c.edges, et ≤ e.value))
      (fun s j rest hI _ _ => hI)
      (fun s j rest hI _ hv => by
        apply visitEndpoint_thresholds
        apply visitEndpoint_thresholds
        refine ⟨hI.1, ?_⟩
        intro e he
        rcases List.mem_append.1 he with he | he
        · exact hI.2 e he
        · rw [List.mem_singleton] at he
          rw [he]; exact not_lt.1 hv)
      (4 * img_size + 1)
      { st with q := st.q ++ [i], c := ⟨[], []⟩, asserts := st.asserts && decide (st.q = []) }
      ⟨fun p hp => absurd hp (List.not_mem_nil p), fun e he => absurd he (List.not_mem_nil e)⟩
      (by
        dsimp only
        rw [hq]
        have := unexplored_le img_size st.pixel_explored
        simp only [List.nil_append, List.length_singleton]
        omega)
    rw [hrun]
    simp only []
    by_cases hs : st'.c.pixels.length = 0 ∨ st'.c.pixels.length < sz
    · rw [if_pos hs]
      exact ⟨st', new, rfl, hq', hnew⟩
    · rw [if_neg hs]
      push_neg at hs
      refine ⟨st', new ++ [st'.c], by rw [List.append_assoc], hq', ?_⟩
      intro c hc'
      rcases List.mem_append.1 hc' with hc' | hc'
      · exact hnew c hc'
      · rw [List.mem_singleton] at hc'
        subst hc'
        exact ⟨fun e => hs.1 (by rw [e]; rfl), hs.2, hI.1, hI.2⟩

/-- The loop over all edges appends clusters that respect the thresholds. -/
theorem seedAll_emitted {v_pixel : Nat → Vertex} {img_size : Nat} {v_edge : List Edge}
    {pt et : Int} {sz : Nat} (hends : ∀ e ∈ v_edge, e.index0 < img_size ∧ e.index1 < img_size)
    (hpos : 0 < img_size) (cl0 : List Cluster) (st0 : XState) (hq0 : st0.q = []) :
    ∀ k, ∃ st' new', (List.range k).foldl (seedEdge v_pixel img_size v_edge pt et sz)
        (some (st0, cl0)) = some (st', cl0 ++ new') ∧ st'.q = [] ∧
        ∀ c ∈ new', Emitted v_pixel pt et sz c := by
  intro k
  induction k with
  | zero => exact ⟨st0, [], by simp, hq0, fun c hc => absurd hc (List.not_mem_nil c)⟩
  | succ k ih =>
    obtain ⟨st, new, hrun, hq, hnew⟩ := ih
    obtain ⟨st', new', hstep, hq', hnew'⟩ := seedEdge_emitted hends hpos k hq hnew
    refine ⟨st', new', ?_, hq', hnew'⟩
    rw [List.range_succ, List.foldl_append, hrun]
    simpa using hstep

/-- On a well-formed graph `obtain_clusters` returns; it keeps the clusters it
was handed and appends clusters that respect the three thresholds. -/
theorem obtain_clusters_emitted {v_pixel : Nat → Vertex} {img_size : Nat} {v_edge : List Edge}
    (pt et : Int) (sz : Nat) (cl0 : List Cluster) (hok : GraphOK v_pixel img_size v_edge) :
    ∃ new, obtain_clusters v_pixel img_size v_edge pt et sz cl0 = some (cl0 ++ new) ∧
      ∀ c ∈ new, Emitted v_pixel pt et sz c := by
  unfold obtain_clusters obtain_clusters_run
  simp only []
  by_cases he : v_edge.length = 0
  · rw [if_pos he]
    exact ⟨[], by simp, fun c hc => absurd hc (List.not_mem_nil c)⟩
  · rw [if_neg he]
    have hpos : 0 < img_size := by
      cases hv : v_edge with
      | nil => rw [hv] at he; simp at he
      | cons e rest =>
        have := (hok.ends e (by rw [hv]; exact List.mem_cons_self _ _)).1
        omega
    obtain ⟨st', new', hrun, _, hnew'⟩ := @seedAll_emitted v_pixel img_size v_edge pt et sz
      hok.ends hpos cl0
      { edge_explored := fun _ => false, pixel_explored := fun _ => false, q := [],
        c := ⟨[], []⟩, asserts := true } rfl v_edge.length
    rw [hrun]
    exact ⟨new', rfl, hnew'⟩

end Watershed

/-- **C10.** For every well-formed vertex/edge graph and every query
`(pixel_threshold, edge_threshold, size_threshold)`, `obtain_clusters` returns
and every cluster it emits (appends to the collection it was handed) has a
non-empty pixel list of length `>= size_threshold`, only pixels of value
`>= pixel_threshold` and only edges of weight `>= edge_threshold`. -/
theorem C10_emitted_respect_thresholds (v_pixel : Nat → Vertex) (img_size : Nat)
    (v_edge : List Edge) (pixel_threshold edge_threshold : Int) (size_threshold : Nat)
    (clusters : List Cluster) (hok : Watershed.GraphOK v_pixel img_size v_edge) :
    ∃ emitted,
      Watershed.obtain_clusters v_pixel img_size v_edge pixel_threshold edge_threshold
        size_threshold clusters = some (clusters ++ emitted) ∧
      ∀ c ∈ emitted, c.pixels ≠ [] ∧ size_threshold ≤ c.pixels.length ∧
        (∀ p ∈ c.pixels, pixel_threshold ≤ (v_pixel p).value) ∧
        (∀ e ∈ c.edges, edge_threshold ≤ e.value) :=
  Watershed.obtain_clusters_emitted pixel_threshold edge_threshold size_threshold clusters hok

/-- Instance of C10 on the graph of two pixels of value 10 joined by one edge
of weight 10, queried with thresholds 5, 5 and 1. -/
theorem C10_emitted_respect_thresholds_witness :
    Watershed.GraphOK
      (fun _ => { value := 10, next := 0, size := 0, edge := fun j => if j = 0 then 0 else -1 })
      2 [⟨0, 1, 10⟩] ∧
    ∃ emitted,
      Watershed.obtain_clusters
        (fun _ => { value := 10, next := 0, size := 0, edge := fun j => if j = 0 then 0 else -1 })
        2 [⟨0, 1, 10⟩] 5 5 1 [] = some ([] ++ emitted) ∧
      ∀ c ∈ emitted, c.pixels ≠ [] ∧ 1 ≤ c.pixels.length ∧
        (∀ p ∈ c.pixels, (5 : Int) ≤
          ((fun _ => { value := 10, next := 0, size := 0,
                       edge := fun j => if j = 0 then 0 else -1 }) p : Vertex).value) ∧
        (∀ e ∈ c.edges, (5 : Int) ≤ e.value) :=
  have hok : Watershed.GraphOK
      (fun _ => { value := 10, next := 0, size := 0, edge := fun j => if j = 0 then 0 else -1 })
      2 [⟨0, 1, 10⟩] := by
    refine ⟨?_, ?_⟩
    · intro e he
      rw [List.mem_singleton] at he
      subst he
      exact ⟨by decide, by decide⟩
    · intro p j _ _
      dsimp only
      split_ifs <;> simp
  ⟨hok, C10_emitted_respect_thresholds _ 2 [⟨0, 1, 10⟩] 5 5 1 [] hok⟩

/-- **C9, evaluation.** On the graph built from the 1 × 2 grid of values 10, 10
(pixel threshold 5, merge threshold 100, seed 0), the query with thresholds
5, 5, 1 into an empty collection yields one cluster with pixels 0 and 1; the
same query repeated into the collection so filled leaves two copies of it. -/
theorem C9_second_query_appends :
    ∃ g out1 out2,
      Watershed.construct_graph 1 2 (fun _ _ => 10) (fun i => i) 5 100 0 (fun _ => 0) = some g ∧
      Watershed.obtain_clusters g.v 2 g.v_edge 5 5 1 [] = some out1 ∧
      Watershed.obtain_clusters g.v 2 g.v_edge 5 5 1 out1 = some out2 ∧
      out1 = [⟨[0, 1], [⟨0, 1, 10⟩]⟩] ∧
      out2 = [⟨[0, 1], [⟨0, 1, 10⟩]⟩, ⟨[0, 1], [⟨0, 1, 10⟩]⟩] := by
  have h : ((Watershed.construct_graph 1 2 (fun _ _ => 10) (fun i => i) 5 100 0
      (fun _ => 0)).bind fun g =>
        (Watershed.obtain_clusters g.v 2 g.v_edge 5 5 1 []).bind fun out1 =>
          (Watershed.obtain_clusters g.v 2 g.v_edge 5 5 1 out1).map fun out2 => (out1, out2)) =
      some ([⟨[0, 1], [⟨0, 1, 10⟩]⟩],
        [⟨[0, 1], [⟨0, 1, 10⟩]⟩, ⟨[0, 1], [⟨0, 1, 10⟩]⟩]) := by decide
  cases hg : Watershed.construct_graph 1 2 (fun _ _ => 10) (fun i => i) 5 100 0 (fun _ => 0) with
  | none => rw [hg] at h; cases h
  | some g =>
    rw [hg, Option.some_bind] at h
    cases h1 : Watershed.obtain_clusters g.v 2 g.v_edge 5 5 1 [] with
    | none => rw [h1] at h; cases h
    | some out1 =>
      rw [h1, Option.some_bind] at h
      cases h2 : Watershed.obtain_clusters g.v 2 g.v_edge 5 5 1 out1 with
      | none => rw [h2] at h; cases h
      | some out2 =>
        rw [h2, Option.map_some'] at h
        have e := Option.some.inj h
        exact ⟨g, out1, out2, rfl, h1, h2, (Prod.mk.inj e).1, (Prod.mk.inj e).2⟩

end Cellular

namespace Cellular

namespace Nuclei

/-! ## The bounded-size region marker -/

theorem mem_setInsert {x y : Nat} {l : List Nat} : x ∈ setInsert y l ↔ (x = y ∨ x ∈ l) := by
  unfold setInsert
  by_cases h : y ∈ l
  · rw [if_pos h]
    constructor
    · exact Or.inr
    · rintro (e | e)
      · rw [e]; exact h
      · exact e
  · rw [if_neg h, List.mem_orderedInsert]

theorem setList_same (a : Nat → List Nat) (i : Nat) (x : List Nat) : setList a i x i = x := by
  simp [setList]

theorem setList_other (a : Nat → List Nat) {i k : Nat} (x : List Nat) (h : k ≠ i) :
    setList a i x k = a k := by
  simp [setList, h]

/-- Handling one neighbour of the pixel `a` keeps the invariant of the loop
over the neighbours and does not touch the mask. -/
theorem mark_visitNeighbor_inv {nx ny size_min size_max : Nat} {track : Prop} {F : Nat → Prop}
    {a : Nat} {H : Nat → Prop} {st : State} (j1 : Nat) (hj : j1 < 4) (hF : F a)
    (h : VInv nx ny size_min size_max track F a H st) :
    ∃ st', visitNeighbor nx ny size_min size_max a st j1 = some st' ∧
      VInv nx ny size_min size_max track F a (fun d' => H d' ∨ d' = j1) st' ∧
      st'.buf_nuclei = st.buf_nuclei := by
  have han : a < nx * ny := h.uf.bound a hF
  unfold visitNeighbor
  simp only []
  by_cases hb : (0 ≤ ((a / ny : Nat) : Int) + dx_list.getD j1 0 ∧
      ((a / ny : Nat) : Int) + dx_list.getD j1 0 < (nx : Int) ∧
      0 ≤ ((a % ny : Nat) : Int) + dy_list.getD j1 0 ∧
      ((a % ny : Nat) : Int) + dy_list.getD j1 0 < (ny : Int))
  · rw [if_neg (not_not.2 hb)]
    have hd := dirNbr_toNat hb
    generalize ((((a / ny : Nat) : Int) + dx_list.getD j1 0) * (ny : Int) +
      (((a % ny : Nat) : Int) + dy_list.getD j1 0)).toNat = index2 at hd
    by_cases hfl : st.v_next index2 < 0
    · rw [if_pos hfl]
      refine ⟨st, rfl, ⟨uf_congr h.uf (relH_none ?_), h.cur, h.lists, h.empty, h.upd⟩, rfl⟩
      intro y hy hFy
      rw [dirNbr_unique hy hd] at hFy
      exact absurd ((h.uf.flooded _).1 hFy) (not_le.2 hfl)
    · rw [if_neg hfl]
      have hFb : F index2 := (h.uf.flooded _).2 (not_lt.1 hfl)
      obtain ⟨top, hget, htop, hFtop⟩ := get_top_eq h.uf hFb
      rw [hget]
      simp only []
      have hab : Adj4 nx ny a index2 := (dirs4_nuclei nx ny a index2).2 ⟨han, j1, hj, hd⟩
      have hrel := relH_some (H := H) hd hF hFb hab
      have hroot : st.v_next top = (top : Int) := top_root htop
      rcases h.cur with ⟨hcl, hna, hva, halone⟩ | ⟨c, hcl, hac, hca⟩
      · rw [if_pos hcl]
        have hta : a ≠ top := by
          intro e
          have := halone index2 (e ▸ htop)
          exact adj4_irrefl (this ▸ hab)
        have hu' := uf_link h.uf hF hFb hta (Or.inl ⟨top_self hna, htop⟩)
        have hnm1 : ((top : Int) ≠ -1) := fun hx => by
          have := Int.ofNat_nonneg top
          omega
        have hla : ClassList st.v_next a [a] :=
          ⟨List.nodup_singleton _, fun p => by
            rw [List.mem_singleton]
            exact ⟨fun e => by rw [e]; exact top_self hna, halone p⟩⟩
        have hlb : ClassList st.v_next top (st.v_pixels top) :=
          h.lists top hroot (fun e => absurd e.symm hta)
        refine ⟨_, rfl, ⟨uf_congr hu' hrel, Or.inr ⟨top, rfl, ?_, Ne.symm hta⟩, ?_, ?_, ?_⟩, rfl⟩
        · have := top_link hna hroot hta (top_self hna)
          rwa [if_pos rfl] at this
        · intro r hr _
          dsimp only at hr ⊢
          obtain ⟨hr1, hr2⟩ := (root_link_iff hta r).1 hr
          by_cases e : r = top
          · subst e
            rw [setList_same]
            exact (classList_link h.uf hna hroot hta hla hlb (Or.inr rfl)).1
          · rw [setList_other _ _ e]
            exact classList_link_other h.uf hna hroot hta e hr2
              (h.lists r hr1 (fun e' => absurd e' hr2))
        · intro p hp
          dsimp only at hp ⊢
          by_cases e : p = a
          · subst e
            rw [setList_other _ _ hta]
            exact hva
          · rw [setInt_other _ _ e] at hp
            have hpt : p ≠ top := fun e' => hp (e' ▸ hroot)
            rw [setList_other _ _ hpt]
            exact h.empty p hp
        · intro ht r hr h2 h3 h4
          dsimp only at hr h2 h3 h4 ⊢
          obtain ⟨hr1, hr2⟩ := (root_link_iff hta r).1 hr
          by_cases e : r = top
          · subst e
            rw [setList_same] at h2 h3 h4 ⊢
            rw [if_pos ⟨h3, le_of_lt h4⟩]
            exact mem_setInsert.2 (Or.inl rfl)
          · rw [setList_other _ _ e] at h2 h3 h4
            have := h.upd ht r hr1 h2 h3 h4
            split_ifs
            · exact mem_setInsert.2 (Or.inr this)
            · exact this
      · have hcm1 : ¬ st.the_cluster = -1 := by
          rw [hcl]
          have := Int.ofNat_nonneg c
          omega
        have hcroot : st.v_next c = (c : Int) := top_root hac
        rw [if_neg hcm1]
        by_cases hct : c = top
        · have hcond : ¬ (0 ≤ st.the_cluster ∧ st.the_cluster ≠ (top : Int)) := by
            rw [hcl, hct]
            exact fun hx => hx.2 rfl
          rw [if_neg hcond]
          refine ⟨st, rfl, ⟨uf_congr (uf_same h.uf hF hFb ⟨c, hac, hct ▸ htop⟩) hrel,
            h.cur, h.lists, h.empty, h.upd⟩, rfl⟩
        · have hcond : 0 ≤ st.the_cluster ∧ st.the_cluster ≠ (top : Int) := by
            rw [hcl]
            exact ⟨Int.ofNat_nonneg c, fun e => hct (Int.ofNat_inj.1 e)⟩
          rw [if_pos hcond]
          have hcnat : st.the_cluster.toNat = c := by rw [hcl, Int.toNat_ofNat]
          rw [hcnat]
          have hne : top ≠ c := Ne.symm hct
          have hu' := uf_link h.uf hF hFb hne (Or.inr ⟨hac, htop⟩)
          have hla : ClassList st.v_next top (st.v_pixels top) :=
            h.lists top hroot (fun _ => hcm1)
          have hlb : ClassList st.v_next c (st.v_pixels c) :=
            h.lists c hcroot (fun _ => hcm1)
          refine ⟨_, rfl, ⟨uf_congr hu' hrel, Or.inr ⟨c, hcl, ?_, hca⟩, ?_, ?_, ?_⟩, rfl⟩
          · have := top_link hroot hcroot hne hac
            rwa [if_neg hct] at this
          · intro r hr _
            dsimp only [merge_pixels] at hr ⊢
            obtain ⟨hr1, hr2⟩ := (root_link_iff hne r).1 hr
            rw [setList_other _ _ hr2]
            by_cases e : r = c
            · subst e
              rw [setList_same]
              exact (classList_link h.uf hroot hcroot hne hla hlb (Or.inl rfl)).1
            · rw [setList_other _ _ e]
              exact classList_link_other h.uf hroot hcroot hne e hr2
                (h.lists r hr1 (fun _ => hcm1))
          · intro p hp
            dsimp only [merge_pixels] at hp ⊢
            by_cases e : p = top
            · subst e
              rw [setList_same]
            · rw [setInt_other _ _ e] at hp
              have hpc : p ≠ c := fun e' => hp (e' ▸ hcroot)
              rw [setList_other _ _ e, setList_other _ _ hpc]
              exact h.empty p hp
          · intro ht r hr h2 h3 h4
            dsimp only [merge_pixels] at hr h2 h3 h4 ⊢
            obtain ⟨hr1, hr2⟩ := (root_link_iff hne r).1 hr
            rw [setList_other _ _ hr2] at h2 h3 h4
            by_cases e : r = c
            · subst e
              rw [setList_same, List.length_append] at h2 h3 h4
              rw [if_pos ⟨by omega, by omega⟩]
              exact mem_setInsert.2 (Or.inl rfl)
            · rw [setList_other _ _ e] at h2 h3 h4
              have := h.upd ht r hr1 h2 h3 h4
              split_ifs
              · exact mem_setInsert.2 (Or.inr this)
              · exact this
  · rw [if_pos hb]
    refine ⟨st, rfl, ⟨uf_congr h.uf (relH_none ?_), h.cur, h.lists, h.empty, h.upd⟩, rfl⟩
    intro y hy
    exact absurd (dirNbr_bounds hy) hb

theorem all_dirs_plain (d : Nat) (hd : d < 4) :
    (((False ∨ d = 0) ∨ d = 1) ∨ d = 2) ∨ d = 3 := by
  omega

/-- Making the pixel at position `i` its own `next` establishes the invariant
of the loop over its neighbours, no direction having been handled. -/
theorem mark_start_inv {nx ny : Nat} {buf_arg : Nat → Nat} {size_min size_max : Nat}
    {track : Prop} {i : Nat} {st : State} (hv : ValidOrder (nx * ny) buf_arg)
    (hi : i < nx * ny) (h : PInv nx ny buf_arg size_min size_max track (i + 1) st) :
    VInv nx ny size_min size_max track
      (fun x => Flooded (nx * ny) buf_arg (i + 1) x ∨ x = buf_arg i) (buf_arg i)
      (fun _ => False)
      { st with v_next := setInt st.v_next (buf_arg i) ((buf_arg i : Nat) : Int)
                the_cluster := -1 } := by
  have han : buf_arg i < nx * ny := hv.range i hi
  have hna : ¬ Flooded (nx * ny) buf_arg (i + 1) (buf_arg i) := not_flooded_self hv hi
  have hneg : st.v_next (buf_arg i) < 0 := by
    by_contra hx
    exact hna ((h.uf.flooded _).2 (not_lt.1 hx))
  have hnr : st.v_next (buf_arg i) ≠ ((buf_arg i : Nat) : Int) := fun e => by
    rw [e] at hneg
    exact absurd (Int.ofNat_nonneg _) (not_le.2 hneg)
  refine ⟨uf_congr (uf_new h.uf hna han) (relH_init hna), Or.inl ⟨rfl, setInt_same _ _ _,
    h.empty _ hnr, ?_⟩, ?_, ?_, ?_⟩
  · intro p hp
    rcases (top_new_iff h.uf hna han p (buf_arg i)).1 hp with ⟨e, _⟩ | hp'
    · exact e
    · exact absurd (top_flooded h.uf hp' (flooded_of_top h.uf hp')) hna
  · intro r hr hra
    dsimp only at hr hra ⊢
    have hr' : r ≠ buf_arg i := fun e => hra e rfl
    rw [setInt_other _ _ hr'] at hr
    have hl := h.lists r hr
    refine ⟨hl.1, fun p => ?_⟩
    rw [hl.2 p, top_new_iff h.uf hna han]
    constructor
    · exact Or.inr
    · rintro (⟨_, e⟩ | hp)
      · exact absurd e hr'
      · exact hp
  · intro p hp
    dsimp only at hp ⊢
    by_cases e : p = buf_arg i
    · rw [e, setInt_same] at hp
      exact absurd rfl hp
    · rw [setInt_other _ _ e] at hp
      exact h.empty p hp
  · intro ht r hr h2 h3 h4
    dsimp only at hr h2 h3 h4 ⊢
    by_cases e : r = buf_arg i
    · rw [e, h.empty _ hnr] at h2
      simp at h2
    · rw [setInt_other _ _ e] at hr
      exact h.upd ht r hr h2 h3 h4

/-- Once the four directions of the pixel at position `i` are handled, the
final test of the iteration re-establishes the invariant between pixels. -/
theorem mark_finish_inv {nx ny : Nat} {buf_arg : Nat → Nat} {size_min size_max : Nat}
    {track : Prop} {i : Nat} {st4 : State} {H : Nat → Prop} (hi : i < nx * ny)
    (hH : ∀ d, d < 4 → H d)
    (v4 : VInv nx ny size_min size_max track
      (fun x => Flooded (nx * ny) buf_arg (i + 1) x ∨ x = buf_arg i) (buf_arg i) H st4) :
    PInv nx ny buf_arg size_min size_max track i
      (if st4.v_next (buf_arg i) = ((buf_arg i : Nat) : Int) then
        { st4 with
          v_pixels := setList st4.v_pixels (buf_arg i) (st4.v_pixels (buf_arg i) ++ [buf_arg i]) }
       else st4) := by
  have hu : UF (nx * ny) st4.v_next (Flooded (nx * ny) buf_arg i)
      (AdjF nx ny (Flooded (nx * ny) buf_arg i)) := by
    have hu := uf_congr v4.uf (relH_final dirs4_nuclei hH)
    have e : (fun x => Flooded (nx * ny) buf_arg (i + 1) x ∨ x = buf_arg i) =
        Flooded (nx * ny) buf_arg i := funext (fun x => propext (flooded_succ hi x))
    rw [e] at hu
    exact hu
  rcases v4.cur with ⟨hcl, hroot, hva, halone⟩ | ⟨c, hcl, hac, hca⟩
  · rw [if_pos hroot]
    refine ⟨hu, ?_, ?_, ?_⟩
    · intro r hr
      dsimp only at hr ⊢
      by_cases e : r = buf_arg i
      · rw [e, setList_same, hva]
        exact ⟨List.nodup_singleton _, fun p => by
          rw [List.nil_append, List.mem_singleton]
          exact ⟨fun e' => by rw [e']; exact top_self hroot, halone p⟩⟩
      · rw [setList_other _ _ e]
        exact v4.lists r hr (fun e' => absurd e' e)
    · intro p hp
      dsimp only at hp ⊢
      have e : p ≠ buf_arg i := fun e' => hp (e' ▸ hroot)
      rw [setList_other _ _ e]
      exact v4.empty p hp
    · intro ht r hr h2 h3 h4
      dsimp only at hr h2 h3 h4 ⊢
      by_cases e : r = buf_arg i
      · rw [e, setList_same, hva] at h2
        simp at h2
      · rw [setList_other _ _ e] at h2 h3 h4
        exact v4.upd ht r hr h2 h3 h4
  · have hnroot : ¬ st4.v_next (buf_arg i) = ((buf_arg i : Nat) : Int) := fun hx =>
      hca (top_of_root hx hac)
    have hcm1 : st4.the_cluster ≠ -1 := by
      rw [hcl]
      have := Int.ofNat_nonneg c
      omega
    rw [if_neg hnroot]
    exact ⟨hu, fun r hr => v4.lists r hr (fun _ => hcm1), v4.empty, v4.upd⟩

/-- Flooding the pixel at position `i` re-establishes the invariant between
pixels and does not touch the mask. -/
theorem mark_floodPixel_inv {nx ny : Nat} {buf_arg : Nat → Nat} {size_min size_max : Nat}
    {track : Prop} {i : Nat} {st : State} (hv : ValidOrder (nx * ny) buf_arg)
    (hi : i < nx * ny) (h : PInv nx ny buf_arg size_min size_max track (i + 1) st) :
    ∃ st', floodPixel nx ny size_min size_max (buf_arg i) st = some st' ∧
      PInv nx ny buf_arg size_min size_max track i st' ∧ st'.buf_nuclei = st.buf_nuclei := by
  have hFa : (fun x => Flooded (nx * ny) buf_arg (i + 1) x ∨ x = buf_arg i) (buf_arg i) :=
    Or.inr rfl
  have h0 := mark_start_inv hv hi h
  unfold floodPixel
  simp only []
  obtain ⟨st1, e1, v1, b1⟩ := mark_visitNeighbor_inv 0 (by norm_num) hFa h0
  obtain ⟨st2, e2, v2, b2⟩ := mark_visitNeighbor_inv 1 (by norm_num) hFa v1
  obtain ⟨st3, e3, v3, b3⟩ := mark_visitNeighbor_inv 2 (by norm_num) hFa v2
  obtain ⟨st4, e4, v4, b4⟩ := mark_visitNeighbor_inv 3 (by norm_num) hFa v3
  rw [e1, Option.some_bind, e2, Option.some_bind, e3, Option.some_bind, e4, Option.map_some']
  have hbuf : st4.buf_nuclei = st.buf_nuclei := by rw [b4, b3, b2, b1]
  refine ⟨_, rfl, mark_finish_inv hi all_dirs_plain v4, ?_⟩
  split_ifs
  · exact hbuf
  · exact hbuf

/-- The invariant between pixels does not depend on the mask, the assertion
flag or, when the updated clusters are not tracked, on the updated clusters. -/
theorem mark_pinv_frame {nx ny : Nat} {buf_arg : Nat → Nat} {size_min size_max : Nat}
    {track : Prop} {k : Nat} {st st' : State}
    (h : PInv nx ny buf_arg size_min size_max track k st) (h1 : st'.v_next = st.v_next)
    (h2 : st'.v_pixels = st.v_pixels)
    (h3 : track → st'.updated_clusters = st.updated_clusters) :
    PInv nx ny buf_arg size_min size_max track k st' := by
  refine ⟨?_, ?_, ?_, ?_⟩
  · rw [h1]; exact h.uf
  · rw [h1, h2]; exact h.lists
  · rw [h1, h2]; exact h.empty
  · intro ht
    rw [h1, h2, h3 ht]
    exact h.upd ht

/-- The loop over the pixels of one threshold: it returns, having flooded the
positions down to the first one of value below the threshold, keeps the
invariant and does not touch the mask. -/
theorem mark_batch_inv {nx ny : Nat} {img : Int → Int → Int} {buf_arg : Nat → Nat} {pt : Int}
    {size_min size_max : Nat} {track : Prop} (hv : ValidOrder (nx * ny) buf_arg) :
    ∀ (k : Nat) (st : State), k ≤ nx * ny →
      PInv nx ny buf_arg size_min size_max track k st →
      ∃ k' st', batch nx ny img buf_arg pt size_min size_max k st = some (k', st') ∧
        k' ≤ k ∧ PInv nx ny buf_arg size_min size_max track k' st' ∧
        st'.buf_nuclei = st.buf_nuclei ∧
        (∀ j, k' ≤ j → j < k → pt ≤ pixval ny img (buf_arg j)) ∧
        (k' = 0 ∨ pixval ny img (buf_arg (k' - 1)) < pt) := by
  intro k
  induction k with
  | zero =>
    intro st _ h
    exact ⟨0, st, rfl, le_rfl, h, rfl, fun j h1 h2 => absurd h2 (Nat.not_lt_zero j), Or.inl rfl⟩
  | succ k ih =>
    intro st hk h
    have hkn : k < nx * ny := Nat.lt_of_succ_le hk
    unfold batch
    simp only []
    by_cases hlt : pixval ny img (buf_arg k) < pt
    · rw [if_pos hlt]
      refine ⟨k + 1, _, rfl, le_rfl, mark_pinv_frame h rfl rfl (fun _ => rfl), rfl,
        fun j h1 h2 => absurd h2 (not_lt.2 h1), Or.inr ?_⟩
      simpa using hlt
    · rw [if_neg hlt]
      have hp' : PInv nx ny buf_arg size_min size_max track (k + 1)
          { st with asserts := st.asserts && decide (buf_arg k < nx * ny) } :=
        mark_pinv_frame h rfl rfl (fun _ => rfl)
      obtain ⟨st1, e1, p1, b1⟩ := mark_floodPixel_inv hv hkn hp'
      rw [e1]
      simp only []
      obtain ⟨k', st', e', hk', p', b', hge, hstop⟩ := ih st1 (Nat.le_of_lt hkn) p1
      refine ⟨k', st', e', Nat.le_succ_of_le hk', p', by rw [b', b1], ?_, hstop⟩
      intro j h1 h2
      rcases Nat.eq_or_lt_of_le (Nat.le_of_lt_succ h2) with e | e
      · rw [e]; exact not_lt.1 hlt
      · exact hge j h1 e

/-- What `mark_pixels` sets. -/
theorem mark_pixels_iff (q : List Nat) (buf : Nat → Bool) (i : Nat) :
    mark_pixels q buf i = true ↔ (buf i = true ∨ i ∈ q) := by
  unfold mark_pixels
  induction q generalizing buf with
  | nil => simp
  | cons x q ih =>
    rw [List.foldl_cons, ih]
    by_cases e : i = x
    · subst e
      simp [setFlag]
    · simp [setFlag, e]

/-- What the update after a batch sets: the old mask and the pixels of the
updated clusters whose size is in the window. -/
theorem markUpdated_iff (size_min size_max : Nat) (st : State) (i : Nat) :
    markUpdated size_min size_max st i = true ↔
      (st.buf_nuclei i = true ∨ ∃ c ∈ st.updated_clusters,
        (size_min ≤ (st.v_pixels c).length ∧ (st.v_pixels c).length ≤ size_max) ∧
          i ∈ st.v_pixels c) := by
  unfold markUpdated
  generalize st.buf_nuclei = buf
  generalize st.updated_clusters = l
  induction l generalizing buf with
  | nil => simp
  | cons x l ih =>
    rw [List.foldl_cons, ih]
    by_cases hx : size_min ≤ (st.v_pixels x).length ∧ (st.v_pixels x).length ≤ size_max
    · rw [if_pos hx, mark_pixels_iff]
      simp only [List.mem_cons, exists_eq_or_imp]
      tauto
    · rw [if_neg hx]
      simp only [List.mem_cons, exists_eq_or_imp]
      tauto

/-- The loop over the thresholds returns and never clears a mask entry. -/
theorem mark_sweep_inv {nx ny : Nat} {img : Int → Int → Int} {buf_arg : Nat → Nat}
    {size_min size_max : Nat} (hv : ValidOrder (nx * ny) buf_arg) :
    ∀ (ths : List Int) (k : Nat) (st : State), k ≤ nx * ny →
      PInv nx ny buf_arg size_min size_max False k st →
      ∃ st', sweep nx ny img buf_arg size_min size_max ths k st = some st' ∧
        ∀ i, st.buf_nuclei i = true → st'.buf_nuclei i = true := by
  intro ths
  induction ths with
  | nil =>
    intro k st _ _
    exact ⟨st, rfl, fun _ h => h⟩
  | cons pt rest ih =>
    intro k st hk h
    unfold sweep
    have hp0 : PInv nx ny buf_arg size_min size_max False k
        { st with updated_clusters := [] } :=
      mark_pinv_frame h rfl rfl (fun hf => absurd hf not_false)
    obtain ⟨k', st1, e1, hk', p1, b1, -, -⟩ :=
      @mark_batch_inv nx ny img buf_arg pt size_min size_max False hv k _ hk hp0
    rw [e1]
    simp only []
    have hp1 : PInv nx ny buf_arg size_min size_max False k'
        { st1 with buf_nuclei := markUpdated size_min size_max st1 } :=
      mark_pinv_frame p1 rfl rfl (fun hf => absurd hf not_false)
    obtain ⟨st', e', hmono⟩ := ih k' _ (le_trans hk' hk) hp1
    refine ⟨st', e', fun i hi => hmono i ?_⟩
    dsimp only
    rw [markUpdated_iff, b1]
    exact Or.inl hi

/-- The empty forest before any pixel is flooded. -/
theorem mark_pinv_init (nx ny : Nat) (buf_arg : Nat → Nat) (size_min size_max : Nat)
    (track : Prop) (buf : Nat → Bool) :
    PInv nx ny buf_arg size_min size_max track (nx * ny)
      { v_next := fun _ => -1, v_pixels := fun _ => [], updated_clusters := [],
        buf_nuclei := buf, the_cluster := -1, asserts := true } := by
  have hF : ∀ p, ¬ Flooded (nx * ny) buf_arg (nx * ny) p := by
    rintro p ⟨j, h1, h2, _⟩
    omega
  have hroot : ∀ r : Nat, ¬ ((-1 : Int) = (r : Int)) := fun r e => by
    have := Int.ofNat_nonneg r
    omega
  refine ⟨⟨?_, ?_, ?_, ?_, ?_, ?_⟩, ?_, ?_, ?_⟩
  · intro p
    exact ⟨fun h => absurd h (hF p), fun h => absurd h (by norm_num)⟩
  · exact fun p h => absurd h (hF p)
  · exact fun p h => absurd h (hF p)
  · exact fun p h => absurd h (hF p)
  · exact fun x y h => ⟨h.1, h.2.1⟩
  · exact fun p q h => absurd h (hF p)
  · intro r hr
    exact absurd hr (hroot r)
  · intro p _
    rfl
  · intro _ r hr
    exact absurd hr (hroot r)

end Nuclei

/-- **C7.** For every grid, intensity order that is a permutation of the pixel
indices, threshold sequence, size window and initial mask, `mark_nuclei`
returns and never clears a mask entry: every entry that is true before the
call is true after it, and every entry that the call changes was false before
and is true after. -/
theorem C7_mask_only_set (nx ny : Nat) (img : Int → Int → Int) (buf_arg : Nat → Nat)
    (buf_thresholds : List Int) (size_min size_max : Nat) (buf_nuclei : Nat → Bool)
    (hv : ValidOrder (nx * ny) buf_arg) :
    ∃ st, Nuclei.mark_nuclei nx ny img buf_arg buf_thresholds size_min size_max buf_nuclei =
        some st ∧
      (∀ i, buf_nuclei i = true → st.buf_nuclei i = true) ∧
      (∀ i, st.buf_nuclei i ≠ buf_nuclei i → buf_nuclei i = false ∧ st.buf_nuclei i = true) := by
  obtain ⟨st, hrun, hmono⟩ := @Nuclei.mark_sweep_inv nx ny img buf_arg size_min size_max hv buf_thresholds (nx * ny) _
    le_rfl (Nuclei.mark_pinv_init nx ny buf_arg size_min size_max False buf_nuclei)
  refine ⟨st, hrun, hmono, fun i hne => ?_⟩
  cases hb : buf_nuclei i with
  | false =>
    refine ⟨rfl, ?_⟩
    rw [hb] at hne
    cases hs : st.buf_nuclei i with
    | false => exact absurd hs hne
    | true => rfl
  | true => exact absurd (hmono i hb) (by rw [hb] at hne; exact hne)

/-- Instance of C7 on the 1 × 3 grid with values 10, 5, 10, the order
1, 0, 2, thresholds `[5]`, the window `[1, 3]` and a mask whose entry 1 is
already set. -/
theorem C7_mask_only_set_witness :
    ValidOrder (1 * 3) (fun i => if i = 0 then 1 else if i = 1 then 0 else i) ∧
    ∃ st, Nuclei.mark_nuclei 1 3 (fun _ iy => if iy = 1 then 5 else 10)
        (fun i => if i = 0 then 1 else if i = 1 then 0 else i) [5] 1 3 (fun i => decide (i = 1)) =
        some st ∧
      (∀ i, (fun i => decide (i = 1)) i = true → st.buf_nuclei i = true) ∧
      (∀ i, st.buf_nuclei i ≠ (fun i => decide (i = 1)) i →
        (fun i => decide (i = 1)) i = false ∧ st.buf_nuclei i = true) :=
  have hv : ValidOrder (1 * 3) (fun i => if i = 0 then 1 else if i = 1 then 0 else i) := by
    refine ⟨?_, ?_, ?_⟩
    · intro j hj
      beta_reduce
      split_ifs <;> omega
    · intro i j hi hj h
      beta_reduce at h
      split_ifs at h <;> omega
    · intro p hp
      have hp3 : p < 3 := by omega
      interval_cases p
      · exact ⟨1, by norm_num, by simp⟩
      · exact ⟨0, by norm_num, by simp⟩
      · exact ⟨2, by norm_num, by simp⟩
  ⟨hv, C7_mask_only_set 1 3 _ _ [5] 1 3 _ hv⟩

/-- **C6, counterexample.** On the 1 × 3 grid with values 10, 10, 5, the valid
ascending order 2, 0, 1, the ascending thresholds `[5, 10]`, the window
`[2, 2]` and an all-false mask, pixel 0 belongs at threshold 10 to the
component `{0, 1}` of size 2, yet its mask entry is false after the call. -/
theorem C6_counterexample :
    ValidOrder (1 * 3) (fun i => if i = 0 then 2 else if i = 1 then 0 else 1) ∧
    Ascending (1 * 3) 3 (fun _ iy => if iy = 2 then 5 else 10)
      (fun i => if i = 0 then 2 else if i = 1 then 0 else 1) ∧
    ([5, 10] : List Int).Pairwise (fun a b => a ≤ b) ∧
    IsComponent 1 3 (fun _ iy => if iy = 2 then 5 else 10) 10 {0, 1} ∧
    ({0, 1} : Finset Nat).card = 2 ∧
    ∃ st, Nuclei.mark_nuclei 1 3 (fun _ iy => if iy = 2 then 5 else 10)
        (fun i => if i = 0 then 2 else if i = 1 then 0 else 1) [5, 10] 2 2 (fun _ => false) =
        some st ∧ st.buf_nuclei 0 = false := by
  refine ⟨⟨?_, ?_, ?_⟩, ?_, by decide, ?_, by decide, ?_⟩
  · intro j hj
    beta_reduce
    split_ifs <;> omega
  · intro i j hi hj h
    beta_reduce at h
    split_ifs at h <;> omega
  · intro p hp
    have hp3 : p < 3 := by omega
    interval_cases p
    · exact ⟨1, by norm_num, by simp⟩
    · exact ⟨2, by norm_num, by simp⟩
    · exact ⟨0, by norm_num, by simp⟩
  · intro i j hij hj
    have hj3 : j < 3 := by omega
    interval_cases j <;> interval_cases i <;> simp [pixval]
  · obtain ⟨V, cs, hcs, hres⟩ :=
      Clusters.construct_scanRes 1 3 (fun _ iy => if iy = 2 then 5 else 10) 10 0
    have e : Clusters.construct 1 3 (fun _ iy => if iy = 2 then 5 else 10) 10 0 =
        some [⟨[0, 1], [⟨0, 1, 10⟩]⟩] := by decide
    rw [e] at hcs
    cases hcs
    exact ((Clusters.construct_components hres {0, 1}).1
      ⟨_, List.mem_singleton.2 rfl, by decide⟩).1
  · have hrun : (Nuclei.mark_nuclei 1 3 (fun _ iy => if iy = 2 then 5 else 10)
        (fun i => if i = 0 then 2 else if i = 1 then 0 else 1) [5, 10] 2 2
        (fun _ => false)).map (fun st => st.buf_nuclei 0) = some false := by decide!
    cases hst : Nuclei.mark_nuclei 1 3 (fun _ iy => if iy = 2 then 5 else 10)
        (fun i => if i = 0 then 2 else if i = 1 then 0 else 1) [5, 10] 2 2 (fun _ => false) with
    | none => rw [hst] at hrun; cases hrun
    | some st =>
      rw [hst] at hrun
      exact ⟨st, rfl, by simpa using hrun⟩

/-- **C6, amended.** For every grid, intensity order that is a permutation
sorted by ascending value, threshold sequence `t :: rest`, size window and
initial mask, `mark_nuclei` returns and afterwards every pixel that belongs,
for the first threshold `t` of the sequence, to a maximal 4-connected set of
pixels of value `>= t` that has at least 2 pixels and whose size `s` satisfies
`size_min <= s < size_max` is true in the mask. -/
theorem C6_mark_first_threshold (nx ny : Nat) (img : Int → Int → Int) (buf_arg : Nat → Nat)
    (t : Int) (rest : List Int) (size_min size_max : Nat) (buf_nuclei : Nat → Bool)
    (S : Finset Nat) (hv : ValidOrder (nx * ny) buf_arg)
    (hasc : Ascending (nx * ny) ny img buf_arg) (hS : IsComponent nx ny img t S)
    (h2 : 2 ≤ S.card) (hmin : size_min ≤ S.card) (hmax : S.card < size_max) :
    ∃ st, Nuclei.mark_nuclei nx ny img buf_arg (t :: rest) size_min size_max buf_nuclei =
        some st ∧ ∀ p ∈ S, st.buf_nuclei p = true := by
  unfold Nuclei.mark_nuclei Nuclei.sweep
  have hp0 : Nuclei.PInv nx ny buf_arg size_min size_max True (nx * ny)
      { ({ v_next := fun _ => -1, v_pixels := fun _ => [], updated_clusters := [],
           buf_nuclei := buf_nuclei, the_cluster := -1, asserts := true } : Nuclei.State) with
        updated_clusters := [] } :=
    Nuclei.mark_pinv_init nx ny buf_arg size_min size_max True buf_nuclei
  obtain ⟨k', st1, e1, hk', p1, b1, hge, hstop⟩ :=
    @Nuclei.mark_batch_inv nx ny img buf_arg t size_min size_max True hv (nx * ny) _ le_rfl hp0
  rw [e1]
  simp only []
  have hp1 : Nuclei.PInv nx ny buf_arg size_min size_max False k'
      { st1 with buf_nuclei := Nuclei.markUpdated size_min size_max st1 } :=
    ⟨p1.uf, p1.lists, p1.empty, fun hf => absurd hf not_false⟩
  obtain ⟨st', e', hmono⟩ :=
    @Nuclei.mark_sweep_inv nx ny img buf_arg size_min size_max hv rest k' _ hk' hp1
  refine ⟨st', e', fun p hp => hmono p ?_⟩
  have hu : UF (nx * ny) st1.v_next (InThr nx ny img t) (AdjF nx ny (InThr nx ny img t)) := by
    have e : Flooded (nx * ny) buf_arg k' = InThr nx ny img t :=
      funext (fun x => propext (flooded_iff_inThr hv hasc hk' hge hstop x))
    rw [← e]
    exact p1.uf
  obtain ⟨r, hr, hcls⟩ := component_top hu hS
  have hl := p1.lists r hr
  have hlen : (st1.v_pixels r).length = S.card := by
    have : S = (st1.v_pixels r).toFinset := by
      ext q
      rw [List.mem_toFinset, hl.2 q, hcls q]
    rw [this, List.toFinset_card_of_nodup hl.1]
  have hupd : r ∈ st1.updated_clusters :=
    p1.upd trivial r hr (by rw [hlen]; exact h2) (by rw [hlen]; exact hmin)
      (by rw [hlen]; exact hmax)
  dsimp only
  rw [Nuclei.markUpdated_iff]
  refine Or.inr ⟨r, hupd, ⟨by rw [hlen]; exact hmin, by rw [hlen]; exact le_of_lt hmax⟩, ?_⟩
  rw [hl.2 p, ← hcls p]
  exact hp

/-- Instance of the amended C6 on the 1 × 2 grid of values 10, 10 with the
identity order, thresholds `[5, 7]`, the window `[2, 3]` and an all-false
mask: both pixels of the component `{0, 1}` end up marked. -/
theorem C6_mark_first_threshold_witness :
    ValidOrder (1 * 2) (fun i => i) ∧
    Ascending (1 * 2) 2 (fun _ _ => 10) (fun i => i) ∧
    IsComponent 1 2 (fun _ _ => 10) 5 {0, 1} ∧
    2 ≤ ({0, 1} : Finset Nat).card ∧ 2 ≤ ({0, 1} : Finset Nat).card ∧
    ({0, 1} : Finset Nat).card < 3 ∧
    ∃ st, Nuclei.mark_nuclei 1 2 (fun _ _ => 10) (fun i => i) (5 :: [7]) 2 3 (fun _ => false) =
        some st ∧ ∀ p ∈ ({0, 1} : Finset Nat), st.buf_nuclei p = true :=
  have hv : ValidOrder (1 * 2) (fun i => i) :=
    ⟨fun _ h => h, fun _ _ _ _ h => h, fun p h => ⟨p, h, rfl⟩⟩
  have hasc : Ascending (1 * 2) 2 (fun _ _ => 10) (fun i => i) := fun _ _ _ _ => le_rfl
  have hS : IsComponent 1 2 (fun _ _ => 10) 5 {0, 1} := by
    obtain ⟨V, cs, hcs, hres⟩ := Clusters.construct_scanRes 1 2 (fun _ _ => 10) 5 0
    have e : Clusters.construct 1 2 (fun _ _ => 10) 5 0 = some [⟨[0, 1], [⟨0, 1, 10⟩]⟩] := by
      decide
    rw [e] at hcs
    cases hcs
    exact ((Clusters.construct_components hres {0, 1}).1
      ⟨_, List.mem_singleton.2 rfl, by decide⟩).1
  ⟨hv, hasc, hS, by decide, by decide, by decide,
    C6_mark_first_threshold 1 2 _ _ 5 [7] 2 3 _ {0, 1} hv hasc hS (by decide) (by decide)
      (by decide)⟩

end Cellular

namespace Cellular

/-! ## The accessors of a cluster collection (`py_clusters.cpp`) -/

namespace Clusters

/-- An index inside the collection is found by `get?`. -/
theorem get_cluster_hit {clusters : List Cluster} {k : Nat} (hk : k < clusters.length) :
    ∃ c, clusters.get? k = some c := by
  cases h : clusters.get? k with
  | none => exact absurd (List.get?_eq_none.1 h) (not_le.2 hk)
  | some c => exact ⟨c, rfl⟩

/-- The three cases of `py_clusters_get_cluster` for an index that fits a C
`int` and a collection whose size fits a C `int`. -/
theorem get_cluster_cases (clusters : List Cluster) (nx ny i : Int)
    (hn : (clusters.length : Int) < 2147483648)
    (hi : -2147483648 ≤ i ∧ i < 2147483648) :
    (0 ≤ i ∧ i < (clusters.length : Int) →
      ∃ c, clusters.get? i.toNat = some c ∧
        py_clusters_get_cluster clusters nx ny i = Except.ok (c, nx, ny)) ∧
    (-(clusters.length : Int) ≤ i ∧ i < 0 →
      ∃ c, clusters.get? ((clusters.length : Int) + i).toNat = some c ∧
        py_clusters_get_cluster clusters nx ny i = Except.ok (c, nx, ny)) ∧
    (¬ (-(clusters.length : Int) ≤ i ∧ i < (clusters.length : Int)) →
      py_clusters_get_cluster clusters nx ny i = Except.error PyError.IndexError) := by
  refine ⟨?_, ?_, ?_⟩
  · rintro ⟨h0, h1⟩
    have hpos : (i % 18446744073709551616).toNat = i.toNat := by
      rw [Int.emod_eq_of_lt h0 (by omega)]
    obtain ⟨c, hc⟩ := @get_cluster_hit clusters i.toNat (by omega)
    refine ⟨c, hc, ?_⟩
    unfold py_clusters_get_cluster
    simp only []
    rw [if_neg (not_lt.2 h0), hpos, hc]
  · rintro ⟨h0, h1⟩
    have h2 : 0 ≤ (clusters.length : Int) + i := by omega
    have hpos : (((clusters.length : Int) + i) % 18446744073709551616).toNat =
        ((clusters.length : Int) + i).toNat := by
      rw [Int.emod_eq_of_lt h2 (by omega)]
    obtain ⟨c, hc⟩ := @get_cluster_hit clusters ((clusters.length : Int) + i).toNat (by omega)
    refine ⟨c, hc, ?_⟩
    unfold py_clusters_get_cluster
    simp only []
    rw [if_pos h1, hpos, hc]
  · intro hout
    unfold py_clusters_get_cluster
    simp only []
    by_cases hneg : i < 0
    · rw [if_pos hneg]
      have hlt : (clusters.length : Int) + i < 0 := by
        by_contra hx
        exact hout ⟨by omega, by omega⟩
      have hmod : ((clusters.length : Int) + i) % 18446744073709551616 =
          (clusters.length : Int) + i + 18446744073709551616 := by
        rw [← Int.add_emod_self]
        exact Int.emod_eq_of_lt (by omega) (by omega)
      have hnone : clusters.get? (((clusters.length : Int) + i) % 18446744073709551616).toNat =
          none := by
        rw [List.get?_eq_none]
        rw [hmod]
        omega
      rw [hnone]
    · rw [if_neg hneg]
      have h0 : 0 ≤ i := not_lt.1 hneg
      have hge : (clusters.length : Int) ≤ i := by
        by_contra hx
        exact hout ⟨by omega, by omega⟩
      have hnone : clusters.get? (i % 18446744073709551616).toNat = none := by
        rw [List.get?_eq_none, Int.emod_eq_of_lt h0 (by omega)]
        omega
      rw [hnone]

end Clusters

/-- **C19.** For a collection of `n` clusters (`n` fitting a C `int`) and every
C `int` index `i`, `py_clusters_get_cluster` succeeds exactly when
`-n <= i < n`: it returns cluster `i` when `0 <= i < n`, cluster `n + i` when
`-n <= i < 0`, and sets `IndexError` and returns no cluster for every other
`i`. -/
theorem C19_get_cluster_index (clusters : List Cluster) (nx ny i : Int)
    (hn : (clusters.length : Int) < 2147483648)
    (hi : -2147483648 ≤ i ∧ i < 2147483648) :
    (0 ≤ i ∧ i < (clusters.length : Int) →
      ∃ c, clusters.get? i.toNat = some c ∧
        Clusters.py_clusters_get_cluster clusters nx ny i = Except.ok (c, nx, ny)) ∧
    (-(clusters.length : Int) ≤ i ∧ i < 0 →
      ∃ c, clusters.get? ((clusters.length : Int) + i).toNat = some c ∧
        Clusters.py_clusters_get_cluster clusters nx ny i = Except.ok (c, nx, ny)) ∧
    (¬ (-(clusters.length : Int) ≤ i ∧ i < (clusters.length : Int)) →
      Clusters.py_clusters_get_cluster clusters nx ny i =
        Except.error Clusters.PyError.IndexError) :=
  Clusters.get_cluster_cases clusters nx ny i hn hi

/-- Instance of C19 on a collection of two clusters and the index `-1`, which
selects the second cluster. -/
theorem C19_get_cluster_index_witness :
    (([⟨[0], []⟩, ⟨[3], []⟩] : List Cluster).length : Int) < 2147483648 ∧
    (-2147483648 ≤ (-1 : Int) ∧ (-1 : Int) < 2147483648) ∧
    Clusters.py_clusters_get_cluster [⟨[0], []⟩, ⟨[3], []⟩] 2 2 (-1) =
      Except.ok (⟨[3], []⟩, 2, 2) := by
  have hn : (([⟨[0], []⟩, ⟨[3], []⟩] : List Cluster).length : Int) < 2147483648 := by decide
  have hi : -2147483648 ≤ (-1 : Int) ∧ (-1 : Int) < 2147483648 := by decide
  refine ⟨hn, hi, ?_⟩
  obtain ⟨c, hc, hget⟩ :=
    (C19_get_cluster_index [⟨[0], []⟩, ⟨[3], []⟩] 2 2 (-1) hn hi).2.1 (by decide)
  have e : c = ⟨[3], []⟩ := by
    have h2 : ([⟨[0], []⟩, ⟨[3], []⟩] : List Cluster).get?
        (((([⟨[0], []⟩, ⟨[3], []⟩] : List Cluster).length : Int) + (-1)).toNat) =
        some ⟨[3], []⟩ := by decide
    rw [h2] at hc
    exact (Option.some.inj hc).symm
  rw [hget, e]

/-- **C20, evaluation.** `py_clusters_cluster_nedges` returns the number of
pixels of the cluster, for every cluster; on the cluster that
`Clusters::construct` emits for the 1 × 2 grid of values 10, 10 (threshold 5,
size threshold 1), which has two pixels and one edge, it returns 2 and not the
number 1 of entries of the edge list. -/
theorem C20_nedges_returns_pixel_count :
    (∀ c : Cluster, Clusters.py_clusters_cluster_nedges c = c.pixels.length ∧
      Clusters.py_clusters_cluster_nedges c = Clusters.py_clusters_cluster_nvertices c) ∧
    ∃ c, Clusters.construct 1 2 (fun _ _ => 10) 5 1 = some [c] ∧
      c.edges.length = 1 ∧ Clusters.py_clusters_cluster_nedges c = 2 ∧
      Clusters.py_clusters_cluster_nedges c ≠ c.edges.length := by
  refine ⟨fun c => ⟨rfl, rfl⟩, ⟨[0, 1], [⟨0, 1, 10⟩]⟩, by decide, rfl, rfl, by decide⟩

end Cellular

namespace Cellular

/-! ## The orientation angle of an ellipse (`ellipses.cpp`, line 168) -/

namespace Ellipses

/-- A unit vector has its second coordinate in `[-1, 1]`. -/
theorem unit_bounds {ex ey : ℝ} (h : ex ^ 2 + ey ^ 2 = 1) : -1 ≤ ey ∧ ey ≤ 1 := by
  constructor <;> nlinarith [sq_nonneg ex, sq_nonneg (ey - 1), sq_nonneg (ey + 1)]

/-- The cosine of `asin(ey)` for a unit vector `(ex, ey)` is `|ex|`. -/
theorem cos_arcsin_unit {ex ey : ℝ} (h : ex ^ 2 + ey ^ 2 = 1) :
    Real.cos (Real.arcsin ey) = |ex| := by
  rw [Real.cos_arcsin]
  have e : 1 - ey ^ 2 = ex ^ 2 := by linarith
  rw [e, Real.sqrt_sq_eq_abs]

/-- The reported angle is the direction angle of the eigenvector. -/
theorem orientation_direction {ex ey : ℝ} (h : ex ^ 2 + ey ^ 2 = 1) :
    Real.cos (orientation ex ey) = ex ∧ Real.sin (orientation ex ey) = ey := by
  obtain ⟨h1, h2⟩ := unit_bounds h
  unfold orientation
  by_cases hx : 0 ≤ ex
  · rw [if_pos hx, cos_arcsin_unit h, Real.sin_arcsin h1 h2, abs_of_nonneg hx]
    exact ⟨rfl, rfl⟩
  · rw [if_neg hx, Real.cos_pi_sub, Real.sin_pi_sub, cos_arcsin_unit h, Real.sin_arcsin h1 h2,
      abs_of_neg (not_le.1 hx)]
    exact ⟨neg_neg ex, rfl⟩

/-- The reported angle lies in `[-π/2, 3π/2]`. -/
theorem orientation_range (ex ey : ℝ) :
    -(Real.pi / 2) ≤ orientation ex ey ∧ orientation ex ey ≤ 3 * Real.pi / 2 := by
  have h1 := Real.neg_pi_div_two_le_arcsin ey
  have h2 := Real.arcsin_le_pi_div_two ey
  have hpi := Real.pi_pos
  unfold orientation
  by_cases hx : 0 ≤ ex
  · rw [if_pos hx]
    constructor <;> linarith
  · rw [if_neg hx]
    constructor <;> linarith

/-- The angles reported for a unit vector and for its opposite differ by `π`. -/
theorem orientation_flip {ex ey : ℝ} (h : ex ^ 2 + ey ^ 2 = 1) :
    |orientation (-ex) (-ey) - orientation ex ey| = Real.pi := by
  have hpi := Real.pi_pos
  unfold orientation
  rw [Real.arcsin_neg]
  rcases lt_trichotomy ex 0 with hx | hx | hx
  · rw [if_pos (by linarith : (0 : ℝ) ≤ -ex), if_neg (not_le.2 hx)]
    have e : -Real.arcsin ey - (Real.pi - Real.arcsin ey) = -Real.pi := by ring
    rw [e, abs_neg, abs_of_pos hpi]
  · subst hx
    rw [neg_zero, if_pos le_rfl, if_pos le_rfl]
    have hy : ey ^ 2 = 1 := by
      have : (0 : ℝ) ^ 2 + ey ^ 2 = 1 := h
      linarith [this]
    have hy2 : ey = 1 ∨ ey = -1 := by
      have h3 : (ey - 1) * (ey + 1) = 0 := by ring_nf; linarith
      rcases mul_eq_zero.1 h3 with h4 | h4
      · exact Or.inl (by linarith)
      · exact Or.inr (by linarith)
    rcases hy2 with e | e
    · rw [e, Real.arcsin_one]
      have e2 : -(Real.pi / 2) - Real.pi / 2 = -Real.pi := by ring
      rw [e2, abs_neg, abs_of_pos hpi]
    · rw [e, Real.arcsin_neg, Real.arcsin_one]
      have e2 : - -(Real.pi / 2) - -(Real.pi / 2) = Real.pi := by ring
      rw [e2, abs_of_pos hpi]
  · rw [if_neg (by linarith : ¬ (0 : ℝ) ≤ -ex), if_pos (le_of_lt hx)]
    have e : Real.pi - -Real.arcsin ey - Real.arcsin ey = Real.pi := by ring
    rw [e, abs_of_pos hpi]

end Ellipses

/-- **C16, counterexample.** For the unit vector `(0, -1)` the reported angle
is `-π/2`, which is not in `[0, π)`, and the angle reported for the opposite
vector `(0, 1)` is `π/2`, which is a different angle. -/
theorem C16_counterexample :
    (0 : ℝ) ^ 2 + (-1 : ℝ) ^ 2 = 1 ∧
    Ellipses.orientation 0 (-1) = -(Real.pi / 2) ∧
    ¬ (0 ≤ Ellipses.orientation 0 (-1) ∧ Ellipses.orientation 0 (-1) < Real.pi) ∧
    Ellipses.orientation (-0) (- -1) = Real.pi / 2 ∧
    Ellipses.orientation (-0) (- -1) ≠ Ellipses.orientation 0 (-1) := by
  have hpi := Real.pi_pos
  have e1 : Ellipses.orientation 0 (-1) = -(Real.pi / 2) := by
    unfold Ellipses.orientation
    rw [if_pos le_rfl, Real.arcsin_neg, Real.arcsin_one]
  have e2 : Ellipses.orientation (-0) (- -1) = Real.pi / 2 := by
    unfold Ellipses.orientation
    rw [neg_zero, neg_neg, if_pos le_rfl, Real.arcsin_one]
  refine ⟨by norm_num, e1, ?_, e2, ?_⟩
  · rw [e1]
    intro hx
    linarith [hx.1]
  · rw [e1, e2]
    intro hx
    linarith

/-- **C16, amended.** For every unit vector `(ex, ey)` the reported angle
`theta = asin(ey)` if `ex >= 0`, else `π - asin(ey)`, lies in `[-π/2, 3π/2]` and
is the direction angle of the vector (`cos theta = ex`, `sin theta = ey`); the
angle reported for `(-ex, -ey)` differs from it by exactly `π`. -/
theorem C16_orientation_direction_angle (ex ey : ℝ) (h : ex ^ 2 + ey ^ 2 = 1) :
    -(Real.pi / 2) ≤ Ellipses.orientation ex ey ∧
    Ellipses.orientation ex ey ≤ 3 * Real.pi / 2 ∧
    Real.cos (Ellipses.orientation ex ey) = ex ∧
    Real.sin (Ellipses.orientation ex ey) = ey ∧
    |Ellipses.orientation (-ex) (-ey) - Ellipses.orientation ex ey| = Real.pi :=
  ⟨(Ellipses.orientation_range ex ey).1, (Ellipses.orientation_range ex ey).2,
    (Ellipses.orientation_direction h).1, (Ellipses.orientation_direction h).2,
    Ellipses.orientation_flip h⟩

/-- Instance of the amended C16 at the unit vector `(1, 0)`. -/
theorem C16_orientation_direction_angle_witness :
    (1 : ℝ) ^ 2 + (0 : ℝ) ^ 2 = 1 ∧
    -(Real.pi / 2) ≤ Ellipses.orientation 1 0 ∧
    Ellipses.orientation 1 0 ≤ 3 * Real.pi / 2 ∧
    Real.cos (Ellipses.orientation 1 0) = 1 ∧
    Real.sin (Ellipses.orientation 1 0) = 0 ∧
    |Ellipses.orientation (-1) (-0) - Ellipses.orientation 1 0| = Real.pi :=
  ⟨by norm_num, C16_orientation_direction_angle 1 0 (by norm_num)⟩

end Cellular

namespace Cellular

/-! ## The edges recorded by the flood fill -/

namespace Clusters

/-- Handling neighbour `j` of the pixel `cur` keeps the invariant of the
recorded edges and does not touch the pixel list. -/
theorem edge_visitNeighbor {nx ny : Nat} {img : Int → Int → Int} {t : Int} {cur j : Nat}
    {st : State} (hj : j < 4) (hcur : cur ∈ st.c.pixels) (h : EdgeInv nx ny img t st) :
    EdgeInv nx ny img t (visitNeighbor nx ny img t cur (pixval ny img cur) st j) ∧
      (visitNeighbor nx ny img t cur (pixval ny img cur) st j).c.pixels = st.c.pixels := by
  have hcurI : InThr nx ny img t cur := h.inthr cur (Or.inl hcur)
  unfold visitNeighbor
  simp only []
  by_cases hb : (0 ≤ ((cur / ny : Nat) : Int) + dx_list.getD j 0 ∧
      ((cur / ny : Nat) : Int) + dx_list.getD j 0 < (nx : Int) ∧
      0 ≤ ((cur % ny : Nat) : Int) + dy_list.getD j 0 ∧
      ((cur % ny : Nat) : Int) + dy_list.getD j 0 < (ny : Int))
  · rw [if_neg (not_not.2 hb)]
    have hd := dirNbr_toNat hb
    generalize hi2 : ((((cur / ny : Nat) : Int) + dx_list.getD j 0) * (ny : Int) +
      (((cur % ny : Nat) : Int) + dy_list.getD j 0)).toNat = index2 at hd
    have hval := @pixval_dirNbr nx ny img _ _ _ _ hd
    rw [← hval]
    by_cases hc : st.visited index2 = true ∨ pixval ny img index2 < t
    · rw [if_pos hc]
      exact ⟨h, rfl⟩
    · rw [if_neg hc]
      push_neg at hc
      have hI2 : InThr nx ny img t index2 := ⟨hd.1, hc.2⟩
      have hne : st.c.pixels ++ st.q ≠ [] := by
        intro e
        have : cur ∈ st.c.pixels ++ st.q := List.mem_append.2 (Or.inl hcur)
        rw [e] at this
        exact absurd this (List.not_mem_nil cur)
      refine ⟨⟨?_, ?_, ?_⟩, rfl⟩
      · dsimp only
        rw [List.map_append, h.targets, ← List.append_assoc, List.tail_append_of_ne_nil hne]
        rfl
      · intro p hp
        dsimp only at hp
        rcases hp with hp | hp
        · exact h.inthr p (Or.inl hp)
        · rcases List.mem_append.1 hp with hp | hp
          · exact h.inthr p (Or.inr hp)
          · rw [List.mem_singleton] at hp
            rw [hp]; exact hI2
      · intro e he
        dsimp only at he ⊢
        rcases List.mem_append.1 he with he | he
        · exact h.edges e he
        · rw [List.mem_singleton] at he
          subst he
          exact ⟨hcur, dirNbr_adj4 hcurI.1 hj hd, rfl⟩
  · rw [if_pos hb]
    exact ⟨h, rfl⟩

theorem edge_neighbors {nx ny : Nat} {img : Int → Int → Int} {t : Int} {cur : Nat} {st : State}
    (hcur : cur ∈ st.c.pixels) (h : EdgeInv nx ny img t st) :
    EdgeInv nx ny img t
        ((List.range 4).foldl (visitNeighbor nx ny img t cur (pixval ny img cur)) st) := by
  have e : (List.range 4).foldl (visitNeighbor nx ny img t cur (pixval ny img cur)) st =
      visitNeighbor nx ny img t cur (pixval ny img cur)
        (visitNeighbor nx ny img t cur (pixval ny img cur)
          (visitNeighbor nx ny img t cur (pixval ny img cur)
            (visitNeighbor nx ny img t cur (pixval ny img cur) st 0) 1) 2) 3 := rfl
  rw [e]
  obtain ⟨h1, e1⟩ := @edge_visitNeighbor nx ny img t cur 0 st (by norm_num) hcur h
  obtain ⟨h2, e2⟩ := @edge_visitNeighbor nx ny img t cur 1 _ (by norm_num) (e1 ▸ hcur) h1
  obtain ⟨h3, e3⟩ := @edge_visitNeighbor nx ny img t cur 2 _ (by norm_num)
    (e2 ▸ e1 ▸ hcur) h2
  obtain ⟨h4, _⟩ := @edge_visitNeighbor nx ny img t cur 3 _ (by norm_num)
    (e3 ▸ e2 ▸ e1 ▸ hcur) h3
  exact h4

/-- Whenever the search loop returns, the invariant of the recorded edges
holds of the final state, whose queue is empty. -/
theorem edge_bfs {nx ny : Nat} {img : Int → Int → Int} {t : Int} :
    ∀ (fuel : Nat) (st st' : State), EdgeInv nx ny img t st →
      bfs nx ny img t fuel st = some st' → EdgeInv nx ny img t st' ∧ st'.q = [] := by
  intro fuel
  induction fuel with
  | zero =>
    intro st st' h hrun
    cases hq : st.q with
    | nil =>
      unfold bfs at hrun
      rw [hq] at hrun
      cases hrun
      exact ⟨h, hq⟩
    | cons a rest =>
      unfold bfs at hrun
      rw [hq] at hrun
      cases hrun
  | succ fuel ih =>
    intro st st' h hrun
    cases hq : st.q with
    | nil =>
      unfold bfs at hrun
      rw [hq] at hrun
      cases hrun
      exact ⟨h, hq⟩
    | cons index1 rest =>
      unfold bfs at hrun
      rw [hq] at hrun
      simp only [] at hrun
      refine ih _ st' (edge_neighbors ?_ ?_) hrun
      · exact List.mem_append.2 (Or.inr (List.mem_singleton.2 rfl))
      · refine ⟨?_, ?_, ?_⟩
        · dsimp only
          rw [h.targets, hq]
          simp
        · intro p hp
          dsimp only at hp
          apply h.inthr p
          rw [hq]
          simp only [List.mem_append, List.mem_singleton, List.mem_cons] at hp ⊢
          tauto
        · intro e he
          obtain ⟨h1, h2⟩ := h.edges e he
          exact ⟨List.mem_append.2 (Or.inl h1), h2⟩

/-- The edge list of the cluster held by a final state of the search. -/
theorem treeEdges_of_edgeInv {nx ny : Nat} {img : Int → Int → Int} {t : Int} {st : State}
    (h : EdgeInv nx ny img t st) (hq : st.q = []) : TreeEdges nx ny img t st.c := by
  have ht : st.c.edges.map (fun e => e.index1) = st.c.pixels.tail := by
    rw [h.targets, hq, List.append_nil]
  refine ⟨ht, fun e he => ?_⟩
  obtain ⟨h1, h2, h3⟩ := h.edges e he
  have h4 : e.index1 ∈ st.c.pixels := by
    apply List.mem_of_mem_tail
    rw [← ht]
    exact List.mem_map.2 ⟨e, he, rfl⟩
  exact ⟨h1, h4, h.inthr _ (Or.inl h1), h.inthr _ (Or.inl h4), h2, h3⟩

/-- Looking at one more pixel keeps the property of the edge lists. -/
theorem edge_scanPixel {nx ny : Nat} {img : Int → Int → Int} {t s : Int} {k : Nat}
    {V V' : Nat → Bool} {cs cs' : List Cluster} (hk : k < nx * ny)
    (h : ∀ c ∈ cs, TreeEdges nx ny img t c)
    (hrun : scanPixel nx ny img t s (some (V, cs)) k = some (V', cs')) :
    ∀ c ∈ cs', TreeEdges nx ny img t c := by
  unfold scanPixel at hrun
  simp only [] at hrun
  by_cases hc : V k = true ∨ pixval ny img k < t
  · rw [if_pos hc] at hrun
    cases hrun
    exact h
  · rw [if_neg hc] at hrun
    push_neg at hc
    cases hb : bfs nx ny img t (nx * ny + 1)
        { visited := setFlag V k true, q := [k], c := ⟨[], []⟩, sum := 0 } with
    | none => rw [hb] at hrun; cases hrun
    | some st =>
      rw [hb] at hrun
      simp only [] at hrun
      have h0 : EdgeInv nx ny img t
          { visited := setFlag V k true, q := [k], c := ⟨[], []⟩, sum := 0 } := by
        refine ⟨rfl, ?_, ?_⟩
        · intro p hp
          rcases hp with hp | hp
          · exact absurd hp (List.not_mem_nil p)
          · rw [List.mem_singleton.1 hp]
            exact ⟨hk, hc.2⟩
        · intro e he
          exact absurd he (List.not_mem_nil e)
      obtain ⟨hE, hq⟩ := edge_bfs _ _ st h0 hb
      by_cases hs : st.sum < s
      · rw [if_pos hs] at hrun
        cases hrun
        exact h
      · rw [if_neg hs] at hrun
        cases hrun
        intro c hc'
        rcases List.mem_append.1 hc' with hc' | hc'
        · exact h c hc'
        · rw [List.mem_singleton.1 hc']
          exact treeEdges_of_edgeInv hE hq

/-- The property of the edge lists along the loop over all pixels. -/
theorem edge_scan {nx ny : Nat} {img : Int → Int → Int} {t s : Int} :
    ∀ k, k ≤ nx * ny → ∀ V cs,
      (List.range k).foldl (scanPixel nx ny img t s) (some (fun _ => false, [])) =
        some (V, cs) → ∀ c ∈ cs, TreeEdges nx ny img t c := by
  intro k
  induction k with
  | zero =>
    intro _ V cs hrun c hc
    simp only [List.range_zero, List.foldl_nil] at hrun
    cases hrun
    exact absurd hc (List.not_mem_nil c)
  | succ k ih =>
    intro hk V cs hrun
    rw [List.range_succ, List.foldl_append] at hrun
    simp only [List.foldl_cons, List.foldl_nil] at hrun
    cases hprev : (List.range k).foldl (scanPixel nx ny img t s) (some (fun _ => false, [])) with
    | none =>
      rw [hprev] at hrun
      cases hrun
    | some acc =>
      obtain ⟨V0, cs0⟩ := acc
      rw [hprev] at hrun
      exact edge_scanPixel (Nat.lt_of_succ_le hk) (ih (Nat.le_of_succ_le hk) V0 cs0 hprev) hrun

/-- Every cluster returned by `construct` carries the edges of a search tree. -/
theorem construct_treeEdges {nx ny : Nat} {img : Int → Int → Int} {t s : Int}
    {cs : List Cluster} (h : construct nx ny img t s = some cs) :
    ∀ c ∈ cs, TreeEdges nx ny img t c := by
  unfold construct at h
  cases hprev : (List.range (nx * ny)).foldl (scanPixel nx ny img t s)
      (some (fun _ => false, [])) with
  | none => rw [hprev] at h; cases h
  | some acc =>
    obtain ⟨V, cs0⟩ := acc
    rw [hprev] at h
    cases h
    exact edge_scan (nx * ny) le_rfl V cs0 hprev

end Clusters

/-- **C13, counterexample.** On the 2 × 2 grid whose four values are 10, with
pixel threshold 5 and size threshold 1, `Clusters::construct` emits one cluster
with the four pixels and three edges; the pixels 1 and 3 lie in it, are
4-adjacent and have value `>= 5`, yet no edge of the list joins them. -/
theorem C13_counterexample :
    ∃ c, Clusters.construct 2 2 (fun _ _ => 10) 5 1 = some [c] ∧
      c.edges = [⟨0, 2, 10⟩, ⟨0, 1, 10⟩, ⟨2, 3, 10⟩] ∧
      1 ∈ c.pixels ∧ 3 ∈ c.pixels ∧ Adj4 2 2 1 3 ∧
      (5 : Int) ≤ pixval 2 (fun _ _ => 10) 1 ∧ (5 : Int) ≤ pixval 2 (fun _ _ => 10) 3 ∧
      ¬ ∃ e ∈ c.edges, Pair e.index0 e.index1 1 3 := by
  refine ⟨⟨[0, 2, 1, 3], [⟨0, 2, 10⟩, ⟨0, 1, 10⟩, ⟨2, 3, 10⟩]⟩, by decide, rfl, by decide,
    by decide, ?_, by decide, by decide, ?_⟩
  · unfold Adj4
    decide
  · rintro ⟨e, he, hp⟩
    unfold Pair at hp
    simp only [List.mem_cons, List.mem_singleton, List.not_mem_nil, or_false] at he
    rcases he with rfl | rfl | rfl <;> simp at hp

/-- **C13, amended.** For every grid and thresholds `Clusters::construct`
returns, and for every cluster it emits the edge list is that of the search
tree: the second end points of the edges are, in order, the pixels of the
cluster after the first one, and every edge joins two 4-adjacent pixels of the
cluster, both of value `>= pixel_threshold`, and is weighted by the minimum of
the two pixel values. -/
theorem C13_flood_edges_search_tree (nx ny : Nat) (img : Int → Int → Int)
    (pixel_threshold size_threshold : Int) :
    ∃ cs, Clusters.construct nx ny img pixel_threshold size_threshold = some cs ∧
      ∀ c ∈ cs, c.edges.map (fun e => e.index1) = c.pixels.tail ∧
        ∀ e ∈ c.edges, e.index0 ∈ c.pixels ∧ e.index1 ∈ c.pixels ∧
          InThr nx ny img pixel_threshold e.index0 ∧ InThr nx ny img pixel_threshold e.index1 ∧
          Adj4 nx ny e.index0 e.index1 ∧
          e.value = min (pixval ny img e.index0) (pixval ny img e.index1) := by
  obtain ⟨V, cs, hcs, _⟩ := Clusters.construct_scanRes nx ny img pixel_threshold size_threshold
  exact ⟨cs, hcs, fun c hc => Clusters.construct_treeEdges hcs c hc⟩

end Cellular

namespace Cellular

/-! ## Every pixel is emitted at most once by `obtain_clusters` -/

namespace Watershed

/-- Handling an end point keeps `GrowOnce`. -/
theorem visitEndpoint_once {v_pixel : Nat → Vertex} {pt : Int} {E0 : Nat → Bool} {st : XState}
    {index : Nat} (h : GrowOnce E0 st) : GrowOnce E0 (visitEndpoint v_pixel pt st index) := by
  unfold visitEndpoint
  by_cases hx : st.pixel_explored index = true
  · rw [if_pos hx]; exact h
  · rw [if_neg hx]
    obtain ⟨h1, h2, h3⟩ := h
    have hnot : index ∉ st.c.pixels := fun hm => hx (h2 index hm).1
    have hE0 : E0 index = false := by
      cases he : E0 index with
      | false => rfl
      | true => exact absurd (h3 index he) hx
    have hmono : ∀ p, st.pixel_explored p = true → setFlag st.pixel_explored index true p = true := by
      intro p hp
      unfold setFlag
      split_ifs
      · rfl
      · exact hp
    refine ⟨?_, ?_, fun p hp => hmono p (h3 p hp)⟩
    · dsimp only
      by_cases hv : pt ≤ (v_pixel index).value
      · rw [if_pos hv]
        exact List.Nodup.append h1 (List.nodup_singleton _) (by
          intro x hx1 hx2
          rw [List.mem_singleton] at hx2
          subst hx2
          exact hnot hx1)
      · rw [if_neg hv]; exact h1
    · intro p hp
      dsimp only at hp ⊢
      by_cases hv : pt ≤ (v_pixel index).value
      · rw [if_pos hv] at hp
        rcases List.mem_append.1 hp with hp | hp
        · exact ⟨hmono p (h2 p hp).1, (h2 p hp).2⟩
        · rw [List.mem_singleton] at hp
          subst hp
          exact ⟨setFlag_same _ _ _, hE0⟩
      · rw [if_neg hv] at hp
        exact ⟨hmono p (h2 p hp).1, (h2 p hp).2⟩

/-- Looking at one edge of the list keeps the clusters already present and
appends at most one cluster, whose pixels are distinct and in none of the
clusters appended before. -/
theorem seedEdge_once {v_pixel : Nat → Vertex} {img_size : Nat} {v_edge : List Edge}
    {pt et : Int} {sz : Nat} (hends : ∀ e ∈ v_edge, e.index0 < img_size ∧ e.index1 < img_size)
    (hpos : 0 < img_size) {cl0 : List Cluster} {st : XState} {new : List Cluster} (i : Nat)
    (hq : st.q = []) (hexp : ∀ c ∈ new, ∀ p ∈ c.pixels, st.pixel_explored p = true)
    (hnew : PixelsOnce new) :
    ∃ st' new', seedEdge v_pixel img_size v_edge pt et sz (some (st, cl0 ++ new)) i =
        some (st', cl0 ++ new') ∧ st'.q = [] ∧
        (∀ c ∈ new', ∀ p ∈ c.pixels, st'.pixel_explored p = true) ∧ PixelsOnce new' := by
  unfold seedEdge
  simp only []
  by_cases hc : st.edge_explored i = true ∨
      (st.pixel_explored (v_edge.getD i ⟨0, 0, 0⟩).index0 = true ∧
        st.pixel_explored (v_edge.getD i ⟨0, 0, 0⟩).index1 = true)
  · rw [if_pos hc]
    exact ⟨st, new, rfl, hq, hexp, hnew⟩
  · rw [if_neg hc]
    obtain ⟨st', hrun, hI, hq'⟩ := @grow_induct v_pixel img_size v_edge pt et
      hends hpos (GrowOnce st.pixel_explored)
      (fun s j rest hI _ _ => hI)
      (fun s j rest hI _ _ => by
        apply visitEndpoint_once
        apply visitEndpoint_once
        exact hI)
      (4 * img_size + 1)
      { st with q := st.q ++ [i], c := ⟨[], []⟩, asserts := st.asserts && decide (st.q = []) }
      ⟨List.nodup_nil, fun p hp => absurd hp (List.not_mem_nil p), fun p hp => hp⟩
      (by
        dsimp only
        rw [hq]
        have := unexplored_le img_size st.pixel_explored
        simp only [List.nil_append, List.length_singleton]
        omega)
    rw [hrun]
    simp only []
    obtain ⟨hI1, hI2, hI3⟩ := hI
    have hexp' : ∀ c ∈ new, ∀ p ∈ c.pixels, st'.pixel_explored p = true :=
      fun c hc' p hp => hI3 p (hexp c hc' p hp)
    by_cases hs : st'.c.pixels.length = 0 ∨ st'.c.pixels.length < sz
    · rw [if_pos hs]
      exact ⟨st', new, rfl, hq', hexp', hnew⟩
    · rw [if_neg hs]
      refine ⟨st', new ++ [st'.c], by rw [List.append_assoc], hq', ?_, ?_, ?_⟩
      · intro c hc' p hp
        rcases List.mem_append.1 hc' with hc' | hc'
        · exact hexp' c hc' p hp
        · rw [List.mem_singleton] at hc'
          subst hc'
          exact (hI2 p hp).1
      · intro c hc'
        rcases List.mem_append.1 hc' with hc' | hc'
        · exact hnew.1 c hc'
        · rw [List.mem_singleton] at hc'
          subst hc'
          exact hI1
      · rw [List.pairwise_append]
        refine ⟨hnew.2, List.pairwise_singleton _ _, ?_⟩
        intro a ha b hb p hpa hpb
        rw [List.mem_singleton] at hb
        subst hb
        have h1 := hexp a ha p hpa
        have h2 := (hI2 p hpb).2
        rw [h1] at h2
        cases h2

/-- The loop over all edges appends clusters with distinct, pairwise disjoint
pixel lists. -/
theorem seedAll_once {v_pixel : Nat → Vertex} {img_size : Nat} {v_edge : List Edge}
    {pt et : Int} {sz : Nat} (hends : ∀ e ∈ v_edge, e.index0 < img_size ∧ e.index1 < img_size)
    (hpos : 0 < img_size) (cl0 : List Cluster) (st0 : XState) (hq0 : st0.q = []) :
    ∀ k, ∃ st' new', (List.range k).foldl (seedEdge v_pixel img_size v_edge pt et sz)
        (some (st0, cl0)) = some (st', cl0 ++ new') ∧ st'.q = [] ∧
        (∀ c ∈ new', ∀ p ∈ c.pixels, st'.pixel_explored p = true) ∧ PixelsOnce new' := by
  intro k
  induction k with
  | zero =>
    exact ⟨st0, [], by simp, hq0, fun c hc => absurd hc (List.not_mem_nil c),
      fun c hc => absurd hc (List.not_mem_nil c), List.Pairwise.nil⟩
  | succ k ih =>
    obtain ⟨st, new, hrun, hq, hexp, hnew⟩ := ih
    obtain ⟨st', new', hstep, hq', hexp', hnew'⟩ :=
      @seedEdge_once v_pixel img_size v_edge pt et sz hends hpos cl0 st new k hq hexp hnew
    refine ⟨st', new', ?_, hq', hexp', hnew'⟩
    rw [List.range_succ, List.foldl_append, hrun]
    simpa using hstep

/-- On a well-formed graph `obtain_clusters` returns; it keeps the clusters it
was handed and appends clusters with distinct, pairwise disjoint pixel lists. -/
theorem obtain_clusters_once {v_pixel : Nat → Vertex} {img_size : Nat} {v_edge : List Edge}
    (pt et : Int) (sz : Nat) (cl0 : List Cluster) (hok : GraphOK v_pixel img_size v_edge) :
    ∃ new, obtain_clusters v_pixel img_size v_edge pt et sz cl0 = some (cl0 ++ new) ∧
      PixelsOnce new := by
  unfold obtain_clusters obtain_clusters_run
  simp only []
  by_cases he : v_edge.length = 0
  · rw [if_pos he]
    exact ⟨[], by simp, fun c hc => absurd hc (List.not_mem_nil c), List.Pairwise.nil⟩
  · rw [if_neg he]
    have hpos : 0 < img_size := by
      cases hv : v_edge with
      | nil => rw [hv] at he; simp at he
      | cons e rest =>
        have := (hok.ends e (by rw [hv]; exact List.mem_cons_self _ _)).1
        omega
    obtain ⟨st', new', hrun, _, _, hnew'⟩ := @seedAll_once v_pixel img_size v_edge pt et sz
      hok.ends hpos cl0
      { edge_explored := fun _ => false, pixel_explored := fun _ => false, q := [],
        c := ⟨[], []⟩, asserts := true } rfl v_edge.length
    rw [hrun]
    exact ⟨new', rfl, hnew'⟩

end Watershed

/-- **C11.** For every well-formed vertex/edge graph and every query
`(pixel_threshold, edge_threshold, size_threshold)`, `obtain_clusters` returns
and no pixel index occurs more than once over the pixel lists of the clusters
it emits (appends to the collection it was handed): every emitted pixel list
is duplicate-free and the pixel lists of two emitted clusters are disjoint. -/
theorem C11_emitted_pixels_once (v_pixel : Nat → Vertex) (img_size : Nat)
    (v_edge : List Edge) (pixel_threshold edge_threshold : Int) (size_threshold : Nat)
    (clusters : List Cluster) (hok : Watershed.GraphOK v_pixel img_size v_edge) :
    ∃ emitted,
      Watershed.obtain_clusters v_pixel img_size v_edge pixel_threshold edge_threshold
        size_threshold clusters = some (clusters ++ emitted) ∧
      (∀ c ∈ emitted, c.pixels.Nodup) ∧
      emitted.Pairwise (fun c d => ∀ p, p ∈ c.pixels → p ∉ d.pixels) :=
  Watershed.obtain_clusters_once pixel_threshold edge_threshold size_threshold clusters hok

/-- Instance of C11 on the graph of four pixels of value 10 with the two edges
`(0, 1)` and `(2, 3)` of weight 10, queried with thresholds 5, 5 and 1. -/
theorem C11_emitted_pixels_once_witness :
    Watershed.GraphOK
      (fun p => { value := 10, next := 0, size := 0,
                  edge := fun j => if j = 0 then (if p < 2 then 0 else 1) else -1 })
      4 [⟨0, 1, 10⟩, ⟨2, 3, 10⟩] ∧
    ∃ emitted,
      Watershed.obtain_clusters
        (fun p => { value := 10, next := 0, size := 0,
                    edge := fun j => if j = 0 then (if p < 2 then 0 else 1) else -1 })
        4 [⟨0, 1, 10⟩, ⟨2, 3, 10⟩] 5 5 1 [] = some ([] ++ emitted) ∧
      (∀ c ∈ emitted, c.pixels.Nodup) ∧
      emitted.Pairwise (fun c d => ∀ p, p ∈ c.pixels → p ∉ d.pixels) :=
  have hok : Watershed.GraphOK
      (fun p => { value := 10, next := 0, size := 0,
                  edge := fun j => if j = 0 then (if p < 2 then 0 else 1) else -1 })
      4 [⟨0, 1, 10⟩, ⟨2, 3, 10⟩] := by
    refine ⟨?_, ?_⟩
    · intro e he
      simp only [List.mem_cons, List.mem_singleton, List.not_mem_nil, or_false] at he
      rcases he with rfl | rfl <;> exact ⟨by decide, by decide⟩
    · intro p j _ _
      dsimp only
      split_ifs <;> simp
  ⟨hok, C11_emitted_pixels_once _ 4 [⟨0, 1, 10⟩, ⟨2, 3, 10⟩] 5 5 1 [] hok⟩

end Cellular

namespace Cellular

/-! ## The ellipses follow the flood-fill components -/

namespace Ellipses

/-- Handling one neighbour keeps the two searches in step. -/
theorem sim_visitNeighbor {nx ny : Nat} {img : Int → Int → Int} {t : Int} {cur : Nat} {f1 : Int}
    {cst : Clusters.State} {est : State} (j : Nat) (h : Sim ny cst est) :
    Sim ny (Clusters.visitNeighbor nx ny img t cur f1 cst j)
      (visitNeighbor nx ny img t cur est j) := by
  have e1 : dx_list = Clusters.dx_list := rfl
  have e2 : dy_list = Clusters.dy_list := rfl
  unfold Clusters.visitNeighbor visitNeighbor
  simp only []
  rw [e1, e2, h.visited]
  by_cases hb : (0 ≤ ((cur / ny : Nat) : Int) + Clusters.dx_list.getD j 0 ∧
      ((cur / ny : Nat) : Int) + Clusters.dx_list.getD j 0 < (nx : Int) ∧
      0 ≤ ((cur % ny : Nat) : Int) + Clusters.dy_list.getD j 0 ∧
      ((cur % ny : Nat) : Int) + Clusters.dy_list.getD j 0 < (ny : Int))
  · rw [if_neg (not_not.2 hb), if_neg (not_not.2 hb)]
    split_ifs
    · exact h
    · exact ⟨rfl, by rw [h.q], h.sum, h.count, h.mux, h.muy, h.c00, h.c01, h.c10, h.c11⟩
  · rw [if_pos hb, if_pos hb]
    exact h

/-- Handling the four neighbours keeps the two searches in step. -/
theorem sim_neighbors {nx ny : Nat} {img : Int → Int → Int} {t : Int} {cur : Nat} {f1 : Int}
    {cst : Clusters.State} {est : State} (h : Sim ny cst est) :
    Sim ny ((List.range 4).foldl (Clusters.visitNeighbor nx ny img t cur f1) cst)
      ((List.range 4).foldl (visitNeighbor nx ny img t cur) est) := by
  have e : (List.range 4).foldl (Clusters.visitNeighbor nx ny img t cur f1) cst =
      Clusters.visitNeighbor nx ny img t cur f1
        (Clusters.visitNeighbor nx ny img t cur f1
          (Clusters.visitNeighbor nx ny img t cur f1
            (Clusters.visitNeighbor nx ny img t cur f1 cst 0) 1) 2) 3 := rfl
  have e' : (List.range 4).foldl (visitNeighbor nx ny img t cur) est =
      visitNeighbor nx ny img t cur
        (visitNeighbor nx ny img t cur
          (visitNeighbor nx ny img t cur
            (visitNeighbor nx ny img t cur est 0) 1) 2) 3 := rfl
  rw [e, e']
  exact sim_visitNeighbor 3 (sim_visitNeighbor 2 (sim_visitNeighbor 1 (sim_visitNeighbor 0 h)))

/-- The two search loops, run with the same fuel from states in step, both run
out of fuel or both return, with final states in step. -/
theorem sim_bfs {nx ny : Nat} {img : Int → Int → Int} {t : Int} :
    ∀ (fuel : Nat) (cst : Clusters.State) (est : State), Sim ny cst est →
      (Clusters.bfs nx ny img t fuel cst = none ∧ bfs nx ny img t fuel est = none) ∨
      ∃ cst' est', Clusters.bfs nx ny img t fuel cst = some cst' ∧
        bfs nx ny img t fuel est = some est' ∧ Sim ny cst' est' := by
  intro fuel
  induction fuel with
  | zero =>
    intro cst est h
    have hq := h.q
    cases hc : cst.q with
    | nil =>
      rw [hc] at hq
      refine Or.inr ⟨cst, est, ?_, ?_, h⟩
      · unfold Clusters.bfs; rw [hc]
      · unfold bfs; rw [hq]
    | cons a rest =>
      rw [hc] at hq
      refine Or.inl ⟨?_, ?_⟩
      · unfold Clusters.bfs; rw [hc]
      · unfold bfs; rw [hq]
  | succ fuel ih =>
    intro cst est h
    have hq := h.q
    cases hc : cst.q with
    | nil =>
      rw [hc] at hq
      refine Or.inr ⟨cst, est, ?_, ?_, h⟩
      · unfold Clusters.bfs; rw [hc]
      · unfold bfs; rw [hq]
    | cons index1 rest =>
      rw [hc] at hq
      have hs1 : Clusters.bfs nx ny img t (fuel + 1) cst =
          Clusters.bfs nx ny img t fuel
            ((List.range 4).foldl
              (Clusters.visitNeighbor nx ny img t index1 (pixval ny img index1))
              { visited := cst.visited, q := rest,
                c := { pixels := cst.c.pixels ++ [index1], edges := cst.c.edges },
                sum := cst.sum + 1 }) := by
        conv_lhs => unfold Clusters.bfs
        rw [hc]
      have hs2 : bfs nx ny img t (fuel + 1) est =
          bfs nx ny img t fuel
            ((List.range 4).foldl (visitNeighbor nx ny img t index1)
              { visited := est.visited, q := rest, sum := est.sum + 1,
                mu := (est.mu.1 + ((index1 / ny : Nat) : ℚ), est.mu.2 + ((index1 % ny : Nat) : ℚ)),
                cov := ⟨est.cov.c00 + ((index1 / ny : Nat) : ℚ) * ((index1 / ny : Nat) : ℚ),
                        est.cov.c01 + ((index1 / ny : Nat) : ℚ) * ((index1 % ny : Nat) : ℚ),
                        est.cov.c10 + ((index1 % ny : Nat) : ℚ) * ((index1 / ny : Nat) : ℚ),
                        est.cov.c11 + ((index1 % ny : Nat) : ℚ) * ((index1 % ny : Nat) : ℚ)⟩ }) := by
        conv_lhs => unfold bfs
        rw [hq]
      rw [hs1, hs2]
      apply ih
      apply sim_neighbors
      refine ⟨h.visited, rfl, ?_, ?_, ?_, ?_, ?_, ?_, ?_, ?_⟩
      · dsimp only; rw [h.sum]
      · dsimp only
        rw [h.count, List.length_append, List.length_singleton]
        push_cast
        rfl
      · dsimp only
        rw [h.mux, List.map_append, List.sum_append]
        simp
      · dsimp only
        rw [h.muy, List.map_append, List.sum_append]
        simp
      · dsimp only
        rw [h.c00, List.map_append, List.sum_append]
        simp
      · dsimp only
        rw [h.c01, List.map_append, List.sum_append]
        simp
      · dsimp only
        rw [h.c10, List.map_append, List.sum_append]
        simp
      · dsimp only
        rw [h.c11, List.map_append, List.sum_append]
        simp

/-- The moments computed from the accumulated sums of a finished search are
the moments of the pixel list of the cluster. -/
theorem normalise_eq {ny : Nat} {cst : Clusters.State} {est : State} (h : Sim ny cst est) :
    normalise est.sum est.mu est.cov = momentsOf ny cst.c.pixels := by
  unfold normalise momentsOf
  rw [h.count, h.mux, h.muy, h.c00, h.c01, h.c10, h.c11]
  simp only [Int.cast_natCast]

/-- Looking at one pixel keeps the two loops over all pixels in step. -/
theorem sim_scanPixel {nx ny : Nat} {img : Int → Int → Int} {t s : Int}
    (acc : Option ((Nat → Bool) × List Cluster)) (k : Nat) :
    scanPixel nx ny img t s
        (acc.map fun a => (a.1, a.2.map fun c => momentsOf ny c.pixels)) k =
      (Clusters.scanPixel nx ny img t s acc k).map
        fun a => (a.1, a.2.map fun c => momentsOf ny c.pixels) := by
  cases acc with
  | none => rfl
  | some a =>
    obtain ⟨V, cs⟩ := a
    unfold scanPixel Clusters.scanPixel
    simp only [Option.map_some']
    by_cases hc : V k = true ∨ pixval ny img k < t
    · rw [if_pos hc, if_pos hc]
      rfl
    · rw [if_neg hc, if_neg hc]
      have h0 : Sim ny
          { visited := setFlag V k true, q := [k], c := ⟨[], []⟩, sum := 0 }
          { visited := setFlag V k true, q := [k], sum := 0, mu := (0, 0),
            cov := ⟨0, 0, 0, 0⟩ } :=
        ⟨rfl, rfl, rfl, rfl, rfl, rfl, rfl, rfl, rfl, rfl⟩
      rcases @sim_bfs nx ny img t (nx * ny + 1) _ _ h0 with ⟨h1, h2⟩ | ⟨cst, est, h1, h2, hsim⟩
      · rw [h1, h2]
        rfl
      · rw [h1, h2]
        simp only []
        rw [hsim.sum]
        by_cases hs : cst.sum < s
        · rw [if_pos hs, if_pos hs]
          simp only [Option.map_some', hsim.visited]
        · rw [if_neg hs, if_neg hs]
          have hn := normalise_eq hsim
          rw [hsim.sum] at hn
          simp only [Option.map_some', hsim.visited, List.map_append, List.map_cons,
            List.map_nil, hn]

/-- The two loops over all pixels are in step. -/
theorem sim_scan {nx ny : Nat} {img : Int → Int → Int} {t s : Int} (l : List Nat) :
    ∀ acc : Option ((Nat → Bool) × List Cluster),
      l.foldl (scanPixel nx ny img t s)
          (acc.map fun a => (a.1, a.2.map fun c => momentsOf ny c.pixels)) =
        (l.foldl (Clusters.scanPixel nx ny img t s) acc).map
          fun a => (a.1, a.2.map fun c => momentsOf ny c.pixels) := by
  induction l with
  | nil => intro acc; rfl
  | cons k rest ih =>
    intro acc
    rw [List.foldl_cons, List.foldl_cons, sim_scanPixel, ih]

/-- The entries of `obtain_ellipses` are the moments of the pixel lists of the
clusters of `Clusters::construct`, in the same order. -/
theorem obtain_ellipses_eq (nx ny : Nat) (img : Int → Int → Int) (t s : Int) :
    obtain_ellipses nx ny img t s =
      (Clusters.construct nx ny img t s).map (List.map fun c => momentsOf ny c.pixels) := by
  unfold obtain_ellipses Clusters.construct
  have h := @sim_scan nx ny img t s (List.range (nx * ny)) (some (fun _ => false, []))
  simp only [Option.map_some', List.map_nil] at h
  rw [h, Option.map_map, Option.map_map]
  rfl

/-- The eigenvalues of a multiple of the identity are all that multiple. -/
theorem eigen_scalar {m : Mat2} {c : ℚ} (h00 : m.c00 = c) (h01 : m.c01 = 0) (h10 : m.c10 = 0)
    (h11 : m.c11 = c) {l : ℝ} {v : ℝ × ℝ} (h : IsEigenpair m l v) : l = (c : ℝ) := by
  obtain ⟨hv, e1, e2⟩ := h
  rw [h00, h01] at e1
  rw [h10, h11] at e2
  have hv' : v.1 ≠ 0 ∨ v.2 ≠ 0 := by
    by_contra hx
    push_neg at hx
    exact hv (Prod.ext hx.1 hx.2)
  rcases hv' with h1 | h1
  · have : ((c : ℝ) - l) * v.1 = 0 := by
      push_cast at e1
      linarith
    rcases mul_eq_zero.1 this with h2 | h2
    · linarith
    · exact absurd h2 h1
  · have : ((c : ℝ) - l) * v.2 = 0 := by
      push_cast at e2
      linarith
    rcases mul_eq_zero.1 this with h2 | h2
    · linarith
    · exact absurd h2 h1

end Ellipses

/-- **C15.** For every grid and thresholds, `Clusters::construct` and
`obtain_ellipses` both return, and the entries of `obtain_ellipses` correspond
one to one, in the same order, to the clusters of `Clusters::construct` for the
same thresholds: the size of each entry is the number of pixels of its cluster
and its mean is the arithmetic mean of the coordinates
`(index / ny, index % ny)` of the pixels of the cluster. -/
theorem C15_ellipses_follow_components (nx ny : Nat) (img : Int → Int → Int)
    (pixel_threshold size_threshold : Int) :
    ∃ cs es, Clusters.construct nx ny img pixel_threshold size_threshold = some cs ∧
      Ellipses.obtain_ellipses nx ny img pixel_threshold size_threshold = some es ∧
      es = cs.map (fun c => Ellipses.momentsOf ny c.pixels) ∧
      es.map (fun m => (m.sum, m.mu)) =
        cs.map (fun c => ((c.pixels.length : Int),
          ((c.pixels.map fun p => ((p / ny : Nat) : ℚ)).sum / (c.pixels.length : ℚ),
           (c.pixels.map fun p => ((p % ny : Nat) : ℚ)).sum / (c.pixels.length : ℚ)))) := by
  obtain ⟨V, cs, hcs, _⟩ := Clusters.construct_scanRes nx ny img pixel_threshold size_threshold
  refine ⟨cs, cs.map (fun c => Ellipses.momentsOf ny c.pixels), hcs, ?_, rfl, ?_⟩
  · rw [Ellipses.obtain_ellipses_eq, hcs]
    rfl
  · rw [List.map_map]
    rfl

/-- **C17.** On the 3 × 3 grid whose nine values are 10, with pixel threshold 5
and size threshold 1, `Clusters::construct` returns exactly one cluster, of 9
pixels, and `obtain_ellipses` returns exactly one entry, with size 9, mean
`(1, 1)` and a corrected covariance with equal diagonal entries and zero
off-diagonal entries; hence the two eigenvalues returned by the solver are
equal and so are the semi-major and the semi-minor axis pushed for the
entry. -/
theorem C17_square_grid_ellipse :
    ∃ c m, Clusters.construct 3 3 (fun _ _ => 10) 5 1 = some [c] ∧
      c.pixels.length = 9 ∧
      Ellipses.obtain_ellipses 3 3 (fun _ _ => 10) 5 1 = some [m] ∧
      m.sum = 9 ∧ m.mu = (1, 1) ∧
      m.cov.c00 = m.cov.c11 ∧ m.cov.c01 = 0 ∧ m.cov.c10 = 0 ∧
      ∀ (l0 l1 : ℝ) (v0 v1 : ℝ × ℝ),
        Ellipses.IsEigenpair m.cov l0 v0 → Ellipses.IsEigenpair m.cov l1 v1 →
        (Ellipses.describe m l0 l1 v0 v1).getD 3 0 =
          (Ellipses.describe m l0 l1 v0 v1).getD 4 0 := by
  have hc : Clusters.construct 3 3 (fun _ _ => 10) 5 1 =
      some [⟨[0, 3, 1, 6, 4, 2, 7, 5, 8],
        [⟨0, 3, 10⟩, ⟨0, 1, 10⟩, ⟨3, 6, 10⟩, ⟨3, 4, 10⟩, ⟨1, 2, 10⟩, ⟨6, 7, 10⟩, ⟨4, 5, 10⟩,
          ⟨7, 8, 10⟩]⟩] := by decide!
  have hm : Ellipses.momentsOf 3 [0, 3, 1, 6, 4, 2, 7, 5, 8] =
      ⟨9, (1, 1), ⟨3 / 4, 0, 0, 3 / 4⟩⟩ := by
    unfold Ellipses.momentsOf
    norm_num
  refine ⟨_, ⟨9, (1, 1), ⟨3 / 4, 0, 0, 3 / 4⟩⟩, hc, rfl, ?_, rfl, rfl, rfl, rfl, rfl, ?_⟩
  · rw [Ellipses.obtain_ellipses_eq, hc]
    simp only [Option.map_some', List.map_cons, List.map_nil, hm]
  · intro l0 l1 v0 v1 h0 h1
    have e0 := Ellipses.eigen_scalar (c := 3 / 4) rfl rfl rfl rfl h0
    have e1 := Ellipses.eigen_scalar (c := 3 / 4) rfl rfl rfl rfl h1
    unfold Ellipses.describe
    simp only [List.getD_cons_succ, List.getD_cons_zero]
    rw [e0, e1]

end Cellular

namespace Cellular

/-! ## The corrected covariance is positive definite -/

namespace Ellipses

/-- Sum of the squares of `a * h p - b` over a list. -/
theorem sum_sq_affine {α : Type} (h : α → ℚ) (a b : ℚ) (l : List α) :
    (l.map fun p => (a * h p - b) * (a * h p - b)).sum =
      a * a * (l.map fun p => h p * h p).sum - 2 * a * b * (l.map h).sum +
        (l.length : ℚ) * (b * b) := by
  induction l with
  | nil => simp
  | cons x rest ih =>
    simp only [List.map_cons, List.sum_cons, List.length_cons, ih]
    push_cast
    ring

/-- The variance of a function over a non-empty list is not negative. -/
theorem var_nonneg {α : Type} (h : α → ℚ) (l : List α) (hl : l ≠ []) :
    0 ≤ (l.map fun p => h p * h p).sum / (l.length : ℚ) -
      (l.map h).sum / (l.length : ℚ) * ((l.map h).sum / (l.length : ℚ)) := by
  have hn : (0 : ℚ) < (l.length : ℚ) := by
    have : 0 < l.length := List.length_pos.2 hl
    exact_mod_cast this
  have hsq : 0 ≤ (l.map fun p =>
      ((l.length : ℚ) * h p - (l.map h).sum) * ((l.length : ℚ) * h p - (l.map h).sum)).sum := by
    apply List.sum_nonneg
    intro x hx
    obtain ⟨p, _, rfl⟩ := List.mem_map.1 hx
    exact mul_self_nonneg _
  rw [sum_sq_affine] at hsq
  have e : (l.map fun p => h p * h p).sum / (l.length : ℚ) -
      (l.map h).sum / (l.length : ℚ) * ((l.map h).sum / (l.length : ℚ)) =
      ((l.length : ℚ) * (l.length : ℚ) * (l.map fun p => h p * h p).sum -
        2 * (l.length : ℚ) * (l.map h).sum * (l.map h).sum +
        (l.length : ℚ) * ((l.map h).sum * (l.map h).sum)) /
        ((l.length : ℚ) * (l.length : ℚ) * (l.length : ℚ)) := by
    field_simp
    ring
  rw [e]
  exact div_nonneg hsq (le_of_lt (mul_pos (mul_pos hn hn) hn))

/-- Sums of a linear combination of two functions over a list. -/
theorem sum_combo {α : Type} (f g : α → ℚ) (u w : ℚ) (l : List α) :
    (l.map fun p => u * f p + w * g p).sum = u * (l.map f).sum + w * (l.map g).sum ∧
    (l.map fun p => (u * f p + w * g p) * (u * f p + w * g p)).sum =
      u * u * (l.map fun p => f p * f p).sum + 2 * u * w * (l.map fun p => f p * g p).sum +
        w * w * (l.map fun p => g p * g p).sum := by
  induction l with
  | nil => simp
  | cons x rest ih =>
    simp only [List.map_cons, List.sum_cons, ih.1, ih.2]
    constructor <;> ring

/-- The covariance form of two functions over a non-empty list is not
negative. -/
theorem quad_nonneg {α : Type} (f g : α → ℚ) (l : List α) (hl : l ≠ []) (u w : ℚ) :
    0 ≤ u * u * ((l.map fun p => f p * f p).sum / (l.length : ℚ) -
          (l.map f).sum / (l.length : ℚ) * ((l.map f).sum / (l.length : ℚ))) +
        2 * u * w * ((l.map fun p => f p * g p).sum / (l.length : ℚ) -
          (l.map f).sum / (l.length : ℚ) * ((l.map g).sum / (l.length : ℚ))) +
        w * w * ((l.map fun p => g p * g p).sum / (l.length : ℚ) -
          (l.map g).sum / (l.length : ℚ) * ((l.map g).sum / (l.length : ℚ))) := by
  have h := var_nonneg (fun p => u * f p + w * g p) l hl
  rw [(sum_combo f g u w l).1, (sum_combo f g u w l).2] at h
  have e : ∀ (n A B C S T : ℚ),
      (u * u * A + 2 * u * w * B + w * w * C) / n - (u * S + w * T) / n * ((u * S + w * T) / n) =
      u * u * (A / n - S / n * (S / n)) + 2 * u * w * (B / n - S / n * (T / n)) +
        w * w * (C / n - T / n * (T / n)) := by
    intro n A B C S T
    ring
  rw [e] at h
  exact h

/-- A symmetric 2 × 2 form that is not negative on any rational vector has
non-negative diagonal entries and a non-negative determinant. -/
theorem det_nonneg {a c d : ℚ} (h : ∀ u w : ℚ, 0 ≤ u * u * a + 2 * u * w * c + w * w * d) :
    0 ≤ a ∧ 0 ≤ d ∧ c * c ≤ a * d := by
  have ha : 0 ≤ a := by
    have := h 1 0
    linarith
  have hd : 0 ≤ d := by
    have := h 0 1
    linarith
  refine ⟨ha, hd, ?_⟩
  by_cases hpos : 0 < a + d
  · have h1 := h d (-c)
    have h2 := h (-c) a
    have h3 : 0 ≤ (a + d) * (a * d - c * c) := by nlinarith
    have h4 : 0 ≤ a * d - c * c := by
      by_contra hx
      have := mul_neg_of_pos_of_neg hpos (not_le.1 hx)
      linarith
    linarith
  · have ha0 : a = 0 := by linarith
    have hd0 : d = 0 := by linarith
    have h1 := h 1 (-c)
    rw [ha0, hd0] at h1
    rw [ha0, hd0]
    nlinarith [mul_self_nonneg c]

/-- Over the reals, a form with non-negative diagonal and non-negative
determinant is not negative. -/
theorem real_form_nonneg {a c d : ℝ} (ha : 0 ≤ a) (hd : 0 ≤ d) (hdet : c * c ≤ a * d)
    (x y : ℝ) : 0 ≤ a * (x * x) + 2 * c * (x * y) + d * (y * y) := by
  by_cases hpos : 0 < a + d
  · have h3 : 0 ≤ (a + d) * (a * (x * x) + 2 * c * (x * y) + d * (y * y)) := by
      nlinarith [mul_self_nonneg (a * x + c * y), mul_self_nonneg (c * x + d * y),
        mul_nonneg (sub_nonneg.2 hdet) (add_nonneg (mul_self_nonneg x) (mul_self_nonneg y))]
    by_contra hx
    have := mul_neg_of_pos_of_neg hpos (not_le.1 hx)
    linarith
  · have ha0 : a = 0 := by linarith
    have hd0 : d = 0 := by linarith
    rw [ha0, hd0] at hdet
    have hc0 : c = 0 := by
      have : c * c = 0 := le_antisymm (by linarith) (mul_self_nonneg c)
      exact mul_self_eq_zero.1 this
    rw [ha0, hd0, hc0]
    simp

/-- The corrected covariance of a non-empty pixel list: symmetric, diagonal
entries and eigenvalues at least `1/12`, determinant at least `1/144`. -/
theorem cov_momentsOf (ny : Nat) (pixels : List Nat) (hl : pixels ≠ []) :
    (momentsOf ny pixels).cov.c01 = (momentsOf ny pixels).cov.c10 ∧
    1 / 12 ≤ (momentsOf ny pixels).cov.c00 ∧ 1 / 12 ≤ (momentsOf ny pixels).cov.c11 ∧
    1 / 144 ≤ (momentsOf ny pixels).cov.c00 * (momentsOf ny pixels).cov.c11 -
      (momentsOf ny pixels).cov.c01 * (momentsOf ny pixels).cov.c10 ∧
    ∀ (l : ℝ) (v : ℝ × ℝ), IsEigenpair (momentsOf ny pixels).cov l v →
      1 / 12 ≤ l ∧ 0 < 5.991 * l := by
  have hq := quad_nonneg (fun p : Nat => ((p / ny : Nat) : ℚ)) (fun p : Nat => ((p % ny : Nat) : ℚ))
    pixels hl
  obtain ⟨ha, hd, hdet⟩ := det_nonneg hq
  have hsym : (pixels.map fun p => ((p % ny : Nat) : ℚ) * ((p / ny : Nat) : ℚ)).sum =
      (pixels.map fun p => ((p / ny : Nat) : ℚ) * ((p % ny : Nat) : ℚ)).sum := by
    congr 1
    exact List.map_congr_left (fun p _ => mul_comm _ _)
  unfold momentsOf
  dsimp only
  rw [hsym]
  generalize (pixels.map fun p => ((p / ny : Nat) : ℚ) * ((p / ny : Nat) : ℚ)).sum /
    (pixels.length : ℚ) - (pixels.map fun p => ((p / ny : Nat) : ℚ)).sum / (pixels.length : ℚ) *
      ((pixels.map fun p => ((p / ny : Nat) : ℚ)).sum / (pixels.length : ℚ)) = a at ha hdet ⊢
  generalize (pixels.map fun p => ((p % ny : Nat) : ℚ) * ((p % ny : Nat) : ℚ)).sum /
    (pixels.length : ℚ) - (pixels.map fun p => ((p % ny : Nat) : ℚ)).sum / (pixels.length : ℚ) *
      ((pixels.map fun p => ((p % ny : Nat) : ℚ)).sum / (pixels.length : ℚ)) = d at hd hdet ⊢
  have hcomm : (pixels.map fun p => ((p % ny : Nat) : ℚ)).sum / (pixels.length : ℚ) *
      ((pixels.map fun p => ((p / ny : Nat) : ℚ)).sum / (pixels.length : ℚ)) =
      (pixels.map fun p => ((p / ny : Nat) : ℚ)).sum / (pixels.length : ℚ) *
      ((pixels.map fun p => ((p % ny : Nat) : ℚ)).sum / (pixels.length : ℚ)) := mul_comm _ _
  rw [hcomm]
  generalize (pixels.map fun p => ((p / ny : Nat) : ℚ) * ((p % ny : Nat) : ℚ)).sum /
    (pixels.length : ℚ) - (pixels.map fun p => ((p / ny : Nat) : ℚ)).sum / (pixels.length : ℚ) *
      ((pixels.map fun p => ((p % ny : Nat) : ℚ)).sum / (pixels.length : ℚ)) = c at hdet ⊢
  refine ⟨rfl, by linarith, by linarith, by nlinarith, ?_⟩
  rintro l ⟨v1, v2⟩ ⟨hv, e1, e2⟩
  dsimp only at e1 e2
  push_cast at e1 e2
  have haR : (0 : ℝ) ≤ (a : ℝ) := by exact_mod_cast ha
  have hdR : (0 : ℝ) ≤ (d : ℝ) := by exact_mod_cast hd
  have hdetR : (c : ℝ) * (c : ℝ) ≤ (a : ℝ) * (d : ℝ) := by exact_mod_cast hdet
  have hform := real_form_nonneg haR hdR hdetR v1 v2
  have hnorm : 0 < v1 * v1 + v2 * v2 := by
    have h1 : v1 ≠ 0 ∨ v2 ≠ 0 := by
      by_contra hx
      push_neg at hx
      exact hv (Prod.ext hx.1 hx.2)
    rcases h1 with h1 | h1
    · have := mul_self_pos.2 h1
      nlinarith [mul_self_nonneg v2]
    · have := mul_self_pos.2 h1
      nlinarith [mul_self_nonneg v1]
  have hkey : (l - 1 / 12) * (v1 * v1 + v2 * v2) =
      (a : ℝ) * (v1 * v1) + 2 * (c : ℝ) * (v1 * v2) + (d : ℝ) * (v2 * v2) := by
    have h1 : v1 * (((a : ℝ) + 1 / 12) * v1 + (c : ℝ) * v2) = v1 * (l * v1) := by rw [e1]
    have h2 : v2 * ((c : ℝ) * v1 + ((d : ℝ) + 1 / 12) * v2) = v2 * (l * v2) := by rw [e2]
    linarith
  have hl12 : 1 / 12 ≤ l := by
    by_contra hx
    have : (l - 1 / 12) * (v1 * v1 + v2 * v2) < 0 :=
      mul_neg_of_neg_of_pos (by linarith [not_le.1 hx]) hnorm
    linarith
  exact ⟨hl12, by norm_num; linarith⟩

/-- The corrected covariance of a single pixel is `1/12` times the identity. -/
theorem cov_single (ny : Nat) (pixels : List Nat) (h1 : pixels.length = 1) :
    (momentsOf ny pixels).cov = ⟨1 / 12, 0, 0, 1 / 12⟩ := by
  obtain ⟨p, rfl⟩ := List.length_eq_one.1 h1
  unfold momentsOf
  simp

end Ellipses

/-- **C28.** For every non-empty pixel list the corrected covariance (the
covariance of the coordinates `(index / ny, index % ny)` plus `1/12` on both
diagonal entries) is symmetric, has both diagonal entries `>= 1/12` and
determinant `>= 1/144`, every eigenvalue of it is `>= 1/12`, so that the
argument `5.991 * eigenvalue` of the square roots is positive, and for a list
of one pixel it is `1/12` times the identity; and `obtain_ellipses` returns,
for every grid and thresholds, entries whose covariance has these
properties. -/
theorem C28_corrected_covariance_positive (nx ny : Nat) (img : Int → Int → Int)
    (pixel_threshold size_threshold : Int) :
    (∀ pixels : List Nat, pixels ≠ [] →
      (Ellipses.momentsOf ny pixels).cov.c01 = (Ellipses.momentsOf ny pixels).cov.c10 ∧
      1 / 12 ≤ (Ellipses.momentsOf ny pixels).cov.c00 ∧
      1 / 12 ≤ (Ellipses.momentsOf ny pixels).cov.c11 ∧
      1 / 144 ≤ (Ellipses.momentsOf ny pixels).cov.c00 * (Ellipses.momentsOf ny pixels).cov.c11 -
        (Ellipses.momentsOf ny pixels).cov.c01 * (Ellipses.momentsOf ny pixels).cov.c10 ∧
      (∀ (l : ℝ) (v : ℝ × ℝ), Ellipses.IsEigenpair (Ellipses.momentsOf ny pixels).cov l v →
        1 / 12 ≤ l ∧ 0 < 5.991 * l) ∧
      (pixels.length = 1 → (Ellipses.momentsOf ny pixels).cov = ⟨1 / 12, 0, 0, 1 / 12⟩)) ∧
    ∃ es, Ellipses.obtain_ellipses nx ny img pixel_threshold size_threshold = some es ∧
      ∀ m ∈ es,
        m.cov.c01 = m.cov.c10 ∧ 1 / 12 ≤ m.cov.c00 ∧ 1 / 12 ≤ m.cov.c11 ∧
        1 / 144 ≤ m.cov.c00 * m.cov.c11 - m.cov.c01 * m.cov.c10 ∧
        (∀ (l : ℝ) (v : ℝ × ℝ), Ellipses.IsEigenpair m.cov l v → 1 / 12 ≤ l ∧ 0 < 5.991 * l) ∧
        (m.sum = 1 → m.cov = ⟨1 / 12, 0, 0, 1 / 12⟩) := by
  have hall : ∀ pixels : List Nat, pixels ≠ [] →
      (Ellipses.momentsOf ny pixels).cov.c01 = (Ellipses.momentsOf ny pixels).cov.c10 ∧
      1 / 12 ≤ (Ellipses.momentsOf ny pixels).cov.c00 ∧
      1 / 12 ≤ (Ellipses.momentsOf ny pixels).cov.c11 ∧
      1 / 144 ≤ (Ellipses.momentsOf ny pixels).cov.c00 * (Ellipses.momentsOf ny pixels).cov.c11 -
        (Ellipses.momentsOf ny pixels).cov.c01 * (Ellipses.momentsOf ny pixels).cov.c10 ∧
      (∀ (l : ℝ) (v : ℝ × ℝ), Ellipses.IsEigenpair (Ellipses.momentsOf ny pixels).cov l v →
        1 / 12 ≤ l ∧ 0 < 5.991 * l) ∧
      (pixels.length = 1 → (Ellipses.momentsOf ny pixels).cov = ⟨1 / 12, 0, 0, 1 / 12⟩) := by
    intro pixels hl
    obtain ⟨h1, h2, h3, h4, h5⟩ := Ellipses.cov_momentsOf ny pixels hl
    exact ⟨h1, h2, h3, h4, h5, Ellipses.cov_single ny pixels⟩
  refine ⟨hall, ?_⟩
  obtain ⟨V, cs, hcs, hres⟩ :=
    Clusters.construct_scanRes nx ny img pixel_threshold size_threshold
  refine ⟨cs.map (fun c => Ellipses.momentsOf ny c.pixels), ?_, ?_⟩
  · rw [Ellipses.obtain_ellipses_eq, hcs]
    rfl
  · intro m hm
    obtain ⟨c, hc, rfl⟩ := List.mem_map.1 hm
    obtain ⟨_, _, p0, _, hcls⟩ := hres.sound c hc
    have hne : c.pixels ≠ [] := by
      intro e
      have : p0 ∈ c.pixels := (hcls p0).2 Relation.ReflTransGen.refl
      rw [e] at this
      exact absurd this (List.not_mem_nil _)
    obtain ⟨h1, h2, h3, h4, h5, h6⟩ := hall c.pixels hne
    refine ⟨h1, h2, h3, h4, h5, fun hs => h6 ?_⟩
    have : ((c.pixels.length : Nat) : Int) = 1 := hs
    exact_mod_cast this

end Cellular

namespace Cellular

/-! ## The counts do not depend on the direction stream -/

/-- Whatever is related to a flooded pixel is flooded. -/
theorem rtg_flooded {n : Nat} {v_next : Nat → Int} {F : Nat → Prop} {R : Nat → Nat → Prop}
    (hu : UF n v_next F R) {p q : Nat} (hp : F p) (h : Relation.ReflTransGen R p q) : F q := by
  induction h with
  | refl => exact hp
  | tail _ hbc _ => exact (hu.rel _ _ hbc).2

/-- In a forest whose tops store the class sizes, the number of tops of size
`>= s` is the number of classes of the relation `R` on the flooded pixels that
have at least `s` members. -/
theorem rootCount_classes {n : Nat} {v_next v_size : Nat → Int} {F : Nat → Prop}
    {R : Nat → Nat → Prop} (s : Int) (hu : UF n v_next F R)
    (hs : ∀ r, v_next r = (r : Int) → ∃ l, ClassList v_next r l ∧ v_size r = (l.length : Int)) :
    ∃ comps : Finset (Finset Nat),
      (∀ S, S ∈ comps ↔
        ((∃ p, F p ∧ ∀ q, q ∈ S ↔ Relation.ReflTransGen R p q) ∧ s ≤ (S.card : Int))) ∧
      rootCount n v_next v_size s = (comps.card : Int) := by
  classical
  have hrootF : ∀ r, v_next r = (r : Int) → F r := fun r hr =>
    (hu.flooded r).2 (by rw [hr]; exact Int.ofNat_nonneg _)
  let cls : Nat → Finset Nat := fun r => (Finset.range n).filter (fun p => Top v_next p r)
  have hcls : ∀ r p, p ∈ cls r ↔ Top v_next p r := by
    intro r p
    simp only [cls, Finset.mem_filter, Finset.mem_range]
    exact ⟨fun h => h.2, fun h => ⟨hu.bound p (flooded_of_top hu h), h⟩⟩
  have hcard : ∀ r, v_next r = (r : Int) → ((cls r).card : Int) = v_size r := by
    intro r hr
    obtain ⟨l, hl, hsl⟩ := hs r hr
    have : cls r = l.toFinset := by
      ext p
      rw [hcls, List.mem_toFinset, hl.2 p]
    rw [this, List.toFinset_card_of_nodup hl.1, hsl]
  have hclsReach : ∀ r, v_next r = (r : Int) → ∀ q, q ∈ cls r ↔ Relation.ReflTransGen R r q := by
    intro r hr q
    rw [hcls]
    constructor
    · intro h
      exact (hu.conn r q (hrootF r hr) (flooded_of_top hu h)).1 ⟨r, top_self hr, h⟩
    · intro h
      have hq := rtg_flooded hu (hrootF r hr) h
      obtain ⟨r', h1, h2⟩ := (hu.conn r q (hrootF r hr) hq).2 h
      rw [top_of_root hr h1] at h2
      exact h2
  refine ⟨((Finset.range n).filter (fun r => v_next r = (r : Int) ∧ s ≤ v_size r)).image cls,
    fun S => ?_, ?_⟩
  · rw [Finset.mem_image]
    constructor
    · rintro ⟨r, hr, rfl⟩
      rw [Finset.mem_filter] at hr
      obtain ⟨_, hr1, hr2⟩ := hr
      exact ⟨⟨r, hrootF r hr1, hclsReach r hr1⟩, by rw [hcard r hr1]; exact hr2⟩
    · rintro ⟨⟨p0, hp0, hS⟩, hsz⟩
      obtain ⟨r, hr⟩ := hu.top p0 hp0
      have hroot := top_root hr
      have hrF := hrootF r hroot
      have hpr : Relation.ReflTransGen R p0 r :=
        (hu.conn p0 r hp0 hrF).1 ⟨r, hr, top_self hroot⟩
      have hrp : Relation.ReflTransGen R r p0 :=
        (hu.conn r p0 hrF hp0).1 ⟨r, top_self hroot, hr⟩
      have hSeq : cls r = S := by
        ext q
        rw [hclsReach r hroot, hS]
        exact ⟨fun h => hpr.trans h, fun h => hrp.trans h⟩
      refine ⟨r, ?_, hSeq⟩
      rw [Finset.mem_filter, Finset.mem_range]
      refine ⟨hu.bound r hrF, hroot, ?_⟩
      rw [← hcard r hroot, hSeq]
      exact hsz
  · rw [Finset.card_image_of_injOn]
    · unfold rootCount counted
      rw [Finset.sum_boole]
    · intro r hr r' hr' e
      rw [Finset.mem_coe, Finset.mem_filter] at hr hr'
      have h1 : r ∈ cls r := (hcls r r).2 (top_self hr.2.1)
      have h2 : r ∈ cls r' := by
        have e' : cls r = cls r' := e
        rw [← e']
        exact h1
      exact (top_of_root hr.2.1 ((hcls r' r).1 h2)).symm

/-- Two forests on the same flooded pixels with the same classes, both storing
the class sizes at the tops, have the same number of tops of size `>= s`. -/
theorem rootCount_unique {n : Nat} {v_next v_size v_next' v_size' : Nat → Int} {F : Nat → Prop}
    {R : Nat → Nat → Prop} (s : Int) (hu : UF n v_next F R)
    (hs : ∀ r, v_next r = (r : Int) → ∃ l, ClassList v_next r l ∧ v_size r = (l.length : Int))
    (hu' : UF n v_next' F R)
    (hs' : ∀ r, v_next' r = (r : Int) →
      ∃ l, ClassList v_next' r l ∧ v_size' r = (l.length : Int)) :
    rootCount n v_next v_size s = rootCount n v_next' v_size' s := by
  obtain ⟨c, hc, hk⟩ := rootCount_classes s hu hs
  obtain ⟨c', hc', hk'⟩ := rootCount_classes s hu' hs'
  have : c = c' := by
    ext S
    rw [hc, hc']
  rw [hk, hk', this]

namespace Ncluster

/-- Two runs of the main loop that differ only in the direction stream, started
from states with the same threshold index and output buffer, both return, with
the same output buffer. -/
theorem count_flood_seeds {nx ny : Nat} {img : Int → Int → Int} {buf_arg : Nat → Nat}
    {ths : List Int} {s seed1 seed2 : Int} {rand1 rand2 : Nat → Nat}
    (hv : ValidOrder (nx * ny) buf_arg) :
    ∀ (k : Nat) (st1 st2 : State), k ≤ nx * ny → PInv nx ny buf_arg s k st1 →
      PInv nx ny buf_arg s k st2 → st1.i_threshold = st2.i_threshold →
      st1.buf_nclusters = st2.buf_nclusters →
      ∃ st1' st2', flood nx ny img buf_arg ths s seed1 rand1 k st1 = some st1' ∧
        flood nx ny img buf_arg ths s seed2 rand2 k st2 = some st2' ∧
        st1'.buf_nclusters = st2'.buf_nclusters := by
  intro k
  induction k with
  | zero =>
    intro st1 st2 _ _ _ _ hb
    exact ⟨st1, st2, rfl, rfl, hb⟩
  | succ k ih =>
    intro st1 st2 hk h1 h2 hith hb
    have hkn : k < nx * ny := Nat.lt_of_succ_le hk
    unfold flood
    simp only []
    rw [← hith]
    by_cases hstop : st1.i_threshold +
        advance (pixval ny img (buf_arg k)) (ths.drop st1.i_threshold) = ths.length
    · rw [if_pos hstop, if_pos hstop]
      exact ⟨_, _, rfl, rfl, hb⟩
    · rw [if_neg hstop, if_neg hstop]
      have hp1 : PInv nx ny buf_arg s (k + 1)
          { st1 with i_threshold := st1.i_threshold +
                       advance (pixval ny img (buf_arg k)) (ths.drop st1.i_threshold),
                     asserts := st1.asserts && decide (buf_arg k < nx * ny) } :=
        count_pinv_frame h1 rfl rfl rfl
      have hp2 : PInv nx ny buf_arg s (k + 1)
          { st2 with i_threshold := st1.i_threshold +
                       advance (pixval ny img (buf_arg k)) (ths.drop st1.i_threshold),
                     asserts := st2.asserts && decide (buf_arg k < nx * ny) } :=
        count_pinv_frame h2 rfl rfl rfl
      obtain ⟨sa, ea, pa, ia, ba⟩ := count_floodPixel_inv hv hkn
        (if seed1 = 0 then 0 else rand1 k) hp1
      obtain ⟨sb, eb, pb, ib, bb⟩ := count_floodPixel_inv hv hkn
        (if seed2 = 0 then 0 else rand2 k) hp2
      rw [ea, eb]
      simp only []
      dsimp only at ia ib ba bb
      have hn : sa.n_clusters = sb.n_clusters := by
        rw [pa.count, pb.count]
        exact rootCount_unique s pa.uf pa.sizes pb.uf pb.sizes
      exact ih sa sb (Nat.le_of_lt hkn) pa pb (by rw [ia, ib]) (by rw [ba, bb, hn, hb])

/-- The output of `compute_nclusters` does not depend on the seed or on the
stream of random directions. -/
theorem compute_seeds {nx ny : Nat} (img : Int → Int → Int) {buf_arg : Nat → Nat}
    (ths : List Int) (buf : Nat → Int) (s seed1 seed2 : Int) (rand1 rand2 : Nat → Nat)
    (hv : ValidOrder (nx * ny) buf_arg) :
    ∃ st1 st2, compute_nclusters nx ny img buf_arg ths buf s seed1 rand1 = some st1 ∧
      compute_nclusters nx ny img buf_arg ths buf s seed2 rand2 = some st2 ∧
      st1.buf_nclusters = st2.buf_nclusters :=
  @count_flood_seeds nx ny img buf_arg ths s seed1 seed2 rand1 rand2 hv (nx * ny) _ _ le_rfl
    (count_pinv_init nx ny buf_arg s buf) (count_pinv_init nx ny buf_arg s buf) rfl rfl

end Ncluster

/-! ## Two isolated pixels -/

/-- A grid whose only pixels of value `>= t` are two non-adjacent pixels has
two components of one pixel each. -/
theorem two_pixels_counts {nx ny : Nat} {img : Int → Int → Int} {t : Int} {c1 c2 : Nat}
    (hne : c1 ≠ c2) (h1 : InThr nx ny img t c1) (h2 : InThr nx ny img t c2)
    (hall : ∀ p, InThr nx ny img t p → p = c1 ∨ p = c2) (hadj : ¬ Adj4 nx ny c1 c2) :
    CountsComponents nx ny img t 1 2 ∧ CountsComponents nx ny img t 2 0 := by
  have hreach : ∀ c, c = c1 ∨ c = c2 → ∀ q, Reach nx ny img t c q → q = c := by
    intro c hc q h
    induction h with
    | refl => rfl
    | @tail y z _ hyz ih =>
      subst ih
      exfalso
      have hz := hall z hyz.2.1
      rcases hc with e | e <;> rcases hz with e' | e'
      · rw [e, e'] at hyz; exact adj4_irrefl hyz.2.2
      · rw [e, e'] at hyz; exact hadj hyz.2.2
      · rw [e, e'] at hyz; exact hadj (adj4_symm hyz.2.2)
      · rw [e, e'] at hyz; exact adj4_irrefl hyz.2.2
  have hcomp : ∀ S : Finset Nat, IsComponent nx ny img t S ↔ S = {c1} ∨ S = {c2} := by
    intro S
    rw [isComponent_iff_class]
    constructor
    · rintro ⟨p0, hp0, hS⟩
      have hS' : S = {p0} := by
        ext q
        rw [hS, Finset.mem_singleton]
        exact ⟨fun h => hreach p0 (hall p0 hp0) q h, fun h => by rw [h]; exact Relation.ReflTransGen.refl⟩
      rcases hall p0 hp0 with e | e
      · left; rw [hS', e]
      · right; rw [hS', e]
    · rintro (e | e)
      · refine ⟨c1, h1, fun q => ?_⟩
        rw [e, Finset.mem_singleton]
        exact ⟨fun h => by rw [h]; exact Relation.ReflTransGen.refl,
          fun h => hreach c1 (Or.inl rfl) q h⟩
      · refine ⟨c2, h2, fun q => ?_⟩
        rw [e, Finset.mem_singleton]
        exact ⟨fun h => by rw [h]; exact Relation.ReflTransGen.refl,
          fun h => hreach c2 (Or.inr rfl) q h⟩
  constructor
  · refine ⟨{{c1}, {c2}}, fun S => ?_, ?_⟩
    · rw [Finset.mem_insert, Finset.mem_singleton, hcomp]
      constructor
      · rintro (e | e)
        · exact ⟨Or.inl e, by rw [e]; simp⟩
        · exact ⟨Or.inr e, by rw [e]; simp⟩
      · exact fun h => h.1
    · rw [Finset.card_pair]
      · rfl
      · intro e
        exact hne (Finset.singleton_inj.1 e)
  · refine ⟨∅, fun S => ?_, by simp⟩
    rw [hcomp]
    constructor
    · intro h
      exact absurd h (Finset.not_mem_empty S)
    · rintro ⟨e | e, hc⟩
      · rw [e] at hc; simp at hc
      · rw [e] at hc; simp at hc

/-- Two opposite corners of a grid with at least two rows and two columns are
distinct pixels of the grid that are not 4-adjacent. -/
theorem corners_apart {nx ny c1 c2 : Nat} (hnx : 2 ≤ nx) (hny : 2 ≤ ny)
    (hc : (c1 = 0 ∧ c2 = (nx - 1) * ny + (ny - 1)) ∨ (c1 = ny - 1 ∧ c2 = (nx - 1) * ny)) :
    c1 < nx * ny ∧ c2 < nx * ny ∧ c1 ≠ c2 ∧ ¬ Adj4 nx ny c1 c2 := by
  have hb : ny - 1 < ny := by omega
  have h0 : 0 < ny := by omega
  have ha : nx - 1 < nx := by omega
  rcases hc with ⟨e1, e2⟩ | ⟨e1, e2⟩
  · have hd2 : c2 / ny = nx - 1 := by rw [e2]; exact flat_div hb
    have hm2 : c2 % ny = ny - 1 := by rw [e2]; exact flat_mod hb
    have hd1 : c1 / ny = 0 := by rw [e1]; exact Nat.zero_div ny
    have hm1 : c1 % ny = 0 := by rw [e1]; exact Nat.zero_mod ny
    have hlt2 : c2 < nx * ny := by rw [e2]; exact flat_lt ha hb
    have hlt1 : c1 < nx * ny := by rw [e1]; exact lt_of_le_of_lt (Nat.zero_le _) hlt2
    refine ⟨hlt1, hlt2, ?_, ?_⟩
    · intro e
      rw [e] at hd1
      omega
    · rintro ⟨_, _, h⟩
      rw [hd1, hd2, hm1, hm2] at h
      omega
  · have hd2 : c2 / ny = nx - 1 := by
      have := @flat_div ny (nx - 1) 0 h0
      rw [e2]; simpa using this
    have hm2 : c2 % ny = 0 := by
      rw [e2]; exact Nat.mul_mod_left _ _
    have hd1 : c1 / ny = 0 := by rw [e1]; exact Nat.div_eq_of_lt hb
    have hm1 : c1 % ny = ny - 1 := by rw [e1]; exact Nat.mod_eq_of_lt hb
    have hlt2 : c2 < nx * ny := by
      have := @flat_lt nx ny (nx - 1) 0 ha h0
      rw [e2]; simpa using this
    have hlt1 : c1 < nx * ny := by
      have := @flat_lt nx ny 0 (ny - 1) (by omega) hb
      rw [e1]; simpa using this
    refine ⟨hlt1, hlt2, ?_, ?_⟩
    · intro e
      rw [e] at hd1
      omega
    · rintro ⟨_, _, h⟩
      rw [hd1, hd2, hm1, hm2] at h
      omega

/-- **C14.** For every grid, intensity order that is a permutation of the pixel
indices (ascending or not), threshold sequence, size threshold and initial
output buffer, `compute_nclusters` returns for every direction seed and every
stream of random directions, and the output buffer it leaves is the same for
any two of them. -/
theorem C14_counts_seed_independent (nx ny : Nat) (img : Int → Int → Int) (buf_arg : Nat → Nat)
    (buf_thresholds : List Int) (buf_nclusters : Nat → Int) (size_threshold : Int)
    (seed1 seed2 : Int) (rand1 rand2 : Nat → Nat) (hv : ValidOrder (nx * ny) buf_arg) :
    ∃ st1 st2,
      Ncluster.compute_nclusters nx ny img buf_arg buf_thresholds buf_nclusters size_threshold
        seed1 rand1 = some st1 ∧
      Ncluster.compute_nclusters nx ny img buf_arg buf_thresholds buf_nclusters size_threshold
        seed2 rand2 = some st2 ∧
      st1.buf_nclusters = st2.buf_nclusters :=
  Ncluster.compute_seeds img buf_thresholds buf_nclusters size_threshold seed1 seed2 rand1 rand2
    hv

/-- Instance of C14 on the 2 × 2 grid with values 0, 1, 2, 3, the identity
order, thresholds `[3, 1]`, seed 0 against seed 1 with direction 1 throughout. -/
theorem C14_counts_seed_independent_witness :
    ValidOrder (2 * 2) (fun i => i) ∧
    ∃ st1 st2,
      Ncluster.compute_nclusters 2 2 (fun ix iy => ix * 2 + iy) (fun i => i) [3, 1]
        (fun _ => 0) 1 0 (fun _ => 0) = some st1 ∧
      Ncluster.compute_nclusters 2 2 (fun ix iy => ix * 2 + iy) (fun i => i) [3, 1]
        (fun _ => 0) 1 1 (fun _ => 1) = some st2 ∧
      st1.buf_nclusters = st2.buf_nclusters :=
  have hv : ValidOrder (2 * 2) (fun i => i) :=
    ⟨fun _ h => h, fun _ _ _ _ h => h, fun p h => ⟨p, h, rfl⟩⟩
  ⟨hv, C14_counts_seed_independent 2 2 _ _ [3, 1] (fun _ => 0) 1 0 1 (fun _ => 0) (fun _ => 1) hv⟩

/-- **C18.** For every grid with at least two rows and two columns whose only
pixels of value `>= 5` are two pixels of value 10 at opposite corners, every
intensity order that is a permutation sorted by ascending value, every
direction seed and every initial output buffer: `compute_nclusters` with
thresholds `[5]` leaves 2 in output slot 0 for size threshold 1 and leaves 0 in
output slot 0 for size threshold 2. -/
theorem C18_two_corner_pixels (nx ny : Nat) (img : Int → Int → Int) (buf_arg : Nat → Nat)
    (seed : Int) (rand4 : Nat → Nat) (buf : Nat → Int) (c1 c2 : Nat)
    (hnx : 2 ≤ nx) (hny : 2 ≤ ny)
    (hc : (c1 = 0 ∧ c2 = (nx - 1) * ny + (ny - 1)) ∨ (c1 = ny - 1 ∧ c2 = (nx - 1) * ny))
    (h1 : pixval ny img c1 = 10) (h2 : pixval ny img c2 = 10)
    (hlow : ∀ p, p < nx * ny → p ≠ c1 → p ≠ c2 → pixval ny img p < 5)
    (hv : ValidOrder (nx * ny) buf_arg) (hasc : Ascending (nx * ny) ny img buf_arg) :
    ∃ st1 st2,
      Ncluster.compute_nclusters nx ny img buf_arg [5] buf 1 seed rand4 = some st1 ∧
      st1.buf_nclusters 0 = 2 ∧
      Ncluster.compute_nclusters nx ny img buf_arg [5] buf 2 seed rand4 = some st2 ∧
      st2.buf_nclusters 0 = 0 := by
  obtain ⟨hlt1, hlt2, hne, hadj⟩ := corners_apart hnx hny hc
  have hI1 : InThr nx ny img 5 c1 := ⟨hlt1, by rw [h1]; norm_num⟩
  have hI2 : InThr nx ny img 5 c2 := ⟨hlt2, by rw [h2]; norm_num⟩
  have hall : ∀ p, InThr nx ny img 5 p → p = c1 ∨ p = c2 := by
    intro p hp
    by_contra hx
    push_neg at hx
    exact absurd hp.2 (not_le.2 (hlow p hp.1 hx.1 hx.2))
  obtain ⟨hk1, hk2⟩ := two_pixels_counts hne hI1 hI2 hall hadj
  obtain ⟨st1, hrun1, _, ha1, _⟩ :=
    @Ncluster.compute_head nx ny img buf_arg 5 [] 1 seed rand4 buf hv hasc
      (fun th hth => absurd hth (List.not_mem_nil th))
  obtain ⟨st2, hrun2, _, ha2, _⟩ :=
    @Ncluster.compute_head nx ny img buf_arg 5 [] 2 seed rand4 buf hv hasc
      (fun th hth => absurd hth (List.not_mem_nil th))
  exact ⟨st1, st2, hrun1, countsComponents_unique (ha1 ⟨c1, hI1⟩) hk1, hrun2,
    countsComponents_unique (ha2 ⟨c1, hI1⟩) hk2⟩

/-- Instance of C18 on the 2 × 2 grid with value 10 at the corners 0 and 3 and
value 0 elsewhere, with the order 1, 2, 0, 3. -/
theorem C18_two_corner_pixels_witness :
    (2 ≤ 2) ∧ (2 ≤ 2) ∧
    ((0 = 0 ∧ 3 = (2 - 1) * 2 + (2 - 1)) ∨ (0 = 2 - 1 ∧ 3 = (2 - 1) * 2)) ∧
    pixval 2 (fun ix iy => if ix = iy then 10 else 0) 0 = 10 ∧
    pixval 2 (fun ix iy => if ix = iy then 10 else 0) 3 = 10 ∧
    (∀ p, p < 2 * 2 → p ≠ 0 → p ≠ 3 → pixval 2 (fun ix iy => if ix = iy then 10 else 0) p < 5) ∧
    ValidOrder (2 * 2) (fun i => if i = 0 then 1 else if i = 1 then 2 else if i = 2 then 0 else 3) ∧
    Ascending (2 * 2) 2 (fun ix iy => if ix = iy then 10 else 0)
      (fun i => if i = 0 then 1 else if i = 1 then 2 else if i = 2 then 0 else 3) ∧
    ∃ st1 st2,
      Ncluster.compute_nclusters 2 2 (fun ix iy => if ix = iy then 10 else 0)
        (fun i => if i = 0 then 1 else if i = 1 then 2 else if i = 2 then 0 else 3) [5]
        (fun _ => 0) 1 0 (fun _ => 0) = some st1 ∧
      st1.buf_nclusters 0 = 2 ∧
      Ncluster.compute_nclusters 2 2 (fun ix iy => if ix = iy then 10 else 0)
        (fun i => if i = 0 then 1 else if i = 1 then 2 else if i = 2 then 0 else 3) [5]
        (fun _ => 0) 2 0 (fun _ => 0) = some st2 ∧
      st2.buf_nclusters 0 = 0 :=
  have hcor : (0 = 0 ∧ 3 = (2 - 1) * 2 + (2 - 1)) ∨ (0 = 2 - 1 ∧ 3 = (2 - 1) * 2) :=
    Or.inl ⟨rfl, rfl⟩
  have hlow : ∀ p, p < 2 * 2 → p ≠ 0 → p ≠ 3 →
      pixval 2 (fun ix iy => if ix = iy then 10 else 0) p < 5 := by
    intro p hp h0 h3
    interval_cases p
    · exact absurd rfl h0
    · decide
    · decide
    · exact absurd rfl h3
  have hv : ValidOrder (2 * 2)
      (fun i => if i = 0 then 1 else if i = 1 then 2 else if i = 2 then 0 else 3) := by
    refine ⟨?_, ?_, ?_⟩
    · intro j hj
      interval_cases j <;> decide
    · intro i j hi hj h
      interval_cases i <;> interval_cases j <;> first | rfl | (exfalso; revert h; decide)
    · intro p hp
      interval_cases p
      · exact ⟨2, by decide, by decide⟩
      · exact ⟨0, by decide, by decide⟩
      · exact ⟨1, by decide, by decide⟩
      · exact ⟨3, by decide, by decide⟩
  have hasc : Ascending (2 * 2) 2 (fun ix iy => if ix = iy then 10 else 0)
      (fun i => if i = 0 then 1 else if i = 1 then 2 else if i = 2 then 0 else 3) := by
    intro i j hij hj
    interval_cases j <;> interval_cases i <;> decide
  ⟨le_rfl, le_rfl, hcor, by decide, by decide, hlow, hv, hasc,
    C18_two_corner_pixels 2 2 _ _ 0 (fun _ => 0) (fun _ => 0) 0 3 le_rfl le_rfl hcor
      (by decide) (by decide) hlow hv hasc⟩

end Cellular

namespace Cellular

/-! ## The edges recorded by the graph builder -/

namespace Watershed

theorem nextOf_set (v : Nat → Vertex) (i : Nat) (x : Vertex) :
    nextOf (setVertex v i x) = setInt (nextOf v) i x.next := by
  funext k
  unfold nextOf setVertex setInt
  split_ifs <;> rfl

theorem nextOf_keep (v : Nat → Vertex) (i : Nat) (x : Vertex) (h : x.next = (v i).next) :
    nextOf (setVertex v i x) = nextOf v := by
  funext k
  unfold nextOf setVertex
  split_ifs with hk
  · rw [hk, h]
  · rfl

/-- Recording an edge does not change the `next` links. -/
theorem nextOf_recordEdge (st : State) (v : Nat → Vertex) (another_top : Int)
    (index1 index2 j1 j2 : Nat) (f1 : Int) :
    nextOf (recordEdge st v another_top index1 index2 j1 j2 f1).v = nextOf v := by
  unfold recordEdge
  simp only []
  rw [nextOf_keep _ _ _ (by rfl), nextOf_keep _ _ _ (by rfl)]

theorem edgeRel_append (l : List Edge) (a b : Nat) (w : Int) (x y : Nat) :
    (EdgeRel l x y ∨ Pair a b x y) ↔ EdgeRel (l ++ [⟨a, b, w⟩]) x y := by
  unfold EdgeRel
  constructor
  · rintro (⟨e, he, hp⟩ | hp)
    · exact ⟨e, List.mem_append.2 (Or.inl he), hp⟩
    · exact ⟨⟨a, b, w⟩, List.mem_append.2 (Or.inr (List.mem_singleton.2 rfl)), hp⟩
  · rintro ⟨e, he, hp⟩
    rcases List.mem_append.1 he with he | he
    · exact Or.inl ⟨e, he, hp⟩
    · rw [List.mem_singleton] at he
      subst he
      exact Or.inr hp

theorem edgeOK_mono {nx ny : Nat} {img : Int → Int → Int} {buf_arg : Nat → Nat} {pt : Int}
    {k k' : Nat} (hk : k' ≤ k) {e : Edge} (h : EdgeOK nx ny img buf_arg pt k e) :
    EdgeOK nx ny img buf_arg pt k' e := by
  obtain ⟨i, j, h1, h2⟩ := h
  exact ⟨i, j, le_trans hk h1, h2⟩

/-- A pixel at which no edge ends is related by the edges to itself only. -/
theorem edgeRel_isolated {l : List Edge} {a : Nat}
    (hno : ∀ e ∈ l, e.index0 ≠ a ∧ e.index1 ≠ a) {p : Nat}
    (h : Relation.ReflTransGen (EdgeRel l) p a) : p = a := by
  rcases Relation.ReflTransGen.cases_tail h with e | ⟨c, _, e, he, hp⟩
  · exact e.symm
  · exfalso
    rcases hp with ⟨_, h2⟩ | ⟨_, h2⟩
    · exact (hno e he).2 h2.symm
    · exact (hno e he).1 h2.symm

/-- Linking the top `ra` under the top `rb` while recording the edge between
the pixel being flooded and its neighbour `b` keeps the invariant. -/
theorem graph_link {nx ny : Nat} {img : Int → Int → Int} {buf_arg : Nat → Nat} {pt : Int}
    {i : Nat} {st : State} (h : GInv nx ny img buf_arg pt i st) {v : Nat → Vertex}
    {b ra rb : Nat} (hv : nextOf v = setInt (nextOf st.v) ra (rb : Int))
    (ha : Flooded (nx * ny) buf_arg i (buf_arg i)) (hb : Flooded (nx * ny) buf_arg i b)
    (hne : ra ≠ rb)
    (htop : (Top (nextOf st.v) (buf_arg i) ra ∧ Top (nextOf st.v) b rb) ∨
      (Top (nextOf st.v) (buf_arg i) rb ∧ Top (nextOf st.v) b ra))
    (hedge : EdgeOK nx ny img buf_arg pt i ⟨buf_arg i, b, pixval ny img (buf_arg i)⟩)
    (another_top : Int) (j1 j2 : Nat) :
    GInv nx ny img buf_arg pt i
      (recordEdge st v another_top (buf_arg i) b j1 j2 (pixval ny img (buf_arg i))) := by
  refine ⟨?_, ?_, h.above⟩
  · rw [nextOf_recordEdge, hv]
    exact uf_congr (uf_link h.uf ha hb hne htop) (edgeRel_append _ _ _ _)
  · intro e he
    have he' : e ∈ st.v_edge ++ [⟨buf_arg i, b, pixval ny img (buf_arg i)⟩] := he
    rcases List.mem_append.1 he' with he' | he'
    · exact h.edges e he'
    · rw [List.mem_singleton] at he'
      rw [he']
      exact hedge

/-- Updating a vertex without touching its edge slots keeps all edge slots. -/
theorem edge_setVertex (v : Nat → Vertex) (i : Nat) (x : Vertex) (h : x.edge = (v i).edge)
    (p : Nat) : (setVertex v i x p).edge = (v p).edge := by
  unfold setVertex
  split_ifs with hk
  · rw [hk, h]
  · rfl

/-- Handling one direction of the pixel at position `i` returns and keeps the
invariant; the state is left as it is, or one edge from the pixel to its
neighbour in that direction is recorded on vertices whose edge slots are those
of the state before. -/
theorem graph_visit_shape {nx ny : Nat} {img : Int → Int → Int} {buf_arg : Nat → Nat}
    {pt mt : Int} {i : Nat} {st : State} (hv : ValidOrder (nx * ny) buf_arg) (hi : i < nx * ny)
    (rd j1 : Nat) (h : GVInv nx ny img buf_arg pt i st) :
    ∃ st', visitNeighbor nx ny mt (buf_arg i) (pixval ny img (buf_arg i)) rd st j1 = some st' ∧
      GVInv nx ny img buf_arg pt i st' ∧
      (st' = st ∨ ∃ (v : Nat → Vertex) (atop : Int) (index2 : Nat),
        st' = recordEdge st v atop (buf_arg i) index2 j1 ((j1 + 2) % 4)
          (pixval ny img (buf_arg i)) ∧
        (∀ p, (v p).edge = (st.v p).edge) ∧
        DirNbr nx ny (dx_list.getD ((rd + j1) % 4) 0) (dy_list.getD ((rd + j1) % 4) 0)
          (buf_arg i) index2) := by
  have han : buf_arg i < nx * ny := hv.range i hi
  have hFa : Flooded (nx * ny) buf_arg i (buf_arg i) := ⟨i, le_rfl, hi, rfl⟩
  unfold visitNeighbor
  simp only []
  by_cases hb : (0 ≤ ((buf_arg i / ny : Nat) : Int) + dx_list.getD ((rd + j1) % 4) 0 ∧
      ((buf_arg i / ny : Nat) : Int) + dx_list.getD ((rd + j1) % 4) 0 < (nx : Int) ∧
      0 ≤ ((buf_arg i % ny : Nat) : Int) + dy_list.getD ((rd + j1) % 4) 0 ∧
      ((buf_arg i % ny : Nat) : Int) + dy_list.getD ((rd + j1) % 4) 0 < (ny : Int))
  · rw [if_neg (not_not.2 hb)]
    have hd := dirNbr_toNat hb
    generalize hi2 : ((((buf_arg i / ny : Nat) : Int) + dx_list.getD ((rd + j1) % 4) 0) *
      (ny : Int) + (((buf_arg i % ny : Nat) : Int) + dy_list.getD ((rd + j1) % 4) 0)).toNat =
      index2 at hd
    by_cases hneg : (st.v index2).next < 0
    · rw [if_pos hneg]
      exact ⟨st, rfl, h, Or.inl rfl⟩
    · rw [if_neg hneg]
      have hF2 : Flooded (nx * ny) buf_arg i index2 :=
        (h.inv.uf.flooded index2).2 (not_lt.1 hneg)
      obtain ⟨top, hget, htop, hFtop⟩ := get_top_eq h.inv.uf hF2
      have hget' : get_top (fun k => (st.v k).next) (nx * ny) index2 = some top := hget
      rw [hget']
      simp only []
      have hadj : Adj4 nx ny (buf_arg i) index2 :=
        (dirs4_watershed nx ny _ _).2 ⟨han, (rd + j1) % 4, Nat.mod_lt _ (by norm_num), hd⟩
      have hne2 : index2 ≠ buf_arg i := fun e => adj4_irrefl (e ▸ hadj)
      have hedge : EdgeOK nx ny img buf_arg pt i
          ⟨buf_arg i, index2, pixval ny img (buf_arg i)⟩ := by
        obtain ⟨j, hj1, hj2, hj3⟩ := hF2
        have hij : i < j := by
          rcases Nat.eq_or_lt_of_le hj1 with e | e
          · exfalso
            apply hne2
            rw [← hj3, ← e]
          · exact e
        exact ⟨i, j, le_rfl, hij, hj2, rfl, hj3, hadj, rfl, h.inv.above i le_rfl hi⟩
      have hroot_top : nextOf st.v top = (top : Int) := top_root htop
      by_cases h1 : st.another_top = -1
      · rw [if_pos h1]
        rcases h.cur with ⟨_, hroot, hnoedge⟩ | ⟨c, hc, _⟩
        · have hra : nextOf st.v (buf_arg i) = (buf_arg i : Int) := hroot
          have htopne : buf_arg i ≠ top := by
            intro e
            have hs : SameTop (nextOf st.v) index2 (buf_arg i) :=
              ⟨top, htop, by rw [← e]; exact top_self hra⟩
            exact hne2 (edgeRel_isolated hnoedge ((h.inv.uf.conn _ _ hF2 hFa).1 hs))
          have hvnext : nextOf
              (setVertex (setVertex st.v (buf_arg i) { st.v (buf_arg i) with next := (top : Int) })
                top
                { setVertex st.v (buf_arg i) { st.v (buf_arg i) with next := (top : Int) } top with
                  size := (setVertex st.v (buf_arg i)
                    { st.v (buf_arg i) with next := (top : Int) } top).size + 1 }) =
              setInt (nextOf st.v) (buf_arg i) (top : Int) := by
            rw [nextOf_keep _ _ _ (by rfl), nextOf_set]
          refine ⟨_, rfl, ⟨graph_link h.inv hvnext hFa hF2 htopne (Or.inl ⟨top_self hra, htop⟩)
            hedge _ _ _, Or.inr ⟨top, rfl, ?_⟩⟩, Or.inr ⟨_, _, index2, rfl, ?_, hd⟩⟩
          swap
          · intro p
            rw [edge_setVertex _ _ _ (by rfl), edge_setVertex _ _ _ (by rfl)]
          rw [nextOf_recordEdge, hvnext]
          have := top_link hra hroot_top htopne (top_self hra)
          rw [if_pos rfl] at this
          exact this
        · exfalso
          rw [hc] at h1
          have := Int.ofNat_nonneg c
          omega
      · rw [if_neg h1]
        by_cases h2 : 0 ≤ st.another_top ∧ st.another_top ≠ (top : Int)
        · rw [if_pos h2]
          rcases h.cur with ⟨h0, _, _⟩ | ⟨c, hc, hTc⟩
          · exact absurd h0 h1
          · have hat : st.another_top.toNat = c := by rw [hc]; exact Int.toNat_ofNat c
            have hroot_c : nextOf st.v c = (c : Int) := top_root hTc
            have hcne : c ≠ top := by
              intro e
              apply h2.2
              rw [hc, e]
            rw [hat]
            by_cases h3 : mt ≤ (st.v top).size ∧ mt ≤ (st.v c).size
            · rw [if_pos h3]
              exact ⟨st, rfl, h, Or.inl rfl⟩
            · rw [if_neg h3]
              by_cases h4 : (st.v c).value < (st.v top).value
              · rw [if_pos h4]
                have hvnext : nextOf
                    (setVertex (setVertex st.v c { st.v c with next := (top : Int) }) top
                      { setVertex st.v c { st.v c with next := (top : Int) } top with
                        size := (setVertex st.v c { st.v c with next := (top : Int) } top).size +
                          (setVertex st.v c { st.v c with next := (top : Int) } c).size }) =
                    setInt (nextOf st.v) c (top : Int) := by
                  rw [nextOf_keep _ _ _ (by rfl), nextOf_set]
                refine ⟨_, rfl, ⟨graph_link h.inv hvnext hFa hF2 hcne (Or.inl ⟨hTc, htop⟩)
                  hedge _ _ _, Or.inr ⟨top, rfl, ?_⟩⟩, Or.inr ⟨_, _, index2, rfl, ?_, hd⟩⟩
                swap
                · intro p
                  rw [edge_setVertex _ _ _ (by rfl), edge_setVertex _ _ _ (by rfl)]
                rw [nextOf_recordEdge, hvnext]
                have := top_link hroot_c hroot_top hcne hTc
                rw [if_pos rfl] at this
                exact this
              · rw [if_neg h4]
                have hvnext : nextOf
                    (setVertex (setVertex st.v top { st.v top with next := (c : Int) }) c
                      { setVertex st.v top { st.v top with next := (c : Int) } c with
                        size := (setVertex st.v top { st.v top with next := (c : Int) } c).size +
                          (setVertex st.v top { st.v top with next := (c : Int) } top).size }) =
                    setInt (nextOf st.v) top (c : Int) := by
                  rw [nextOf_keep _ _ _ (by rfl), nextOf_set]
                refine ⟨_, rfl, ⟨graph_link h.inv hvnext hFa hF2 (Ne.symm hcne)
                  (Or.inr ⟨hTc, htop⟩) hedge _ _ _, Or.inr ⟨c, hc, ?_⟩⟩,
                  Or.inr ⟨_, _, index2, rfl, ?_, hd⟩⟩
                swap
                · intro p
                  rw [edge_setVertex _ _ _ (by rfl), edge_setVertex _ _ _ (by rfl)]
                rw [nextOf_recordEdge, hvnext]
                have := top_link hroot_top hroot_c (Ne.symm hcne) hTc
                rw [if_neg hcne] at this
                exact this
        · rw [if_neg h2]
          exact ⟨st, rfl, h, Or.inl rfl⟩
  · rw [if_pos hb]
    exact ⟨st, rfl, h, Or.inl rfl⟩

/-- Handling one direction of the pixel at position `i` returns and keeps the
invariant. -/
theorem graph_visitNeighbor_inv {nx ny : Nat} {img : Int → Int → Int} {buf_arg : Nat → Nat}
    {pt mt : Int} {i : Nat} {st : State} (hv : ValidOrder (nx * ny) buf_arg) (hi : i < nx * ny)
    (rd j1 : Nat) (h : GVInv nx ny img buf_arg pt i st) :
    ∃ st', visitNeighbor nx ny mt (buf_arg i) (pixval ny img (buf_arg i)) rd st j1 = some st' ∧
      GVInv nx ny img buf_arg pt i st' := by
  obtain ⟨st', h1, h2, _⟩ := @graph_visit_shape nx ny img buf_arg pt mt i st hv hi rd j1 h
  exact ⟨st', h1, h2⟩

/-- The state in which the loop over the neighbours of the pixel at position
`i` is entered satisfies the invariant of that loop. -/
theorem graph_pixel_start {nx ny : Nat} {img : Int → Int → Int} {buf_arg : Nat → Nat}
    {pt : Int} {i : Nat} {st : State} (hv : ValidOrder (nx * ny) buf_arg) (hi : i < nx * ny)
    (habove : pt ≤ pixval ny img (buf_arg i))
    (h : GInv nx ny img buf_arg pt (i + 1) st) :
    GVInv nx ny img buf_arg pt i
      { st with
        v := setVertex (setVertex st.v (buf_arg i)
              { st.v (buf_arg i) with next := (buf_arg i : Int) }) (buf_arg i)
              { setVertex st.v (buf_arg i) { st.v (buf_arg i) with next := (buf_arg i : Int) }
                  (buf_arg i) with size := 1 }
        another_top := -1 } := by
  have han : buf_arg i < nx * ny := hv.range i hi
  have hna : ¬ Flooded (nx * ny) buf_arg (i + 1) (buf_arg i) := not_flooded_self hv hi
  have hvnext : nextOf
      (setVertex (setVertex st.v (buf_arg i) { st.v (buf_arg i) with next := (buf_arg i : Int) })
        (buf_arg i)
        { setVertex st.v (buf_arg i) { st.v (buf_arg i) with next := (buf_arg i : Int) }
            (buf_arg i) with size := 1 }) =
      setInt (nextOf st.v) (buf_arg i) (buf_arg i : Int) := by
    rw [nextOf_keep _ _ _ (by rfl), nextOf_set]
  refine ⟨⟨?_, ?_, ?_⟩, Or.inl ⟨rfl, ?_, ?_⟩⟩
  · dsimp only
    rw [hvnext]
    exact uf_congrF (uf_new h.uf hna han) (flooded_succ hi)
  · intro e he
    exact edgeOK_mono (Nat.le_succ i) (h.edges e he)
  · intro j hj hjn
    rcases Nat.eq_or_lt_of_le hj with e | e
    · rw [← e]; exact habove
    · exact h.above j e hjn
  · have := congrFun hvnext (buf_arg i)
    unfold nextOf at this
    dsimp only
    rw [this, setInt_same]
  · intro e he
    obtain ⟨i', j', h1, h2, h3, h4, h5, _⟩ := h.edges e he
    constructor
    · intro hx
      have := hv.inj i' i (by omega) hi (by rw [h4, hx])
      omega
    · intro hx
      have := hv.inj j' i h3 hi (by rw [h5, hx])
      omega

/-- Flooding the pixel at position `i`, whose value is `>= pixel_threshold`,
returns and re-establishes the invariant between pixels. -/
theorem graph_floodPixel_inv {nx ny : Nat} {img : Int → Int → Int} {buf_arg : Nat → Nat}
    {pt mt : Int} {i : Nat} {st : State} (hv : ValidOrder (nx * ny) buf_arg) (hi : i < nx * ny)
    (rd : Nat) (habove : pt ≤ pixval ny img (buf_arg i))
    (h : GInv nx ny img buf_arg pt (i + 1) st) :
    ∃ st', floodPixel nx ny mt (buf_arg i) (pixval ny img (buf_arg i)) rd st = some st' ∧
      GInv nx ny img buf_arg pt i st' := by
  have h0 := graph_pixel_start hv hi habove h
  unfold floodPixel
  simp only []
  obtain ⟨st1, e1, g1⟩ := @graph_visitNeighbor_inv nx ny img buf_arg pt mt i _ hv hi rd 0 h0
  obtain ⟨st2, e2, g2⟩ := @graph_visitNeighbor_inv nx ny img buf_arg pt mt i _ hv hi rd 1 g1
  obtain ⟨st3, e3, g3⟩ := @graph_visitNeighbor_inv nx ny img buf_arg pt mt i _ hv hi rd 2 g2
  obtain ⟨st4, e4, g4⟩ := @graph_visitNeighbor_inv nx ny img buf_arg pt mt i _ hv hi rd 3 g3
  rw [e1, Option.some_bind, e2, Option.some_bind, e3, Option.some_bind, e4]
  exact ⟨st4, rfl, g4.inv⟩

/-- The invariant does not depend on the assertion flag. -/
theorem graph_inv_frame {nx ny : Nat} {img : Int → Int → Int} {buf_arg : Nat → Nat} {pt : Int}
    {k : Nat} {st st' : State} (h : GInv nx ny img buf_arg pt k st) (h1 : st'.v = st.v)
    (h2 : st'.v_edge = st.v_edge) : GInv nx ny img buf_arg pt k st' := by
  refine ⟨?_, ?_, h.above⟩
  · rw [h1, h2]; exact h.uf
  · rw [h2]; exact h.edges

/-- The main loop returns, keeping the invariant for the positions it has
flooded. -/
theorem graph_flood_inv {nx ny : Nat} {img : Int → Int → Int} {buf_arg : Nat → Nat}
    {pt mt seed : Int} {rand4 : Nat → Nat} (hv : ValidOrder (nx * ny) buf_arg) :
    ∀ (k : Nat) (st : State), k ≤ nx * ny → GInv nx ny img buf_arg pt k st →
      ∃ st' k', flood nx ny img buf_arg pt mt seed rand4 k st = some st' ∧
        GInv nx ny img buf_arg pt k' st' := by
  intro k
  induction k with
  | zero =>
    intro st _ h
    exact ⟨st, 0, rfl, h⟩
  | succ k ih =>
    intro st hk h
    have hkn : k < nx * ny := Nat.lt_of_succ_le hk
    unfold flood
    simp only []
    by_cases hlt : pixval ny img (buf_arg k) < pt
    · rw [if_pos hlt]
      exact ⟨_, k + 1, rfl, graph_inv_frame h rfl rfl⟩
    · rw [if_neg hlt]
      have hp : GInv nx ny img buf_arg pt (k + 1)
          { st with asserts := st.asserts && decide (buf_arg k < nx * ny) } :=
        graph_inv_frame h rfl rfl
      obtain ⟨st1, e1, g1⟩ := @graph_floodPixel_inv nx ny img buf_arg pt mt k _ hv hkn
        (if seed = 0 then 0 else rand4 k) (not_lt.1 hlt) hp
      rw [e1]
      exact ih st1 (Nat.le_of_lt hkn) g1

/-- The graph before any pixel is flooded. -/
theorem graph_inv_init (nx ny : Nat) (img : Int → Int → Int) (buf_arg : Nat → Nat) (pt : Int) :
    GInv nx ny img buf_arg pt (nx * ny)
      { v := graph.obtain_vertices ny img, v_edge := [], n_edges := 0, another_top := -1,
        asserts := true } := by
  have hF : ∀ p, ¬ Flooded (nx * ny) buf_arg (nx * ny) p := by
    rintro p ⟨j, h1, h2, _⟩
    omega
  refine ⟨⟨?_, ?_, ?_, ?_, ?_, ?_⟩, ?_, ?_⟩
  · intro p
    refine ⟨fun h => absurd h (hF p), fun h => ?_⟩
    have : nextOf (graph.obtain_vertices ny img) p = -1 := rfl
    rw [this] at h
    exact absurd h (by norm_num)
  · exact fun p h => absurd h (hF p)
  · exact fun p h => absurd h (hF p)
  · exact fun p h => absurd h (hF p)
  · rintro x y ⟨e, he, _⟩
    exact absurd he (List.not_mem_nil e)
  · exact fun p q h => absurd h (hF p)
  · intro e he
    exact absurd he (List.not_mem_nil e)
  · intro j h1 h2
    omega

/-- The run of `construct_graph` returns, and its final state satisfies the
invariant for the positions flooded. -/
theorem construct_graph_inv {nx ny : Nat} (img : Int → Int → Int) {buf_arg : Nat → Nat}
    (pt mt seed : Int) (rand4 : Nat → Nat) (hv : ValidOrder (nx * ny) buf_arg) :
    ∃ g k, construct_graph nx ny img buf_arg pt mt seed rand4 = some g ∧
      GInv nx ny img buf_arg pt k g :=
  @graph_flood_inv nx ny img buf_arg pt mt seed rand4 hv (nx * ny) _ le_rfl
    (graph_inv_init nx ny img buf_arg pt)

end Watershed

/-- **C12.** For every grid, intensity order that is a permutation sorted by
ascending value, thresholds and direction seed, `construct_graph` returns and
every edge `(a, b, w)` it has recorded joins two 4-adjacent pixels that are
both flooded (their `next` link is set) and have value `>= pixel_threshold`;
`w` is the value of `a`, `w <=` the value of `b`, and so `w` is the minimum of
the two values. -/
theorem C12_graph_edges_weight (nx ny : Nat) (img : Int → Int → Int) (buf_arg : Nat → Nat)
    (pixel_threshold merge_threshold seed : Int) (rand4 : Nat → Nat)
    (hv : ValidOrder (nx * ny) buf_arg) (hasc : Ascending (nx * ny) ny img buf_arg) :
    ∃ g, Watershed.construct_graph nx ny img buf_arg pixel_threshold merge_threshold seed
        rand4 = some g ∧
      ∀ e ∈ g.v_edge, Adj4 nx ny e.index0 e.index1 ∧
        0 ≤ (g.v e.index0).next ∧ 0 ≤ (g.v e.index1).next ∧
        pixel_threshold ≤ pixval ny img e.index0 ∧ pixel_threshold ≤ pixval ny img e.index1 ∧
        e.value = pixval ny img e.index0 ∧ e.value ≤ pixval ny img e.index1 ∧
        e.value = min (pixval ny img e.index0) (pixval ny img e.index1) := by
  obtain ⟨g, k, hrun, hg⟩ :=
    Watershed.construct_graph_inv img pixel_threshold merge_threshold seed rand4 hv
  refine ⟨g, hrun, fun e he => ?_⟩
  obtain ⟨i, j, h1, h2, h3, h4, h5, h6, h7, h8⟩ := hg.edges e he
  have hle : pixval ny img e.index0 ≤ pixval ny img e.index1 := by
    rw [← h4, ← h5]
    exact hasc i j (Nat.le_of_lt h2) h3
  have hf0 : 0 ≤ (g.v e.index0).next :=
    (hg.uf.flooded e.index0).1 ⟨i, h1, lt_trans h2 h3, h4⟩
  have hf1 : 0 ≤ (g.v e.index1).next :=
    (hg.uf.flooded e.index1).1 ⟨j, le_trans h1 (Nat.le_of_lt h2), h3, h5⟩
  refine ⟨h6, hf0, hf1, ?_, ?_, h7, ?_, ?_⟩
  · rw [← h7]; exact h8
  · rw [← h5]; exact hg.above j (le_trans h1 (Nat.le_of_lt h2)) h3
  · rw [h7]; exact hle
  · rw [h7, min_eq_left hle]

/-- Instance of C12 on the 2 × 2 grid with values 0, 1, 2, 3, the identity
order, pixel threshold 1, merge threshold 100 and seed 0. -/
theorem C12_graph_edges_weight_witness :
    ValidOrder (2 * 2) (fun i => i) ∧
    Ascending (2 * 2) 2 (fun ix iy => ix * 2 + iy) (fun i => i) ∧
    ∃ g, Watershed.construct_graph 2 2 (fun ix iy => ix * 2 + iy) (fun i => i) 1 100 0
        (fun _ => 0) = some g ∧
      ∀ e ∈ g.v_edge, Adj4 2 2 e.index0 e.index1 ∧
        0 ≤ (g.v e.index0).next ∧ 0 ≤ (g.v e.index1).next ∧
        (1 : Int) ≤ pixval 2 (fun ix iy => ix * 2 + iy) e.index0 ∧
        (1 : Int) ≤ pixval 2 (fun ix iy => ix * 2 + iy) e.index1 ∧
        e.value = pixval 2 (fun ix iy => ix * 2 + iy) e.index0 ∧
        e.value ≤ pixval 2 (fun ix iy => ix * 2 + iy) e.index1 ∧
        e.value = min (pixval 2 (fun ix iy => ix * 2 + iy) e.index0)
          (pixval 2 (fun ix iy => ix * 2 + iy) e.index1) :=
  have hv : ValidOrder (2 * 2) (fun i => i) :=
    ⟨fun _ h => h, fun _ _ _ _ h => h, fun p h => ⟨p, h, rfl⟩⟩
  have hasc : Ascending (2 * 2) 2 (fun ix iy => ix * 2 + iy) (fun i => i) := by
    intro i j hij hj
    simp only [pixval]
    omega
  ⟨hv, hasc, C12_graph_edges_weight 2 2 _ _ 1 100 0 (fun _ => 0) hv hasc⟩

end Cellular

namespace Cellular

/-! ## The edge slots written by the graph builder with seed 0 -/

namespace Watershed

/-- The direction `(d + 2) % 4` is opposite to the direction `d`. -/
theorem dir_opposite {nx ny a b d : Nat} (hd : d < 4) (ha : a < nx * ny)
    (h : DirNbr nx ny (dx_list.getD d 0) (dy_list.getD d 0) a b) :
    DirNbr nx ny (dx_list.getD ((d + 2) % 4) 0) (dy_list.getD ((d + 2) % 4) 0) b a := by
  obtain ⟨_, h1, h2⟩ := h
  refine ⟨ha, ?_, ?_⟩ <;>
    interval_cases d <;> simp [dx_list, dy_list] at h1 h2 ⊢ <;> omega

/-- A neighbour determines the direction that leads to it. -/
theorem dir_inj {nx ny a b d d' : Nat} (hd : d < 4) (hd' : d' < 4)
    (h : DirNbr nx ny (dx_list.getD d 0) (dy_list.getD d 0) a b)
    (h' : DirNbr nx ny (dx_list.getD d' 0) (dy_list.getD d' 0) a b) : d = d' := by
  obtain ⟨_, h1, h2⟩ := h
  obtain ⟨_, h3, h4⟩ := h'
  interval_cases d <;> interval_cases d' <;> simp [dx_list, dy_list] at h1 h2 h3 h4 ⊢ <;> omega

/-- The slots after an edge is recorded. -/
theorem slot_recordEdge (st : State) (v : Nat → Vertex) (atop : Int) {a b : Nat} (hab : a ≠ b)
    (j1 j2 : Nat) (f1 : Int) (p d : Nat) :
    ((recordEdge st v atop a b j1 j2 f1).v p).edge d =
      if p = b ∧ d = j2 then (st.n_edges : Int)
      else if p = a ∧ d = j1 then (st.n_edges : Int) else (v p).edge d := by
  unfold recordEdge setVertex setInt
  dsimp only
  by_cases hb : p = b
  · subst hb
    have hne : p ≠ a := fun e => hab e.symm
    simp only [if_true, true_and, hne, if_false, false_and]
  · simp only [hb, if_false, false_and]
    by_cases ha : p = a
    · subst ha
      simp only [if_true, true_and]
    · simp only [ha, if_false, false_and]

/-- Recording an edge between the pixel `a` and its neighbour `b` in direction
`j1`, both slots being empty, keeps the slot invariant. -/
theorem slots_record {nx ny : Nat} {st : State} {v : Nat → Vertex} (hs : SlotInv nx ny st)
    (hve : ∀ p, (v p).edge = (st.v p).edge) {a b j1 : Nat} (hj1 : j1 < 4) (hab : a ≠ b)
    (hd1 : DirNbr nx ny (dx_list.getD j1 0) (dy_list.getD j1 0) a b)
    (hd2 : DirNbr nx ny (dx_list.getD ((j1 + 2) % 4) 0) (dy_list.getD ((j1 + 2) % 4) 0) b a)
    (h1 : (st.v a).edge j1 = -1) (h2 : (st.v b).edge ((j1 + 2) % 4) = -1) (atop : Int)
    (f1 : Int) : SlotInv nx ny (recordEdge st v atop a b j1 ((j1 + 2) % 4) f1) := by
  have hj2 : (j1 + 2) % 4 < 4 := Nat.mod_lt _ (by norm_num)
  have hedges : (recordEdge st v atop a b j1 ((j1 + 2) % 4) f1).v_edge =
      st.v_edge ++ [⟨a, b, f1⟩] := rfl
  have hold : ∀ k e, st.v_edge.get? k = some e →
      (st.v_edge ++ [(⟨a, b, f1⟩ : Edge)]).get? k = some e := by
    intro k e hk
    have hlt : k < st.v_edge.length := by
      by_contra hx
      rw [List.get?_eq_none.2 (not_lt.1 hx)] at hk
      cases hk
    rw [List.get?_append hlt]
    exact hk
  have hlast : (st.v_edge ++ [(⟨a, b, f1⟩ : Edge)]).get? st.v_edge.length =
      some ⟨a, b, f1⟩ := by
    rw [List.get?_append_right (le_refl _)]
    simp
  refine ⟨?_, ?_, ?_, ?_, ?_⟩
  · rw [hedges, List.length_append, List.length_singleton]
    show st.n_edges + 1 = _
    rw [hs.len]
  · intro p d k hd hk
    rw [slot_recordEdge st v atop hab, hedges] at *
    by_cases c1 : p = b ∧ d = (j1 + 2) % 4
    · rw [if_pos c1] at hk
      have hkl : k = st.v_edge.length := by
        have := hs.len
        omega
      rw [hkl]
      refine ⟨⟨a, b, f1⟩, hlast, Or.inr ⟨c1.1.symm, ?_⟩⟩
      rw [c1.1, c1.2]
      exact hd2
    · rw [if_neg c1] at hk
      by_cases c2 : p = a ∧ d = j1
      · rw [if_pos c2] at hk
        have hkl : k = st.v_edge.length := by
          have := hs.len
          omega
        rw [hkl]
        refine ⟨⟨a, b, f1⟩, hlast, Or.inl ⟨c2.1.symm, ?_⟩⟩
        rw [c2.1, c2.2]
        exact hd1
      · rw [if_neg c2, hve] at hk
        obtain ⟨e, he, hx⟩ := hs.sound p d k hd hk
        exact ⟨e, hold k e he, hx⟩
  · intro p d
    rw [slot_recordEdge st v atop hab]
    split_ifs
    · have := Int.ofNat_nonneg st.n_edges
      omega
    · have := Int.ofNat_nonneg st.n_edges
      omega
    · rw [hve]; exact hs.range p d
  · intro k e hk
    rw [hedges] at hk
    by_cases hlt : k < st.v_edge.length
    · rw [List.get?_append hlt] at hk
      obtain ⟨⟨d0, hd0, hs0⟩, ⟨d1, hd1', hs1⟩⟩ := hs.complete k e hk
      have keep : ∀ p d, (st.v p).edge d = (k : Int) →
          ((recordEdge st v atop a b j1 ((j1 + 2) % 4) f1).v p).edge d = (k : Int) := by
        intro p d hpd
        rw [slot_recordEdge st v atop hab]
        by_cases c1 : p = b ∧ d = (j1 + 2) % 4
        · exfalso
          rw [c1.1, c1.2, h2] at hpd
          have := Int.ofNat_nonneg k
          omega
        · rw [if_neg c1]
          by_cases c2 : p = a ∧ d = j1
          · exfalso
            rw [c2.1, c2.2, h1] at hpd
            have := Int.ofNat_nonneg k
            omega
          · rw [if_neg c2, hve]; exact hpd
      exact ⟨⟨d0, hd0, keep _ _ hs0⟩, ⟨d1, hd1', keep _ _ hs1⟩⟩
    · have hge : st.v_edge.length ≤ k := not_lt.1 hlt
      rw [List.get?_append_right hge] at hk
      have hk0 : k - st.v_edge.length = 0 := by
        by_contra hx
        have : ([⟨a, b, f1⟩] : List Edge).get? (k - st.v_edge.length) = none := by
          rw [List.get?_eq_none]
          simp only [List.length_singleton]
          omega
        rw [this] at hk
        cases hk
      rw [hk0] at hk
      have he : e = ⟨a, b, f1⟩ := by
        simp at hk
        exact hk.symm
      have hkl : (k : Int) = (st.n_edges : Int) := by
        have := hs.len
        omega
      subst he
      refine ⟨⟨j1, hj1, ?_⟩, ⟨(j1 + 2) % 4, hj2, ?_⟩⟩
      · show ((recordEdge st v atop a b j1 ((j1 + 2) % 4) f1).v a).edge j1 = _
        rw [slot_recordEdge st v atop hab, if_neg (fun c => hab c.1), if_pos ⟨rfl, rfl⟩, hkl]
      · show ((recordEdge st v atop a b j1 ((j1 + 2) % 4) f1).v b).edge ((j1 + 2) % 4) = _
        rw [slot_recordEdge st v atop hab, if_pos ⟨rfl, rfl⟩, hkl]
  · show (st.asserts && (decide ((v a).edge j1 = -1) && decide ((v b).edge ((j1 + 2) % 4) = -1)))
      = true
    rw [hs.asserts, hve, hve, h1, h2]
    rfl

/-- No recorded edge has the pixel at the position being flooded as its second
end point. -/
theorem edge_index1_ne {nx ny : Nat} {img : Int → Int → Int} {buf_arg : Nat → Nat} {pt : Int}
    {i : Nat} (hv : ValidOrder (nx * ny) buf_arg) (hi : i < nx * ny) {e : Edge}
    (h : EdgeOK nx ny img buf_arg pt i e) : e.index1 ≠ buf_arg i := by
  obtain ⟨i', j', h1, h2, h3, _, h5, _⟩ := h
  intro hx
  have := hv.inj j' i h3 hi (by rw [h5, hx])
  omega

/-- With direction 0 first, handling direction `j1` of the pixel at position
`i` keeps the slot invariant. -/
theorem slots_visit {nx ny : Nat} {img : Int → Int → Int} {buf_arg : Nat → Nat}
    {pt mt : Int} {i : Nat} {st : State} (hv : ValidOrder (nx * ny) buf_arg) (hi : i < nx * ny)
    {j1 : Nat} (hj1 : j1 < 4) (h : GVInv nx ny img buf_arg pt i st)
    (hs : SVInv nx ny (buf_arg i) j1 st) :
    ∃ st', visitNeighbor nx ny mt (buf_arg i) (pixval ny img (buf_arg i)) 0 st j1 = some st' ∧
      GVInv nx ny img buf_arg pt i st' ∧ SVInv nx ny (buf_arg i) (j1 + 1) st' := by
  have han : buf_arg i < nx * ny := hv.range i hi
  obtain ⟨st', hrun, hg, hshape⟩ := @graph_visit_shape nx ny img buf_arg pt mt i st hv hi 0 j1 h
  refine ⟨st', hrun, hg, ?_⟩
  rcases hshape with e | ⟨v, atop, index2, e, hve, hd⟩
  · rw [e]
    exact ⟨hs.slots, fun x hx hx0 => by
      obtain ⟨d, hd, hdn⟩ := hs.froma x hx hx0
      exact ⟨d, Nat.lt_succ_of_lt hd, hdn⟩⟩
  · have hmod : (0 + j1) % 4 = j1 := by omega
    rw [hmod] at hd
    have hopp := dir_opposite hj1 han hd
    have hadj : Adj4 nx ny (buf_arg i) index2 :=
      (dirs4_watershed nx ny _ _).2 ⟨han, j1, hj1, hd⟩
    have hab : buf_arg i ≠ index2 := fun e' => adj4_irrefl (e' ▸ hadj)
    have hmem : ∀ k x, st.v_edge.get? k = some x → x ∈ st.v_edge := by
      intro k x hk
      have hlt : k < st.v_edge.length := by
        by_contra hx
        rw [List.get?_eq_none.2 (not_lt.1 hx)] at hk
        cases hk
      rw [List.get?_eq_get hlt] at hk
      cases hk
      exact List.get_mem _ _ _
    have hno : ∀ x ∈ st.v_edge, ¬ (x.index0 = buf_arg i ∧ x.index1 = index2) := by
      rintro x hx ⟨hx0, hx1⟩
      obtain ⟨d, hdlt, hdn⟩ := hs.froma x hx hx0
      rw [hx1] at hdn
      have := dir_inj (lt_trans hdlt hj1) hj1 hdn hd
      omega
    have h1 : (st.v (buf_arg i)).edge j1 = -1 := by
      by_contra hx
      have hr := hs.slots.range (buf_arg i) j1
      obtain ⟨k, hk⟩ := Int.eq_ofNat_of_zero_le (by omega : 0 ≤ (st.v (buf_arg i)).edge j1)
      obtain ⟨x, hxk, hx⟩ := hs.slots.sound (buf_arg i) j1 k hj1 hk
      have hxm := hmem k x hxk
      rcases hx with ⟨hx0, hxd⟩ | ⟨hx1, _⟩
      · exact hno x hxm ⟨hx0, dirNbr_unique hxd hd⟩
      · exact edge_index1_ne hv hi (h.inv.edges x hxm) hx1
    have h2 : (st.v index2).edge ((j1 + 2) % 4) = -1 := by
      by_contra hx
      have hr := hs.slots.range index2 ((j1 + 2) % 4)
      obtain ⟨k, hk⟩ := Int.eq_ofNat_of_zero_le
        (by omega : 0 ≤ (st.v index2).edge ((j1 + 2) % 4))
      obtain ⟨x, hxk, hx⟩ := hs.slots.sound index2 ((j1 + 2) % 4) k
        (Nat.mod_lt _ (by norm_num)) hk
      have hxm := hmem k x hxk
      rcases hx with ⟨_, hxd⟩ | ⟨hx1, hxd⟩
      · exact edge_index1_ne hv hi (h.inv.edges x hxm) (dirNbr_unique hxd hopp)
      · exact hno x hxm ⟨dirNbr_unique hxd hopp, hx1⟩
    rw [e]
    refine ⟨slots_record hs.slots hve hj1 hab hd hopp h1 h2 atop _, ?_⟩
    intro x hx hx0
    have hx' : x ∈ st.v_edge ++ [⟨buf_arg i, index2, pixval ny img (buf_arg i)⟩] := hx
    rcases List.mem_append.1 hx' with hx' | hx'
    · obtain ⟨d, hdlt, hdn⟩ := hs.froma x hx' hx0
      exact ⟨d, Nat.lt_succ_of_lt hdlt, hdn⟩
    · rw [List.mem_singleton] at hx'
      rw [hx']
      exact ⟨j1, Nat.lt_succ_self j1, hd⟩

/-- The slot invariant depends on the edge slots, the edge list, the edge
counter and the assertion flag only. -/
theorem slots_frame {nx ny : Nat} {st st' : State} (hs : SlotInv nx ny st)
    (h1 : ∀ p, (st'.v p).edge = (st.v p).edge) (h2 : st'.v_edge = st.v_edge)
    (h3 : st'.n_edges = st.n_edges) (h4 : st'.asserts = true) : SlotInv nx ny st' := by
  refine ⟨by rw [h3, h2]; exact hs.len, ?_, ?_, ?_, h4⟩
  · intro p d k hd hk
    rw [h1] at hk
    rw [h2]
    exact hs.sound p d k hd hk
  · intro p d
    rw [h1]; exact hs.range p d
  · intro k e hk
    rw [h2] at hk
    obtain ⟨⟨d0, hd0, hs0⟩, ⟨d1, hd1, hs1⟩⟩ := hs.complete k e hk
    exact ⟨⟨d0, hd0, by rw [h1]; exact hs0⟩, ⟨d1, hd1, by rw [h1]; exact hs1⟩⟩

/-- With seed 0, flooding the pixel at position `i` keeps both invariants. -/
theorem slots_floodPixel {nx ny : Nat} {img : Int → Int → Int} {buf_arg : Nat → Nat}
    {pt mt : Int} {i : Nat} {st : State} (hv : ValidOrder (nx * ny) buf_arg) (hi : i < nx * ny)
    (habove : pt ≤ pixval ny img (buf_arg i))
    (h : GInv nx ny img buf_arg pt (i + 1) st) (hs : SlotInv nx ny st) :
    ∃ st', floodPixel nx ny mt (buf_arg i) (pixval ny img (buf_arg i)) 0 st = some st' ∧
      GInv nx ny img buf_arg pt i st' ∧ SlotInv nx ny st' := by
  have han : buf_arg i < nx * ny := hv.range i hi
  have hna : ¬ Flooded (nx * ny) buf_arg (i + 1) (buf_arg i) := not_flooded_self hv hi
  have hvnext : nextOf
      (setVertex (setVertex st.v (buf_arg i) { st.v (buf_arg i) with next := (buf_arg i : Int) })
        (buf_arg i)
        { setVertex st.v (buf_arg i) { st.v (buf_arg i) with next := (buf_arg i : Int) }
            (buf_arg i) with size := 1 }) =
      setInt (nextOf st.v) (buf_arg i) (buf_arg i : Int) := by
    rw [nextOf_keep _ _ _ (by rfl), nextOf_set]
  have hnone : ∀ e ∈ st.v_edge, e.index0 ≠ buf_arg i ∧ e.index1 ≠ buf_arg i := by
    intro e he
    obtain ⟨i', j', h1, h2, h3, h4, h5, _⟩ := h.edges e he
    constructor
    · intro hx
      have := hv.inj i' i (by omega) hi (by rw [h4, hx])
      omega
    · intro hx
      have := hv.inj j' i h3 hi (by rw [h5, hx])
      omega
  have h0 : GVInv nx ny img buf_arg pt i
      { st with
        v := setVertex (setVertex st.v (buf_arg i)
              { st.v (buf_arg i) with next := (buf_arg i : Int) }) (buf_arg i)
              { setVertex st.v (buf_arg i) { st.v (buf_arg i) with next := (buf_arg i : Int) }
                  (buf_arg i) with size := 1 }
        another_top := -1 } := by
    refine ⟨⟨?_, ?_, ?_⟩, Or.inl ⟨rfl, ?_, hnone⟩⟩
    · dsimp only
      rw [hvnext]
      exact uf_congrF (uf_new h.uf hna han) (flooded_succ hi)
    · intro e he
      exact edgeOK_mono (Nat.le_succ i) (h.edges e he)
    · intro j hj hjn
      rcases Nat.eq_or_lt_of_le hj with e | e
      · rw [← e]; exact habove
      · exact h.above j e hjn
    · have := congrFun hvnext (buf_arg i)
      unfold nextOf at this
      dsimp only
      rw [this, setInt_same]
  have s0 : SVInv nx ny (buf_arg i) 0
      { st with
        v := setVertex (setVertex st.v (buf_arg i)
              { st.v (buf_arg i) with next := (buf_arg i : Int) }) (buf_arg i)
              { setVertex st.v (buf_arg i) { st.v (buf_arg i) with next := (buf_arg i : Int) }
                  (buf_arg i) with size := 1 }
        another_top := -1 } := by
    refine ⟨slots_frame hs ?_ rfl rfl hs.asserts, ?_⟩
    · intro p
      dsimp only
      rw [edge_setVertex _ _ _ (by rfl), edge_setVertex _ _ _ (by rfl)]
    · intro e he hx
      exact absurd hx (hnone e he).1
  unfold floodPixel
  simp only []
  obtain ⟨st1, e1, g1, s1⟩ := @slots_visit nx ny img buf_arg pt mt i _ hv hi 0 (by norm_num) h0 s0
  obtain ⟨st2, e2, g2, s2⟩ := @slots_visit nx ny img buf_arg pt mt i _ hv hi 1 (by norm_num) g1 s1
  obtain ⟨st3, e3, g3, s3⟩ := @slots_visit nx ny img buf_arg pt mt i _ hv hi 2 (by norm_num) g2 s2
  obtain ⟨st4, e4, g4, s4⟩ := @slots_visit nx ny img buf_arg pt mt i _ hv hi 3 (by norm_num) g3 s3
  rw [e1, Option.some_bind, e2, Option.some_bind, e3, Option.some_bind, e4]
  exact ⟨st4, rfl, g4.inv, s4.slots⟩

/-- With seed 0 the main loop returns, keeping both invariants. -/
theorem slots_flood {nx ny : Nat} {img : Int → Int → Int} {buf_arg : Nat → Nat}
    {pt mt : Int} {rand4 : Nat → Nat} (hv : ValidOrder (nx * ny) buf_arg) :
    ∀ (k : Nat) (st : State), k ≤ nx * ny → GInv nx ny img buf_arg pt k st → SlotInv nx ny st →
      ∃ st' k', flood nx ny img buf_arg pt mt 0 rand4 k st = some st' ∧
        GInv nx ny img buf_arg pt k' st' ∧ SlotInv nx ny st' := by
  intro k
  induction k with
  | zero =>
    intro st _ h hs
    exact ⟨st, 0, rfl, h, hs⟩
  | succ k ih =>
    intro st hk h hs
    have hkn : k < nx * ny := Nat.lt_of_succ_le hk
    have hass : (st.asserts && decide (buf_arg k < nx * ny)) = true := by
      rw [hs.asserts]
      simp [hv.range k hkn]
    unfold flood
    simp only []
    by_cases hlt : pixval ny img (buf_arg k) < pt
    · rw [if_pos hlt]
      exact ⟨_, k + 1, rfl, graph_inv_frame h rfl rfl, slots_frame hs (fun _ => rfl) rfl rfl hass⟩
    · rw [if_neg hlt, if_pos trivial]
      have hp : GInv nx ny img buf_arg pt (k + 1)
          { st with asserts := st.asserts && decide (buf_arg k < nx * ny) } :=
        graph_inv_frame h rfl rfl
      have hs' : SlotInv nx ny
          { st with asserts := st.asserts && decide (buf_arg k < nx * ny) } :=
        slots_frame hs (fun _ => rfl) rfl rfl hass
      obtain ⟨st1, e1, g1, s1⟩ := @slots_floodPixel nx ny img buf_arg pt mt k _ hv hkn
        (not_lt.1 hlt) hp hs'
      rw [e1]
      exact ih st1 (Nat.le_of_lt hkn) g1 s1

/-- The graph before any pixel is flooded has empty slots. -/
theorem slots_init (nx ny : Nat) (img : Int → Int → Int) :
    SlotInv nx ny
      { v := graph.obtain_vertices ny img, v_edge := [], n_edges := 0, another_top := -1,
        asserts := true } := by
  refine ⟨rfl, ?_, ?_, ?_, rfl⟩
  · intro p d k _ hk
    have h1 : ((graph.obtain_vertices ny img) p).edge d = -1 := rfl
    have : (-1 : Int) = (k : Int) := by rw [← h1]; exact hk
    have := Int.ofNat_nonneg k
    omega
  · intro p d
    exact le_refl _
  · intro k e hk
    simp at hk

/-- With seed 0 `construct_graph` returns a graph that satisfies the invariant
of the links and edges and the slot invariant. -/
theorem construct_graph_slots {nx ny : Nat} (img : Int → Int → Int) {buf_arg : Nat → Nat}
    (pt mt : Int) (rand4 : Nat → Nat) (hv : ValidOrder (nx * ny) buf_arg) :
    ∃ g k, construct_graph nx ny img buf_arg pt mt 0 rand4 = some g ∧
      GInv nx ny img buf_arg pt k g ∧ SlotInv nx ny g :=
  @slots_flood nx ny img buf_arg pt mt rand4 hv (nx * ny) _ le_rfl
    (graph_inv_init nx ny img buf_arg pt) (slots_init nx ny img)

end Watershed

end Cellular

namespace Cellular

/-! ## The clusters emitted by `obtain_clusters` are the classes of the edge graph -/

namespace Watershed

theorem edgeRelT_symm {v_edge : List Edge} {et : Int} {x y : Nat}
    (h : EdgeRelT v_edge et x y) : EdgeRelT v_edge et y x := by
  obtain ⟨e, he, hv, hp⟩ := h
  refine ⟨e, he, hv, ?_⟩
  rcases hp with ⟨h1, h2⟩ | ⟨h1, h2⟩
  · exact Or.inr ⟨h2, h1⟩
  · exact Or.inl ⟨h2, h1⟩

theorem rtgT_symm {v_edge : List Edge} {et : Int} {x y : Nat}
    (h : Relation.ReflTransGen (EdgeRelT v_edge et) x y) :
    Relation.ReflTransGen (EdgeRelT v_edge et) y x := by
  induction h with
  | refl => exact Relation.ReflTransGen.refl
  | tail _ hbc ih => exact Relation.ReflTransGen.head (edgeRelT_symm hbc) ih

/-- An edge found at an index of the list. -/
theorem get?_mem_edges {v_edge : List Edge} {k : Nat} {e : Edge} (h : v_edge.get? k = some e) :
    e ∈ v_edge ∧ k < v_edge.length := by
  have hlt : k < v_edge.length := by
    by_contra hx
    rw [List.get?_eq_none.2 (not_lt.1 hx)] at h
    cases h
  rw [List.get?_eq_get hlt] at h
  cases h
  exact ⟨List.get_mem _ _ _, hlt⟩

theorem getD_of_get? {v_edge : List Edge} {k : Nat} {e d : Edge} (h : v_edge.get? k = some e) :
    v_edge.getD k d = e := by
  have hlt := (get?_mem_edges h).2
  rw [List.getD_eq_getElem _ _ hlt]
  rw [List.get?_eq_get hlt] at h
  cases h
  rfl

theorem mem_edges_get? {v_edge : List Edge} {e : Edge} (h : e ∈ v_edge) :
    ∃ k, v_edge.get? k = some e := by
  obtain ⟨n, hn⟩ := List.get_of_mem h
  exact ⟨n.1, by rw [List.get?_eq_get n.2]; exact congrArg some hn⟩

/-- Membership in the list of unexplored adjacent edges of a pixel. -/
theorem mem_adjacentEdges {p : Vertex} {ee : Nat → Bool} {k : Nat} :
    k ∈ adjacentEdges p ee ↔ ∃ d, d < 4 ∧ p.edge d = (k : Int) ∧ ee k = false := by
  unfold adjacentEdges
  rw [List.mem_filterMap]
  constructor
  · rintro ⟨d, hd, h⟩
    rw [List.mem_range] at hd
    dsimp only at h
    split_ifs at h with hc
    · have hk : (p.edge d).toNat = k := Option.some.inj h
      refine ⟨d, hd, ?_, ?_⟩
      · rw [← hk, Int.toNat_of_nonneg hc.1]
      · rw [← hk]; exact hc.2
  · rintro ⟨d, hd, h1, h2⟩
    refine ⟨d, List.mem_range.2 hd, ?_⟩
    dsimp only
    have h0 : 0 ≤ p.edge d := by rw [h1]; exact Int.ofNat_nonneg k
    have hk : (p.edge d).toNat = k := by rw [h1]; exact Int.toNat_ofNat k
    rw [if_pos ⟨h0, by rw [hk]; exact h2⟩, hk]

/-- The set of end points still to be visited may be enlarged. -/
theorem xinv_weaken {v_pixel : Nat → Vertex} {v_edge : List Edge} {pt et : Int}
    {E0 P0 : Nat → Bool} {i0 : Nat} {e0 : Edge} {W W' : Nat → Prop} {st : XState}
    (h : XInv v_pixel v_edge pt et E0 P0 i0 e0 W st) (hW : ∀ p, W p → W' p) :
    XInv v_pixel v_edge pt et E0 P0 i0 e0 W' st := by
  refine ⟨h.qinc, h.inc, ?_, h.pmono, h.emono, h.reach, h.started, h.seed, h.nodup, h.pix⟩
  intro k e hk hx hv
  obtain ⟨h1, h2⟩ := h.ends k e hk hx hv
  exact ⟨h1.imp id (hW _), h2.imp id (hW _)⟩

/-- Visiting an end point `y` that is reached from the seed keeps the
invariant and takes `y` off the end points still to be visited. -/
theorem walk_visitEndpoint {v_pixel : Nat → Vertex} {v_edge : List Edge} {pt et : Int}
    {E0 P0 : Nat → Bool} {i0 : Nat} {e0 : Edge} {W : Nat → Prop} {st : XState} {y : Nat}
    (hs : SlotsOK v_pixel v_edge) (h : XInv v_pixel v_edge pt et E0 P0 i0 e0 W st)
    (hy : Relation.ReflTransGen (EdgeRelT v_edge et) e0.index0 y)
    (hy2 : (y = e0.index0 ∨ st.pixel_explored e0.index0 = true) ∧ et ≤ e0.value) :
    XInv v_pixel v_edge pt et E0 P0 i0 e0 (fun p => W p ∧ p ≠ y)
      (visitEndpoint v_pixel pt st y) := by
  unfold visitEndpoint
  by_cases hx : st.pixel_explored y = true
  · rw [if_pos hx]
    refine ⟨h.qinc, h.inc, ?_, h.pmono, h.emono, h.reach, h.started, h.seed, h.nodup, h.pix⟩
    intro k e hk hxk hv
    obtain ⟨h1, h2⟩ := h.ends k e hk hxk hv
    constructor
    · rcases h1 with h1 | h1
      · exact Or.inl h1
      · by_cases e1 : e.index0 = y
        · left; rw [e1]; exact hx
        · exact Or.inr ⟨h1, e1⟩
    · rcases h2 with h2 | h2
      · exact Or.inl h2
      · by_cases e1 : e.index1 = y
        · left; rw [e1]; exact hx
        · exact Or.inr ⟨h2, e1⟩
  · rw [if_neg hx]
    have hxf : st.pixel_explored y = false := by simpa using hx
    have hP0 : P0 y = false := by
      cases hp : P0 y with
      | false => rfl
      | true => exact absurd (h.pmono y hp) hx
    have hmono : ∀ p, st.pixel_explored p = true → setFlag st.pixel_explored y true p = true := by
      intro p hp
      unfold setFlag
      split_ifs
      · rfl
      · exact hp
    have hset : ∀ p, setFlag st.pixel_explored y true p = true →
        p = y ∨ st.pixel_explored p = true := by
      intro p hp
      unfold setFlag at hp
      split_ifs at hp with hpy
      · exact Or.inl hpy
      · exact Or.inr hp
    have hnot : y ∉ st.c.pixels := fun hm => hx ((h.pix y).1 hm).1
    refine ⟨?_, ?_, ?_, ?_, h.emono, ?_, ?_, ?_, ?_, ?_⟩
    · intro k hk
      dsimp only at hk ⊢
      rcases List.mem_append.1 hk with hk | hk
      · rcases h.qinc k hk with e | ⟨x, hx1, hx2, hx3⟩
        · exact Or.inl e
        · exact Or.inr ⟨x, hx1, hmono x hx2, hx3⟩
      · obtain ⟨d, hd, hslot, _⟩ := mem_adjacentEdges.1 hk
        exact Or.inr ⟨y, hs.sound y d k hd hslot, setFlag_same _ _ _, hP0⟩
    · intro p hp k hk
      dsimp only at hp ⊢
      rcases hset p hp with e | hp'
      · subst e
        obtain ⟨d, hd, hslot⟩ := hs.complete k p hk
        cases hee : st.edge_explored k with
        | true => exact Or.inl rfl
        | false =>
          exact Or.inr (List.mem_append.2 (Or.inr (mem_adjacentEdges.2 ⟨d, hd, hslot, hee⟩)))
      · rcases h.inc p hp' k hk with h1 | h1
        · exact Or.inl h1
        · exact Or.inr (List.mem_append.2 (Or.inl h1))
    · intro k e hk hxk hv
      dsimp only at hxk ⊢
      obtain ⟨h1, h2⟩ := h.ends k e hk hxk hv
      constructor
      · rcases h1 with h1 | h1
        · exact Or.inl (hmono _ h1)
        · by_cases e1 : e.index0 = y
          · left; rw [e1]; exact setFlag_same _ _ _
          · exact Or.inr ⟨h1, e1⟩
      · rcases h2 with h2 | h2
        · exact Or.inl (hmono _ h2)
        · by_cases e1 : e.index1 = y
          · left; rw [e1]; exact setFlag_same _ _ _
          · exact Or.inr ⟨h2, e1⟩
    · intro p hp
      exact hmono p (h.pmono p hp)
    · intro p hp hp0
      dsimp only at hp
      rcases hset p hp with e | hp'
      · rw [e]; exact hy
      · exact h.reach p hp' hp0
    · intro p hp hp0
      dsimp only at hp ⊢
      refine ⟨?_, hy2.2⟩
      rcases hy2.1 with e | e
      · rw [← e]; exact setFlag_same _ _ _
      · exact hmono _ e
    · rcases h.seed with h1 | h1
      · exact Or.inl h1
      · exact Or.inr (List.mem_append.2 (Or.inl h1))
    · dsimp only
      by_cases hv : pt ≤ (v_pixel y).value
      · rw [if_pos hv]
        exact List.Nodup.append h.nodup (List.nodup_singleton _) (by
          intro x hx1 hx2
          rw [List.mem_singleton] at hx2
          subst hx2
          exact hnot hx1)
      · rw [if_neg hv]; exact h.nodup
    · intro p
      dsimp only
      by_cases hpy : p = y
      · subst hpy
        by_cases hv : pt ≤ (v_pixel p).value
        · rw [if_pos hv]
          simp [setFlag_same, hP0, hv]
        · rw [if_neg hv]
          constructor
          · intro hm; exact absurd hm hnot
          · intro hm; exact absurd hm.2.2 hv
      · have hfl : setFlag st.pixel_explored y true p = st.pixel_explored p :=
          setFlag_other _ _ hpy
        rw [hfl]
        by_cases hv : pt ≤ (v_pixel y).value
        · rw [if_pos hv, List.mem_append, List.mem_singleton, h.pix p]
          constructor
          · rintro (hm | hm)
            · exact hm
            · exact absurd hm hpy
          · intro hm; exact Or.inl hm
        · rw [if_neg hv, h.pix p]

theorem visitEndpoint_explored (v_pixel : Nat → Vertex) (pt : Int) (st : XState) (y : Nat) :
    (visitEndpoint v_pixel pt st y).pixel_explored y = true := by
  unfold visitEndpoint
  by_cases hx : st.pixel_explored y = true
  · rw [if_pos hx]; exact hx
  · rw [if_neg hx]; exact setFlag_same _ _ _

theorem visitEndpoint_mono (v_pixel : Nat → Vertex) (pt : Int) (st : XState) (y p : Nat)
    (h : st.pixel_explored p = true) : (visitEndpoint v_pixel pt st y).pixel_explored p = true := by
  unfold visitEndpoint
  by_cases hx : st.pixel_explored y = true
  · rw [if_pos hx]; exact h
  · rw [if_neg hx]
    dsimp only
    unfold setFlag
    split_ifs
    · rfl
    · exact h

/-- Marking the popped edge `j` explored keeps the invariant, its end points
being still to be visited when its value is `>= et`. -/
theorem walk_pop {v_pixel : Nat → Vertex} {v_edge : List Edge} {pt et : Int}
    {E0 P0 : Nat → Bool} {i0 : Nat} {e0 : Edge} {st : XState} {j : Nat} {rest : List Nat}
    {e : Edge} (h : XInv v_pixel v_edge pt et E0 P0 i0 e0 (fun _ => False) st)
    (hq : st.q = j :: rest) (he : v_edge.get? j = some e) (asserts : Bool) (edges : List Edge) :
    XInv v_pixel v_edge pt et E0 P0 i0 e0
      (fun p => et ≤ e.value ∧ (p = e.index0 ∨ p = e.index1))
      { edge_explored := setFlag st.edge_explored j true
        pixel_explored := st.pixel_explored
        q := rest
        c := { pixels := st.c.pixels, edges := edges }
        asserts := asserts } := by
  have hmono : ∀ k, st.edge_explored k = true → setFlag st.edge_explored j true k = true := by
    intro k hk
    unfold setFlag
    split_ifs
    · rfl
    · exact hk
  refine ⟨?_, ?_, ?_, h.pmono, fun k hk => hmono k (h.emono k hk), h.reach, h.started, ?_,
    h.nodup, h.pix⟩
  · intro k hk
    exact h.qinc k (by rw [hq]; exact List.mem_cons_of_mem _ hk)
  · intro p hp k hk
    rcases h.inc p hp k hk with h1 | h1
    · exact Or.inl (hmono k h1)
    · rw [hq] at h1
      rcases List.mem_cons.1 h1 with h2 | h2
      · left
        dsimp only
        rw [h2]; exact setFlag_same _ _ _
      · exact Or.inr h2
  · intro k e' hk hx hv
    dsimp only at hx ⊢
    by_cases hkj : k = j
    · rw [hkj, he] at hk
      cases hk
      exact ⟨Or.inr ⟨hv, Or.inl rfl⟩, Or.inr ⟨hv, Or.inr rfl⟩⟩
    · rw [setFlag_other _ _ hkj] at hx
      obtain ⟨h1, h2⟩ := h.ends k e' hk hx hv
      exact ⟨h1.imp id False.elim, h2.imp id False.elim⟩
  · rcases h.seed with h1 | h1
    · exact Or.inl (hmono _ h1)
    · rw [hq] at h1
      rcases List.mem_cons.1 h1 with h2 | h2
      · left
        dsimp only
        rw [h2]; exact setFlag_same _ _ _
      · exact Or.inr h2

/-- The loop `grow` ends with an empty queue and keeps the invariant. -/
theorem walk_grow {v_pixel : Nat → Vertex} {img_size : Nat} {v_edge : List Edge} {pt et : Int}
    {E0 P0 : Nat → Bool} {i0 : Nat} {e0 : Edge}
    (hends : ∀ e ∈ v_edge, e.index0 < img_size ∧ e.index1 < img_size) (hpos : 0 < img_size)
    (hs : SlotsOK v_pixel v_edge) (hi0 : v_edge.get? i0 = some e0) (st : XState)
    (h : XInv v_pixel v_edge pt et E0 P0 i0 e0 (fun _ => False) st)
    (hf : st.q.length + 4 * unexplored img_size st.pixel_explored ≤ 4 * img_size + 1) :
    ∃ st', grow v_pixel v_edge pt et (4 * img_size + 1) st = some st' ∧
      XInv v_pixel v_edge pt et E0 P0 i0 e0 (fun _ => False) st' ∧ st'.q = [] := by
  have hpopped : ∀ (s : XState) (j : Nat) (rest : List Nat),
      XInv v_pixel v_edge pt et E0 P0 i0 e0 (fun _ => False) s → s.q = j :: rest →
      ∃ e, v_edge.get? j = some e := by
    intro s j rest hI hq
    rcases hI.qinc j (by rw [hq]; exact List.mem_cons_self _ _) with e | ⟨x, ⟨e, he, _⟩, _⟩
    · exact ⟨e0, by rw [e]; exact hi0⟩
    · exact ⟨e, he⟩
  refine @grow_induct v_pixel img_size v_edge pt et hends hpos
    (XInv v_pixel v_edge pt et E0 P0 i0 e0 (fun _ => False)) ?_ ?_ (4 * img_size + 1) st h hf
  · intro s j rest hI hq hv
    obtain ⟨e, he⟩ := hpopped s j rest hI hq
    rw [getD_of_get? he] at hv
    have := walk_pop hI hq he (s.asserts && decide (s.edge_explored j = false)) s.c.edges
    exact xinv_weaken this (fun p hp => absurd hp.1 (not_le.2 hv))
  · intro s j rest hI hq hv
    obtain ⟨e, he⟩ := hpopped s j rest hI hq
    rw [getD_of_get? he] at hv ⊢
    have hval : et ≤ e.value := not_lt.1 hv
    have hmem := (get?_mem_edges he).1
    have h2 := walk_pop hI hq he (s.asserts && decide (s.edge_explored j = false))
      (s.c.edges ++ [e])
    have hrel : EdgeRelT v_edge et e.index0 e.index1 := ⟨e, hmem, hval, Or.inl ⟨rfl, rfl⟩⟩
    have hfacts : Relation.ReflTransGen (EdgeRelT v_edge et) e0.index0 e.index0 ∧
        ((e.index0 = e0.index0 ∨ s.pixel_explored e0.index0 = true) ∧ et ≤ e0.value) := by
      rcases hI.qinc j (by rw [hq]; exact List.mem_cons_self _ _) with e1 |
        ⟨x, ⟨e', he', hx⟩, hx2, hx3⟩
      · rw [e1, hi0] at he
        cases he
        exact ⟨Relation.ReflTransGen.refl, Or.inl rfl, hval⟩
      · rw [he] at he'
        cases he'
        have hr := hI.reach x hx2 hx3
        have hst := hI.started x hx2 hx3
        rcases hx with hx | hx
        · rw [hx]; exact ⟨hr, Or.inr hst.1, hst.2⟩
        · rw [← hx] at hr
          exact ⟨hr.tail (edgeRelT_symm hrel), Or.inr hst.1, hst.2⟩
    obtain ⟨hr0, hy0, hv0⟩ := hfacts
    have h3 := walk_visitEndpoint hs h2 hr0 ⟨hy0, hv0⟩
    have hexp : (visitEndpoint v_pixel pt
        { edge_explored := setFlag s.edge_explored j true
          pixel_explored := s.pixel_explored
          q := rest
          c := { pixels := s.c.pixels, edges := s.c.edges ++ [e] }
          asserts := s.asserts && decide (s.edge_explored j = false) }
        e.index0).pixel_explored e0.index0 = true := by
      rcases hy0 with e1 | e1
      · rw [← e1]; exact visitEndpoint_explored _ _ _ _
      · exact visitEndpoint_mono _ _ _ _ _ e1
    have h4 := walk_visitEndpoint hs h3 (hr0.tail hrel) ⟨Or.inr hexp, hv0⟩
    exact xinv_weaken h4 (fun p hp => by
      rcases hp.1.1.2 with e1 | e1
      · exact hp.1.2 e1
      · exact hp.2 e1)

/-- When every edge at an explored pixel is explored and every explored edge
of value `>= et` has explored end points, the explored pixels are closed under
the edges of value `>= et`. -/
theorem closed_of_inc {v_edge : List Edge} {et : Int} {pe ee : Nat → Bool}
    (hinc : ∀ p, pe p = true → ∀ k, Incident v_edge k p → ee k = true)
    (hends : ∀ k e, v_edge.get? k = some e → ee k = true → et ≤ e.value →
      pe e.index0 = true ∧ pe e.index1 = true)
    {p q : Nat} (hp : pe p = true) (h : Relation.ReflTransGen (EdgeRelT v_edge et) p q) :
    pe q = true := by
  induction h with
  | refl => exact hp
  | @tail b c _ hbc ih =>
    obtain ⟨e, hmem, hv, hpair⟩ := hbc
    obtain ⟨k, hk⟩ := mem_edges_get? hmem
    rcases hpair with ⟨h1, h2⟩ | ⟨h1, h2⟩
    · have hx := hinc b ih k ⟨e, hk, Or.inl h1.symm⟩
      rw [h2]; exact (hends k e hk hx hv).2
    · have hx := hinc b ih k ⟨e, hk, Or.inr h1.symm⟩
      rw [h2]; exact (hends k e hk hx hv).1

/-- Looking at the edge `i` of the list keeps the invariant between clusters. -/
theorem walk_seedEdge {v_pixel : Nat → Vertex} {img_size : Nat} {v_edge : List Edge}
    {pt et : Int} {sz : Nat} (hends : ∀ e ∈ v_edge, e.index0 < img_size ∧ e.index1 < img_size)
    (hpos : 0 < img_size) (hs : SlotsOK v_pixel v_edge) {cl0 : List Cluster} {st : XState}
    {new : List Cluster} {i : Nat} (hi : i < v_edge.length)
    (h : OInv v_pixel v_edge pt et sz i st new) :
    ∃ st' new', seedEdge v_pixel img_size v_edge pt et sz (some (st, cl0 ++ new)) i =
        some (st', cl0 ++ new') ∧ OInv v_pixel v_edge pt et sz (i + 1) st' new' := by
  obtain ⟨e0, hi0⟩ : ∃ e0, v_edge.get? i = some e0 := ⟨_, List.get?_eq_get hi⟩
  have hmem0 := (get?_mem_edges hi0).1
  unfold seedEdge
  simp only []
  rw [getD_of_get? hi0]
  by_cases hc : st.edge_explored i = true ∨
      (st.pixel_explored e0.index0 = true ∧ st.pixel_explored e0.index1 = true)
  · rw [if_pos hc]
    refine ⟨st, new, rfl, h.q, h.inc, h.ends, ?_, h.sound, h.complete⟩
    intro k hk hkl
    rcases Nat.lt_succ_iff_lt_or_eq.1 hk with h1 | h1
    · exact h.seen k h1 hkl
    · rw [h1]
      rcases hc with hc | hc
      · exact hc
      · exact h.inc _ hc.1 i ⟨e0, hi0, Or.inl rfl⟩
  · rw [if_neg hc]
    push_neg at hc
    have hEi : st.edge_explored i = false := by simpa using hc.1
    have hP : ∀ p, (e0.index0 = p ∨ e0.index1 = p) → st.pixel_explored p = false := by
      intro p hp
      cases hx : st.pixel_explored p with
      | false => rfl
      | true =>
        have := h.inc p hx i ⟨e0, hi0, hp⟩
        rw [hEi] at this
        cases this
    have hinit : XInv v_pixel v_edge pt et st.edge_explored st.pixel_explored i e0
        (fun _ => False)
        { st with q := st.q ++ [i], c := ⟨[], []⟩,
                  asserts := st.asserts && decide (st.q = []) } := by
      refine ⟨?_, ?_, ?_, fun _ hp => hp, fun _ hk => hk, ?_, ?_, ?_, List.nodup_nil, ?_⟩
      · intro k hk
        dsimp only at hk
        rw [h.q] at hk
        left
        simpa using hk
      · intro p hp k hk
        exact Or.inl (h.inc p hp k hk)
      · intro k e hk hx hv
        obtain ⟨h1, h2⟩ := h.ends k e hk hx hv
        exact ⟨Or.inl h1, Or.inl h2⟩
      · intro p hp hp0
        dsimp only at hp
        rw [hp] at hp0
        cases hp0
      · intro p hp hp0
        dsimp only at hp
        rw [hp] at hp0
        cases hp0
      · right
        dsimp only
        rw [h.q]
        simp
      · intro p
        dsimp only
        constructor
        · intro hm; exact absurd hm (List.not_mem_nil p)
        · rintro ⟨h1, h2, _⟩
          rw [h1] at h2
          cases h2
    obtain ⟨st', hrun, hX, hq'⟩ := walk_grow hends hpos hs hi0 _ hinit (by
      dsimp only
      rw [h.q]
      have := unexplored_le img_size st.pixel_explored
      simp only [List.nil_append, List.length_singleton]
      omega)
    rw [hrun]
    simp only []
    have hinc' : ∀ p, st'.pixel_explored p = true → ∀ k, Incident v_edge k p →
        st'.edge_explored k = true := by
      intro p hp k hk
      rcases hX.inc p hp k hk with h1 | h1
      · exact h1
      · rw [hq'] at h1
        exact absurd h1 (List.not_mem_nil k)
    have hends' : ∀ k e, v_edge.get? k = some e → st'.edge_explored k = true → et ≤ e.value →
        st'.pixel_explored e.index0 = true ∧ st'.pixel_explored e.index1 = true := by
      intro k e hk hx hv
      obtain ⟨h1, h2⟩ := hX.ends k e hk hx hv
      exact ⟨h1.resolve_right id, h2.resolve_right id⟩
    have hseen' : ∀ k, k < i + 1 → k < v_edge.length → st'.edge_explored k = true := by
      intro k hk hkl
      rcases Nat.lt_succ_iff_lt_or_eq.1 hk with h1 | h1
      · exact hX.emono k (h.seen k h1 hkl)
      · rw [h1]
        rcases hX.seed with h2 | h2
        · exact h2
        · rw [hq'] at h2
          exact absurd h2 (List.not_mem_nil i)
    -- an edge explored in this round belongs to the class of the seed
    have hround : ∀ k e, v_edge.get? k = some e → st'.edge_explored k = true → et ≤ e.value →
        st.edge_explored k = false →
        st'.pixel_explored e.index0 = true ∧ st.pixel_explored e.index0 = false := by
      intro k e hk hx hv hE
      refine ⟨(hends' k e hk hx hv).1, ?_⟩
      cases hp : st.pixel_explored e.index0 with
      | false => rfl
      | true =>
        have := h.inc _ hp k ⟨e, hk, Or.inl rfl⟩
        rw [hE] at this
        cases this
    -- the pixels of the cluster, once a pixel has been explored in this round
    have hA : (∃ p, st'.pixel_explored p = true ∧ st.pixel_explored p = false) →
        et ≤ e0.value ∧ ∀ p, p ∈ st'.c.pixels ↔
          (Relation.ReflTransGen (EdgeRelT v_edge et) e0.index0 p ∧ pt ≤ (v_pixel p).value) := by
      rintro ⟨x, hx1, hx2⟩
      obtain ⟨hs0, hv0⟩ := hX.started x hx1 hx2
      refine ⟨hv0, fun p => ?_⟩
      rw [hX.pix p]
      constructor
      · rintro ⟨h1, h2, h3⟩
        exact ⟨hX.reach p h1 h2, h3⟩
      · rintro ⟨h1, h3⟩
        refine ⟨closed_of_inc hinc' hends' hs0 h1, ?_, h3⟩
        cases hp : st.pixel_explored p with
        | false => rfl
        | true =>
          have := closed_of_inc h.inc h.ends hp (rtgT_symm h1)
          rw [hP _ (Or.inl rfl)] at this
          cases this
    have hcompl_old : ∀ (new2 : List Cluster), (∀ c ∈ new, c ∈ new2) →
        ∀ k e, v_edge.get? k = some e → st.edge_explored k = true → et ≤ e.value →
        ∀ l : List Nat, l.Nodup →
          (∀ p, p ∈ l ↔
            (Relation.ReflTransGen (EdgeRelT v_edge et) e.index0 p ∧ pt ≤ (v_pixel p).value)) →
          max 1 sz ≤ l.length → ∃ c ∈ new2, ∀ p, p ∈ c.pixels ↔ p ∈ l := by
      intro new2 hsub k e hk hx hv l hl hmem hlen
      obtain ⟨c, hc1, hc2⟩ := h.complete k e hk hx hv l hl hmem hlen
      exact ⟨c, hsub c hc1, hc2⟩
    -- the members of a class met in this round are the pixels of the cluster
    have hsame : ∀ k e, v_edge.get? k = some e → st'.edge_explored k = true → et ≤ e.value →
        st.edge_explored k = false → ∀ l : List Nat,
        (∀ p, p ∈ l ↔
          (Relation.ReflTransGen (EdgeRelT v_edge et) e.index0 p ∧ pt ≤ (v_pixel p).value)) →
        ∀ p, p ∈ st'.c.pixels ↔ p ∈ l := by
      intro k e hk hx hv hE l hmem p
      obtain ⟨h1, h2⟩ := hround k e hk hx hv hE
      obtain ⟨_, hpix⟩ := hA ⟨e.index0, h1, h2⟩
      have hr := hX.reach _ h1 h2
      rw [hpix p, hmem p]
      constructor
      · rintro ⟨h3, h4⟩
        exact ⟨(rtgT_symm hr).trans h3, h4⟩
      · rintro ⟨h3, h4⟩
        exact ⟨hr.trans h3, h4⟩
    by_cases hs' : st'.c.pixels.length = 0 ∨ st'.c.pixels.length < sz
    · rw [if_pos hs']
      refine ⟨st', new, rfl, hq', hinc', hends', hseen', h.sound, ?_⟩
      intro k e hk hx hv l hl hmem hlen
      cases hE : st.edge_explored k with
      | true => exact hcompl_old new (fun c hc => hc) k e hk hE hv l hl hmem hlen
      | false =>
        exfalso
        have hsm := hsame k e hk hx hv hE l hmem
        have hlen2 := Clusters.length_eq_of_same_members hX.nodup hl hsm
        have h1 : 1 ≤ l.length := le_trans (le_max_left 1 sz) hlen
        have h2 : sz ≤ l.length := le_trans (le_max_right 1 sz) hlen
        omega
    · rw [if_neg hs']
      push_neg at hs'
      have hne : st'.c.pixels ≠ [] := fun e => hs'.1 (by rw [e]; rfl)
      obtain ⟨x, hx⟩ := List.exists_mem_of_ne_nil _ hne
      have hxx := (hX.pix x).1 hx
      obtain ⟨hv0, hpix⟩ := hA ⟨x, hxx.1, hxx.2.1⟩
      refine ⟨st', new ++ [st'.c], by rw [List.append_assoc], hq', hinc', hends', hseen', ?_, ?_⟩
      · intro c hc'
        rcases List.mem_append.1 hc' with hc' | hc'
        · exact h.sound c hc'
        · rw [List.mem_singleton] at hc'
          subst hc'
          refine ⟨hX.nodup, ?_, e0, hmem0, hv0, hpix⟩
          have h1 : 1 ≤ st'.c.pixels.length := Nat.one_le_iff_ne_zero.2 hs'.1
          exact max_le h1 hs'.2
      · intro k e hk hx' hv l hl hmem hlen
        cases hE : st.edge_explored k with
        | true =>
          exact hcompl_old (new ++ [st'.c]) (fun c hc => List.mem_append.2 (Or.inl hc))
            k e hk hE hv l hl hmem hlen
        | false =>
          exact ⟨st'.c, List.mem_append.2 (Or.inr (List.mem_singleton.2 rfl)),
            hsame k e hk hx' hv hE l hmem⟩

/-- The loop over all edges keeps the invariant between clusters. -/
theorem walk_seedAll {v_pixel : Nat → Vertex} {img_size : Nat} {v_edge : List Edge}
    {pt et : Int} {sz : Nat} (hends : ∀ e ∈ v_edge, e.index0 < img_size ∧ e.index1 < img_size)
    (hpos : 0 < img_size) (hs : SlotsOK v_pixel v_edge) (cl0 : List Cluster) :
    ∀ k, k ≤ v_edge.length →
      ∃ st' new', (List.range k).foldl (seedEdge v_pixel img_size v_edge pt et sz)
        (some ({ edge_explored := fun _ => false, pixel_explored := fun _ => false, q := [],
                 c := ⟨[], []⟩, asserts := true }, cl0)) = some (st', cl0 ++ new') ∧
        OInv v_pixel v_edge pt et sz k st' new' := by
  intro k
  induction k with
  | zero =>
    intro _
    refine ⟨{ edge_explored := fun _ => false, pixel_explored := fun _ => false, q := [],
              c := ⟨[], []⟩, asserts := true }, [], by simp, rfl, ?_, ?_, ?_, ?_, ?_⟩
    · intro p hp; cases hp
    · intro k e _ hx; cases hx
    · intro k hk; exact absurd hk (Nat.not_lt_zero k)
    · intro c hc; exact absurd hc (List.not_mem_nil c)
    · intro k e _ hx; cases hx
  | succ k ih =>
    intro hk
    obtain ⟨st, new, hrun, hO⟩ := ih (Nat.le_of_succ_le hk)
    obtain ⟨st', new', hstep, hO'⟩ :=
      @walk_seedEdge v_pixel img_size v_edge pt et sz hends hpos hs cl0 st new k
        (Nat.lt_of_succ_le hk) hO
    refine ⟨st', new', ?_, hO'⟩
    rw [List.range_succ, List.foldl_append, hrun]
    simpa using hstep

/-- On a graph whose edge slots list its edges, `obtain_clusters` returns; the
pixel lists it emits are duplicate-free, each is a class of the edges of value
`>= et` cut down to the pixels of value `>= pt`, with at least `max 1 sz`
pixels, and every such class met through an edge of value `>= et` is emitted. -/
theorem obtain_clusters_classes {v_pixel : Nat → Vertex} {img_size : Nat} {v_edge : List Edge}
    (pt et : Int) (sz : Nat) (cl0 : List Cluster)
    (hends : ∀ e ∈ v_edge, e.index0 < img_size ∧ e.index1 < img_size)
    (hs : SlotsOK v_pixel v_edge) :
    ∃ new, obtain_clusters v_pixel img_size v_edge pt et sz cl0 = some (cl0 ++ new) ∧
      (∀ c ∈ new, c.pixels.Nodup ∧ max 1 sz ≤ c.pixels.length ∧
        ∃ e ∈ v_edge, et ≤ e.value ∧
          ∀ p, p ∈ c.pixels ↔
            (Relation.ReflTransGen (EdgeRelT v_edge et) e.index0 p ∧
              pt ≤ (v_pixel p).value)) ∧
      (∀ e ∈ v_edge, et ≤ e.value → ∀ l : List Nat, l.Nodup →
        (∀ p, p ∈ l ↔
          (Relation.ReflTransGen (EdgeRelT v_edge et) e.index0 p ∧ pt ≤ (v_pixel p).value)) →
        max 1 sz ≤ l.length → ∃ c ∈ new, ∀ p, p ∈ c.pixels ↔ p ∈ l) := by
  unfold obtain_clusters obtain_clusters_run
  simp only []
  by_cases he : v_edge.length = 0
  · rw [if_pos he]
    have hnil : v_edge = [] := List.length_eq_zero.1 he
    refine ⟨[], by simp, fun c hc => absurd hc (List.not_mem_nil c), ?_⟩
    intro e hmem
    rw [hnil] at hmem
    exact absurd hmem (List.not_mem_nil e)
  · rw [if_neg he]
    have hpos : 0 < img_size := by
      cases hv : v_edge with
      | nil => rw [hv] at he; simp at he
      | cons e rest =>
        have := (hends e (by rw [hv]; exact List.mem_cons_self _ _)).1
        omega
    obtain ⟨st', new', hrun, hO⟩ := @walk_seedAll v_pixel img_size v_edge pt et sz hends hpos hs
      cl0 v_edge.length le_rfl
    rw [hrun]
    refine ⟨new', rfl, hO.sound, ?_⟩
    intro e hmem hv l hl hm hlen
    obtain ⟨k, hk⟩ := mem_edges_get? hmem
    exact hO.complete k e hk (hO.seen k (get?_mem_edges hk).2 (get?_mem_edges hk).2) hv l hl hm hlen

end Watershed

end Cellular

namespace Cellular

/-! ## The clusters extracted from a graph built with seed 0 -/

namespace Watershed

theorem value_setVertex (v : Nat → Vertex) (i : Nat) (x : Vertex) (h : x.value = (v i).value)
    (p : Nat) : (setVertex v i x p).value = (v p).value := by
  unfold setVertex
  split_ifs with hk
  · rw [hk, h]
  · rfl

theorem value_recordEdge (st : State) (v : Nat → Vertex) (atop : Int) (a b j1 j2 : Nat)
    (f1 : Int) (p : Nat) : ((recordEdge st v atop a b j1 j2 f1).v p).value = (v p).value := by
  unfold recordEdge
  dsimp only
  rw [value_setVertex _ _ _ (by rfl), value_setVertex _ _ _ (by rfl)]

/-- Handling one direction does not change the stored pixel values. -/
theorem value_visitNeighbor {nx ny : Nat} {mt : Int} {index1 : Nat} {f1 : Int} {rd : Nat}
    {st st' : State} {j1 : Nat}
    (h : visitNeighbor nx ny mt index1 f1 rd st j1 = some st') (p : Nat) :
    (st'.v p).value = (st.v p).value := by
  unfold visitNeighbor at h
  simp only [] at h
  repeat' split at h
  all_goals first
    | (cases h; rfl)
    | (cases h
       rw [value_recordEdge, value_setVertex _ _ _ (by rfl), value_setVertex _ _ _ (by rfl)])
    | cases h

/-- Flooding one pixel does not change the stored pixel values. -/
theorem value_floodPixel {nx ny : Nat} {mt : Int} {index1 : Nat} {f1 : Int} {rd : Nat}
    {st st' : State} (h : floodPixel nx ny mt index1 f1 rd st = some st') (p : Nat) :
    (st'.v p).value = (st.v p).value := by
  unfold floodPixel at h
  simp only [] at h
  cases h1 : visitNeighbor nx ny mt index1 f1 rd
      { st with
        v := setVertex (setVertex st.v index1 { st.v index1 with next := (index1 : Int) }) index1
              { setVertex st.v index1 { st.v index1 with next := (index1 : Int) } index1 with
                size := 1 }
        another_top := -1 } 0 with
  | none => rw [h1] at h; cases h
  | some s1 =>
    rw [h1, Option.some_bind] at h
    cases h2 : visitNeighbor nx ny mt index1 f1 rd s1 1 with
    | none => rw [h2] at h; cases h
    | some s2 =>
      rw [h2, Option.some_bind] at h
      cases h3 : visitNeighbor nx ny mt index1 f1 rd s2 2 with
      | none => rw [h3] at h; cases h
      | some s3 =>
        rw [h3, Option.some_bind] at h
        rw [value_visitNeighbor h p, value_visitNeighbor h3 p, value_visitNeighbor h2 p,
          value_visitNeighbor h1 p]
        dsimp only
        rw [value_setVertex _ _ _ (by rfl), value_setVertex _ _ _ (by rfl)]

/-- The main loop does not change the stored pixel values. -/
theorem value_flood {nx ny : Nat} {img : Int → Int → Int} {buf_arg : Nat → Nat}
    {pt mt seed : Int} {rand4 : Nat → Nat} :
    ∀ (k : Nat) (st st' : State), flood nx ny img buf_arg pt mt seed rand4 k st = some st' →
      ∀ p, (st'.v p).value = (st.v p).value := by
  intro k
  induction k with
  | zero =>
    intro st st' h p
    unfold flood at h
    cases h
    rfl
  | succ k ih =>
    intro st st' h p
    unfold flood at h
    simp only [] at h
    split_ifs at h
    · cases h; rfl
    all_goals
      split at h
      · cases h
      · rename_i s1 h1
        rw [ih s1 st' h p, value_floodPixel h1 p]

/-- The vertices of the graph built store the pixel values. -/
theorem value_construct_graph {nx ny : Nat} {img : Int → Int → Int} {buf_arg : Nat → Nat}
    {pt mt seed : Int} {rand4 : Nat → Nat} {g : State}
    (h : construct_graph nx ny img buf_arg pt mt seed rand4 = some g) (p : Nat) :
    (g.v p).value = pixval ny img p := by
  unfold construct_graph at h
  rw [value_flood _ _ _ h p]
  rfl

/-- The slot invariant of the builder gives the adjacency lists used by the
extractor. -/
theorem slotsOK_of_slotInv {nx ny : Nat} {g : State} (h : SlotInv nx ny g) :
    SlotsOK g.v g.v_edge := by
  refine ⟨?_, ?_⟩
  · intro p d k hd hk
    obtain ⟨e, he, hx⟩ := h.sound p d k hd hk
    rcases hx with ⟨h1, _⟩ | ⟨h1, _⟩
    · exact ⟨e, he, Or.inl h1⟩
    · exact ⟨e, he, Or.inr h1⟩
  · rintro k p ⟨e, he, hx⟩
    obtain ⟨h0, h1⟩ := h.complete k e he
    rcases hx with hx | hx
    · rw [← hx]; exact h0
    · rw [← hx]; exact h1

/-- The end points of the recorded edges are pixels of the grid. -/
theorem ends_of_ginv {nx ny : Nat} {img : Int → Int → Int} {buf_arg : Nat → Nat} {pt : Int}
    {k : Nat} {g : State} (hv : ValidOrder (nx * ny) buf_arg)
    (h : GInv nx ny img buf_arg pt k g) :
    ∀ e ∈ g.v_edge, e.index0 < nx * ny ∧ e.index1 < nx * ny := by
  intro e he
  obtain ⟨i, j, _, h2, h3, h4, h5, _⟩ := h.edges e he
  exact ⟨by rw [← h4]; exact hv.range i (lt_trans h2 h3), by rw [← h5]; exact hv.range j h3⟩

/-- The graph built with seed 0 is well formed. -/
theorem graphOK_of_slotInv {nx ny : Nat} {img : Int → Int → Int} {buf_arg : Nat → Nat}
    {pt : Int} {k : Nat} {g : State} (hv : ValidOrder (nx * ny) buf_arg)
    (h : GInv nx ny img buf_arg pt k g) (hs : SlotInv nx ny g) :
    GraphOK g.v (nx * ny) g.v_edge := by
  refine ⟨ends_of_ginv hv h, ?_⟩
  intro p j _ hj
  refine ⟨hs.range p j, ?_⟩
  by_cases hneg : (g.v p).edge j < 0
  · have := Int.ofNat_nonneg g.v_edge.length
    omega
  · obtain ⟨m, hm⟩ := Int.eq_ofNat_of_zero_le (not_lt.1 hneg)
    obtain ⟨e, he, _⟩ := hs.sound p j m hj hm
    have := (get?_mem_edges he).2
    rw [hm]
    exact_mod_cast this

/-- The clusters extracted from a graph that satisfies the builder invariants:
the run returns, the pixel lists are duplicate-free and pairwise disjoint, and
as sets they are the classes of the end points of the recorded edges of weight
`>= et`, cut to the pixels of value `>= pt`, that have at least `max 1 sz`
pixels. -/
theorem extract_sets {nx ny : Nat} {img : Int → Int → Int} {buf_arg : Nat → Nat}
    {bt mt seed : Int} {rand4 : Nat → Nat} {k : Nat} {g : State}
    (hv : ValidOrder (nx * ny) buf_arg)
    (hrun : construct_graph nx ny img buf_arg bt mt seed rand4 = some g)
    (hg : GInv nx ny img buf_arg bt k g) (hs : SlotInv nx ny g) (pt et : Int) (sz : Nat) :
    ∃ out, obtain_clusters g.v (nx * ny) g.v_edge pt et sz [] = some out ∧
      (∀ c ∈ out, c.pixels.Nodup) ∧
      out.Pairwise (fun c d => ∀ p, p ∈ c.pixels → p ∉ d.pixels) ∧
      ∀ S : Finset Nat, (∃ c ∈ out, c.pixels.toFinset = S) ↔
        (∃ e ∈ g.v_edge, et ≤ e.value ∧
          (∀ p, p ∈ S ↔
            (Relation.ReflTransGen (EdgeRelT g.v_edge et) e.index0 p ∧ pt ≤ pixval ny img p)) ∧
          max 1 sz ≤ S.card) := by
  have hval := fun p => value_construct_graph hrun p
  obtain ⟨new, hout, hsound, hcompl⟩ :=
    @obtain_clusters_classes g.v (nx * ny) g.v_edge pt et sz [] (ends_of_ginv hv hg)
      (slotsOK_of_slotInv hs)
  obtain ⟨new2, hout2, honce⟩ :=
    @obtain_clusters_once g.v (nx * ny) g.v_edge pt et sz [] (graphOK_of_slotInv hv hg hs)
  have e2 : new2 = new := by
    rw [hout] at hout2
    simpa using (Option.some.inj hout2).symm
  rw [e2] at honce
  rw [List.nil_append] at hout
  refine ⟨new, hout, fun c hc => (hsound c hc).1, honce.2, fun S => ?_⟩
  constructor
  · rintro ⟨c, hc, rfl⟩
    obtain ⟨hnd, hlen, e, he, hev, hpix⟩ := hsound c hc
    refine ⟨e, he, hev, fun p => ?_, ?_⟩
    · rw [List.mem_toFinset, hpix p, hval p]
    · rw [List.toFinset_card_of_nodup hnd]
      exact hlen
  · rintro ⟨e, he, hev, hS, hcard⟩
    obtain ⟨c, hc, hmem⟩ := hcompl e he hev S.toList (Finset.nodup_toList S)
      (fun p => by rw [Finset.mem_toList, hS p, hval p])
      (by rw [Finset.length_toList]; exact hcard)
    refine ⟨c, hc, ?_⟩
    ext p
    rw [List.mem_toFinset, hmem p, Finset.mem_toList]

end Watershed

/-- **C3.** For every grid, intensity order that is a permutation of the pixel
indices, build thresholds and query `(pixel_threshold, edge_threshold,
size_threshold)`: `construct_graph` with seed 0 returns a graph, and
`obtain_clusters` on it, started with an empty collection, returns clusters
whose pixel lists are duplicate-free and pairwise disjoint and are, as sets,
exactly the sets `C ∩ {pixels of value >= pixel_threshold}` with at least
`max 1 size_threshold` pixels, for `C` the class of an end point of a recorded
edge of weight `>= edge_threshold` under the relation "joined by recorded
edges of weight `>= edge_threshold`". -/
theorem C3_extract_edge_components (nx ny : Nat) (img : Int → Int → Int) (buf_arg : Nat → Nat)
    (build_threshold merge_threshold : Int) (rand4 : Nat → Nat)
    (pixel_threshold edge_threshold : Int) (size_threshold : Nat)
    (hv : ValidOrder (nx * ny) buf_arg) :
    ∃ g out,
      Watershed.construct_graph nx ny img buf_arg build_threshold merge_threshold 0 rand4 =
        some g ∧
      Watershed.obtain_clusters g.v (nx * ny) g.v_edge pixel_threshold edge_threshold
        size_threshold [] = some out ∧
      (∀ c ∈ out, c.pixels.Nodup) ∧
      out.Pairwise (fun c d => ∀ p, p ∈ c.pixels → p ∉ d.pixels) ∧
      ∀ S : Finset Nat, (∃ c ∈ out, c.pixels.toFinset = S) ↔
        (∃ e ∈ g.v_edge, edge_threshold ≤ e.value ∧
          (∀ p, p ∈ S ↔
            (Relation.ReflTransGen (Watershed.EdgeRelT g.v_edge edge_threshold) e.index0 p ∧
              pixel_threshold ≤ pixval ny img p)) ∧
          max 1 size_threshold ≤ S.card) := by
  obtain ⟨g, k, hrun, hg, hs⟩ :=
    Watershed.construct_graph_slots img build_threshold merge_threshold rand4 hv
  obtain ⟨out, h1, h2, h3, h4⟩ :=
    Watershed.extract_sets hv hrun hg hs pixel_threshold edge_threshold size_threshold
  exact ⟨g, out, hrun, h1, h2, h3, h4⟩

/-- Instance of C3 on the 2 × 2 grid with values 0, 1, 2, 3 and the identity
order, built with pixel threshold 1 and merge threshold 100, queried with
thresholds 2, 2 and 1. -/
theorem C3_extract_edge_components_witness :
    ValidOrder (2 * 2) (fun i => i) ∧
    ∃ g out,
      Watershed.construct_graph 2 2 (fun ix iy => ix * 2 + iy) (fun i => i) 1 100 0
        (fun _ => 0) = some g ∧
      Watershed.obtain_clusters g.v (2 * 2) g.v_edge 2 2 1 [] = some out ∧
      (∀ c ∈ out, c.pixels.Nodup) ∧
      out.Pairwise (fun c d => ∀ p, p ∈ c.pixels → p ∉ d.pixels) ∧
      ∀ S : Finset Nat, (∃ c ∈ out, c.pixels.toFinset = S) ↔
        (∃ e ∈ g.v_edge, (2 : Int) ≤ e.value ∧
          (∀ p, p ∈ S ↔
            (Relation.ReflTransGen (Watershed.EdgeRelT g.v_edge 2) e.index0 p ∧
              (2 : Int) ≤ pixval 2 (fun ix iy => ix * 2 + iy) p)) ∧
          max 1 1 ≤ S.card) :=
  have hv : ValidOrder (2 * 2) (fun i => i) :=
    ⟨fun _ h => h, fun _ _ _ _ h => h, fun p h => ⟨p, h, rfl⟩⟩
  ⟨hv, C3_extract_edge_components 2 2 _ _ 1 100 (fun _ => 0) 2 2 1 hv⟩

end Cellular

namespace Cellular

/-! ## The graph built when no union is skipped -/

namespace Watershed

theorem sizesOf_set (v : Nat → Vertex) (i : Nat) (x : Vertex) :
    sizesOf (setVertex v i x) = setInt (sizesOf v) i x.size := by
  funext k
  unfold sizesOf setVertex setInt
  split_ifs <;> rfl

theorem sizesOf_keep (v : Nat → Vertex) (i : Nat) (x : Vertex) (h : x.size = (v i).size) :
    sizesOf (setVertex v i x) = sizesOf v := by
  funext k
  unfold sizesOf setVertex
  split_ifs with hk
  · rw [hk, h]
  · rfl

theorem sizesOf_recordEdge (st : State) (v : Nat → Vertex) (another_top : Int)
    (index1 index2 j1 j2 : Nat) (f1 : Int) :
    sizesOf (recordEdge st v another_top index1 index2 j1 j2 f1).v = sizesOf v := by
  unfold recordEdge
  simp only []
  rw [sizesOf_keep _ _ _ (by rfl), sizesOf_keep _ _ _ (by rfl)]

/-- Lowering the threshold or adding edges keeps what is joined. -/
theorem rtgT_mono {l l' : List Edge} {t t' : Int} (hl : ∀ e ∈ l, e ∈ l') (ht : t' ≤ t)
    {x y : Nat} (h : Relation.ReflTransGen (EdgeRelT l t) x y) :
    Relation.ReflTransGen (EdgeRelT l' t') x y := by
  refine Relation.ReflTransGen.mono ?_ h
  rintro a b ⟨e, he, hv, hp⟩
  exact ⟨e, hl e he, le_trans ht hv, hp⟩

/-- Pixels joined by edges that all have weight `>= t` are joined at
threshold `t`. -/
theorem rtgT_of_edgeRel {l : List Edge} {t : Int} (hl : ∀ e ∈ l, t ≤ e.value) {x y : Nat}
    (h : Relation.ReflTransGen (EdgeRel l) x y) :
    Relation.ReflTransGen (EdgeRelT l t) x y := by
  refine Relation.ReflTransGen.mono ?_ h
  rintro a b ⟨e, he, hp⟩
  exact ⟨e, he, hl e he, hp⟩

/-- The stored size of a top is at most the number of pixels. -/
theorem size_le {n : Nat} {v_next v_size : Nat → Int} {F : Nat → Prop} {R : Nat → Nat → Prop}
    (hu : UF n v_next F R)
    (hs : ∀ r, v_next r = (r : Int) → ∃ l, ClassList v_next r l ∧ v_size r = (l.length : Int))
    {r : Nat} (hr : v_next r = (r : Int)) : v_size r ≤ (n : Int) := by
  obtain ⟨l, hl, hsl⟩ := hs r hr
  rw [hsl]
  have := nodup_length_le hl.1 (fun x hx => hu.bound x (flooded_of_top hu ((hl.2 x).1 hx)))
  exact_mod_cast this

/-- With a merge threshold above the number of pixels, handling one direction
of the pixel at position `i` returns and keeps both invariants. -/
theorem graph_visit_full {nx ny : Nat} {img : Int → Int → Int} {buf_arg : Nat → Nat}
    {pt mt : Int} {i : Nat} {st : State} {H : Nat → Prop}
    (hv : ValidOrder (nx * ny) buf_arg) (hasc : Ascending (nx * ny) ny img buf_arg)
    (hmt : ((nx * ny : Nat) : Int) < mt) (hi : i < nx * ny) (rd j1 : Nat)
    (h : GVInv nx ny img buf_arg pt i st) (hx : GXInv nx ny img buf_arg i H st) :
    ∃ st', visitNeighbor nx ny mt (buf_arg i) (pixval ny img (buf_arg i)) rd st j1 = some st' ∧
      GVInv nx ny img buf_arg pt i st' ∧
      GXInv nx ny img buf_arg i (fun d' => H d' ∨ d' = (rd + j1) % 4) st' := by
  obtain ⟨st', hrun, hg, -⟩ := @graph_visit_shape nx ny img buf_arg pt mt i st hv hi rd j1 h
  refine ⟨st', hrun, hg, ?_⟩
  have han : buf_arg i < nx * ny := hv.range i hi
  have hFa : Flooded (nx * ny) buf_arg i (buf_arg i) := ⟨i, le_rfl, hi, rfl⟩
  have hweights : ∀ e ∈ st.v_edge, pixval ny img (buf_arg i) ≤ e.value := by
    intro e he
    obtain ⟨i', j', h1, h2, h3, h4, _, _, h7, _⟩ := h.inv.edges e he
    rw [h7, ← h4]
    exact hasc i i' h1 (lt_trans h2 h3)
  unfold visitNeighbor at hrun
  simp only [] at hrun
  by_cases hb : (0 ≤ ((buf_arg i / ny : Nat) : Int) + dx_list.getD ((rd + j1) % 4) 0 ∧
      ((buf_arg i / ny : Nat) : Int) + dx_list.getD ((rd + j1) % 4) 0 < (nx : Int) ∧
      0 ≤ ((buf_arg i % ny : Nat) : Int) + dy_list.getD ((rd + j1) % 4) 0 ∧
      ((buf_arg i % ny : Nat) : Int) + dy_list.getD ((rd + j1) % 4) 0 < (ny : Int))
  · rw [if_neg (not_not.2 hb)] at hrun
    have hd := dirNbr_toNat hb
    generalize hi2 : ((((buf_arg i / ny : Nat) : Int) + dx_list.getD ((rd + j1) % 4) 0) *
      (ny : Int) + (((buf_arg i % ny : Nat) : Int) + dy_list.getD ((rd + j1) % 4) 0)).toNat =
      index2 at hd hrun
    by_cases hneg : (st.v index2).next < 0
    · rw [if_pos hneg] at hrun
      cases hrun
      refine ⟨hx.sizes, hx.one, fun x y hxy => hx.joined x y ((relH_none ?_ x y).2 hxy)⟩
      intro y hy hFy
      rw [dirNbr_unique hy hd] at hFy
      exact absurd ((h.inv.uf.flooded _).1 hFy) (not_le.2 hneg)
    · rw [if_neg hneg] at hrun
      have hF2 : Flooded (nx * ny) buf_arg i index2 :=
        (h.inv.uf.flooded index2).2 (not_lt.1 hneg)
      obtain ⟨top, hget, htop, hFtop⟩ := get_top_eq h.inv.uf hF2
      have hget' : get_top (fun k => (st.v k).next) (nx * ny) index2 = some top := hget
      rw [hget'] at hrun
      simp only [] at hrun
      have hadj : Adj4 nx ny (buf_arg i) index2 :=
        (dirs4_watershed nx ny _ _).2 ⟨han, (rd + j1) % 4, Nat.mod_lt _ (by norm_num), hd⟩
      have hne2 : index2 ≠ buf_arg i := fun e => adj4_irrefl (e ▸ hadj)
      have hroot_top : nextOf st.v top = (top : Int) := top_root htop
      have hle : pixval ny img (buf_arg i) ≤ pixval ny img index2 := by
        obtain ⟨j, hj1, hj2, hj3⟩ := hF2
        rw [← hj3]
        exact hasc i j hj1 hj2
      have hmin1 : min (pixval ny img (buf_arg i)) (pixval ny img index2) =
          pixval ny img (buf_arg i) := min_eq_left hle
      have hmin2 : min (pixval ny img index2) (pixval ny img (buf_arg i)) =
          pixval ny img (buf_arg i) := min_eq_right hle
      -- what is joined once the pair of the pixel and its neighbour is
      have hjoin : ∀ (edges : List Edge), (∀ e ∈ st.v_edge, e ∈ edges) →
          Relation.ReflTransGen (EdgeRelT edges (pixval ny img (buf_arg i))) (buf_arg i) index2 →
          ∀ x y, RelH nx ny dx_list dy_list (Flooded (nx * ny) buf_arg i) (buf_arg i)
            (fun d' => H d' ∨ d' = (rd + j1) % 4) x y →
          Relation.ReflTransGen
            (EdgeRelT edges (min (pixval ny img x) (pixval ny img y))) x y := by
        intro edges hsub hab x y hxy
        rcases (relH_some hd hFa hF2 hadj x y).2 hxy with h1 | ⟨h1, h2⟩ | ⟨h1, h2⟩
        · exact rtgT_mono hsub le_rfl (hx.joined x y h1)
        · rw [h1, h2, hmin1]; exact hab
        · rw [h1, h2, hmin2]; exact rtgT_symm hab
      have hnew : ∀ (edges : List Edge),
          Relation.ReflTransGen
            (EdgeRelT (edges ++ [⟨buf_arg i, index2, pixval ny img (buf_arg i)⟩])
              (pixval ny img (buf_arg i))) (buf_arg i) index2 := fun edges =>
        Relation.ReflTransGen.single
          ⟨⟨buf_arg i, index2, pixval ny img (buf_arg i)⟩,
            List.mem_append.2 (Or.inr (List.mem_singleton.2 rfl)), le_refl _, Or.inl ⟨rfl, rfl⟩⟩
      have hsub : ∀ e ∈ st.v_edge,
          e ∈ st.v_edge ++ [(⟨buf_arg i, index2, pixval ny img (buf_arg i)⟩ : Edge)] :=
        fun e he => List.mem_append.2 (Or.inl he)
      by_cases h1 : st.another_top = -1
      · rw [if_pos h1] at hrun
        cases hrun
        rcases h.cur with ⟨_, hroot, hnoedge⟩ | ⟨c, hc, _⟩
        · have hra : nextOf st.v (buf_arg i) = (buf_arg i : Int) := hroot
          have htopne : buf_arg i ≠ top := by
            intro e
            have hs : SameTop (nextOf st.v) index2 (buf_arg i) :=
              ⟨top, htop, by rw [← e]; exact top_self hra⟩
            exact hne2 (edgeRel_isolated hnoedge ((h.inv.uf.conn _ _ hF2 hFa).1 hs))
          refine ⟨?_, ?_, hjoin _ hsub (hnew _)⟩
          · rw [nextOf_recordEdge, sizesOf_recordEdge, nextOf_keep _ _ _ (by rfl), nextOf_set,
              sizesOf_set, sizesOf_keep _ _ _ (by rfl)]
            have := sizes_link h.inv.uf hra hroot_top htopne hx.sizes
            rw [hx.one h1] at this
            have e : (setVertex st.v (buf_arg i)
                { st.v (buf_arg i) with next := (top : Int) } top).size = sizesOf st.v top := by
              unfold setVertex sizesOf
              rw [if_neg (Ne.symm htopne)]
            dsimp only
            rw [e]
            exact this
          · intro hx0
            exfalso
            have hx1 : ((top : Nat) : Int) = -1 := hx0
            have := Int.ofNat_nonneg top
            omega
        · exfalso
          rw [hc] at h1
          have := Int.ofNat_nonneg c
          omega
      · rw [if_neg h1] at hrun
        rcases h.cur with ⟨h0, _, _⟩ | ⟨c, hc, hTc⟩
        · exact absurd h0 h1
        · have hroot_c : nextOf st.v c = (c : Int) := top_root hTc
          by_cases h2 : 0 ≤ st.another_top ∧ st.another_top ≠ (top : Int)
          · rw [if_pos h2] at hrun
            have hat : st.another_top.toNat = c := by rw [hc]; exact Int.toNat_ofNat c
            have hcne : c ≠ top := by
              intro e
              apply h2.2
              rw [hc, e]
            rw [hat] at hrun
            have h3 : ¬ (mt ≤ (st.v top).size ∧ mt ≤ (st.v c).size) := by
              rintro ⟨h3, _⟩
              have := size_le h.inv.uf hx.sizes hroot_top
              have h4 : sizesOf st.v top = (st.v top).size := rfl
              omega
            rw [if_neg h3] at hrun
            by_cases h4 : (st.v c).value < (st.v top).value
            · rw [if_pos h4] at hrun
              cases hrun
              refine ⟨?_, ?_, hjoin _ hsub (hnew _)⟩
              · rw [nextOf_recordEdge, sizesOf_recordEdge, nextOf_keep _ _ _ (by rfl), nextOf_set,
                  sizesOf_set, sizesOf_keep _ _ _ (by rfl)]
                have := sizes_link h.inv.uf hroot_c hroot_top hcne hx.sizes
                have e1 : (setVertex st.v c { st.v c with next := (top : Int) } top).size =
                    sizesOf st.v top := by
                  unfold setVertex sizesOf
                  rw [if_neg (Ne.symm hcne)]
                have e2 : (setVertex st.v c { st.v c with next := (top : Int) } c).size =
                    sizesOf st.v c := by
                  unfold setVertex sizesOf
                  rw [if_pos rfl]
                dsimp only
                rw [e1, e2]
                exact this
              · intro hx0
                exfalso
                have hx1 : ((top : Nat) : Int) = -1 := hx0
                have := Int.ofNat_nonneg top
                omega
            · rw [if_neg h4] at hrun
              cases hrun
              refine ⟨?_, ?_, hjoin _ hsub (hnew _)⟩
              · rw [nextOf_recordEdge, sizesOf_recordEdge, nextOf_keep _ _ _ (by rfl), nextOf_set,
                  sizesOf_set, sizesOf_keep _ _ _ (by rfl)]
                have := sizes_link h.inv.uf hroot_top hroot_c (Ne.symm hcne) hx.sizes
                have e1 : (setVertex st.v top { st.v top with next := (c : Int) } c).size =
                    sizesOf st.v c := by
                  unfold setVertex sizesOf
                  rw [if_neg hcne]
                have e2 : (setVertex st.v top { st.v top with next := (c : Int) } top).size =
                    sizesOf st.v top := by
                  unfold setVertex sizesOf
                  rw [if_pos rfl]
                dsimp only
                rw [e1, e2]
                exact this
              · intro hx0
                exfalso
                have hx1 : st.another_top = -1 := hx0
                exact h1 hx1
          · rw [if_neg h2] at hrun
            cases hrun
            have hct : c = top := by
              by_contra hne
              apply h2
              rw [hc]
              exact ⟨Int.ofNat_nonneg c, fun e => hne (Int.ofNat_inj.1 e)⟩
            refine ⟨hx.sizes, hx.one, hjoin _ (fun e he => he) ?_⟩
            have hs : SameTop (nextOf st.v) (buf_arg i) index2 := ⟨c, hTc, by rw [hct]; exact htop⟩
            exact rtgT_of_edgeRel hweights ((h.inv.uf.conn _ _ hFa hF2).1 hs)
  · rw [if_pos hb] at hrun
    cases hrun
    refine ⟨hx.sizes, hx.one, fun x y hxy => hx.joined x y ((relH_none ?_ x y).2 hxy)⟩
    intro y hy
    exact absurd (dirNbr_bounds hy) hb

/-- With a merge threshold above the number of pixels, flooding the pixel at
position `i` returns and re-establishes both invariants between pixels. -/
theorem graph_floodPixel_full {nx ny : Nat} {img : Int → Int → Int} {buf_arg : Nat → Nat}
    {pt mt : Int} {i : Nat} {st : State}
    (hv : ValidOrder (nx * ny) buf_arg) (hasc : Ascending (nx * ny) ny img buf_arg)
    (hmt : ((nx * ny : Nat) : Int) < mt) (hi : i < nx * ny) (rd : Nat)
    (habove : pt ≤ pixval ny img (buf_arg i))
    (h : GInv nx ny img buf_arg pt (i + 1) st) (hf : GFInv nx ny img buf_arg (i + 1) st) :
    ∃ st', floodPixel nx ny mt (buf_arg i) (pixval ny img (buf_arg i)) rd st = some st' ∧
      GInv nx ny img buf_arg pt i st' ∧ GFInv nx ny img buf_arg i st' := by
  have han : buf_arg i < nx * ny := hv.range i hi
  have hna : ¬ Flooded (nx * ny) buf_arg (i + 1) (buf_arg i) := not_flooded_self hv hi
  have h0 := graph_pixel_start hv hi habove h
  have eF : (fun x => Flooded (nx * ny) buf_arg (i + 1) x ∨ x = buf_arg i) =
      Flooded (nx * ny) buf_arg i := funext (fun x => propext (flooded_succ hi x))
  have x0 : GXInv nx ny img buf_arg i (fun _ => False)
      { st with
        v := setVertex (setVertex st.v (buf_arg i)
              { st.v (buf_arg i) with next := (buf_arg i : Int) }) (buf_arg i)
              { setVertex st.v (buf_arg i) { st.v (buf_arg i) with next := (buf_arg i : Int) }
                  (buf_arg i) with size := 1 }
        another_top := -1 } := by
    refine ⟨?_, ?_, ?_⟩
    · dsimp only
      rw [nextOf_keep _ _ _ (by rfl), nextOf_set, sizesOf_set, sizesOf_keep _ _ _ (by rfl)]
      exact sizes_new h.uf hna han hf.sizes
    · intro _
      dsimp only
      rw [sizesOf_set]
      exact setInt_same _ _ _
    · intro x y hxy
      rw [← eF] at hxy
      exact hf.joined x y ((relH_init hna x y).2 hxy)
  unfold floodPixel
  simp only []
  obtain ⟨st1, e1, g1, x1⟩ := graph_visit_full hv hasc hmt hi rd 0 h0 x0
  obtain ⟨st2, e2, g2, x2⟩ := graph_visit_full hv hasc hmt hi rd 1 g1 x1
  obtain ⟨st3, e3, g3, x3⟩ := graph_visit_full hv hasc hmt hi rd 2 g2 x2
  obtain ⟨st4, e4, g4, x4⟩ := graph_visit_full hv hasc hmt hi rd 3 g3 x3
  rw [e1, Option.some_bind, e2, Option.some_bind, e3, Option.some_bind, e4]
  refine ⟨st4, rfl, g4.inv, x4.sizes, fun x y hxy => ?_⟩
  exact x4.joined x y ((relH_final dirs4_watershed (Ncluster.all_dirs rd) x y).2 hxy)

/-- With a merge threshold above the number of pixels, the main loop returns
having flooded exactly the positions of value `>= pixel_threshold`, and keeps
both invariants. -/
theorem graph_flood_full {nx ny : Nat} {img : Int → Int → Int} {buf_arg : Nat → Nat}
    {pt mt seed : Int} {rand4 : Nat → Nat} (hv : ValidOrder (nx * ny) buf_arg)
    (hasc : Ascending (nx * ny) ny img buf_arg) (hmt : ((nx * ny : Nat) : Int) < mt) :
    ∀ (k : Nat) (st : State), k ≤ nx * ny → GInv nx ny img buf_arg pt k st →
      GFInv nx ny img buf_arg k st →
      ∃ st' k', flood nx ny img buf_arg pt mt seed rand4 k st = some st' ∧
        GInv nx ny img buf_arg pt k' st' ∧ GFInv nx ny img buf_arg k' st' ∧
        (∀ j, j < k' → pixval ny img (buf_arg j) < pt) := by
  intro k
  induction k with
  | zero =>
    intro st _ h hf
    exact ⟨st, 0, rfl, h, hf, fun j hj => absurd hj (Nat.not_lt_zero j)⟩
  | succ k ih =>
    intro st hk h hf
    have hkn : k < nx * ny := Nat.lt_of_succ_le hk
    unfold flood
    simp only []
    by_cases hlt : pixval ny img (buf_arg k) < pt
    · rw [if_pos hlt]
      refine ⟨_, k + 1, rfl, graph_inv_frame h rfl rfl, ⟨hf.sizes, hf.joined⟩, ?_⟩
      intro j hj
      exact lt_of_le_of_lt (hasc j k (Nat.le_of_lt_succ hj) hkn) hlt
    · rw [if_neg hlt]
      have hp : GInv nx ny img buf_arg pt (k + 1)
          { st with asserts := st.asserts && decide (buf_arg k < nx * ny) } :=
        graph_inv_frame h rfl rfl
      have hq : GFInv nx ny img buf_arg (k + 1)
          { st with asserts := st.asserts && decide (buf_arg k < nx * ny) } :=
        ⟨hf.sizes, hf.joined⟩
      obtain ⟨st1, e1, g1, f1⟩ := @graph_floodPixel_full nx ny img buf_arg pt mt k _ hv hasc hmt
        hkn (if seed = 0 then 0 else rand4 k) (not_lt.1 hlt) hp hq
      rw [e1]
      exact ih st1 (Nat.le_of_lt hkn) g1 f1

/-- With a merge threshold above the number of pixels, the run of
`construct_graph` returns a graph in which two 4-adjacent pixels of value
`>= pixel_threshold` are joined by recorded edges whose weights are at least
the smaller of their two values. -/
theorem construct_graph_full {nx ny : Nat} (img : Int → Int → Int) {buf_arg : Nat → Nat}
    (pt mt seed : Int) (rand4 : Nat → Nat) (hv : ValidOrder (nx * ny) buf_arg)
    (hasc : Ascending (nx * ny) ny img buf_arg) (hmt : ((nx * ny : Nat) : Int) < mt) :
    ∃ g k, construct_graph nx ny img buf_arg pt mt seed rand4 = some g ∧
      GInv nx ny img buf_arg pt k g ∧ GFInv nx ny img buf_arg k g ∧
      (∀ j, j < k → pixval ny img (buf_arg j) < pt) := by
  refine @graph_flood_full nx ny img buf_arg pt mt seed rand4 hv hasc hmt (nx * ny) _ le_rfl
    (graph_inv_init nx ny img buf_arg pt) ⟨?_, ?_⟩
  · intro r hr
    exfalso
    have e : nextOf (graph.obtain_vertices ny img) r = -1 := rfl
    have hr1 : nextOf (graph.obtain_vertices ny img) r = (r : Int) := hr
    rw [e] at hr1
    have := Int.ofNat_nonneg r
    omega
  · rintro x y ⟨⟨j, h1, h2, _⟩, _⟩
    omega

/-- In the graph built, the pixels joined to a pixel of value `>= t` by
recorded edges of weight `>= t` are those reached from it by 4-connected steps
through pixels of value `>= t`, for `t` at least the build threshold. -/
theorem joined_iff_reach {nx ny : Nat} {img : Int → Int → Int} {buf_arg : Nat → Nat}
    {pt t : Int} {k : Nat} {g : State} (hv : ValidOrder (nx * ny) buf_arg)
    (hasc : Ascending (nx * ny) ny img buf_arg) (ht : pt ≤ t)
    (hg : GInv nx ny img buf_arg pt k g) (hf : GFInv nx ny img buf_arg k g)
    (hlow : ∀ j, j < k → pixval ny img (buf_arg j) < pt) (x q : Nat) :
    Relation.ReflTransGen (EdgeRelT g.v_edge t) x q ↔
      Relation.ReflTransGen (Conn nx ny img t) x q := by
  have hfl : ∀ p, InThr nx ny img t p → Flooded (nx * ny) buf_arg k p := by
    rintro p ⟨hp, hpt⟩
    obtain ⟨j, hj, rfl⟩ := hv.surj p hp
    refine ⟨j, ?_, hj, rfl⟩
    by_contra hjk
    have := hlow j (not_le.1 hjk)
    omega
  constructor
  · intro h
    refine Relation.ReflTransGen.mono ?_ h
    rintro a b ⟨e, he, hev, hp⟩
    obtain ⟨i', j', h1, h2, h3, h4, h5, h6, h7, _⟩ := hg.edges e he
    have hi0 : InThr nx ny img t e.index0 := by
      refine ⟨by rw [← h4]; exact hv.range i' (lt_trans h2 h3), ?_⟩
      rw [← h7]; exact hev
    have hi1 : InThr nx ny img t e.index1 := by
      refine ⟨by rw [← h5]; exact hv.range j' h3, ?_⟩
      have := hasc i' j' (Nat.le_of_lt h2) h3
      rw [h4, h5, ← h7] at this
      exact le_trans hev this
    rcases hp with ⟨rfl, rfl⟩ | ⟨rfl, rfl⟩
    · exact ⟨hi0, hi1, h6⟩
    · exact ⟨hi1, hi0, adj4_symm h6⟩
  · intro h
    induction h with
    | refl => exact Relation.ReflTransGen.refl
    | tail _ hbc ih =>
      obtain ⟨hb, hc, hadj⟩ := hbc
      refine ih.trans (rtgT_mono (fun e he => he) ?_ (hf.joined _ _ ⟨hfl _ hb, hfl _ hc, hadj⟩))
      exact le_min hb.2 hc.2

end Watershed

end Cellular

namespace Cellular

/-! ## Graph extraction against the flood fill -/

/-- **C2, counterexample.** On the 1 × 1 grid of value 10 with the identity
order (valid and ascending), the graph built with pixel threshold 5, merge
threshold 100 and seed 0 has no edge, so the query with thresholds 5, 5 and
size cutoff 1 into an empty collection yields no cluster, whereas `construct`
with thresholds 5 and 1 yields the cluster of pixel 0. -/
theorem C2_counterexample :
    ValidOrder (1 * 1) (fun i => i) ∧
    Ascending (1 * 1) 1 (fun _ _ => 10) (fun i => i) ∧
    (5 : Int) ≤ 5 ∧ (((1 * 1 : Nat) : Int) < 100) ∧
    ∃ g out cs,
      Watershed.construct_graph 1 1 (fun _ _ => 10) (fun i => i) 5 100 0 (fun _ => 0) = some g ∧
      Watershed.obtain_clusters g.v (1 * 1) g.v_edge 5 5 1 [] = some out ∧
      Clusters.construct 1 1 (fun _ _ => 10) 5 1 = some cs ∧
      out = [] ∧ cs.map (fun c => c.pixels) = [[0]] := by
  have h : ((Watershed.construct_graph 1 1 (fun _ _ => 10) (fun i => i) 5 100 0
      (fun _ => 0)).bind fun g => Watershed.obtain_clusters g.v (1 * 1) g.v_edge 5 5 1 []) =
      some [] := by decide
  have hc : (Clusters.construct 1 1 (fun _ _ => 10) 5 1).map
      (fun cs => cs.map (fun c => c.pixels)) = some [[0]] := by decide
  refine ⟨⟨fun _ h => h, fun _ _ _ _ h => h, fun p h => ⟨p, h, rfl⟩⟩,
    fun _ _ _ _ => le_refl _, le_refl _, by decide, ?_⟩
  cases hg : Watershed.construct_graph 1 1 (fun _ _ => 10) (fun i => i) 5 100 0 (fun _ => 0) with
  | none => rw [hg] at h; cases h
  | some g =>
    rw [hg, Option.some_bind] at h
    cases hcs : Clusters.construct 1 1 (fun _ _ => 10) 5 1 with
    | none => rw [hcs] at hc; cases hc
    | some cs =>
      rw [hcs, Option.map_some'] at hc
      exact ⟨g, [], cs, rfl, h, rfl, rfl, Option.some.inj hc⟩

/-- **C2, amended.** For every grid, valid ascending intensity order, thresholds
`t0 <= t`, size cutoff `s` and merge threshold larger than the number of
pixels: `construct_graph` with pixel threshold `t0` and seed 0 returns a graph,
`obtain_clusters` on it with pixel threshold and edge threshold `t` and size
threshold `s`, started with an empty collection, returns, `construct` with
thresholds `t` and `max s 2` returns, and the two results have the same pixel
sets: the maximal 4-connected sets of pixels of value `>= t` that have at
least `max s 2` pixels. -/
theorem C2_extract_equals_flood_from_two (nx ny : Nat) (img : Int → Int → Int)
    (buf_arg : Nat → Nat) (t0 t merge_threshold : Int) (rand4 : Nat → Nat) (s : Nat)
    (hv : ValidOrder (nx * ny) buf_arg) (hasc : Ascending (nx * ny) ny img buf_arg)
    (ht : t0 ≤ t) (hmt : ((nx * ny : Nat) : Int) < merge_threshold) :
    ∃ g out cs,
      Watershed.construct_graph nx ny img buf_arg t0 merge_threshold 0 rand4 = some g ∧
      Watershed.obtain_clusters g.v (nx * ny) g.v_edge t t s [] = some out ∧
      Clusters.construct nx ny img t ((max s 2 : Nat) : Int) = some cs ∧
      ∀ S : Finset Nat, (∃ c ∈ out, c.pixels.toFinset = S) ↔ (∃ c ∈ cs, c.pixels.toFinset = S) := by
  obtain ⟨g, k0, hrun, hg0, hs⟩ :=
    Watershed.construct_graph_slots img t0 merge_threshold rand4 hv
  obtain ⟨g', k, hrun', hg, hf, hlow⟩ :=
    Watershed.construct_graph_full img t0 merge_threshold 0 rand4 hv hasc hmt
  have eg : g' = g := by
    rw [hrun] at hrun'
    exact (Option.some.inj hrun').symm
  rw [eg] at hg hf
  obtain ⟨out, hout, -, -, hchar⟩ := Watershed.extract_sets hv hrun hg hs t t s
  obtain ⟨V, cs, hcs, hres⟩ := Clusters.construct_scanRes nx ny img t ((max s 2 : Nat) : Int)
  refine ⟨g, out, cs, hrun, hout, hcs, fun S => ?_⟩
  have hjr := fun x q => Watershed.joined_iff_reach hv hasc ht hg hf hlow x q
  rw [hchar S, Clusters.construct_components hres S, isComponent_iff_class]
  constructor
  · rintro ⟨e, he, hev, hS, hcard⟩
    obtain ⟨i', j', h1, h2, h3, h4, h5, h6, h7, _⟩ := hg.edges e he
    have hi0 : InThr nx ny img t e.index0 := by
      refine ⟨by rw [← h4]; exact hv.range i' (lt_trans h2 h3), ?_⟩
      rw [← h7]; exact hev
    have hstep : Relation.ReflTransGen (Watershed.EdgeRelT g.v_edge t) e.index0 e.index1 :=
      Relation.ReflTransGen.single ⟨e, he, hev, Or.inl ⟨rfl, rfl⟩⟩
    have hi1 : InThr nx ny img t e.index1 := reach_inThr hi0 ((hjr _ _).1 hstep)
    refine ⟨⟨e.index0, hi0, fun q => ?_⟩, ?_⟩
    · rw [hS q, hjr]
      exact ⟨fun h => h.1, fun h => ⟨h, (reach_inThr hi0 h).2⟩⟩
    · have ha : e.index0 ∈ S := (hS _).2 ⟨Relation.ReflTransGen.refl, hi0.2⟩
      have hb : e.index1 ∈ S := (hS _).2 ⟨hstep, hi1.2⟩
      have hne : e.index0 ≠ e.index1 := fun e' => adj4_irrefl (e' ▸ h6)
      have h2c : 1 < S.card := Finset.one_lt_card.2 ⟨_, ha, _, hb, hne⟩
      have hsc : s ≤ S.card := le_trans (le_max_right 1 s) hcard
      have : max s 2 ≤ S.card := max_le hsc h2c
      exact_mod_cast this
  · rintro ⟨⟨p0, hp0, hS⟩, hcard⟩
    have hcard' : max s 2 ≤ S.card := by exact_mod_cast hcard
    have h2c : 1 < S.card := lt_of_lt_of_le (by norm_num) (le_trans (le_max_right s 2) hcard')
    obtain ⟨a, ha, b, hb, hab⟩ := Finset.one_lt_card.1 h2c
    have hex : ∃ q, q ≠ p0 ∧ Relation.ReflTransGen (Watershed.EdgeRelT g.v_edge t) p0 q := by
      by_cases e : a = p0
      · exact ⟨b, fun e' => hab (e.trans e'.symm), (hjr _ _).2 ((hS b).1 hb)⟩
      · exact ⟨a, e, (hjr _ _).2 ((hS a).1 ha)⟩
    obtain ⟨q, hq, hpq⟩ := hex
    rcases Relation.ReflTransGen.cases_head hpq with e | ⟨c, ⟨e, he, hev, hp⟩, _⟩
    · exact absurd e.symm hq
    · have h0 : Relation.ReflTransGen (Watershed.EdgeRelT g.v_edge t) e.index0 p0 := by
        rcases hp with ⟨h1, _⟩ | ⟨h1, _⟩
        · rw [h1]
        · rw [h1]
          exact Relation.ReflTransGen.single ⟨e, he, hev, Or.inl ⟨rfl, rfl⟩⟩
      refine ⟨e, he, hev, fun p => ?_, ?_⟩
      · rw [hS p]
        constructor
        · intro h
          exact ⟨h0.trans ((hjr _ _).2 h), (reach_inThr hp0 h).2⟩
        · rintro ⟨h, _⟩
          exact (hjr _ _).1 ((Watershed.rtgT_symm h0).trans h)
      · exact max_le (le_of_lt h2c) (le_trans (le_max_left s 2) hcard')

/-- Instance of the amended C2 on the 1 × 2 grid of value 10 with the identity
order, built with pixel threshold 5 and merge threshold 100, queried with
threshold 5 and size cutoff 1. -/
theorem C2_extract_equals_flood_from_two_witness :
    ValidOrder (1 * 2) (fun i => i) ∧
    Ascending (1 * 2) 2 (fun _ _ => 10) (fun i => i) ∧
    (5 : Int) ≤ 5 ∧ (((1 * 2 : Nat) : Int) < 100) ∧
    ∃ g out cs,
      Watershed.construct_graph 1 2 (fun _ _ => 10) (fun i => i) 5 100 0 (fun _ => 0) = some g ∧
      Watershed.obtain_clusters g.v (1 * 2) g.v_edge 5 5 1 [] = some out ∧
      Clusters.construct 1 2 (fun _ _ => 10) 5 ((max 1 2 : Nat) : Int) = some cs ∧
      ∀ S : Finset Nat, (∃ c ∈ out, c.pixels.toFinset = S) ↔ (∃ c ∈ cs, c.pixels.toFinset = S) :=
  have hv : ValidOrder (1 * 2) (fun i => i) :=
    ⟨fun _ h => h, fun _ _ _ _ h => h, fun p h => ⟨p, h, rfl⟩⟩
  have hasc : Ascending (1 * 2) 2 (fun _ _ => 10) (fun i => i) := fun _ _ _ _ => le_refl _
  ⟨hv, hasc, le_refl _, by decide,
    C2_extract_equals_flood_from_two 1 2 _ _ 5 5 100 (fun _ => 0) 1 hv hasc (le_refl _)
      (by decide)⟩

end Cellular

namespace Cellular

/-! ## The states reached by `construct_graph` -/

namespace Watershed

/-- Recording an edge between two pixels that the recorded edges do not join
keeps the recorded edges a forest. -/
theorem forest_append {l : List Edge} {a b : Nat} {w : Int} (hf : Forest l)
    (hab : ¬ Relation.ReflTransGen (EdgeRel l) a b) : Forest (l ++ [⟨a, b, w⟩]) := by
  intro k e hk
  by_cases hlt : k < l.length
  · rw [List.get?_append hlt] at hk
    rw [List.take_append_of_le_length (Nat.le_of_lt hlt)]
    exact hf k e hk
  · have hlen : k < (l ++ [(⟨a, b, w⟩ : Edge)]).length := by
      by_contra hx
      rw [List.get?_eq_none.2 (not_lt.1 hx)] at hk
      cases hk
    rw [List.length_append, List.length_singleton] at hlen
    have hkl : k = l.length := by omega
    subst hkl
    rw [List.get?_append_right (le_refl _), Nat.sub_self] at hk
    have he : e = ⟨a, b, w⟩ := (Option.some.inj hk).symm
    rw [List.take_append_of_le_length (le_refl _), List.take_length, he]
    exact hab

/-- Linking the top `ra` under the top `rb`, folding the size of `ra` into
that of `rb` and recording an edge between two pixels not yet joined, keeps
the counting invariant. -/
theorem gc_link {nx ny : Nat} {img : Int → Int → Int} {buf_arg : Nat → Nat} {pt : Int} {i : Nat}
    {st st' : State} {ra rb a b : Nat} {w : Int}
    (hg : GInv nx ny img buf_arg pt i st) (hc : GCInv nx ny img buf_arg i st)
    (hra : nextOf st.v ra = (ra : Int)) (hrb : nextOf st.v rb = (rb : Int)) (hne : ra ≠ rb)
    (hval : Ascending (nx * ny) ny img buf_arg → pixval ny img ra ≤ pixval ny img rb)
    (hab : ¬ Relation.ReflTransGen (EdgeRel st.v_edge) a b)
    (hnext : nextOf st'.v = setInt (nextOf st.v) ra (rb : Int))
    (hsize : sizesOf st'.v = setInt (sizesOf st.v) rb (sizesOf st.v rb + sizesOf st.v ra))
    (hedge : st'.v_edge = st.v_edge ++ [⟨a, b, w⟩])
    (hvals : ∀ p, (st'.v p).value = (st.v p).value) :
    GCInv nx ny img buf_arg i st' := by
  have hFr : ∀ r, nextOf st.v r = (r : Int) → r < nx * ny := fun r hr =>
    hg.uf.bound r ((hg.uf.flooded r).2 (by rw [hr]; exact Int.ofNat_nonneg _))
  refine ⟨?_, ?_, ?_, fun p => (hvals p).trans (hc.vals p), ?_⟩
  · rw [hnext, hsize]
    exact sizes_link hg.uf hra hrb hne hc.sizes
  · rw [hedge, hnext, hsize, List.length_append, List.length_singleton,
      rootCount_link 1 hra hrb hne (hFr ra hra) (hFr rb hrb)]
    have h1 := size_pos hc.sizes hra
    have h2 := size_pos hc.sizes hrb
    rw [if_pos h1, if_pos h2, if_pos (by omega)]
    have := hc.count
    push_cast
    omega
  · rw [hedge]
    exact forest_append hc.forest hab
  · intro hasc p r hT
    rw [hnext] at hT
    rcases (top_link_iff hg.uf hra hrb hne p r).1 hT with ⟨e, h1 | h1⟩ | ⟨_, _, h1⟩
    · rw [e]
      exact le_trans (hc.maxv hasc p ra h1) (hval hasc)
    · rw [e]
      exact hc.maxv hasc p rb h1
    · exact hc.maxv hasc p r h1

/-- Handling one direction of the pixel at position `i` keeps the counting
invariant, whatever the merge threshold. -/
theorem graph_visit_count {nx ny : Nat} {img : Int → Int → Int} {buf_arg : Nat → Nat}
    {pt mt : Int} {i : Nat} {st st' : State}
    (hv : ValidOrder (nx * ny) buf_arg) (hi : i < nx * ny) (rd j1 : Nat)
    (h : GVInv nx ny img buf_arg pt i st) (hc : GCInv nx ny img buf_arg i st)
    (hone : st.another_top = -1 → sizesOf st.v (buf_arg i) = 1)
    (hrun : visitNeighbor nx ny mt (buf_arg i) (pixval ny img (buf_arg i)) rd st j1 = some st') :
    GCInv nx ny img buf_arg i st' ∧
      (st'.another_top = -1 → sizesOf st'.v (buf_arg i) = 1) := by
  have han : buf_arg i < nx * ny := hv.range i hi
  have hFa : Flooded (nx * ny) buf_arg i (buf_arg i) := ⟨i, le_rfl, hi, rfl⟩
  unfold visitNeighbor at hrun
  simp only [] at hrun
  by_cases hb : (0 ≤ ((buf_arg i / ny : Nat) : Int) + dx_list.getD ((rd + j1) % 4) 0 ∧
      ((buf_arg i / ny : Nat) : Int) + dx_list.getD ((rd + j1) % 4) 0 < (nx : Int) ∧
      0 ≤ ((buf_arg i % ny : Nat) : Int) + dy_list.getD ((rd + j1) % 4) 0 ∧
      ((buf_arg i % ny : Nat) : Int) + dy_list.getD ((rd + j1) % 4) 0 < (ny : Int))
  · rw [if_neg (not_not.2 hb)] at hrun
    have hd := dirNbr_toNat hb
    generalize hi2 : ((((buf_arg i / ny : Nat) : Int) + dx_list.getD ((rd + j1) % 4) 0) *
      (ny : Int) + (((buf_arg i % ny : Nat) : Int) + dy_list.getD ((rd + j1) % 4) 0)).toNat =
      index2 at hd hrun
    by_cases hneg : (st.v index2).next < 0
    · rw [if_pos hneg] at hrun
      cases hrun
      exact ⟨hc, hone⟩
    · rw [if_neg hneg] at hrun
      have hF2 : Flooded (nx * ny) buf_arg i index2 :=
        (h.inv.uf.flooded index2).2 (not_lt.1 hneg)
      obtain ⟨top, hget, htop, hFtop⟩ := get_top_eq h.inv.uf hF2
      have hget' : get_top (fun k => (st.v k).next) (nx * ny) index2 = some top := hget
      rw [hget'] at hrun
      simp only [] at hrun
      have hroot_top : nextOf st.v top = (top : Int) := top_root htop
      have hlow : ∀ r, Flooded (nx * ny) buf_arg i r → Ascending (nx * ny) ny img buf_arg →
          pixval ny img (buf_arg i) ≤ pixval ny img r := by
        rintro r ⟨j, hj1, hj2, hj3⟩ hasc
        rw [← hj3]
        exact hasc i j hj1 hj2
      have hnot : ∀ c, Top (nextOf st.v) (buf_arg i) c → c ≠ top →
          ¬ Relation.ReflTransGen (EdgeRel st.v_edge) (buf_arg i) index2 := by
        intro c hTc hcne hr
        obtain ⟨r, hr1, hr2⟩ := (h.inv.uf.conn _ _ hFa hF2).2 hr
        exact hcne ((top_det hTc hr1).trans (top_det hr2 htop))
      have hnotop : ((top : Nat) : Int) = -1 → False := by
        intro hx
        have := Int.ofNat_nonneg top
        omega
      by_cases h1 : st.another_top = -1
      · rw [if_pos h1] at hrun
        cases hrun
        rcases h.cur with ⟨_, hroot, hnoedge⟩ | ⟨c, hc', _⟩
        · have hra : nextOf st.v (buf_arg i) = (buf_arg i : Int) := hroot
          have htopne : buf_arg i ≠ top := by
            intro e
            have hs : SameTop (nextOf st.v) index2 (buf_arg i) :=
              ⟨top, htop, by rw [← e]; exact top_self hra⟩
            have hadj : Adj4 nx ny (buf_arg i) index2 :=
              (dirs4_watershed nx ny _ _).2 ⟨han, (rd + j1) % 4, Nat.mod_lt _ (by norm_num), hd⟩
            have := edgeRel_isolated hnoedge ((h.inv.uf.conn _ _ hF2 hFa).1 hs)
            exact adj4_irrefl (this ▸ hadj)
          refine ⟨gc_link h.inv hc hra hroot_top htopne (hlow top hFtop)
            (hnot _ (top_self hra) htopne) ?_ ?_ rfl ?_, fun hx => (hnotop hx).elim⟩
          · rw [nextOf_recordEdge, nextOf_keep _ _ _ (by rfl), nextOf_set]
          · rw [sizesOf_recordEdge, sizesOf_set, sizesOf_keep _ _ _ (by rfl), hone h1]
            have e : (setVertex st.v (buf_arg i)
                { st.v (buf_arg i) with next := (top : Int) } top).size = sizesOf st.v top := by
              unfold setVertex sizesOf
              rw [if_neg (Ne.symm htopne)]
            dsimp only
            rw [e]
          · intro p
            rw [value_recordEdge, value_setVertex _ _ _ (by rfl),
              value_setVertex _ _ _ (by rfl)]
        · exfalso
          rw [hc'] at h1
          have := Int.ofNat_nonneg c
          omega
      · rw [if_neg h1] at hrun
        rcases h.cur with ⟨h0, _, _⟩ | ⟨c, hc', hTc⟩
        · exact absurd h0 h1
        · have hroot_c : nextOf st.v c = (c : Int) := top_root hTc
          by_cases h2 : 0 ≤ st.another_top ∧ st.another_top ≠ (top : Int)
          · rw [if_pos h2] at hrun
            have hat : st.another_top.toNat = c := by rw [hc']; exact Int.toNat_ofNat c
            have hcne : c ≠ top := by
              intro e
              apply h2.2
              rw [hc', e]
            rw [hat] at hrun
            by_cases h3 : mt ≤ (st.v top).size ∧ mt ≤ (st.v c).size
            · rw [if_pos h3] at hrun
              cases hrun
              exact ⟨hc, hone⟩
            · rw [if_neg h3] at hrun
              by_cases h4 : (st.v c).value < (st.v top).value
              · rw [if_pos h4] at hrun
                cases hrun
                refine ⟨gc_link h.inv hc hroot_c hroot_top hcne ?_ (hnot c hTc hcne) ?_ ?_ rfl ?_,
                  fun hx => (hnotop hx).elim⟩
                · intro _
                  rw [← hc.vals c, ← hc.vals top]
                  exact le_of_lt h4
                · rw [nextOf_recordEdge, nextOf_keep _ _ _ (by rfl), nextOf_set]
                · rw [sizesOf_recordEdge, sizesOf_set, sizesOf_keep _ _ _ (by rfl)]
                  have e1 : (setVertex st.v c { st.v c with next := (top : Int) } top).size =
                      sizesOf st.v top := by
                    unfold setVertex sizesOf
                    rw [if_neg (Ne.symm hcne)]
                  have e2 : (setVertex st.v c { st.v c with next := (top : Int) } c).size =
                      sizesOf st.v c := by
                    unfold setVertex sizesOf
                    rw [if_pos rfl]
                  dsimp only
                  rw [e1, e2]
                · intro p
                  rw [value_recordEdge, value_setVertex _ _ _ (by rfl),
                    value_setVertex _ _ _ (by rfl)]
              · rw [if_neg h4] at hrun
                cases hrun
                refine ⟨gc_link h.inv hc hroot_top hroot_c (Ne.symm hcne) ?_ (hnot c hTc hcne)
                  ?_ ?_ rfl ?_, fun hx => (h1 hx).elim⟩
                · intro _
                  rw [← hc.vals c, ← hc.vals top]
                  exact not_lt.1 h4
                · rw [nextOf_recordEdge, nextOf_keep _ _ _ (by rfl), nextOf_set]
                · rw [sizesOf_recordEdge, sizesOf_set, sizesOf_keep _ _ _ (by rfl)]
                  have e1 : (setVertex st.v top { st.v top with next := (c : Int) } c).size =
                      sizesOf st.v c := by
                    unfold setVertex sizesOf
                    rw [if_neg hcne]
                  have e2 : (setVertex st.v top { st.v top with next := (c : Int) } top).size =
                      sizesOf st.v top := by
                    unfold setVertex sizesOf
                    rw [if_pos rfl]
                  dsimp only
                  rw [e1, e2]
                · intro p
                  rw [value_recordEdge, value_setVertex _ _ _ (by rfl),
                    value_setVertex _ _ _ (by rfl)]
          · rw [if_neg h2] at hrun
            cases hrun
            exact ⟨hc, hone⟩
  · rw [if_pos hb] at hrun
    cases hrun
    exact ⟨hc, hone⟩

/-- The counting invariant holds before any pixel is flooded. -/
theorem gc_init (nx ny : Nat) (img : Int → Int → Int) (buf_arg : Nat → Nat) :
    GCInv nx ny img buf_arg (nx * ny)
      { v := graph.obtain_vertices ny img, v_edge := [], n_edges := 0, another_top := -1,
        asserts := true } := by
  have hno : ∀ r : Nat, nextOf (graph.obtain_vertices ny img) r ≠ (r : Int) := by
    intro r hr
    have e : nextOf (graph.obtain_vertices ny img) r = -1 := rfl
    rw [e] at hr
    have := Int.ofNat_nonneg r
    omega
  refine ⟨fun r hr => absurd hr (hno r), ?_, ?_, fun _ => rfl,
    fun _ p r hT => absurd (top_root hT) (hno r)⟩
  · have e : rootCount (nx * ny) (nextOf (graph.obtain_vertices ny img))
        (sizesOf (graph.obtain_vertices ny img)) 1 = 0 := by
      unfold rootCount
      refine Finset.sum_eq_zero (fun r _ => ?_)
      unfold counted
      rw [if_neg (fun h => hno r h.1)]
    rw [e]
    simp
  · intro k e hk
    simp at hk

/-- Making the pixel at position `i` a top of size 1 keeps the counting
invariant. -/
theorem gc_start {nx ny : Nat} {img : Int → Int → Int} {buf_arg : Nat → Nat} {pt : Int}
    {i : Nat} {st : State} (hv : ValidOrder (nx * ny) buf_arg) (hi : i < nx * ny)
    (h : GInv nx ny img buf_arg pt (i + 1) st) (hc : GCInv nx ny img buf_arg (i + 1) st)
    (b : Bool) :
    GCInv nx ny img buf_arg i
      { ({ st with asserts := b } : State) with
        v := setVertex (setVertex st.v (buf_arg i)
              { st.v (buf_arg i) with next := (buf_arg i : Int) }) (buf_arg i)
              { setVertex st.v (buf_arg i) { st.v (buf_arg i) with next := (buf_arg i : Int) }
                  (buf_arg i) with size := 1 }
        another_top := -1 } := by
  have han : buf_arg i < nx * ny := hv.range i hi
  have hna : ¬ Flooded (nx * ny) buf_arg (i + 1) (buf_arg i) := not_flooded_self hv hi
  have hneg : nextOf st.v (buf_arg i) < 0 := by
    by_contra hx
    exact hna ((h.uf.flooded _).2 (not_lt.1 hx))
  have hvnext : nextOf
      (setVertex (setVertex st.v (buf_arg i) { st.v (buf_arg i) with next := (buf_arg i : Int) })
        (buf_arg i)
        { setVertex st.v (buf_arg i) { st.v (buf_arg i) with next := (buf_arg i : Int) }
            (buf_arg i) with size := 1 }) =
      setInt (nextOf st.v) (buf_arg i) (buf_arg i : Int) := by
    rw [nextOf_keep _ _ _ (by rfl), nextOf_set]
  have hvsize : sizesOf
      (setVertex (setVertex st.v (buf_arg i) { st.v (buf_arg i) with next := (buf_arg i : Int) })
        (buf_arg i)
        { setVertex st.v (buf_arg i) { st.v (buf_arg i) with next := (buf_arg i : Int) }
            (buf_arg i) with size := 1 }) =
      setInt (sizesOf st.v) (buf_arg i) 1 := by
    rw [sizesOf_set, sizesOf_keep _ _ _ (by rfl)]
  refine ⟨?_, ?_, hc.forest, ?_, ?_⟩
  · dsimp only
    rw [hvnext, hvsize]
    exact sizes_new h.uf hna han hc.sizes
  · dsimp only
    rw [hvnext, hvsize, rootCount_new 1 hneg han, if_pos (le_refl _)]
    have := hc.count
    have e : ((nx * ny - i : Nat) : Int) = ((nx * ny - (i + 1) : Nat) : Int) + 1 := by
      have : nx * ny - i = nx * ny - (i + 1) + 1 := by omega
      rw [this]
      push_cast
      rfl
    rw [e]
    linarith
  · intro p
    dsimp only
    rw [value_setVertex _ _ _ (by rfl), value_setVertex _ _ _ (by rfl)]
    exact hc.vals p
  · intro hasc p r hT
    dsimp only at hT
    rw [hvnext] at hT
    rcases (top_new_iff h.uf hna han p r).1 hT with ⟨e1, e2⟩ | h1
    · rw [e1, e2]
    · exact hc.maxv hasc p r h1

/-- Every state reached by `construct_graph` satisfies the counting invariant
and the forest invariant of its program point. -/
theorem reached_inv {nx ny : Nat} {img : Int → Int → Int} {buf_arg : Nat → Nat}
    {pt mt seed : Int} {rand4 : Nat → Nat} (hv : ValidOrder (nx * ny) buf_arg)
    {i j : Nat} {st : State} (h : Reached nx ny img buf_arg pt mt seed rand4 i j st) :
    GCInv nx ny img buf_arg i st ∧
      ((i = nx * ny ∧ j = 4 ∧ GInv nx ny img buf_arg pt (nx * ny) st) ∨
        (i < nx * ny ∧ j ≤ 4 ∧ GVInv nx ny img buf_arg pt i st ∧
          (st.another_top = -1 → sizesOf st.v (buf_arg i) = 1))) := by
  induction h with
  | init => exact ⟨gc_init nx ny img buf_arg, Or.inl ⟨rfl, rfl, graph_inv_init nx ny img buf_arg pt⟩⟩
  | @start i st _ habove ih =>
    obtain ⟨hc, hx⟩ := ih
    have hgi : i < nx * ny ∧ GInv nx ny img buf_arg pt (i + 1) st := by
      rcases hx with ⟨e, _, hg⟩ | ⟨hlt, _, hg, _⟩
      · exact ⟨by omega, by rw [e]; exact hg⟩
      · exact ⟨by omega, hg.inv⟩
    obtain ⟨hi, hg⟩ := hgi
    refine ⟨gc_start hv hi hg hc _, Or.inr ⟨hi, Nat.zero_le _, ?_, fun _ => ?_⟩⟩
    · exact graph_pixel_start hv hi (not_lt.1 habove)
        (@graph_inv_frame nx ny img buf_arg pt (i + 1) st
          { st with asserts := st.asserts && decide (buf_arg i < nx * ny) } hg rfl rfl)
    · dsimp only
      rw [sizesOf_set]
      exact setInt_same _ _ _
  | @visit i j st st' _ hj hrun ih =>
    obtain ⟨hc, hx⟩ := ih
    rcases hx with ⟨_, e, _⟩ | ⟨hi, _, hg, hone⟩
    · omega
    · obtain ⟨st'', hrun', hg', -⟩ :=
        @graph_visit_shape nx ny img buf_arg pt mt i st hv hi (if seed = 0 then 0 else rand4 i) j hg
      have e : st'' = st' := by
        rw [hrun] at hrun'
        exact (Option.some.inj hrun').symm
      rw [e] at hg'
      obtain ⟨hc', hone'⟩ := graph_visit_count hv hi _ j hg hc hone hrun
      exact ⟨hc', Or.inr ⟨hi, hj, hg', hone'⟩⟩

/-- Four visits from the state in which a pixel is started lead to a state
reached at the end of its iteration. -/
theorem floodPixel_reached {nx ny : Nat} {img : Int → Int → Int} {buf_arg : Nat → Nat}
    {pt mt seed : Int} {rand4 : Nat → Nat} {i : Nat} {st st1 : State}
    (h : Reached nx ny img buf_arg pt mt seed rand4 (i + 1) 4 st)
    (habove : ¬ (pixval ny img (buf_arg i) < pt))
    (hrun : floodPixel nx ny mt (buf_arg i) (pixval ny img (buf_arg i))
      (if seed = 0 then 0 else rand4 i)
      { st with asserts := st.asserts && decide (buf_arg i < nx * ny) } = some st1) :
    Reached nx ny img buf_arg pt mt seed rand4 i 4 st1 := by
  have h0 := Reached.start h habove
  unfold floodPixel at hrun
  simp only [] at hrun
  cases h1 : visitNeighbor nx ny mt (buf_arg i) (pixval ny img (buf_arg i))
      (if seed = 0 then 0 else rand4 i)
      { ({ st with asserts := st.asserts && decide (buf_arg i < nx * ny) } : State) with
        v := setVertex (setVertex st.v (buf_arg i)
              { st.v (buf_arg i) with next := (buf_arg i : Int) }) (buf_arg i)
              { setVertex st.v (buf_arg i) { st.v (buf_arg i) with next := (buf_arg i : Int) }
                  (buf_arg i) with size := 1 }
        another_top := -1 } 0 with
  | none => rw [h1] at hrun; cases hrun
  | some s1 =>
    rw [h1, Option.some_bind] at hrun
    cases h2 : visitNeighbor nx ny mt (buf_arg i) (pixval ny img (buf_arg i))
        (if seed = 0 then 0 else rand4 i) s1 1 with
    | none => rw [h2] at hrun; cases hrun
    | some s2 =>
      rw [h2, Option.some_bind] at hrun
      cases h3 : visitNeighbor nx ny mt (buf_arg i) (pixval ny img (buf_arg i))
          (if seed = 0 then 0 else rand4 i) s2 2 with
      | none => rw [h3] at hrun; cases hrun
      | some s3 =>
        rw [h3, Option.some_bind] at hrun
        exact Reached.visit (Reached.visit (Reached.visit (Reached.visit h0 (by norm_num) h1)
          (by norm_num) h2) (by norm_num) h3) (by norm_num) hrun

/-- The state returned by the main loop is, up to the assertion flag, a state
reached at the end of an iteration. -/
theorem flood_reached {nx ny : Nat} {img : Int → Int → Int} {buf_arg : Nat → Nat}
    {pt mt seed : Int} {rand4 : Nat → Nat} :
    ∀ (k : Nat) (st g : State), Reached nx ny img buf_arg pt mt seed rand4 k 4 st →
      flood nx ny img buf_arg pt mt seed rand4 k st = some g →
      ∃ k' st', Reached nx ny img buf_arg pt mt seed rand4 k' 4 st' ∧ g.v = st'.v ∧
        g.v_edge = st'.v_edge := by
  intro k
  induction k with
  | zero =>
    intro st g h hrun
    unfold flood at hrun
    cases hrun
    exact ⟨0, st, h, rfl, rfl⟩
  | succ k ih =>
    intro st g h hrun
    unfold flood at hrun
    simp only [] at hrun
    by_cases hlt : pixval ny img (buf_arg k) < pt
    · rw [if_pos hlt] at hrun
      cases hrun
      exact ⟨k + 1, st, h, rfl, rfl⟩
    · rw [if_neg hlt] at hrun
      cases h1 : floodPixel nx ny mt (buf_arg k) (pixval ny img (buf_arg k))
          (if seed = 0 then 0 else rand4 k)
          { st with asserts := st.asserts && decide (buf_arg k < nx * ny) } with
      | none => rw [h1] at hrun; cases hrun
      | some st1 =>
        rw [h1] at hrun
        exact ih st1 g (floodPixel_reached h hlt h1) hrun

/-- The graph returned by `construct_graph` is, up to the assertion flag, a
state reached at the end of an iteration. -/
theorem construct_graph_reached {nx ny : Nat} {img : Int → Int → Int} {buf_arg : Nat → Nat}
    {pt mt seed : Int} {rand4 : Nat → Nat} {g : State}
    (hrun : construct_graph nx ny img buf_arg pt mt seed rand4 = some g) :
    ∃ k st, Reached nx ny img buf_arg pt mt seed rand4 k 4 st ∧ g.v = st.v ∧
      g.v_edge = st.v_edge :=
  flood_reached (nx * ny) _ g Reached.init hrun

end Watershed

end Cellular

namespace Cellular

/-! ## Tops, sizes and edges of the graph built -/

namespace Watershed

/-- The forest invariant and the counting invariant of a reached state, for
the positions flooded so far. -/
theorem reached_ginv {nx ny : Nat} {img : Int → Int → Int} {buf_arg : Nat → Nat}
    {pt mt seed : Int} {rand4 : Nat → Nat} (hv : ValidOrder (nx * ny) buf_arg)
    {i j : Nat} {st : State} (h : Reached nx ny img buf_arg pt mt seed rand4 i j st) :
    GInv nx ny img buf_arg pt i st ∧ GCInv nx ny img buf_arg i st := by
  obtain ⟨hc, hx⟩ := reached_inv hv h
  rcases hx with ⟨e, _, hg⟩ | ⟨_, _, hg, _⟩
  · exact ⟨by rw [e]; exact hg, hc⟩
  · exact ⟨hg.inv, hc⟩

/-- In a forest whose tops store their class sizes the stored sizes are the
class sizes and add up to the number of flooded pixels. -/
theorem rootSizes_of_inv {n : Nat} {v : Nat → Vertex} {F : Nat → Prop} {R : Nat → Nat → Prop}
    (hu : UF n (nextOf v) F R)
    (hs : ∀ r, nextOf v r = (r : Int) →
      ∃ l, ClassList (nextOf v) r l ∧ sizesOf v r = (l.length : Int)) :
    RootSizes n v :=
  ⟨hs, class_sizes_sum hu (sizesOf v) hs⟩

/-- The result of handling a flooded neighbour whose top differs from the top
already joined by the pixel being flooded. -/
theorem visit_second {nx ny : Nat} {mt : Int} {index1 : Nat} {f1 : Int} {rd : Nat} {st : State}
    {j1 index2 top atop : Nat}
    (hd : DirNbr nx ny (dx_list.getD ((rd + j1) % 4) 0) (dy_list.getD ((rd + j1) % 4) 0)
      index1 index2)
    (hfl : 0 ≤ (st.v index2).next)
    (htop : get_top (fun k => (st.v k).next) (nx * ny) index2 = some top)
    (hat : st.another_top = (atop : Int)) (hne : atop ≠ top) :
    visitNeighbor nx ny mt index1 f1 rd st j1 =
      some (if mt ≤ (st.v top).size ∧ mt ≤ (st.v atop).size then st
        else if (st.v atop).value < (st.v top).value then
          recordEdge st
            (setVertex (setVertex st.v atop { st.v atop with next := (top : Int) }) top
              { setVertex st.v atop { st.v atop with next := (top : Int) } top with
                size := (setVertex st.v atop { st.v atop with next := (top : Int) } top).size +
                  (setVertex st.v atop { st.v atop with next := (top : Int) } atop).size })
            (top : Int) index1 index2 j1 ((j1 + 2) % 4) f1
        else
          recordEdge st
            (setVertex (setVertex st.v top { st.v top with next := (atop : Int) }) atop
              { setVertex st.v top { st.v top with next := (atop : Int) } atop with
                size := (setVertex st.v top { st.v top with next := (atop : Int) } atop).size +
                  (setVertex st.v top { st.v top with next := (atop : Int) } top).size })
            st.another_top index1 index2 j1 ((j1 + 2) % 4) f1) := by
  have hb := dirNbr_bounds hd
  have hidx := dirNbr_unique (dirNbr_toNat hb) hd
  have hnat : (0 : Int) ≤ (atop : Int) := Int.ofNat_nonneg atop
  have h1 : ¬ st.another_top = -1 := by rw [hat]; omega
  have h2 : 0 ≤ st.another_top ∧ st.another_top ≠ (top : Int) := by
    rw [hat]
    exact ⟨hnat, fun e => hne (Int.ofNat_inj.1 e)⟩
  have h3 : st.another_top.toNat = atop := by rw [hat]; exact Int.toNat_ofNat atop
  unfold visitNeighbor
  simp only []
  rw [if_neg (not_not.2 hb), hidx, if_neg (not_lt.2 hfl), htop]
  simp only []
  rw [if_neg h1, if_pos h2, h3]
  split_ifs <;> rfl

/-- A forest keeps its invariant when the relation is replaced by one with the
same classes on the flooded pixels. -/
theorem uf_replace {n : Nat} {v_next : Nat → Int} {F : Nat → Prop} {R R' : Nat → Nat → Prop}
    (hu : UF n v_next F R) (hrel : ∀ x y, R' x y → F x ∧ F y)
    (h : ∀ p q, F p → F q →
      (Relation.ReflTransGen R p q ↔ Relation.ReflTransGen R' p q)) : UF n v_next F R' :=
  ⟨hu.flooded, hu.bound, hu.closed, hu.top, hrel,
    fun p q hp hq => (hu.conn p q hp hq).trans (h p q hp hq)⟩

end Watershed

/-- **C22.** For every grid, intensity order that is a permutation of the pixel
indices, thresholds and directions: in every state that `construct_graph`
passes through (at the head of the main loop and after each of the four
directions of a pixel), and in the graph it returns, every pixel `r` that is
its own `next` stores as size the number of pixels whose chain of `next` links
ends at `r`, and the sizes stored at these pixels add up to the number of
flooded pixels. -/
theorem C22_root_sizes_are_class_sizes (nx ny : Nat) (img : Int → Int → Int)
    (buf_arg : Nat → Nat) (pixel_threshold merge_threshold seed : Int) (rand4 : Nat → Nat)
    (hv : ValidOrder (nx * ny) buf_arg) :
    (∀ i j st,
      Watershed.Reached nx ny img buf_arg pixel_threshold merge_threshold seed rand4 i j st →
        Watershed.RootSizes (nx * ny) st.v) ∧
    ∃ g, Watershed.construct_graph nx ny img buf_arg pixel_threshold merge_threshold seed rand4 =
        some g ∧ Watershed.RootSizes (nx * ny) g.v := by
  have hall : ∀ i j st,
      Watershed.Reached nx ny img buf_arg pixel_threshold merge_threshold seed rand4 i j st →
        Watershed.RootSizes (nx * ny) st.v := by
    intro i j st h
    obtain ⟨hg, hc⟩ := Watershed.reached_ginv hv h
    exact Watershed.rootSizes_of_inv hg.uf hc.sizes
  refine ⟨hall, ?_⟩
  obtain ⟨g, k, hrun, _⟩ :=
    Watershed.construct_graph_inv img pixel_threshold merge_threshold seed rand4 hv
  obtain ⟨k', st, hr, e1, _⟩ := Watershed.construct_graph_reached hrun
  refine ⟨g, hrun, ?_⟩
  rw [e1]
  exact hall k' 4 st hr

/-- Instance of C22 on the 1 × 2 grid of value 10 with the identity order,
built with pixel threshold 5, merge threshold 100 and seed 0. -/
theorem C22_root_sizes_are_class_sizes_witness :
    ValidOrder (1 * 2) (fun i => i) ∧
    ((∀ i j st,
      Watershed.Reached 1 2 (fun _ _ => 10) (fun i => i) 5 100 0 (fun _ => 0) i j st →
        Watershed.RootSizes (1 * 2) st.v) ∧
    ∃ g, Watershed.construct_graph 1 2 (fun _ _ => 10) (fun i => i) 5 100 0 (fun _ => 0) =
        some g ∧ Watershed.RootSizes (1 * 2) g.v) :=
  have hv : ValidOrder (1 * 2) (fun i => i) :=
    ⟨fun _ h => h, fun _ _ _ _ h => h, fun p h => ⟨p, h, rfl⟩⟩
  ⟨hv, C22_root_sizes_are_class_sizes 1 2 _ _ 5 100 0 (fun _ => 0) hv⟩

/-- **C23.** For every grid, intensity order that is a permutation of the pixel
indices, thresholds and directions, `construct_graph` returns a graph in which
the number of recorded edges plus the number of pixels that are their own
`next` is the number of flooded pixels; no recorded edge joins two pixels that
the edges recorded before it already join (the edges form a forest); and two
flooded pixels have the same top exactly when recorded edges join them. -/
theorem C23_edges_form_spanning_forest (nx ny : Nat) (img : Int → Int → Int)
    (buf_arg : Nat → Nat) (pixel_threshold merge_threshold seed : Int) (rand4 : Nat → Nat)
    (hv : ValidOrder (nx * ny) buf_arg) :
    ∃ g, Watershed.construct_graph nx ny img buf_arg pixel_threshold merge_threshold seed rand4 =
        some g ∧
      g.v_edge.length +
          ((Finset.range (nx * ny)).filter (fun r => (g.v r).next = (r : Int))).card =
        ((Finset.range (nx * ny)).filter (fun p => 0 ≤ (g.v p).next)).card ∧
      Watershed.Forest g.v_edge ∧
      ∀ p q, 0 ≤ (g.v p).next → 0 ≤ (g.v q).next →
        (SameTop (Watershed.nextOf g.v) p q ↔
          Relation.ReflTransGen (Watershed.EdgeRel g.v_edge) p q) := by
  obtain ⟨g, k, hrun, _⟩ :=
    Watershed.construct_graph_inv img pixel_threshold merge_threshold seed rand4 hv
  obtain ⟨k', st, hr, e1, e2⟩ := Watershed.construct_graph_reached hrun
  obtain ⟨hg, hc⟩ := Watershed.reached_ginv hv hr
  refine ⟨g, hrun, ?_, ?_, ?_⟩
  · rw [e1, e2]
    have h1 := hc.count
    rw [rootCount_one hc.sizes] at h1
    have h2 := flooded_card hv hg.uf
    have h3 : ((Finset.range (nx * ny)).filter (fun p => 0 ≤ (st.v p).next)).card =
        nx * ny - k' := h2
    rw [h3]
    have h4 : ((st.v_edge.length : Int) +
        (((Finset.range (nx * ny)).filter (fun r => (st.v r).next = (r : Int))).card : Int)) =
        ((nx * ny - k' : Nat) : Int) := h1
    exact_mod_cast h4
  · rw [e2]
    exact hc.forest
  · intro p q hp hq
    rw [e1, e2]
    rw [e1] at hp hq
    exact hg.uf.conn p q ((hg.uf.flooded p).2 hp) ((hg.uf.flooded q).2 hq)

/-- Instance of C23 on the 1 × 2 grid of value 10 with the identity order,
built with pixel threshold 5, merge threshold 100 and seed 0. -/
theorem C23_edges_form_spanning_forest_witness :
    ValidOrder (1 * 2) (fun i => i) ∧
    ∃ g, Watershed.construct_graph 1 2 (fun _ _ => 10) (fun i => i) 5 100 0 (fun _ => 0) =
        some g ∧
      g.v_edge.length +
          ((Finset.range (1 * 2)).filter (fun r => (g.v r).next = (r : Int))).card =
        ((Finset.range (1 * 2)).filter (fun p => 0 ≤ (g.v p).next)).card ∧
      Watershed.Forest g.v_edge ∧
      ∀ p q, 0 ≤ (g.v p).next → 0 ≤ (g.v q).next →
        (SameTop (Watershed.nextOf g.v) p q ↔
          Relation.ReflTransGen (Watershed.EdgeRel g.v_edge) p q) :=
  have hv : ValidOrder (1 * 2) (fun i => i) :=
    ⟨fun _ h => h, fun _ _ _ _ h => h, fun p h => ⟨p, h, rfl⟩⟩
  ⟨hv, C23_edges_form_spanning_forest 1 2 _ _ 5 100 0 (fun _ => 0) hv⟩

/-- **C24 fails.** On the 1 × 3 grid with values 10, 30, 20 and the ascending
order 0, 2, 1 (valid and ascending), built with pixel threshold 5, merge
threshold 100, a non-zero seed and the starting directions 2 for pixel 2 and 0
for pixel 0: both pixels record their edge to pixel 1 with loop counter 0, so
both write slot 2 of pixel 1.  The second write finds the slot occupied (the
assertion `v[index2].edge[j2] == -1` fails) and overwrites the reference to
edge 0 by edge 1. -/
theorem C24_slot_overwritten :
    ValidOrder (1 * 3) (fun i => if i = 0 then 0 else if i = 1 then 2 else 1) ∧
    Ascending (1 * 3) 3 (fun _ iy => if iy = 0 then 10 else if iy = 1 then 30 else 20)
      (fun i => if i = 0 then 0 else if i = 1 then 2 else 1) ∧
    ∃ g, Watershed.construct_graph 1 3
        (fun _ iy => if iy = 0 then 10 else if iy = 1 then 30 else 20)
        (fun i => if i = 0 then 0 else if i = 1 then 2 else 1) 5 100 1
        (fun i => if i = 1 then 2 else 0) = some g ∧
      g.asserts = false ∧ g.v_edge = [⟨2, 1, 20⟩, ⟨0, 1, 10⟩] ∧ (g.v 1).edge 2 = 1 ∧
      ∀ d, d < 4 → (g.v 1).edge d ≠ 0 := by
  refine ⟨⟨?_, ?_, ?_⟩, ?_, ?_⟩
  · intro j hj
    beta_reduce
    split_ifs <;> omega
  · intro i j hi hj h
    beta_reduce at h
    split_ifs at h <;> omega
  · intro p hp
    have hp3 : p < 3 := by omega
    interval_cases p
    · exact ⟨0, by norm_num, by simp⟩
    · exact ⟨2, by norm_num, by simp⟩
    · exact ⟨1, by norm_num, by simp⟩
  · intro i j hij hj
    have hj3 : j < 3 := by omega
    interval_cases j <;> interval_cases i <;> simp [pixval]
  · have hrun : (Watershed.construct_graph 1 3
        (fun _ iy => if iy = 0 then 10 else if iy = 1 then 30 else 20)
        (fun i => if i = 0 then 0 else if i = 1 then 2 else 1) 5 100 1
        (fun i => if i = 1 then 2 else 0)).map
        (fun g => (g.asserts, g.v_edge, (g.v 1).edge 0, (g.v 1).edge 1, (g.v 1).edge 2,
          (g.v 1).edge 3)) =
        some (false, [⟨2, 1, 20⟩, ⟨0, 1, 10⟩], -1, -1, 1, -1) := by decide!
    cases hg : Watershed.construct_graph 1 3
        (fun _ iy => if iy = 0 then 10 else if iy = 1 then 30 else 20)
        (fun i => if i = 0 then 0 else if i = 1 then 2 else 1) 5 100 1
        (fun i => if i = 1 then 2 else 0) with
    | none => rw [hg] at hrun; cases hrun
    | some g =>
      rw [hg, Option.map_some'] at hrun
      have e := Option.some.inj hrun
      simp only [Prod.mk.injEq] at e
      obtain ⟨e1, e2, e3, e4, e5, e6⟩ := e
      refine ⟨g, rfl, e1, e2, e5, ?_⟩
      intro d hd
      interval_cases d
      · rw [e3]; decide
      · rw [e4]; decide
      · rw [e5]; decide
      · rw [e6]; decide

/-- **C25.** For every grid, valid ascending intensity order, thresholds and
directions: `construct_graph` returns a graph in which, for every flooded
pixel, `get_top` returns a top whose value is at least the value of the pixel;
and whenever a flooded neighbour has a top `top` different from the top `atop`
already assigned to the pixel being flooded and the union is not skipped, then
if the value of `top` is strictly higher `atop` is linked under `top`, which
becomes the assigned top, and otherwise (also on a tie) `top` is linked under
`atop`, which stays the assigned top. -/
theorem C25_top_holds_maximum (nx ny : Nat) (img : Int → Int → Int) (buf_arg : Nat → Nat)
    (pixel_threshold merge_threshold seed : Int) (rand4 : Nat → Nat)
    (hv : ValidOrder (nx * ny) buf_arg) (hasc : Ascending (nx * ny) ny img buf_arg) :
    (∃ g, Watershed.construct_graph nx ny img buf_arg pixel_threshold merge_threshold seed
        rand4 = some g ∧
      ∀ p, 0 ≤ (g.v p).next →
        ∃ r, get_top (fun k => (g.v k).next) (nx * ny) p = some r ∧
          (g.v p).value ≤ (g.v r).value) ∧
    ∀ (st : Watershed.State) (index1 : Nat) (f1 : Int) (rd j1 index2 top atop : Nat),
      DirNbr nx ny (Watershed.dx_list.getD ((rd + j1) % 4) 0)
        (Watershed.dy_list.getD ((rd + j1) % 4) 0) index1 index2 →
      0 ≤ (st.v index2).next →
      get_top (fun k => (st.v k).next) (nx * ny) index2 = some top →
      st.another_top = (atop : Int) → atop ≠ top →
      ¬ (merge_threshold ≤ (st.v top).size ∧ merge_threshold ≤ (st.v atop).size) →
      ∃ st', Watershed.visitNeighbor nx ny merge_threshold index1 f1 rd st j1 = some st' ∧
        if (st.v atop).value < (st.v top).value then
          (st'.v atop).next = (top : Int) ∧ (st'.v top).next = (st.v top).next ∧
            st'.another_top = (top : Int)
        else
          (st'.v top).next = (atop : Int) ∧ (st'.v atop).next = (st.v atop).next ∧
            st'.another_top = (atop : Int) := by
  constructor
  · obtain ⟨g, k, hrun, _⟩ :=
      Watershed.construct_graph_inv img pixel_threshold merge_threshold seed rand4 hv
    obtain ⟨k', st, hr, e1, _⟩ := Watershed.construct_graph_reached hrun
    obtain ⟨hg, hc⟩ := Watershed.reached_ginv hv hr
    refine ⟨g, hrun, ?_⟩
    rw [e1]
    intro p hp
    obtain ⟨r, h1, h2, _⟩ := get_top_eq hg.uf ((hg.uf.flooded p).2 hp)
    refine ⟨r, h1, ?_⟩
    rw [hc.vals p, hc.vals r]
    exact hc.maxv hasc p r h2
  · intro st index1 f1 rd j1 index2 top atop hd hfl htop hat hne hskip
    rw [Watershed.visit_second hd hfl htop hat hne, if_neg hskip]
    by_cases h : (st.v atop).value < (st.v top).value
    · rw [if_pos h]
      refine ⟨_, rfl, ?_⟩
      rw [if_pos h]
      refine ⟨?_, ?_, rfl⟩
      · change Watershed.nextOf _ atop = _
        rw [Watershed.nextOf_recordEdge, Watershed.nextOf_keep _ _ _ (by rfl),
          Watershed.nextOf_set]
        exact setInt_same _ _ _
      · change Watershed.nextOf _ top = Watershed.nextOf st.v top
        rw [Watershed.nextOf_recordEdge, Watershed.nextOf_keep _ _ _ (by rfl),
          Watershed.nextOf_set]
        exact setInt_other _ _ (Ne.symm hne)
    · rw [if_neg h]
      refine ⟨_, rfl, ?_⟩
      rw [if_neg h]
      refine ⟨?_, ?_, hat⟩
      · change Watershed.nextOf _ top = _
        rw [Watershed.nextOf_recordEdge, Watershed.nextOf_keep _ _ _ (by rfl),
          Watershed.nextOf_set]
        exact setInt_same _ _ _
      · change Watershed.nextOf _ atop = Watershed.nextOf st.v atop
        rw [Watershed.nextOf_recordEdge, Watershed.nextOf_keep _ _ _ (by rfl),
          Watershed.nextOf_set]
        exact setInt_other _ _ hne

/-- Instance of C25 on the 1 × 2 grid of value 10 with the identity order,
built with pixel threshold 5, merge threshold 100 and seed 0. -/
theorem C25_top_holds_maximum_witness :
    ValidOrder (1 * 2) (fun i => i) ∧
    Ascending (1 * 2) 2 (fun _ _ => 10) (fun i => i) ∧
    ∃ g, Watershed.construct_graph 1 2 (fun _ _ => 10) (fun i => i) 5 100 0 (fun _ => 0) =
        some g ∧
      ∀ p, 0 ≤ (g.v p).next →
        ∃ r, get_top (fun k => (g.v k).next) (1 * 2) p = some r ∧
          (g.v p).value ≤ (g.v r).value :=
  have hv : ValidOrder (1 * 2) (fun i => i) :=
    ⟨fun _ h => h, fun _ _ _ _ h => h, fun p h => ⟨p, h, rfl⟩⟩
  have hasc : Ascending (1 * 2) 2 (fun _ _ => 10) (fun i => i) := fun _ _ _ _ => le_refl _
  ⟨hv, hasc, (C25_top_holds_maximum 1 2 _ _ 5 100 0 (fun _ => 0) hv hasc).1⟩

/-- **C26.** In `construct_graph`, when a flooded neighbour of the pixel being
flooded has a top `top` different from the top `atop` already assigned to the
pixel: if both tops have size `>= merge_threshold` the neighbour changes
nothing (the state after the direction is the state before it); consequently,
whenever the state changes, one of the two tops has size `< merge_threshold`. -/
theorem C26_large_tops_not_merged (nx ny : Nat) (merge_threshold : Int)
    (st : Watershed.State) (index1 : Nat) (f1 : Int) (rd j1 index2 top atop : Nat)
    (hd : DirNbr nx ny (Watershed.dx_list.getD ((rd + j1) % 4) 0)
      (Watershed.dy_list.getD ((rd + j1) % 4) 0) index1 index2)
    (hfl : 0 ≤ (st.v index2).next)
    (htop : get_top (fun k => (st.v k).next) (nx * ny) index2 = some top)
    (hat : st.another_top = (atop : Int)) (hne : atop ≠ top) :
    ((merge_threshold ≤ (st.v top).size ∧ merge_threshold ≤ (st.v atop).size) →
      Watershed.visitNeighbor nx ny merge_threshold index1 f1 rd st j1 = some st) ∧
    ∀ st', Watershed.visitNeighbor nx ny merge_threshold index1 f1 rd st j1 = some st' →
      st' ≠ st → (st.v top).size < merge_threshold ∨ (st.v atop).size < merge_threshold := by
  have hskip : (merge_threshold ≤ (st.v top).size ∧ merge_threshold ≤ (st.v atop).size) →
      Watershed.visitNeighbor nx ny merge_threshold index1 f1 rd st j1 = some st := by
    intro h
    rw [Watershed.visit_second hd hfl htop hat hne, if_pos h]
  refine ⟨hskip, fun st' hrun hneq => ?_⟩
  by_contra hx
  have hboth : merge_threshold ≤ (st.v top).size ∧ merge_threshold ≤ (st.v atop).size := by
    constructor
    · by_contra h1
      exact hx (Or.inl (not_le.1 h1))
    · by_contra h1
      exact hx (Or.inr (not_le.1 h1))
  rw [hskip hboth] at hrun
  exact hneq (Option.some.inj hrun).symm

/-- Instance of C26 on the 1 × 3 grid with merge threshold 1: pixel 1 is being
flooded, has joined the top 2 in direction 0 and meets in direction 2 the
pixel 0, a top of size 1. -/
theorem C26_large_tops_not_merged_witness :
    DirNbr 1 3 (Watershed.dx_list.getD ((0 + 2) % 4) 0)
      (Watershed.dy_list.getD ((0 + 2) % 4) 0) 1 0 ∧
    (1 : Int) ≤ 1 ∧ (1 : Int) ≤ 2 ∧
    Watershed.visitNeighbor 1 3 1 1 5 0
      { v := fun k => if k = 0 then ⟨10, 0, 1, fun _ => -1⟩
          else if k = 1 then ⟨5, 2, 1, fun d => if d = 0 then 0 else -1⟩
          else ⟨10, 2, 2, fun d => if d = 2 then 0 else -1⟩
        v_edge := [⟨1, 2, 5⟩], n_edges := 1, another_top := 2, asserts := true } 2 =
      some
      { v := fun k => if k = 0 then ⟨10, 0, 1, fun _ => -1⟩
          else if k = 1 then ⟨5, 2, 1, fun d => if d = 0 then 0 else -1⟩
          else ⟨10, 2, 2, fun d => if d = 2 then 0 else -1⟩
        v_edge := [⟨1, 2, 5⟩], n_edges := 1, another_top := 2, asserts := true } :=
  have hd : DirNbr 1 3 (Watershed.dx_list.getD ((0 + 2) % 4) 0)
      (Watershed.dy_list.getD ((0 + 2) % 4) 0) 1 0 := by
    unfold DirNbr
    decide
  ⟨hd, le_refl _, by decide,
    (C26_large_tops_not_merged 1 3 1
      { v := fun k => if k = 0 then ⟨10, 0, 1, fun _ => -1⟩
          else if k = 1 then ⟨5, 2, 1, fun d => if d = 0 then 0 else -1⟩
          else ⟨10, 2, 2, fun d => if d = 2 then 0 else -1⟩
        v_edge := [⟨1, 2, 5⟩], n_edges := 1, another_top := 2, asserts := true }
      1 5 0 2 0 0 2 hd (by decide) (by decide) rfl (by decide)).1 ⟨le_refl _, by decide⟩⟩

/-- **C29.** For every grid, valid ascending intensity order, pixel threshold
and directions, with a merge threshold greater than the number of pixels:
`construct_graph` returns a graph in which `get_top` returns the same top for
two pixels of value `>= pixel_threshold` exactly when a 4-connected path of
pixels of value `>= pixel_threshold` joins them; and
`obtain_cluster_sizes pixel_threshold 1` on it lists, one entry per component
and without repetition of a component, the numbers of pixels of exactly the
maximal 4-connected sets of pixels of value `>= pixel_threshold`. -/
theorem C29_tops_are_components (nx ny : Nat) (img : Int → Int → Int) (buf_arg : Nat → Nat)
    (pixel_threshold merge_threshold seed : Int) (rand4 : Nat → Nat)
    (hv : ValidOrder (nx * ny) buf_arg) (hasc : Ascending (nx * ny) ny img buf_arg)
    (hmt : ((nx * ny : Nat) : Int) < merge_threshold) :
    ∃ g, Watershed.construct_graph nx ny img buf_arg pixel_threshold merge_threshold seed
        rand4 = some g ∧
      (∀ p q, InThr nx ny img pixel_threshold p → InThr nx ny img pixel_threshold q →
        ((∃ r, get_top (fun k => (g.v k).next) (nx * ny) p = some r ∧
            get_top (fun k => (g.v k).next) (nx * ny) q = some r) ↔
          Reach nx ny img pixel_threshold p q)) ∧
      ∃ comps : List (Finset Nat), comps.Nodup ∧
        (∀ S, S ∈ comps ↔ IsComponent nx ny img pixel_threshold S) ∧
        Watershed.obtain_cluster_sizes g.v (nx * ny) pixel_threshold 1 =
          comps.map (fun S => (S.card : Int)) := by
  classical
  obtain ⟨g, k, hrun, hg, hf, hlow⟩ :=
    Watershed.construct_graph_full img pixel_threshold merge_threshold seed rand4 hv hasc hmt
  have hval := fun p => Watershed.value_construct_graph hrun p
  have hFl : ∀ p, Flooded (nx * ny) buf_arg k p ↔ InThr nx ny img pixel_threshold p := by
    intro p
    constructor
    · rintro ⟨j, h1, h2, rfl⟩
      exact ⟨hv.range j h2, hg.above j h1 h2⟩
    · rintro ⟨hp, hpt⟩
      obtain ⟨j, hj, rfl⟩ := hv.surj p hp
      refine ⟨j, ?_, hj, rfl⟩
      by_contra hjk
      have := hlow j (not_le.1 hjk)
      omega
  have hedges : ∀ e ∈ g.v_edge, pixel_threshold ≤ e.value := by
    intro e he
    obtain ⟨_, _, _, _, _, _, _, _, _, h8⟩ := hg.edges e he
    exact h8
  have hconn : ∀ p q, InThr nx ny img pixel_threshold p → InThr nx ny img pixel_threshold q →
      (Relation.ReflTransGen (Watershed.EdgeRel g.v_edge) p q ↔
        Relation.ReflTransGen (AdjF nx ny (InThr nx ny img pixel_threshold)) p q) := by
    intro p q _ _
    have h1 := Watershed.joined_iff_reach hv hasc (le_refl pixel_threshold) hg hf hlow p q
    constructor
    · intro h
      exact h1.1 (Watershed.rtgT_of_edgeRel hedges h)
    · intro h
      refine Relation.ReflTransGen.mono ?_ (h1.2 h)
      rintro a b ⟨e, he, _, hp⟩
      exact ⟨e, he, hp⟩
  have hu : UF (nx * ny) (Watershed.nextOf g.v) (InThr nx ny img pixel_threshold)
      (AdjF nx ny (InThr nx ny img pixel_threshold)) :=
    Watershed.uf_replace (uf_congrF hg.uf hFl) (fun x y h => ⟨h.1, h.2.1⟩) hconn
  have hsame : ∀ p q, InThr nx ny img pixel_threshold p → InThr nx ny img pixel_threshold q →
      ((∃ r, get_top (fun k => (g.v k).next) (nx * ny) p = some r ∧
          get_top (fun k => (g.v k).next) (nx * ny) q = some r) ↔
        SameTop (Watershed.nextOf g.v) p q) := by
    intro p q hp hq
    constructor
    · rintro ⟨r, h1, h2⟩
      exact ⟨r, top_of_get_top _ _ _ h1, top_of_get_top _ _ _ h2⟩
    · rintro ⟨r, h1, h2⟩
      obtain ⟨r1, e1, t1, _⟩ := get_top_eq hu hp
      obtain ⟨r2, e2, t2, _⟩ := get_top_eq hu hq
      refine ⟨r, ?_, ?_⟩
      · rw [top_det h1 t1]; exact e1
      · rw [top_det h2 t2]; exact e2
  refine ⟨g, hrun, fun p q hp hq => (hsame p q hp hq).trans (hu.conn p q hp hq), ?_⟩
  have hrootF : ∀ r, Watershed.nextOf g.v r = (r : Int) → InThr nx ny img pixel_threshold r :=
    fun r hr => (hu.flooded r).2 (by rw [hr]; exact Int.ofNat_nonneg _)
  have hroots : ∀ r, r ∈ (List.range (nx * ny)).filter (fun i =>
      decide ((g.v i).next = (i : Int) ∧ pixel_threshold ≤ (g.v i).value ∧
        (1 : Int) ≤ (g.v i).size)) ↔ Watershed.nextOf g.v r = (r : Int) := by
    intro r
    rw [List.mem_filter, List.mem_range, decide_eq_true_eq]
    constructor
    · exact fun h => h.2.1
    · intro hr
      have hF := hrootF r hr
      refine ⟨hF.1, hr, ?_, size_pos hf.sizes hr⟩
      rw [hval r]
      exact hF.2
  have hcls : ∀ r p, p ∈ (Finset.range (nx * ny)).filter
      (fun p => Top (Watershed.nextOf g.v) p r) ↔ Top (Watershed.nextOf g.v) p r := by
    intro r p
    rw [Finset.mem_filter, Finset.mem_range]
    exact ⟨fun h => h.2, fun h => ⟨hu.bound p (flooded_of_top hu h), h⟩⟩
  refine ⟨((List.range (nx * ny)).filter (fun i =>
      decide ((g.v i).next = (i : Int) ∧ pixel_threshold ≤ (g.v i).value ∧
        (1 : Int) ≤ (g.v i).size))).map
      (fun r => (Finset.range (nx * ny)).filter (fun p => Top (Watershed.nextOf g.v) p r)),
    ?_, ?_, ?_⟩
  · refine List.Nodup.map_on ?_ (List.Nodup.filter _ (List.nodup_range _))
    intro x hx y hy hxy
    have hrx := (hroots x).1 hx
    have hry := (hroots y).1 hy
    have h1 : x ∈ (Finset.range (nx * ny)).filter
        (fun p => Top (Watershed.nextOf g.v) p y) := by
      rw [← hxy, hcls]
      exact top_self hrx
    exact (top_of_root hrx ((hcls y x).1 h1)).symm
  · intro S
    rw [List.mem_map]
    constructor
    · rintro ⟨r, hr, rfl⟩
      have hroot := (hroots r).1 hr
      have hF := hrootF r hroot
      refine isComponent_iff_class.2 ⟨r, hF, fun q => ?_⟩
      rw [hcls]
      constructor
      · intro hT
        exact (hu.conn r q hF (flooded_of_top hu hT)).1 ⟨r, top_self hroot, hT⟩
      · intro hR
        obtain ⟨r', h1, h2⟩ := (hu.conn r q hF (reach_inThr hF hR)).2 hR
        rw [top_of_root hroot h1] at h2
        exact h2
    · intro hS
      obtain ⟨r, hroot, hmem⟩ := component_top hu hS
      refine ⟨r, (hroots r).2 hroot, ?_⟩
      ext q
      rw [hcls, hmem]
  · unfold Watershed.obtain_cluster_sizes
    rw [List.map_map]
    refine List.map_congr_left (fun r hr => ?_)
    have hroot := (hroots r).1 hr
    obtain ⟨l, hl, hsz⟩ := hf.sizes r hroot
    have e : (Finset.range (nx * ny)).filter (fun p => Top (Watershed.nextOf g.v) p r) =
        l.toFinset := by
      ext q
      rw [hcls, List.mem_toFinset, hl.2]
    have hsz' : (g.v r).size = (l.length : Int) := hsz
    rw [Function.comp_apply, e, List.toFinset_card_of_nodup hl.1, hsz']

/-- Instance of C29 on the 1 × 2 grid of value 10 with the identity order,
built with pixel threshold 5, merge threshold 100 and seed 0. -/
theorem C29_tops_are_components_witness :
    ValidOrder (1 * 2) (fun i => i) ∧
    Ascending (1 * 2) 2 (fun _ _ => 10) (fun i => i) ∧
    (((1 * 2 : Nat) : Int) < 100) ∧
    ∃ g, Watershed.construct_graph 1 2 (fun _ _ => 10) (fun i => i) 5 100 0 (fun _ => 0) =
        some g ∧
      (∀ p q, InThr 1 2 (fun _ _ => 10) 5 p → InThr 1 2 (fun _ _ => 10) 5 q →
        ((∃ r, get_top (fun k => (g.v k).next) (1 * 2) p = some r ∧
            get_top (fun k => (g.v k).next) (1 * 2) q = some r) ↔
          Reach 1 2 (fun _ _ => 10) 5 p q)) ∧
      ∃ comps : List (Finset Nat), comps.Nodup ∧
        (∀ S, S ∈ comps ↔ IsComponent 1 2 (fun _ _ => 10) 5 S) ∧
        Watershed.obtain_cluster_sizes g.v (1 * 2) 5 1 =
          comps.map (fun S => (S.card : Int)) :=
  have hv : ValidOrder (1 * 2) (fun i => i) :=
    ⟨fun _ h => h, fun _ _ _ _ h => h, fun p h => ⟨p, h, rfl⟩⟩
  have hasc : Ascending (1 * 2) 2 (fun _ _ => 10) (fun i => i) := fun _ _ _ _ => le_refl _
  ⟨hv, hasc, by decide,
    C29_tops_are_components 1 2 _ _ 5 100 0 (fun _ => 0) hv hasc (by decide)⟩

end Cellular

namespace Cellular

/-! ## The states reached by `compute_nclusters` and `mark_nuclei` -/

/-- The relation among the flooded pixels depends only on which directions
have been handled. -/
theorem relH_congr {nx ny : Nat} {dxl dyl : List Int} {F : Nat → Prop} {a : Nat}
    {H H' : Nat → Prop} (e : ∀ d, H d ↔ H' d) (x y : Nat) :
    RelH nx ny dxl dyl F a H x y ↔ RelH nx ny dxl dyl F a H' x y := by
  unfold RelH
  simp only [e]

/-- In a forest the links stay inside the grid and `get_top` finds a top for
every flooded pixel. -/
theorem topsFound_of_uf {n : Nat} {v_next : Nat → Int} {F : Nat → Prop} {R : Nat → Nat → Prop}
    (hu : UF n v_next F R) : TopsFound n v_next := by
  intro p hp
  have hF : F p := (hu.flooded p).2 hp
  obtain ⟨r, h1, h2, h3⟩ := get_top_eq hu hF
  exact ⟨hu.bound p hF, hu.bound _ (hu.closed p hF), r, h1, hu.bound r h3, top_root h2⟩

/-- The number of tops of size `>= s` as the number of elements of a set. -/
theorem rootCount_card (n : Nat) (v_next v_size : Nat → Int) (s : Int) :
    rootCount n v_next v_size s =
      (((Finset.range n).filter (fun r => v_next r = (r : Int) ∧ s ≤ v_size r)).card : Int) := by
  unfold rootCount
  rw [Finset.card_filter]
  push_cast
  rfl

namespace Ncluster

/-- Every state that `compute_nclusters` passes through satisfies the
invariant of its program point. -/
theorem count_reached_inv {nx ny : Nat} {img : Int → Int → Int} {buf_arg : Nat → Nat}
    {ths : List Int} {buf : Nat → Int} {s seed : Int} {rand4 : Nat → Nat}
    (hv : ValidOrder (nx * ny) buf_arg) {i j : Nat} {st : State}
    (h : Reached nx ny img buf_arg ths buf s seed rand4 i j st) :
    (j = 5 ∧ i ≤ nx * ny ∧ PInv nx ny buf_arg s i st) ∨
      (j ≤ 4 ∧ i < nx * ny ∧
        VInv nx ny s (fun x => Flooded (nx * ny) buf_arg (i + 1) x ∨ x = buf_arg i) (buf_arg i)
          (fun d => ∃ j', j' < j ∧ d = ((if seed = 0 then 0 else rand4 i) + j') % 4) st) := by
  induction h with
  | init => exact Or.inl ⟨rfl, le_refl _, count_pinv_init nx ny buf_arg s buf⟩
  | @start i st _ _ ih =>
    rcases ih with ⟨_, hle, hp⟩ | ⟨h5, _, _⟩
    · have hi : i < nx * ny := by omega
      have h0 := count_start_inv hv hi
        (@count_pinv_frame nx ny buf_arg s (i + 1) st
          { st with
            i_threshold := st.i_threshold +
              advance (pixval ny img (buf_arg i)) (ths.drop st.i_threshold)
            asserts := st.asserts && decide (buf_arg i < nx * ny) } hp rfl rfl rfl)
      refine Or.inr ⟨Nat.zero_le _, hi, ⟨uf_congr h0.uf (relH_congr ?_), h0.cur, h0.sizes,
        h0.count⟩⟩
      intro d
      constructor
      · exact False.elim
      · rintro ⟨j', hj', _⟩
        exact absurd hj' (Nat.not_lt_zero _)
    · omega
  | @visit i j st st' _ hj hrun ih =>
    rcases ih with ⟨h5, _, _⟩ | ⟨_, hi, hV⟩
    · omega
    · obtain ⟨st'', hrun', hV', -⟩ := count_visitNeighbor_inv
        (if seed = 0 then 0 else rand4 i) j (Or.inr rfl) hV
      have e : st'' = st' := by
        rw [hrun] at hrun'
        exact (Option.some.inj hrun').symm
      rw [e] at hV'
      refine Or.inr ⟨hj, hi, ⟨uf_congr hV'.uf (relH_congr ?_), hV'.cur, hV'.sizes, hV'.count⟩⟩
      intro d
      constructor
      · rintro (⟨j', hj', hd⟩ | hd)
        · exact ⟨j', Nat.lt_succ_of_lt hj', hd⟩
        · exact ⟨j, Nat.lt_succ_self j, hd⟩
      · rintro ⟨j', hj', hd⟩
        rcases Nat.lt_succ_iff_lt_or_eq.1 hj' with h1 | h1
        · exact Or.inl ⟨j', h1, hd⟩
        · rw [h1] at hd
          exact Or.inr hd
  | @finish i st _ ih =>
    rcases ih with ⟨h5, _, _⟩ | ⟨_, hi, hV⟩
    · omega
    · refine Or.inl ⟨rfl, Nat.le_of_lt hi, count_finish_inv hi ?_ hV⟩
      intro d hd
      rcases all_dirs (if seed = 0 then 0 else rand4 i) d hd with
        (((h0 | h0) | h0) | h0) | h0
      · exact h0.elim
      · exact ⟨0, by norm_num, h0⟩
      · exact ⟨1, by norm_num, h0⟩
      · exact ⟨2, by norm_num, h0⟩
      · exact ⟨3, by norm_num, h0⟩

/-- The links of every state that `compute_nclusters` passes through form a
forest on the flooded pixels. -/
theorem count_reached_uf {nx ny : Nat} {img : Int → Int → Int} {buf_arg : Nat → Nat}
    {ths : List Int} {buf : Nat → Int} {s seed : Int} {rand4 : Nat → Nat}
    (hv : ValidOrder (nx * ny) buf_arg) {i j : Nat} {st : State}
    (h : Reached nx ny img buf_arg ths buf s seed rand4 i j st) :
    TopsFound (nx * ny) st.v_next := by
  rcases count_reached_inv hv h with ⟨_, _, hp⟩ | ⟨_, _, hV⟩
  · exact topsFound_of_uf hp.uf
  · exact topsFound_of_uf hV.uf

end Ncluster

namespace Nuclei

/-- Every state that `mark_nuclei` passes through satisfies the invariant of
its program point. -/
theorem mark_reached_inv {nx ny : Nat} {img : Int → Int → Int} {buf_arg : Nat → Nat}
    {bths : List Int} {size_min size_max : Nat} {buf : Nat → Bool}
    (hv : ValidOrder (nx * ny) buf_arg) {ths : List Int} {i j : Nat} {st : State}
    (h : Reached nx ny img buf_arg bths size_min size_max buf ths i j st) :
    (j = 5 ∧ i ≤ nx * ny ∧ PInv nx ny buf_arg size_min size_max False i st) ∨
      (j ≤ 4 ∧ i < nx * ny ∧
        VInv nx ny size_min size_max False
          (fun x => Flooded (nx * ny) buf_arg (i + 1) x ∨ x = buf_arg i) (buf_arg i)
          (fun d => d < j) st) := by
  induction h with
  | init _ =>
    exact Or.inl ⟨rfl, le_refl _, mark_pinv_init nx ny buf_arg size_min size_max False buf⟩
  | @start t rest i st _ _ ih =>
    rcases ih with ⟨_, hle, hp⟩ | ⟨h5, _, _⟩
    · have hi : i < nx * ny := by omega
      have h0 := mark_start_inv hv hi
        (@mark_pinv_frame nx ny buf_arg size_min size_max False (i + 1) st
          { st with asserts := st.asserts && decide (buf_arg i < nx * ny) } hp rfl rfl
          (fun f => f.elim))
      refine Or.inr ⟨Nat.zero_le _, hi, ⟨uf_congr h0.uf (relH_congr ?_), h0.cur, h0.lists,
        h0.empty, h0.upd⟩⟩
      intro d
      exact ⟨False.elim, fun hd => absurd hd (Nat.not_lt_zero _)⟩
    · omega
  | @visit ths i j st st' _ hj hrun ih =>
    rcases ih with ⟨h5, _, _⟩ | ⟨_, hi, hV⟩
    · omega
    · obtain ⟨st'', hrun', hV', -⟩ := mark_visitNeighbor_inv j hj (Or.inr rfl) hV
      have e : st'' = st' := by
        rw [hrun] at hrun'
        exact (Option.some.inj hrun').symm
      rw [e] at hV'
      refine Or.inr ⟨hj, hi, ⟨uf_congr hV'.uf (relH_congr ?_), hV'.cur, hV'.lists, hV'.empty,
        hV'.upd⟩⟩
      intro d
      constructor
      · rintro (hd | hd)
        · exact Nat.lt_succ_of_lt hd
        · rw [hd]; exact Nat.lt_succ_self j
      · intro hd
        rcases Nat.lt_succ_iff_lt_or_eq.1 hd with h1 | h1
        · exact Or.inl h1
        · exact Or.inr h1
  | @finish ths i st _ ih =>
    rcases ih with ⟨h5, _, _⟩ | ⟨_, hi, hV⟩
    · omega
    · exact Or.inl ⟨rfl, Nat.le_of_lt hi, mark_finish_inv hi (fun d hd => hd) hV⟩
  | @next t t2 rest k st _ _ ih =>
    rcases ih with ⟨_, hle, hp⟩ | ⟨h5, _, _⟩
    · exact Or.inl ⟨rfl, hle, mark_pinv_frame hp rfl rfl (fun f => f.elim)⟩
    · omega

/-- The links of every state that `mark_nuclei` passes through form a forest
on the flooded pixels. -/
theorem mark_reached_uf {nx ny : Nat} {img : Int → Int → Int} {buf_arg : Nat → Nat}
    {bths : List Int} {size_min size_max : Nat} {buf : Nat → Bool}
    (hv : ValidOrder (nx * ny) buf_arg) {ths : List Int} {i j : Nat} {st : State}
    (h : Reached nx ny img buf_arg bths size_min size_max buf ths i j st) :
    TopsFound (nx * ny) st.v_next := by
  rcases mark_reached_inv hv h with ⟨_, _, hp⟩ | ⟨_, _, hV⟩
  · exact topsFound_of_uf hp.uf
  · exact topsFound_of_uf hV.uf

end Nuclei

/-- **C21.** For every grid, intensity order that is a permutation of the pixel
indices, threshold sequence, integer size threshold (also `<= 1`) and
directions: in every state of `compute_nclusters` at the end of the iteration
for a pixel, and before the first iteration, the running count `n_clusters` is
the number of pixels that are their own `next` and whose stored size is
`>= size_threshold`. -/
theorem C21_running_count_counts_tops (nx ny : Nat) (img : Int → Int → Int)
    (buf_arg : Nat → Nat) (buf_thresholds : List Int) (buf_nclusters : Nat → Int)
    (size_threshold seed : Int) (rand4 : Nat → Nat) (hv : ValidOrder (nx * ny) buf_arg)
    (i : Nat) (st : Ncluster.State)
    (h : Ncluster.Reached nx ny img buf_arg buf_thresholds buf_nclusters size_threshold seed
      rand4 i 5 st) :
    st.n_clusters =
      (((Finset.range (nx * ny)).filter
        (fun r => st.v_next r = (r : Int) ∧ size_threshold ≤ st.v_size r)).card : Int) := by
  rcases Ncluster.count_reached_inv hv h with ⟨_, _, hp⟩ | ⟨h5, _, _⟩
  · rw [hp.count, rootCount_card]
  · omega

/-- Instance of C21 on the 1 × 1 grid of value 10 with the threshold 5 and size
threshold 1: the state at the end of the iteration for the only pixel, in
which the running count is 1. -/
theorem C21_running_count_counts_tops_witness :
    ValidOrder (1 * 1) (fun i => i) ∧
    ∃ st, Ncluster.Reached 1 1 (fun _ _ => 10) (fun i => i) [5] (fun _ => 0) 1 0 (fun _ => 0)
        0 5 st ∧
      st.n_clusters = 1 ∧
      st.n_clusters = (((Finset.range (1 * 1)).filter
        (fun r => st.v_next r = (r : Int) ∧ (1 : Int) ≤ st.v_size r)).card : Int) := by
  have hv : ValidOrder (1 * 1) (fun i => i) :=
    ⟨fun _ h => h, fun _ _ _ _ h => h, fun p h => ⟨p, h, rfl⟩⟩
  have h0 := @Ncluster.Reached.start 1 1 (fun _ _ => 10) (fun i => i) [5] (fun _ => 0) 1 0
    (fun _ => 0) 0 _ Ncluster.Reached.init (by decide)
  have h1 := Ncluster.Reached.visit h0 (by norm_num) rfl
  have h2 := Ncluster.Reached.visit h1 (by norm_num) rfl
  have h3 := Ncluster.Reached.visit h2 (by norm_num) rfl
  have h4 := Ncluster.Reached.visit h3 (by norm_num) rfl
  exact ⟨hv, _, Ncluster.Reached.finish h4, by decide,
    C21_running_count_counts_tops 1 1 (fun _ _ => 10) (fun i => i) [5] (fun _ => 0) 1 0
      (fun _ => 0) hv 0 _ (Ncluster.Reached.finish h4)⟩

/-- **C27.** For every grid, intensity order that is a permutation of the pixel
indices, threshold sequence and size window: in every state of `mark_nuclei`
at the end of the iteration for a pixel (and at the start of every threshold),
the pixel list of every pixel `r` that is its own `next` is duplicate-free and
holds exactly the pixels whose chain of `next` links ends at `r`, the pixel
list of every other pixel is empty, and the lengths of the pixel lists add up
to the number of flooded pixels. -/
theorem C27_member_lists_are_classes (nx ny : Nat) (img : Int → Int → Int)
    (buf_arg : Nat → Nat) (buf_thresholds : List Int) (size_min size_max : Nat)
    (buf_nuclei : Nat → Bool) (hv : ValidOrder (nx * ny) buf_arg)
    (ths : List Int) (i : Nat) (st : Nuclei.State)
    (h : Nuclei.Reached nx ny img buf_arg buf_thresholds size_min size_max buf_nuclei ths i 5
      st) :
    (∀ r, st.v_next r = (r : Int) →
      (st.v_pixels r).Nodup ∧ ∀ p, p ∈ st.v_pixels r ↔ Top st.v_next p r) ∧
    (∀ p, st.v_next p ≠ (p : Int) → st.v_pixels p = []) ∧
    Finset.sum (Finset.range (nx * ny)) (fun p => (st.v_pixels p).length) =
      ((Finset.range (nx * ny)).filter (fun p => 0 ≤ st.v_next p)).card := by
  rcases Nuclei.mark_reached_inv hv h with ⟨_, _, hp⟩ | ⟨h5, _, _⟩
  · refine ⟨hp.lists, hp.empty, ?_⟩
    have h1 := class_sizes_sum hp.uf (fun r => ((st.v_pixels r).length : Int))
      (fun r hr => ⟨st.v_pixels r, hp.lists r hr, rfl⟩)
    rw [Finset.sum_filter] at h1
    have h2 : Finset.sum (Finset.range (nx * ny))
        (fun p => (((st.v_pixels p).length : Nat) : Int)) =
        Finset.sum (Finset.range (nx * ny))
          (fun a => if st.v_next a = (a : Int) then ((st.v_pixels a).length : Int) else 0) := by
      refine Finset.sum_congr rfl (fun p _ => ?_)
      by_cases hr : st.v_next p = (p : Int)
      · rw [if_pos hr]
      · rw [if_neg hr, hp.empty p hr]
        rfl
    have h3 : ((Finset.sum (Finset.range (nx * ny)) (fun p => (st.v_pixels p).length) : Nat) :
        Int) = (((Finset.range (nx * ny)).filter (fun p => 0 ≤ st.v_next p)).card : Int) := by
      rw [← h1, ← h2]
      push_cast
      rfl
    exact_mod_cast h3
  · omega

/-- Instance of C27 on the 1 × 1 grid of value 10 with the threshold 5 and the
size window 1..3: the state at the end of the iteration for the only pixel,
whose pixel list is `[0]`. -/
theorem C27_member_lists_are_classes_witness :
    ValidOrder (1 * 1) (fun i => i) ∧
    ∃ st, Nuclei.Reached 1 1 (fun _ _ => 10) (fun i => i) [5] 1 3 (fun _ => false) [5] 0 5 st ∧
      st.v_pixels 0 = [0] ∧
      (∀ r, st.v_next r = (r : Int) →
        (st.v_pixels r).Nodup ∧ ∀ p, p ∈ st.v_pixels r ↔ Top st.v_next p r) ∧
      (∀ p, st.v_next p ≠ (p : Int) → st.v_pixels p = []) ∧
      Finset.sum (Finset.range (1 * 1)) (fun p => (st.v_pixels p).length) =
        ((Finset.range (1 * 1)).filter (fun p => 0 ≤ st.v_next p)).card := by
  have hv : ValidOrder (1 * 1) (fun i => i) :=
    ⟨fun _ h => h, fun _ _ _ _ h => h, fun p h => ⟨p, h, rfl⟩⟩
  have h0 := @Nuclei.Reached.start 1 1 (fun _ _ => 10) (fun i => i) [5] 1 3 (fun _ => false)
    5 [] 0 _ (Nuclei.Reached.init rfl) (by decide)
  have h1 := Nuclei.Reached.visit h0 (by norm_num) rfl
  have h2 := Nuclei.Reached.visit h1 (by norm_num) rfl
  have h3 := Nuclei.Reached.visit h2 (by norm_num) rfl
  have h4 := Nuclei.Reached.visit h3 (by norm_num) rfl
  exact ⟨hv, _, Nuclei.Reached.finish h4, by decide,
    C27_member_lists_are_classes 1 1 (fun _ _ => 10) (fun i => i) [5] 1 3 (fun _ => false) hv
      [5] 0 _ (Nuclei.Reached.finish h4)⟩

/-- **C30.** For every grid and intensity order that is a permutation of the
pixel indices, in every state that `construct_graph`, `compute_nclusters` and
`mark_nuclei` pass through (at the head of the main loop and after each of the
four directions of a pixel): every flooded pixel and the pixel it links to lie
inside the grid, and `get_top`, following at most as many links as there are
pixels, returns from every flooded pixel a pixel of the grid that is its own
`next`; so the links have no cycle other than the self-loops of the tops. -/
theorem C30_get_top_finds_tops (nx ny : Nat) (img : Int → Int → Int) (buf_arg : Nat → Nat)
    (hv : ValidOrder (nx * ny) buf_arg) :
    (∀ (pixel_threshold merge_threshold seed : Int) (rand4 : Nat → Nat) (i j : Nat)
        (st : Watershed.State),
      Watershed.Reached nx ny img buf_arg pixel_threshold merge_threshold seed rand4 i j st →
        TopsFound (nx * ny) (fun k => (st.v k).next)) ∧
    (∀ (buf_thresholds : List Int) (buf_nclusters : Nat → Int) (size_threshold seed : Int)
        (rand4 : Nat → Nat) (i j : Nat) (st : Ncluster.State),
      Ncluster.Reached nx ny img buf_arg buf_thresholds buf_nclusters size_threshold seed rand4
        i j st → TopsFound (nx * ny) st.v_next) ∧
    (∀ (buf_thresholds : List Int) (size_min size_max : Nat) (buf_nuclei : Nat → Bool)
        (ths : List Int) (i j : Nat) (st : Nuclei.State),
      Nuclei.Reached nx ny img buf_arg buf_thresholds size_min size_max buf_nuclei ths i j st →
        TopsFound (nx * ny) st.v_next) := by
  refine ⟨?_, ?_, ?_⟩
  · intro pt mt seed rand4 i j st h
    exact topsFound_of_uf (Watershed.reached_ginv hv h).1.uf
  · intro ths buf s seed rand4 i j st h
    exact Ncluster.count_reached_uf hv h
  · intro bths smin smax buf ths i j st h
    exact Nuclei.mark_reached_uf hv h

/-- Instance of C30 on the 1 × 2 grid of value 10 with the identity order, in
each of the three loops (pixel threshold 5, merge threshold 100, size
threshold 1, window `[1, 2]`, seed 0): the state after the four directions of
the second flooded pixel (for `compute_nclusters` and `mark_nuclei` at the end
of its iteration), in which pixel 1 is a top, pixel 0 links to pixel 1 and
`get_top` follows that link from pixel 0 to pixel 1. -/
theorem C30_get_top_finds_tops_witness :
    ValidOrder (1 * 2) (fun i => i) ∧
    (∃ st, Watershed.Reached 1 2 (fun _ _ => 10) (fun i => i) 5 100 0 (fun _ => 0) 0 4 st ∧
      (st.v 0).next = 1 ∧ (st.v 1).next = 1 ∧
      get_top (fun k => (st.v k).next) (1 * 2) 0 = some 1 ∧
      TopsFound (1 * 2) (fun k => (st.v k).next)) ∧
    (∃ st, Ncluster.Reached 1 2 (fun _ _ => 10) (fun i => i) [5] (fun _ => 0) 1 0 (fun _ => 0)
        0 5 st ∧
      st.v_next 0 = 1 ∧ st.v_next 1 = 1 ∧ get_top st.v_next (1 * 2) 0 = some 1 ∧
      TopsFound (1 * 2) st.v_next) ∧
    (∃ st, Nuclei.Reached 1 2 (fun _ _ => 10) (fun i => i) [5] 1 2 (fun _ => false) [5] 0 5 st ∧
      st.v_next 0 = 1 ∧ st.v_next 1 = 1 ∧ get_top st.v_next (1 * 2) 0 = some 1 ∧
      TopsFound (1 * 2) st.v_next) := by
  have hv : ValidOrder (1 * 2) (fun i => i) :=
    ⟨fun _ h => h, fun _ _ _ _ h => h, fun p h => ⟨p, h, rfl⟩⟩
  have a0 := @Watershed.Reached.start 1 2 (fun _ _ => 10) (fun i => i) 5 100 0 (fun _ => 0) 1 _
    Watershed.Reached.init (by decide)
  have a1 := Watershed.Reached.visit a0 (by norm_num) rfl
  have a2 := Watershed.Reached.visit a1 (by norm_num) rfl
  have a3 := Watershed.Reached.visit a2 (by norm_num) rfl
  have a4 := Watershed.Reached.visit a3 (by norm_num) rfl
  have b0 := Watershed.Reached.start a4 (by decide)
  have b1 := Watershed.Reached.visit b0 (by norm_num) rfl
  have b2 := Watershed.Reached.visit b1 (by norm_num) rfl
  have b3 := Watershed.Reached.visit b2 (by norm_num) rfl
  have b4 := Watershed.Reached.visit b3 (by norm_num) rfl
  have c0 := @Ncluster.Reached.start 1 2 (fun _ _ => 10) (fun i => i) [5] (fun _ => 0) 1 0
    (fun _ => 0) 1 _ Ncluster.Reached.init (by decide)
  have c1 := Ncluster.Reached.visit c0 (by norm_num) rfl
  have c2 := Ncluster.Reached.visit c1 (by norm_num) rfl
  have c3 := Ncluster.Reached.visit c2 (by norm_num) rfl
  have c4 := Ncluster.Reached.visit c3 (by norm_num) rfl
  have d0 := Ncluster.Reached.start (Ncluster.Reached.finish c4) (by decide)
  have d1 := Ncluster.Reached.visit d0 (by norm_num) rfl
  have d2 := Ncluster.Reached.visit d1 (by norm_num) rfl
  have d3 := Ncluster.Reached.visit d2 (by norm_num) rfl
  have d4 := Ncluster.Reached.visit d3 (by norm_num) rfl
  have e0 := @Nuclei.Reached.start 1 2 (fun _ _ => 10) (fun i => i) [5] 1 2 (fun _ => false)
    5 [] 1 _ (Nuclei.Reached.init rfl) (by decide)
  have e1 := Nuclei.Reached.visit e0 (by norm_num) rfl
  have e2 := Nuclei.Reached.visit e1 (by norm_num) rfl
  have e3 := Nuclei.Reached.visit e2 (by norm_num) rfl
  have e4 := Nuclei.Reached.visit e3 (by norm_num) rfl
  have f0 := Nuclei.Reached.start (Nuclei.Reached.finish e4) (by decide)
  have f1 := Nuclei.Reached.visit f0 (by norm_num) rfl
  have f2 := Nuclei.Reached.visit f1 (by norm_num) rfl
  have f3 := Nuclei.Reached.visit f2 (by norm_num) rfl
  have f4 := Nuclei.Reached.visit f3 (by norm_num) rfl
  have hC := C30_get_top_finds_tops 1 2 (fun _ _ => 10) (fun i => i) hv
  exact ⟨hv,
    ⟨_, b4, by decide!, by decide!, by decide!, hC.1 5 100 0 (fun _ => 0) 0 4 _ b4⟩,
    ⟨_, Ncluster.Reached.finish d4, by decide!, by decide!, by decide!,
      hC.2.1 [5] (fun _ => 0) 1 0 (fun _ => 0) 0 5 _ (Ncluster.Reached.finish d4)⟩,
    ⟨_, Nuclei.Reached.finish f4, by decide!, by decide!, by decide!,
      hC.2.2 [5] 1 2 (fun _ => false) [5] 0 5 _ (Nuclei.Reached.finish f4)⟩⟩

end Cellular

namespace Cellular

/-! ## The recorded edges of the flood fill span the cluster -/

namespace Clusters

theorem edgeStep_mono {edges : List Edge} (e : Edge) {x y : Nat}
    (h : Relation.ReflTransGen (EdgeStep edges) x y) :
    Relation.ReflTransGen (EdgeStep (edges ++ [e])) x y := by
  refine Relation.ReflTransGen.mono ?_ h
  rintro a b ⟨e', he', h1, h2⟩
  exact ⟨e', List.mem_append.2 (Or.inl he'), h1, h2⟩

theorem head?_append_singleton {l : List Nat} {p0 : Nat} (a : Nat) (h : l.head? = some p0) :
    (l ++ [a]).head? = some p0 := by
  cases l with
  | nil => cases h
  | cons b l => exact h

/-- Handling neighbour `j` of the pixel `cur` keeps the spanning invariant and
does not touch the pixel list. -/
theorem span_visitNeighbor {nx ny : Nat} {img : Int → Int → Int} {t : Int} {p0 cur j : Nat}
    {f1 : Int} {st : State} (hcur : cur ∈ st.c.pixels) (h : SpanInv p0 st) :
    SpanInv p0 (visitNeighbor nx ny img t cur f1 st j) ∧
      (visitNeighbor nx ny img t cur f1 st j).c.pixels = st.c.pixels := by
  unfold visitNeighbor
  simp only []
  split
  · exact ⟨h, rfl⟩
  · split
    · exact ⟨h, rfl⟩
    · refine ⟨⟨?_, ?_⟩, rfl⟩
      · dsimp only
        rw [← List.append_assoc]
        exact head?_append_singleton _ h.head
      · intro p hp
        dsimp only at hp ⊢
        have hstep : ∀ (e : Edge) q, q ∈ st.c.pixels ∨ q ∈ st.q →
            Relation.ReflTransGen (EdgeStep (st.c.edges ++ [e])) p0 q :=
          fun e q hq => edgeStep_mono e (h.span q hq)
        rcases hp with hp | hp
        · exact hstep _ p (Or.inl hp)
        · rcases List.mem_append.1 hp with hp | hp
          · exact hstep _ p (Or.inr hp)
          · rw [List.mem_singleton] at hp
            rw [hp]
            exact Relation.ReflTransGen.tail (hstep _ cur (Or.inl hcur))
              ⟨_, List.mem_append.2 (Or.inr (List.mem_singleton.2 rfl)), rfl, rfl⟩

theorem span_neighbors {nx ny : Nat} {img : Int → Int → Int} {t : Int} {p0 cur : Nat} {f1 : Int}
    {st : State} (hcur : cur ∈ st.c.pixels) (h : SpanInv p0 st) :
    SpanInv p0 ((List.range 4).foldl (visitNeighbor nx ny img t cur f1) st) := by
  have e : (List.range 4).foldl (visitNeighbor nx ny img t cur f1) st =
      visitNeighbor nx ny img t cur f1
        (visitNeighbor nx ny img t cur f1
          (visitNeighbor nx ny img t cur f1
            (visitNeighbor nx ny img t cur f1 st 0) 1) 2) 3 := rfl
  rw [e]
  obtain ⟨h1, e1⟩ := @span_visitNeighbor nx ny img t p0 cur 0 f1 st hcur h
  obtain ⟨h2, e2⟩ := @span_visitNeighbor nx ny img t p0 cur 1 f1 _ (e1 ▸ hcur) h1
  obtain ⟨h3, e3⟩ := @span_visitNeighbor nx ny img t p0 cur 2 f1 _ (e2 ▸ e1 ▸ hcur) h2
  obtain ⟨h4, _⟩ := @span_visitNeighbor nx ny img t p0 cur 3 f1 _ (e3 ▸ e2 ▸ e1 ▸ hcur) h3
  exact h4

/-- Whenever the search loop returns, the spanning invariant holds of the
final state. -/
theorem span_bfs {nx ny : Nat} {img : Int → Int → Int} {t : Int} {p0 : Nat} :
    ∀ (fuel : Nat) (st st' : State), SpanInv p0 st →
      bfs nx ny img t fuel st = some st' → SpanInv p0 st' := by
  intro fuel
  induction fuel with
  | zero =>
    intro st st' h hrun
    cases hq : st.q with
    | nil =>
      unfold bfs at hrun
      rw [hq] at hrun
      cases hrun
      exact h
    | cons a rest =>
      unfold bfs at hrun
      rw [hq] at hrun
      cases hrun
  | succ fuel ih =>
    intro st st' h hrun
    cases hq : st.q with
    | nil =>
      unfold bfs at hrun
      rw [hq] at hrun
      cases hrun
      exact h
    | cons index1 rest =>
      unfold bfs at hrun
      rw [hq] at hrun
      simp only [] at hrun
      refine ih _ st' (span_neighbors ?_ ?_) hrun
      · exact List.mem_append.2 (Or.inr (List.mem_singleton.2 rfl))
      · refine ⟨?_, ?_⟩
        · dsimp only
          have := h.head
          rw [hq] at this
          rw [List.append_assoc]
          exact this
        · intro p hp
          dsimp only at hp ⊢
          apply h.span p
          rw [hq]
          simp only [List.mem_append, List.mem_singleton, List.mem_cons] at hp ⊢
          tauto

/-- Whenever the search loop returns, the queue is empty. -/
theorem bfs_queue_empty {nx ny : Nat} {img : Int → Int → Int} {t : Int} :
    ∀ (fuel : Nat) (st st' : State), bfs nx ny img t fuel st = some st' → st'.q = [] := by
  intro fuel
  induction fuel with
  | zero =>
    intro st st' hrun
    cases hq : st.q with
    | nil =>
      unfold bfs at hrun
      rw [hq] at hrun
      cases hrun
      exact hq
    | cons a rest =>
      unfold bfs at hrun
      rw [hq] at hrun
      cases hrun
  | succ fuel ih =>
    intro st st' hrun
    cases hq : st.q with
    | nil =>
      unfold bfs at hrun
      rw [hq] at hrun
      cases hrun
      exact hq
    | cons index1 rest =>
      unfold bfs at hrun
      rw [hq] at hrun
      simp only [] at hrun
      exact ih _ st' hrun

/-- A property that holds of the cluster of every finished search holds of
every cluster returned by `construct`. -/
theorem construct_clusters {nx ny : Nat} {img : Int → Int → Int} {t s : Int}
    {P : Cluster → Prop}
    (hP : ∀ k V st, k < nx * ny →
      bfs nx ny img t (nx * ny + 1)
        { visited := setFlag V k true, q := [k], c := ⟨[], []⟩, sum := 0 } = some st → P st.c)
    {cs : List Cluster} (h : construct nx ny img t s = some cs) : ∀ c ∈ cs, P c := by
  have key : ∀ k, k ≤ nx * ny → ∀ V cs,
      (List.range k).foldl (scanPixel nx ny img t s) (some (fun _ => false, [])) =
        some (V, cs) → ∀ c ∈ cs, P c := by
    intro k
    induction k with
    | zero =>
      intro _ V cs hrun c hc
      simp only [List.range_zero, List.foldl_nil] at hrun
      cases hrun
      exact absurd hc (List.not_mem_nil c)
    | succ k ih =>
      intro hk V cs hrun
      rw [List.range_succ, List.foldl_append] at hrun
      simp only [List.foldl_cons, List.foldl_nil] at hrun
      cases hprev : (List.range k).foldl (scanPixel nx ny img t s)
          (some (fun _ => false, [])) with
      | none =>
        rw [hprev] at hrun
        cases hrun
      | some acc =>
        obtain ⟨V0, cs0⟩ := acc
        rw [hprev] at hrun
        have hold := ih (Nat.le_of_succ_le hk) V0 cs0 hprev
        unfold scanPixel at hrun
        simp only [] at hrun
        by_cases hc : V0 k = true ∨ pixval ny img k < t
        · rw [if_pos hc] at hrun
          cases hrun
          exact hold
        · rw [if_neg hc] at hrun
          cases hb : bfs nx ny img t (nx * ny + 1)
              { visited := setFlag V0 k true, q := [k], c := ⟨[], []⟩, sum := 0 } with
          | none => rw [hb] at hrun; cases hrun
          | some st =>
            rw [hb] at hrun
            simp only [] at hrun
            by_cases hs : st.sum < s
            · rw [if_pos hs] at hrun
              cases hrun
              exact hold
            · rw [if_neg hs] at hrun
              cases hrun
              intro c hc'
              rcases List.mem_append.1 hc' with hc' | hc'
              · exact hold c hc'
              · rw [List.mem_singleton.1 hc']
                exact hP k V0 st (Nat.lt_of_succ_le hk) hb
  unfold construct at h
  cases hprev : (List.range (nx * ny)).foldl (scanPixel nx ny img t s)
      (some (fun _ => false, [])) with
  | none => rw [hprev] at h; cases h
  | some acc =>
    obtain ⟨V, cs0⟩ := acc
    rw [hprev] at h
    cases h
    exact key (nx * ny) le_rfl V cs0 hprev

/-- Every cluster returned by `construct` is spanned by its edges. -/
theorem construct_spanned {nx ny : Nat} {img : Int → Int → Int} {t s : Int}
    {cs : List Cluster} (h : construct nx ny img t s = some cs) : ∀ c ∈ cs, Spanned c := by
  refine construct_clusters (fun k V st _ hb => ?_) h
  have h0 : SpanInv k
      ({ visited := setFlag V k true, q := [k], c := ⟨[], []⟩, sum := 0 } : State) := by
    refine ⟨rfl, ?_⟩
    intro p hp
    rcases hp with hp | hp
    · exact absurd hp (List.not_mem_nil p)
    · rw [List.mem_singleton.1 hp]
  have h1 := span_bfs _ _ st h0 hb
  have hq : st.q = [] := bfs_queue_empty _ _ st hb
  refine ⟨k, ?_, fun p hp => h1.span p (Or.inl hp)⟩
  have := h1.head
  rw [hq, List.append_nil] at this
  exact this

/-- In a duplicate-free list of pixels whose tail lists the second end points
of the edges, every pixel of the tail is the second end point of exactly one
edge and the first pixel of none. -/
theorem tail_targets_once {edges : List Edge} {pixels : List Nat} (hn : pixels.Nodup)
    (ht : edges.map (fun e => e.index1) = pixels.tail) :
    (∀ p ∈ pixels.tail, (edges.filter (fun e => decide (e.index1 = p))).length = 1) ∧
      ∀ p0, pixels.head? = some p0 → ∀ e ∈ edges, e.index1 ≠ p0 := by
  constructor
  · intro p hp
    have h1 : (pixels.tail).count p = 1 :=
      List.count_eq_one_of_mem (hn.sublist (List.tail_sublist _)) hp
    rw [← ht, List.count, List.countP_map, List.countP_eq_length_filter] at h1
    rw [← h1]
    congr 1
  · intro p0 hp0 e he heq
    cases pixels with
    | nil => cases hp0
    | cons a l =>
      simp only [List.head?_cons, Option.some.injEq] at hp0
      have : e.index1 ∈ (a :: l).tail := by
        rw [← ht]
        exact List.mem_map.2 ⟨e, he, rfl⟩
      rw [List.tail_cons, heq, ← hp0] at this
      exact (List.nodup_cons.1 hn).1 this

end Clusters

/-- **C34.** For every grid and thresholds `Clusters::construct` returns, and
the edge list of every cluster it emits is a spanning tree of the cluster:
there is one edge less than there are pixels; every edge joins two 4-adjacent
pixels of the cluster and is weighted by the minimum of their two values;
every pixel other than the first listed is the second end point of exactly
one edge and the first listed pixel is the second end point of none; and the
edges, followed from first to second end point, lead from the first listed
pixel to every pixel of the cluster. -/
theorem C34_flood_edges_spanning_tree (nx ny : Nat) (img : Int → Int → Int)
    (pixel_threshold size_threshold : Int) :
    ∃ cs, Clusters.construct nx ny img pixel_threshold size_threshold = some cs ∧
      ∀ c ∈ cs,
        c.edges.length + 1 = c.pixels.length ∧
        (∀ e ∈ c.edges, e.index0 ∈ c.pixels ∧ e.index1 ∈ c.pixels ∧
          Adj4 nx ny e.index0 e.index1 ∧
          e.value = min (pixval ny img e.index0) (pixval ny img e.index1)) ∧
        (∀ p ∈ c.pixels.tail,
          (c.edges.filter (fun e => decide (e.index1 = p))).length = 1) ∧
        ∃ p0, c.pixels.head? = some p0 ∧ (∀ e ∈ c.edges, e.index1 ≠ p0) ∧
          ∀ p ∈ c.pixels, Relation.ReflTransGen (Clusters.EdgeStep c.edges) p0 p := by
  obtain ⟨V, cs, hcs, hres⟩ :=
    Clusters.construct_scanRes nx ny img pixel_threshold size_threshold
  refine ⟨cs, hcs, fun c hc => ?_⟩
  obtain ⟨ht, he⟩ := Clusters.construct_treeEdges hcs c hc
  obtain ⟨p0, hp0, hspan⟩ := Clusters.construct_spanned hcs c hc
  obtain ⟨hn, _, _⟩ := hres.sound c hc
  obtain ⟨h1, h2⟩ := Clusters.tail_targets_once hn ht
  refine ⟨?_, ?_, h1, p0, hp0, h2 p0 hp0, hspan⟩
  · have hl : c.edges.length = c.pixels.tail.length := by
      rw [← ht, List.length_map]
    rw [hl, List.length_tail]
    cases hpx : c.pixels with
    | nil => rw [hpx] at hp0; cases hp0
    | cons a l => simp
  · intro e hee
    obtain ⟨a, b, _, _, c', d⟩ := he e hee
    exact ⟨a, b, c', d⟩

end Cellular

namespace Cellular

/-! ## The work queue of the extractor holds every edge at most once -/

namespace Watershed

/-- A path that may use the pair `{a, b}` besides the steps of `R` either
avoids the pair or leads to one of `a`, `b` and on from the other. -/
theorem rtg_pair_split {R : Nat → Nat → Prop} {a b u w : Nat}
    (h : Relation.ReflTransGen (fun x y => R x y ∨ Pair a b x y) u w) :
    Relation.ReflTransGen R u w ∨
      (Relation.ReflTransGen R u a ∧ Relation.ReflTransGen R b w) ∨
      (Relation.ReflTransGen R u b ∧ Relation.ReflTransGen R a w) := by
  induction h with
  | refl => exact Or.inl Relation.ReflTransGen.refl
  | @tail m w _ hstep ih =>
    rcases hstep with hR | ⟨h1, h2⟩ | ⟨h1, h2⟩
    · rcases ih with ih | ⟨i1, i2⟩ | ⟨i1, i2⟩
      · exact Or.inl (ih.tail hR)
      · exact Or.inr (Or.inl ⟨i1, i2.tail hR⟩)
      · exact Or.inr (Or.inr ⟨i1, i2.tail hR⟩)
    · subst h1 h2
      rcases ih with ih | ⟨i1, _⟩ | ⟨i1, _⟩
      · exact Or.inr (Or.inl ⟨ih, Relation.ReflTransGen.refl⟩)
      · exact Or.inr (Or.inl ⟨i1, Relation.ReflTransGen.refl⟩)
      · exact Or.inl i1
    · subst h1 h2
      rcases ih with ih | ⟨i1, _⟩ | ⟨i1, _⟩
      · exact Or.inr (Or.inr ⟨ih, Relation.ReflTransGen.refl⟩)
      · exact Or.inl i1
      · exact Or.inr (Or.inr ⟨i1, Relation.ReflTransGen.refl⟩)

theorem pair_symm {a b x y : Nat} (h : Pair a b x y) : Pair a b y x := by
  rcases h with ⟨h1, h2⟩ | ⟨h1, h2⟩
  · exact Or.inr ⟨h2, h1⟩
  · exact Or.inl ⟨h2, h1⟩

theorem rtg_symm_of {R : Nat → Nat → Prop} (hR : ∀ x y, R x y → R y x) {x y : Nat}
    (h : Relation.ReflTransGen R x y) : Relation.ReflTransGen R y x := by
  induction h with
  | refl => exact Relation.ReflTransGen.refl
  | tail _ hbc ih => exact Relation.ReflTransGen.head (hR _ _ hbc) ih

theorem edgeRel_symm {l : List Edge} {x y : Nat} (h : EdgeRel l x y) : EdgeRel l y x := by
  obtain ⟨e, he, hp⟩ := h
  exact ⟨e, he, pair_symm hp⟩

theorem edgeRelBut_symm {l : List Edge} {j x y : Nat} (h : EdgeRelBut l j x y) :
    EdgeRelBut l j y x := by
  obtain ⟨k, e, hk, he, hp⟩ := h
  exact ⟨k, e, hk, he, pair_symm hp⟩

theorem edgeRel_of_but {l : List Edge} {j x y : Nat}
    (h : Relation.ReflTransGen (EdgeRelBut l j) x y) :
    Relation.ReflTransGen (EdgeRel l) x y := by
  refine Relation.ReflTransGen.mono ?_ h
  rintro a b ⟨k, e, _, he, hp⟩
  exact ⟨e, (get?_mem_edges he).1, hp⟩

/-- In a forest every edge is a bridge. -/
theorem forest_bridges : ∀ l : List Edge, Forest l → Bridges l := by
  intro l
  induction l using List.reverseRecOn with
  | nil =>
    intro _ j e he
    cases he
  | append_singleton l a ih =>
    intro hf
    have hf' : Forest l := by
      intro k e hk
      have hlt := (get?_mem_edges hk).2
      have := hf k e (by rw [List.get?_append hlt]; exact hk)
      rw [List.take_append_of_le_length (Nat.le_of_lt hlt)] at this
      exact this
    have hnew : ¬ Relation.ReflTransGen (EdgeRel l) a.index0 a.index1 := by
      have := hf l.length a (by simp)
      rw [List.take_left] at this
      exact this
    have hb := ih hf'
    intro j e he hpath
    by_cases hlt : j < l.length
    · rw [List.get?_append hlt] at he
      have hsub : ∀ x y, EdgeRelBut (l ++ [a]) j x y →
          EdgeRelBut l j x y ∨ Pair a.index0 a.index1 x y := by
        rintro x y ⟨k, e', hk, he', hp⟩
        by_cases hkl : k < l.length
        · rw [List.get?_append hkl] at he'
          exact Or.inl ⟨k, e', hk, he', hp⟩
        · have hlen := (get?_mem_edges he').2
          rw [List.length_append, List.length_singleton] at hlen
          have hk' : k = l.length := by omega
          rw [hk'] at he'
          simp at he'
          rw [← he'] at hp
          exact Or.inr hp
      have hpath' := Relation.ReflTransGen.mono hsub hpath
      have hedge : EdgeRel l e.index0 e.index1 :=
        ⟨e, (get?_mem_edges he).1, Or.inl ⟨rfl, rfl⟩⟩
      rcases rtg_pair_split hpath' with h1 | ⟨h1, h2⟩ | ⟨h1, h2⟩
      · exact hb j e he h1
      · apply hnew
        exact ((rtg_symm_of (fun _ _ => edgeRel_symm) (edgeRel_of_but h1)).tail hedge).trans
          (rtg_symm_of (fun _ _ => edgeRel_symm) (edgeRel_of_but h2))
      · apply hnew
        exact (edgeRel_of_but h2).trans
          ((Relation.ReflTransGen.single (edgeRel_symm hedge)).trans (edgeRel_of_but h1))
    · have hlen := (get?_mem_edges he).2
      rw [List.length_append, List.length_singleton] at hlen
      have hj : j = l.length := by omega
      rw [hj] at he
      simp at he
      subst he
      apply hnew
      refine Relation.ReflTransGen.mono ?_ hpath
      rintro x y ⟨k, e', hk, he', hp⟩
      have hkl : k < l.length := by
        have := (get?_mem_edges he').2
        rw [List.length_append, List.length_singleton] at this
        omega
      rw [List.get?_append hkl] at he'
      exact ⟨e', (get?_mem_edges he').1, hp⟩

/-- The four offsets of `construct_graph` are pairwise different. -/
theorem dirNbr_inj {nx ny : Nat} {d d' p o : Nat} (hd : d < 4) (hd' : d' < 4)
    (h : DirNbr nx ny (dx_list.getD d 0) (dy_list.getD d 0) p o)
    (h' : DirNbr nx ny (dx_list.getD d' 0) (dy_list.getD d' 0) p o) : d = d' := by
  obtain ⟨_, h1, h2⟩ := h
  obtain ⟨_, h3, h4⟩ := h'
  interval_cases d <;> interval_cases d' <;>
    simp only [dx_list, dy_list, List.getD_cons_zero, List.getD_cons_succ] at h1 h2 h3 h4 <;>
    first | rfl | omega

/-- No offset of `construct_graph` is zero. -/
theorem dirNbr_irrefl {nx ny : Nat} {d p : Nat} (hd : d < 4)
    (h : DirNbr nx ny (dx_list.getD d 0) (dy_list.getD d 0) p p) : False := by
  obtain ⟨_, h1, h2⟩ := h
  interval_cases d <;>
    simp only [dx_list, dy_list, List.getD_cons_zero, List.getD_cons_succ] at h1 h2 <;> omega

/-- With direction seed 0 no two slots of a pixel hold the same edge. -/
theorem slotsOnce_of_slotInv {nx ny : Nat} {g : State} (h : SlotInv nx ny g) :
    SlotsOnce g.v := by
  intro p d d' k hd hd' h1 h2
  obtain ⟨e, he, hx⟩ := h.sound p d k hd h1
  obtain ⟨e', he', hx'⟩ := h.sound p d' k hd' h2
  rw [he] at he'
  cases he'
  rcases hx with ⟨a1, a2⟩ | ⟨a1, a2⟩ <;> rcases hx' with ⟨b1, b2⟩ | ⟨b1, b2⟩
  · exact dirNbr_inj hd hd' a2 b2
  · rw [a1] at b2
    exact (dirNbr_irrefl hd' b2).elim
  · rw [b1] at a2
    exact (dirNbr_irrefl hd a2).elim
  · exact dirNbr_inj hd hd' a2 b2

/-- The unexplored edges in the slots of a pixel are listed once each. -/
theorem adjacentEdges_nodup {v_pixel : Nat → Vertex} (hso : SlotsOnce v_pixel) (p : Nat)
    (ee : Nat → Bool) : (adjacentEdges (v_pixel p) ee).Nodup := by
  unfold adjacentEdges
  have hl : (List.range 4).Pairwise (fun a b => a ≠ b ∧ a < 4 ∧ b < 4) := by decide
  refine List.Pairwise.filterMap _ ?_ hl
  rintro d d' ⟨hne, hd, hd'⟩ k hk k' hk' hkk
  rw [Option.mem_def] at hk hk'
  dsimp only at hk hk'
  split_ifs at hk hk' with c1 c2
  have e1 : ((v_pixel p).edge d).toNat = k := Option.some.inj hk
  have e2 : ((v_pixel p).edge d').toNat = k' := Option.some.inj hk'
  apply hne
  refine hso p d d' k hd hd' ?_ ?_
  · rw [← e1, Int.toNat_of_nonneg c1.1]
  · rw [hkk, ← e2, Int.toNat_of_nonneg c2.1]

theorem exploredRel_symm {v_edge : List Edge} {s : XState} {x y : Nat}
    (h : ExploredRel v_edge s x y) : ExploredRel v_edge s y x := by
  obtain ⟨k, e, h1, h2, h3, h4, h5⟩ := h
  exact ⟨k, e, h1, h2, h3, h4, pair_symm h5⟩

/-- Flags that are set stay set, so the explored edges between explored
pixels only become more. -/
theorem exploredRel_mono {v_edge : List Edge} {s s' : XState}
    (he : ∀ k, s.edge_explored k = true → s'.edge_explored k = true)
    (hp : ∀ p, s.pixel_explored p = true → s'.pixel_explored p = true) {x y : Nat}
    (h : Relation.ReflTransGen (ExploredRel v_edge s) x y) :
    Relation.ReflTransGen (ExploredRel v_edge s') x y := by
  refine Relation.ReflTransGen.mono ?_ h
  rintro a b ⟨k, e, h1, h2, h3, h4, h5⟩
  exact ⟨k, e, h1, he k h2, hp _ h3, hp _ h4, h5⟩

/-- Two different end points of one edge are its two end points. -/
theorem pair_of_incident {v_edge : List Edge} {k x b : Nat} (hx : Incident v_edge k x)
    (hb : Incident v_edge k b) (hne : x ≠ b) :
    ∃ e, v_edge.get? k = some e ∧ Pair e.index0 e.index1 x b := by
  obtain ⟨e, he, h1⟩ := hx
  obtain ⟨e', he', h2⟩ := hb
  rw [he] at he'
  cases he'
  refine ⟨e, he, ?_⟩
  rcases h1 with h1 | h1 <;> rcases h2 with h2 | h2
  · exact absurd (h1.symm.trans h2) hne
  · exact Or.inl ⟨h1.symm, h2.symm⟩
  · exact Or.inr ⟨h1.symm, h2.symm⟩
  · exact absurd (h1.symm.trans h2) hne

/-- Exploring the new end point `b` of the popped edge `j` keeps the invariant
of the work queue: none of the edges of `b` is queued already, because such an
edge and `j` would close a cycle. -/
theorem queue_explore {v_pixel : Nat → Vertex} {v_edge : List Edge}
    {P0 : Nat → Bool} {i0 : Nat} {s s' : XState} {j : Nat} {e : Edge} {b : Nat}
    (hs : SlotsOK v_pixel v_edge) (hso : SlotsOnce v_pixel) (hb : Bridges v_edge)
    (he : v_edge.get? j = some e) (hje : s.edge_explored j = true)
    (hbe : b = e.index0 ∨ b = e.index1) (hbf : s.pixel_explored b = false)
    (hother : (s.q = [] ∧ ∀ p, s.pixel_explored p = true → P0 p = true) ∨
      ∃ y, Pair e.index0 e.index1 y b ∧ s.pixel_explored y = true ∧ P0 y = false)
    (hqinc : ∀ k ∈ s.q, k = i0 ∨
      ∃ x, Incident v_edge k x ∧ s.pixel_explored x = true ∧ P0 x = false)
    (h0 : s.edge_explored i0 = true) (hq : QInv v_edge P0 i0 s)
    (hE : s'.edge_explored = s.edge_explored)
    (hP : s'.pixel_explored = setFlag s.pixel_explored b true)
    (hQ : s'.q = s.q ++ adjacentEdges (v_pixel b) s.edge_explored)
    (hA : s'.asserts = s.asserts) : QInv v_edge P0 i0 s' := by
  have hpm : ∀ p, s.pixel_explored p = true → s'.pixel_explored p = true := by
    intro p hp
    rw [hP]
    unfold setFlag
    split_ifs
    · rfl
    · exact hp
  have hbt : s'.pixel_explored b = true := by rw [hP]; exact setFlag_same _ _ _
  refine ⟨?_, ?_, ?_, Or.inl (by rw [hE]; exact h0), by rw [hA]; exact hq.asserts⟩
  · rw [hQ]
    refine List.nodup_append.2 ⟨hq.nodup, adjacentEdges_nodup hso b _, ?_⟩
    intro k hk1 hk2
    obtain ⟨d, hd, hslot, hku⟩ := mem_adjacentEdges.1 hk2
    have hinc : Incident v_edge k b := hs.sound b d k hd hslot
    rcases hother with ⟨hqe, _⟩ | ⟨y, hpair, hy1, hy2⟩
    · rw [hqe] at hk1
      exact absurd hk1 (List.not_mem_nil k)
    · rcases hqinc k hk1 with e1 | ⟨x, hix, hx1, hx2⟩
      · rw [e1, h0] at hku
        cases hku
      · have hxb : x ≠ b := by
          intro hxb
          rw [hxb, hbf] at hx1
          cases hx1
        have hkj : k ≠ j := by
          intro hkj
          rw [hkj, hje] at hku
          cases hku
        have hpath : Relation.ReflTransGen (EdgeRelBut v_edge j) y x := by
          refine Relation.ReflTransGen.mono ?_ (hq.conn y x hy1 hy2 hx1 hx2)
          rintro u w ⟨k', e', hk', _, hp0, hp1, hpr⟩
          refine ⟨k', e', ?_, hk', hpr⟩
          intro hk'j
          rw [hk'j, he] at hk'
          cases hk'
          rcases hbe with hbe | hbe
          · rw [← hbe, hbf] at hp0
            cases hp0
          · rw [← hbe, hbf] at hp1
            cases hp1
        obtain ⟨ek, hek, hpk⟩ := pair_of_incident hix hinc hxb
        have hyb : Relation.ReflTransGen (EdgeRelBut v_edge j) y b :=
          hpath.tail ⟨k, ek, hkj, hek, hpk⟩
        rcases hpair with ⟨h1, h2⟩ | ⟨h1, h2⟩
        · rw [h1, h2] at hyb
          exact hb j e he hyb
        · rw [h1, h2] at hyb
          exact hb j e he (rtg_symm_of (fun _ _ => edgeRelBut_symm) hyb)
  · intro k hk
    rw [hQ] at hk
    rw [hE]
    rcases List.mem_append.1 hk with hk | hk
    · exact hq.fresh k hk
    · exact (mem_adjacentEdges.1 hk).choose_spec.2.2
  · have hmono : ∀ u w, Relation.ReflTransGen (ExploredRel v_edge s) u w →
        Relation.ReflTransGen (ExploredRel v_edge s') u w :=
      fun u w h => @exploredRel_mono v_edge s s' (fun k h => by rw [hE]; exact h) hpm u w h
    have hlink : ∀ z, s.pixel_explored z = true → P0 z = false →
        Relation.ReflTransGen (ExploredRel v_edge s') z b := by
      intro z hz1 hz2
      rcases hother with ⟨_, hall⟩ | ⟨y0, hpair, hy1, hy2⟩
      · rw [hall z hz1] at hz2
        cases hz2
      · refine (hmono _ _ (hq.conn z y0 hz1 hz2 hy1 hy2)).tail
          ⟨j, e, he, by rw [hE]; exact hje, ?_, ?_, hpair⟩
        · rcases hpair with ⟨h1, _⟩ | ⟨_, h2⟩
          · rw [← h1]; exact hpm _ hy1
          · rw [← h2]; exact hbt
        · rcases hpair with ⟨_, h2⟩ | ⟨h1, _⟩
          · rw [← h2]; exact hbt
          · rw [← h1]; exact hpm _ hy1
    intro x y hx1 hx2 hy1 hy2
    rw [hP] at hx1 hy1
    by_cases hxb : x = b
    · by_cases hyb : y = b
      · rw [hxb, hyb]
      · rw [setFlag_other _ _ hyb] at hy1
        rw [hxb]
        exact rtg_symm_of (fun _ _ => exploredRel_symm) (hlink y hy1 hy2)
    · rw [setFlag_other _ _ hxb] at hx1
      by_cases hyb : y = b
      · rw [hyb]
        exact hlink x hx1 hx2
      · rw [setFlag_other _ _ hyb] at hy1
        exact hmono _ _ (hq.conn x y hx1 hx2 hy1 hy2)

/-- Visiting the end point `b` of the popped edge `j` keeps the invariant of
the work queue. -/
theorem queue_visitEndpoint {v_pixel : Nat → Vertex} {v_edge : List Edge} {pt : Int}
    {P0 : Nat → Bool} {i0 : Nat} {s : XState} {j : Nat} {e : Edge} {b : Nat}
    (hs : SlotsOK v_pixel v_edge) (hso : SlotsOnce v_pixel) (hb : Bridges v_edge)
    (he : v_edge.get? j = some e) (hje : s.edge_explored j = true)
    (hbe : b = e.index0 ∨ b = e.index1)
    (hother : s.pixel_explored b = false →
      (s.q = [] ∧ ∀ p, s.pixel_explored p = true → P0 p = true) ∨
      ∃ y, Pair e.index0 e.index1 y b ∧ s.pixel_explored y = true ∧ P0 y = false)
    (hqinc : ∀ k ∈ s.q, k = i0 ∨
      ∃ x, Incident v_edge k x ∧ s.pixel_explored x = true ∧ P0 x = false)
    (h0 : s.edge_explored i0 = true) (hq : QInv v_edge P0 i0 s) :
    QInv v_edge P0 i0 (visitEndpoint v_pixel pt s b) := by
  unfold visitEndpoint
  by_cases hx : s.pixel_explored b = true
  · rw [if_pos hx]
    exact hq
  · rw [if_neg hx]
    have hbf : s.pixel_explored b = false := by simpa using hx
    exact queue_explore hs hso hb he hje hbe hbf (hother hbf) hqinc h0 hq rfl rfl rfl rfl

theorem visitEndpoint_edges (v_pixel : Nat → Vertex) (pt : Int) (s : XState) (y : Nat) :
    (visitEndpoint v_pixel pt s y).edge_explored = s.edge_explored := by
  unfold visitEndpoint
  split_ifs <;> rfl

/-- Taking the edge `j` from the front of the queue and marking it explored
keeps the invariant of the work queue; the check that `j` was not explored
holds, and the seed edge is explored afterwards. -/
theorem queue_pop {v_edge : List Edge} {P0 : Nat → Bool} {i0 : Nat} {s s' : XState} {j : Nat}
    {rest : List Nat} (hq : QInv v_edge P0 i0 s) (hsq : s.q = j :: rest)
    (hE : s'.edge_explored = setFlag s.edge_explored j true)
    (hP : s'.pixel_explored = s.pixel_explored) (hQ : s'.q = rest)
    (hA : s'.asserts = (s.asserts && decide (s.edge_explored j = false))) :
    QInv v_edge P0 i0 s' ∧ s'.edge_explored i0 = true ∧ s'.edge_explored j = true := by
  have hnd := hq.nodup
  rw [hsq] at hnd
  have hjf : s.edge_explored j = false := hq.fresh j (by rw [hsq]; exact List.mem_cons_self _ _)
  have hmono : ∀ k, s.edge_explored k = true → s'.edge_explored k = true := by
    intro k hk
    rw [hE]
    unfold setFlag
    split_ifs
    · rfl
    · exact hk
  have hj : s'.edge_explored j = true := by rw [hE]; exact setFlag_same _ _ _
  have h0 : s'.edge_explored i0 = true := by
    rcases hq.first with h1 | ⟨h1, _⟩
    · exact hmono _ h1
    · rw [hsq] at h1
      have : j = i0 := by
        have := congrArg List.head? h1
        simpa using this
      rw [← this]; exact hj
  refine ⟨⟨?_, ?_, ?_, Or.inl h0, ?_⟩, h0, hj⟩
  · rw [hQ]
    exact (List.nodup_cons.1 hnd).2
  · intro k hk
    rw [hQ] at hk
    have hne : k ≠ j := by
      intro e
      rw [e] at hk
      exact (List.nodup_cons.1 hnd).1 hk
    rw [hE, setFlag_other _ _ hne]
    exact hq.fresh k (by rw [hsq]; exact List.mem_cons_of_mem _ hk)
  · intro x y hx1 hx2 hy1 hy2
    rw [hP] at hx1 hy1
    exact @exploredRel_mono v_edge s s' hmono (fun p hp => by rw [hP]; exact hp) x y
      (hq.conn x y hx1 hx2 hy1 hy2)
  · rw [hA, hq.asserts, hjf]
    rfl

/-- The loop `grow` ends with an empty queue and keeps, besides the invariant
of the walk, the invariant of the work queue: no assertion fails. -/
theorem queue_grow {v_pixel : Nat → Vertex} {img_size : Nat} {v_edge : List Edge} {pt et : Int}
    {E0 P0 : Nat → Bool} {i0 : Nat} {e0 : Edge}
    (hends : ∀ e ∈ v_edge, e.index0 < img_size ∧ e.index1 < img_size) (hpos : 0 < img_size)
    (hs : SlotsOK v_pixel v_edge) (hso : SlotsOnce v_pixel) (hb : Bridges v_edge)
    (hi0 : v_edge.get? i0 = some e0)
    (hinc0 : ∀ p, P0 p = true → ∀ k, Incident v_edge k p → E0 k = true) (st : XState)
    (h : XInv v_pixel v_edge pt et E0 P0 i0 e0 (fun _ => False) st)
    (hq0 : QInv v_edge P0 i0 st)
    (hf : st.q.length + 4 * unexplored img_size st.pixel_explored ≤ 4 * img_size + 1) :
    ∃ st', grow v_pixel v_edge pt et (4 * img_size + 1) st = some st' ∧
      (XInv v_pixel v_edge pt et E0 P0 i0 e0 (fun _ => False) st' ∧ QInv v_edge P0 i0 st') ∧
      st'.q = [] := by
  have hpopped : ∀ (s : XState) (j : Nat) (rest : List Nat),
      XInv v_pixel v_edge pt et E0 P0 i0 e0 (fun _ => False) s → s.q = j :: rest →
      ∃ e, v_edge.get? j = some e := by
    intro s j rest hI hq
    rcases hI.qinc j (by rw [hq]; exact List.mem_cons_self _ _) with e | ⟨x, ⟨e, he, _⟩, _⟩
    · exact ⟨e0, by rw [e]; exact hi0⟩
    · exact ⟨e, he⟩
  refine @grow_induct v_pixel img_size v_edge pt et hends hpos
    (fun s => XInv v_pixel v_edge pt et E0 P0 i0 e0 (fun _ => False) s ∧ QInv v_edge P0 i0 s)
    ?_ ?_ (4 * img_size + 1) st ⟨h, hq0⟩ hf
  · rintro s j rest ⟨hI, hQ⟩ hq hv
    obtain ⟨e, he⟩ := hpopped s j rest hI hq
    rw [getD_of_get? he] at hv
    have := walk_pop hI hq he (s.asserts && decide (s.edge_explored j = false)) s.c.edges
    exact ⟨xinv_weaken this (fun p hp => absurd hp.1 (not_le.2 hv)),
      (@queue_pop v_edge P0 i0 s
        { s with q := rest
                 asserts := s.asserts && decide (s.edge_explored j = false)
                 edge_explored := setFlag s.edge_explored j true } j rest hQ hq
        rfl rfl rfl rfl).1⟩
  · rintro s j rest ⟨hI, hQ⟩ hq hv
    obtain ⟨e, he⟩ := hpopped s j rest hI hq
    rw [getD_of_get? he] at hv ⊢
    have hval : et ≤ e.value := not_lt.1 hv
    have hmem := (get?_mem_edges he).1
    have hjq : j ∈ s.q := by rw [hq]; exact List.mem_cons_self _ _
    have h2 := walk_pop hI hq he (s.asserts && decide (s.edge_explored j = false))
      (s.c.edges ++ [e])
    obtain ⟨hQ2, h02, hj2⟩ := @queue_pop v_edge P0 i0 s
      { edge_explored := setFlag s.edge_explored j true
        pixel_explored := s.pixel_explored
        q := rest
        c := { pixels := s.c.pixels, edges := s.c.edges ++ [e] }
        asserts := s.asserts && decide (s.edge_explored j = false) } j rest hQ hq rfl rfl rfl rfl
    have hrel : EdgeRelT v_edge et e.index0 e.index1 := ⟨e, hmem, hval, Or.inl ⟨rfl, rfl⟩⟩
    have hfacts : Relation.ReflTransGen (EdgeRelT v_edge et) e0.index0 e.index0 ∧
        ((e.index0 = e0.index0 ∨ s.pixel_explored e0.index0 = true) ∧ et ≤ e0.value) := by
      rcases hI.qinc j hjq with e1 | ⟨x, ⟨e', he', hx⟩, hx2, hx3⟩
      · rw [e1, hi0] at he
        cases he
        exact ⟨Relation.ReflTransGen.refl, Or.inl rfl, hval⟩
      · rw [he] at he'
        cases he'
        have hr := hI.reach x hx2 hx3
        have hst := hI.started x hx2 hx3
        rcases hx with hx | hx
        · rw [hx]; exact ⟨hr, Or.inr hst.1, hst.2⟩
        · rw [← hx] at hr
          exact ⟨hr.tail (edgeRelT_symm hrel), Or.inr hst.1, hst.2⟩
    obtain ⟨hr0, hy0, hv0⟩ := hfacts
    have hP0 : ∀ p, (e.index0 = p ∨ e.index1 = p) → P0 p = false := by
      intro p hp
      cases hx : P0 p with
      | false => rfl
      | true =>
        have h1 := hI.emono j (hinc0 p hx j ⟨e, he, hp⟩)
        rw [hQ.fresh j hjq] at h1
        cases h1
    have hother0 : s.pixel_explored e.index0 = false →
        (rest = [] ∧ ∀ p, s.pixel_explored p = true → P0 p = true) ∨
        ∃ y, Pair e.index0 e.index1 y e.index0 ∧ s.pixel_explored y = true ∧ P0 y = false := by
      intro hun
      rcases hI.qinc j hjq with e1 | ⟨x, ⟨e', he', hx⟩, hx2, hx3⟩
      · rcases hQ.first with h1 | ⟨h1, h1'⟩
        · rw [← e1, hQ.fresh j hjq] at h1
          cases h1
        · left
          rw [hq] at h1
          refine ⟨?_, h1'⟩
          have := congrArg List.tail h1
          simpa using this
      · rw [he] at he'
        cases he'
        rcases hx with hx | hx
        · rw [hx, hx2] at hun
          cases hun
        · right
          exact ⟨x, Or.inr ⟨hx.symm, rfl⟩, hx2, hx3⟩
    have h3 := walk_visitEndpoint hs h2 hr0 ⟨hy0, hv0⟩
    have hQ3 := @queue_visitEndpoint v_pixel v_edge pt P0 i0 _ j e e.index0 hs hso hb he hj2
      (Or.inl rfl) hother0 h2.qinc h02 hQ2
    have hexp0 : (visitEndpoint v_pixel pt
        { edge_explored := setFlag s.edge_explored j true
          pixel_explored := s.pixel_explored
          q := rest
          c := { pixels := s.c.pixels, edges := s.c.edges ++ [e] }
          asserts := s.asserts && decide (s.edge_explored j = false) }
        e.index0).pixel_explored e.index0 = true := visitEndpoint_explored _ _ _ _
    have hexp : (visitEndpoint v_pixel pt
        { edge_explored := setFlag s.edge_explored j true
          pixel_explored := s.pixel_explored
          q := rest
          c := { pixels := s.c.pixels, edges := s.c.edges ++ [e] }
          asserts := s.asserts && decide (s.edge_explored j = false) }
        e.index0).pixel_explored e0.index0 = true := by
      rcases hy0 with e1 | e1
      · rw [← e1]; exact visitEndpoint_explored _ _ _ _
      · exact visitEndpoint_mono _ _ _ _ _ e1
    have h4 := walk_visitEndpoint hs h3 (hr0.tail hrel) ⟨Or.inr hexp, hv0⟩
    have hQ4 := @queue_visitEndpoint v_pixel v_edge pt P0 i0 _ j e e.index1 hs hso hb he
      (by rw [visitEndpoint_edges]; exact hj2) (Or.inr rfl)
      (fun _ => Or.inr ⟨e.index0, Or.inl ⟨rfl, rfl⟩, hexp0, hP0 _ (Or.inl rfl)⟩)
      h3.qinc (by rw [visitEndpoint_edges]; exact h02) hQ3
    refine ⟨xinv_weaken h4 (fun p hp => ?_), hQ4⟩
    rcases hp.1.1.2 with e1 | e1
    · exact hp.1.2 e1
    · exact hp.2 e1

/-- Looking at the edge `i` of the list keeps the assertion flag: when a
cluster is seeded the queue is empty, and no popped edge is explored. -/
theorem queue_seedEdge {v_pixel : Nat → Vertex} {img_size : Nat} {v_edge : List Edge}
    {pt et : Int} {sz : Nat} (hends : ∀ e ∈ v_edge, e.index0 < img_size ∧ e.index1 < img_size)
    (hpos : 0 < img_size) (hs : SlotsOK v_pixel v_edge) (hso : SlotsOnce v_pixel)
    (hb : Bridges v_edge) {cl cl' : List Cluster} {st st' : XState}
    {new : List Cluster} {i : Nat} (hi : i < v_edge.length)
    (h : OInv v_pixel v_edge pt et sz i st new) (ha : st.asserts = true)
    (hrun : seedEdge v_pixel img_size v_edge pt et sz (some (st, cl)) i = some (st', cl')) :
    st'.asserts = true := by
  obtain ⟨e0, hi0⟩ : ∃ e0, v_edge.get? i = some e0 := ⟨_, List.get?_eq_get hi⟩
  unfold seedEdge at hrun
  simp only [] at hrun
  rw [getD_of_get? hi0] at hrun
  by_cases hc : st.edge_explored i = true ∨
      (st.pixel_explored e0.index0 = true ∧ st.pixel_explored e0.index1 = true)
  · rw [if_pos hc] at hrun
    cases hrun
    exact ha
  · rw [if_neg hc] at hrun
    push_neg at hc
    have hEi : st.edge_explored i = false := by simpa using hc.1
    have hinit : XInv v_pixel v_edge pt et st.edge_explored st.pixel_explored i e0
        (fun _ => False)
        { st with q := st.q ++ [i], c := ⟨[], []⟩,
                  asserts := st.asserts && decide (st.q = []) } := by
      refine ⟨?_, ?_, ?_, fun _ hp => hp, fun _ hk => hk, ?_, ?_, ?_, List.nodup_nil, ?_⟩
      · intro k hk
        dsimp only at hk
        rw [h.q] at hk
        left
        simpa using hk
      · intro p hp k hk
        exact Or.inl (h.inc p hp k hk)
      · intro k e hk hx hv
        obtain ⟨h1, h2⟩ := h.ends k e hk hx hv
        exact ⟨Or.inl h1, Or.inl h2⟩
      · intro p hp hp0
        dsimp only at hp
        rw [hp] at hp0
        cases hp0
      · intro p hp hp0
        dsimp only at hp
        rw [hp] at hp0
        cases hp0
      · right
        dsimp only
        rw [h.q]
        simp
      · intro p
        dsimp only
        constructor
        · intro hm; exact absurd hm (List.not_mem_nil p)
        · rintro ⟨h1, h2, _⟩
          rw [h1] at h2
          cases h2
    have hqinit : QInv v_edge st.pixel_explored i
        { st with q := st.q ++ [i], c := ⟨[], []⟩,
                  asserts := st.asserts && decide (st.q = []) } := by
      refine ⟨?_, ?_, ?_, Or.inr ⟨?_, fun _ hp => hp⟩, ?_⟩
      · dsimp only
        rw [h.q]
        simp
      · intro k hk
        dsimp only at hk ⊢
        rw [h.q] at hk
        have : k = i := by simpa using hk
        rw [this]; exact hEi
      · intro x y hx1 hx2
        dsimp only at hx1
        rw [hx1] at hx2
        cases hx2
      · dsimp only
        rw [h.q]
        rfl
      · dsimp only
        rw [ha, h.q]
        rfl
    obtain ⟨st'', hrun', ⟨_, hQ⟩, _⟩ := queue_grow hends hpos hs hso hb hi0 h.inc _ hinit hqinit
      (by
        dsimp only
        rw [h.q]
        have := unexplored_le img_size st.pixel_explored
        simp only [List.nil_append, List.length_singleton]
        omega)
    rw [hrun'] at hrun
    simp only [] at hrun
    split_ifs at hrun <;> cases hrun <;> exact hQ.asserts

/-- The loop over all edges keeps the invariant between clusters and the
assertion flag. -/
theorem queue_seedAll {v_pixel : Nat → Vertex} {img_size : Nat} {v_edge : List Edge}
    {pt et : Int} {sz : Nat} (hends : ∀ e ∈ v_edge, e.index0 < img_size ∧ e.index1 < img_size)
    (hpos : 0 < img_size) (hs : SlotsOK v_pixel v_edge) (hso : SlotsOnce v_pixel)
    (hb : Bridges v_edge) (cl0 : List Cluster) :
    ∀ k, k ≤ v_edge.length →
      ∃ st' new', (List.range k).foldl (seedEdge v_pixel img_size v_edge pt et sz)
        (some ({ edge_explored := fun _ => false, pixel_explored := fun _ => false, q := [],
                 c := ⟨[], []⟩, asserts := true }, cl0)) = some (st', cl0 ++ new') ∧
        OInv v_pixel v_edge pt et sz k st' new' ∧ st'.asserts = true := by
  intro k
  induction k with
  | zero =>
    intro _
    obtain ⟨st', new', h1, h2⟩ :=
      @walk_seedAll v_pixel img_size v_edge pt et sz hends hpos hs cl0 0 (Nat.zero_le _)
    refine ⟨st', new', h1, h2, ?_⟩
    simp only [List.range_zero, List.foldl_nil, Option.some.injEq, Prod.mk.injEq] at h1
    rw [← h1.1]
  | succ k ih =>
    intro hk
    obtain ⟨st, new, hrun, hO, ha⟩ := ih (Nat.le_of_succ_le hk)
    obtain ⟨st', new', hstep, hO'⟩ :=
      @walk_seedEdge v_pixel img_size v_edge pt et sz hends hpos hs cl0 st new k
        (Nat.lt_of_succ_le hk) hO
    refine ⟨st', new', ?_, hO', queue_seedEdge hends hpos hs hso hb (Nat.lt_of_succ_le hk) hO ha
      hstep⟩
    rw [List.range_succ, List.foldl_append, hrun]
    simpa using hstep

/-- On a graph whose slots list its edges once and whose edges are bridges,
`obtain_clusters` returns without a failed assertion, with an empty queue and
every edge explored. -/
theorem obtain_clusters_asserts {v_pixel : Nat → Vertex} {img_size : Nat} {v_edge : List Edge}
    (pt et : Int) (sz : Nat) (cl0 : List Cluster)
    (hends : ∀ e ∈ v_edge, e.index0 < img_size ∧ e.index1 < img_size)
    (hs : SlotsOK v_pixel v_edge) (hso : SlotsOnce v_pixel) (hb : Bridges v_edge) :
    ∃ st cs, obtain_clusters_run v_pixel img_size v_edge pt et sz cl0 = some (st, cs) ∧
      st.asserts = true ∧ st.q = [] ∧ ∀ k, k < v_edge.length → st.edge_explored k = true := by
  unfold obtain_clusters_run
  simp only []
  by_cases he : v_edge.length = 0
  · rw [if_pos he]
    refine ⟨_, _, rfl, rfl, rfl, ?_⟩
    intro k hk
    rw [he] at hk
    exact absurd hk (Nat.not_lt_zero k)
  · rw [if_neg he]
    have hpos : 0 < img_size := by
      cases hv : v_edge with
      | nil => rw [hv] at he; simp at he
      | cons e rest =>
        have := (hends e (by rw [hv]; exact List.mem_cons_self _ _)).1
        omega
    obtain ⟨st', new', hrun, hO, ha⟩ := @queue_seedAll v_pixel img_size v_edge pt et sz hends
      hpos hs hso hb cl0 v_edge.length le_rfl
    exact ⟨st', _, hrun, ha, hO.q, fun k hk => hO.seen k hk hk⟩

end Watershed

/-- **C31.** For every grid, intensity order that is a permutation of the pixel
indices and thresholds, the graph built by `construct_graph` with direction
seed 0 is such that `obtain_clusters`, for every query and whatever clusters
are held already, returns with no assertion failed: the queue was empty
whenever a cluster was seeded and no edge taken from the queue was marked
explored, so that no edge is taken from the queue twice.  At the end the
queue is empty and every edge is explored. -/
theorem C31_queue_checks_never_fail (nx ny : Nat) (img : Int → Int → Int)
    (buf_arg : Nat → Nat) (build_threshold merge_threshold : Int) (rand4 : Nat → Nat)
    (pixel_threshold edge_threshold : Int) (size_threshold : Nat) (clusters : List Cluster)
    (hv : ValidOrder (nx * ny) buf_arg) :
    ∃ g st out,
      Watershed.construct_graph nx ny img buf_arg build_threshold merge_threshold 0 rand4 =
        some g ∧
      Watershed.obtain_clusters_run g.v (nx * ny) g.v_edge pixel_threshold edge_threshold
        size_threshold clusters = some (st, out) ∧
      st.asserts = true ∧ st.q = [] ∧ ∀ k, k < g.v_edge.length → st.edge_explored k = true := by
  obtain ⟨g, k, hrun, hg, hs⟩ :=
    Watershed.construct_graph_slots img build_threshold merge_threshold rand4 hv
  obtain ⟨k', st0, hr, e1, e2⟩ := Watershed.construct_graph_reached hrun
  have hf : Watershed.Forest g.v_edge := by
    rw [e2]
    exact (Watershed.reached_ginv hv hr).2.forest
  obtain ⟨st, out, h1, h2, h3, h4⟩ :=
    Watershed.obtain_clusters_asserts pixel_threshold edge_threshold size_threshold clusters
      (Watershed.ends_of_ginv hv hg) (Watershed.slotsOK_of_slotInv hs)
      (Watershed.slotsOnce_of_slotInv hs) (Watershed.forest_bridges _ hf)
  exact ⟨g, st, out, hrun, h1, h2, h3, h4⟩

/-- Instance of C31 on the 2 × 2 grid with values 0, 1, 2, 3 and the identity
order, built with pixel threshold 1 and merge threshold 100, queried with
thresholds 2, 2 and 1. -/
theorem C31_queue_checks_never_fail_witness :
    ValidOrder (2 * 2) (fun i => i) ∧
    ∃ g st out,
      Watershed.construct_graph 2 2 (fun ix iy => ix * 2 + iy) (fun i => i) 1 100 0
        (fun _ => 0) = some g ∧
      Watershed.obtain_clusters_run g.v (2 * 2) g.v_edge 2 2 1 [] = some (st, out) ∧
      st.asserts = true ∧ st.q = [] ∧ ∀ k, k < g.v_edge.length → st.edge_explored k = true :=
  have hv : ValidOrder (2 * 2) (fun i => i) :=
    ⟨fun _ h => h, fun _ _ _ _ h => h, fun p h => ⟨p, h, rfl⟩⟩
  ⟨hv, C31_queue_checks_never_fail 2 2 _ _ 1 100 (fun _ => 0) 2 2 1 [] hv⟩

end Cellular

namespace Cellular

/-! ## The counter on a descending threshold sequence -/

namespace Ncluster

theorem advance_le (v : Int) : ∀ l : List Int, advance v l ≤ l.length := by
  intro l
  induction l with
  | nil => simp [advance]
  | cons th rest ih =>
    unfold advance
    split_ifs
    · exact Nat.zero_le _
    · simpa using ih

/-- The threshold at which the search stops is not above the value. -/
theorem advance_stop (v : Int) : ∀ l : List Int, advance v l < l.length →
    l.getD (advance v l) 0 ≤ v := by
  intro l
  induction l with
  | nil => intro h; simp [advance] at h
  | cons th rest ih =>
    intro h
    unfold advance at h ⊢
    split_ifs at h ⊢ with hc
    · simpa using hc
    · rw [List.getD_cons_succ]
      exact ih (by simpa using h)

/-- The thresholds passed by the search are above the value. -/
theorem advance_passed (v : Int) : ∀ (l : List Int) (j : Nat), j < advance v l →
    v < l.getD j 0 := by
  intro l
  induction l with
  | nil => intro j h; simp [advance] at h
  | cons th rest ih =>
    intro j h
    unfold advance at h
    split_ifs at h with hc
    · exact absurd h (Nat.not_lt_zero j)
    · cases j with
      | zero => simpa using hc
      | succ j =>
        rw [List.getD_cons_succ]
        exact ih j (by omega)

/-- The search stops at the latest at a threshold that is not above the
value. -/
theorem advance_le_of (v : Int) : ∀ (l : List Int) (c : Nat), c < l.length →
    l.getD c 0 ≤ v → advance v l ≤ c := by
  intro l c hc hv
  by_contra hx
  exact absurd hv (not_le.2 (advance_passed v l c (not_le.1 hx)))

/-- A larger value stops the search earlier. -/
theorem advance_antitone {v v' : Int} (h : v ≤ v') (l : List Int) :
    advance v' l ≤ advance v l := by
  by_cases hlt : advance v l < l.length
  · exact advance_le_of v' l _ hlt (le_trans (advance_stop v l hlt) h)
  · exact le_trans (advance_le v' l) (not_lt.1 hlt)

/-- The search resumed at an index that it would pass anyway ends where the
search from the start ends. -/
theorem advance_drop (v : Int) : ∀ (l : List Int) (c : Nat), c ≤ advance v l →
    c + advance v (l.drop c) = advance v l := by
  intro l
  induction l with
  | nil =>
    intro c hc
    simp [advance] at hc
    subst hc
    simp [advance]
  | cons th rest ih =>
    intro c hc
    cases c with
    | zero => simp
    | succ c =>
      have e : advance v (th :: rest) = if th ≤ v then 0 else advance v rest + 1 := rfl
      rw [List.drop_succ_cons, e]
      rw [e] at hc
      split_ifs at hc ⊢ with h1
      · omega
      · have := ih c (by omega)
        omega

/-- On a strictly descending sequence the search stops at the index `c` when
the value is at least the threshold `c` and below the threshold before it. -/
theorem advance_desc {v : Int} {l : List Int} (hd : l.Pairwise (fun a b => b < a)) {c : Nat}
    (hc : c < l.length) (h1 : l.getD c 0 ≤ v) (h2 : 0 < c → v < l.getD (c - 1) 0) :
    advance v l = c := by
  apply le_antisymm (advance_le_of v l c hc h1)
  by_contra hx
  have ha : advance v l < c := not_le.1 hx
  have hpos : 0 < c := by omega
  have hs := advance_stop v l (by omega)
  have hp := h2 hpos
  have hle : l.getD (c - 1) 0 ≤ l.getD (advance v l) 0 := by
    by_cases he : advance v l = c - 1
    · rw [he]
    · have hlt : advance v l < c - 1 := by omega
      have := List.pairwise_iff_get.1 hd ⟨advance v l, by omega⟩ ⟨c - 1, by omega⟩ hlt
      rw [List.getD_eq_getElem _ _ (by omega : advance v l < l.length),
        List.getD_eq_getElem _ _ (by omega : c - 1 < l.length)]
      exact le_of_lt this
  exact absurd (lt_of_lt_of_le hp (le_trans hle hs)) (lt_irrefl _)

/-- The main loop on any threshold sequence: it ends, every slot that is the
threshold index of a processed position holds the running count of the lowest
such position, no other slot is written, and the positions left unprocessed
have values below every threshold. -/
theorem count_flood_slots {nx ny : Nat} {img : Int → Int → Int} {buf_arg : Nat → Nat}
    {ths : List Int} {s seed : Int} {rand4 : Nat → Nat} (buf0 : Nat → Int)
    (hv : ValidOrder (nx * ny) buf_arg) (hasc : Ascending (nx * ny) ny img buf_arg) :
    ∀ (k : Nat) (st : State), k ≤ nx * ny → PInv nx ny buf_arg s k st →
      (∀ m, m < k → st.i_threshold ≤ advance (pixval ny img (buf_arg m)) ths) →
      SlotsInv nx ny img buf_arg ths s buf0 k st.buf_nclusters →
      ∃ st' k', flood nx ny img buf_arg ths s seed rand4 k st = some st' ∧ k' ≤ nx * ny ∧
        SlotsInv nx ny img buf_arg ths s buf0 k' st'.buf_nclusters ∧
        (∀ m, m < k' → advance (pixval ny img (buf_arg m)) ths = ths.length) := by
  intro k
  induction k with
  | zero =>
    intro st _ _ _ hsl
    exact ⟨st, 0, rfl, Nat.zero_le _, hsl, fun m hm => absurd hm (Nat.not_lt_zero m)⟩
  | succ k ih =>
    intro st hk h hcur hsl
    have hkn : k < nx * ny := Nat.lt_of_succ_le hk
    have hadv : st.i_threshold + advance (pixval ny img (buf_arg k)) (ths.drop st.i_threshold) =
        advance (pixval ny img (buf_arg k)) ths :=
      advance_drop _ ths _ (hcur k (Nat.lt_succ_self k))
    have hanti : ∀ m, m < k + 1 → advance (pixval ny img (buf_arg k)) ths ≤
        advance (pixval ny img (buf_arg m)) ths := fun m hm =>
      advance_antitone (hasc m k (Nat.le_of_lt_succ hm) hkn) ths
    unfold flood
    simp only []
    rw [hadv]
    by_cases hstop : advance (pixval ny img (buf_arg k)) ths = ths.length
    · rw [if_pos hstop]
      refine ⟨_, k + 1, rfl, hk, hsl, ?_⟩
      intro m hm
      have h1 := hanti m hm
      have h2 := advance_le (pixval ny img (buf_arg m)) ths
      omega
    · rw [if_neg hstop]
      have hp' : PInv nx ny buf_arg s (k + 1)
          { st with i_threshold := advance (pixval ny img (buf_arg k)) ths,
                    asserts := st.asserts && decide (buf_arg k < nx * ny) } :=
        count_pinv_frame h rfl rfl rfl
      obtain ⟨st1, e1, p1, i1, b1⟩ := count_floodPixel_inv hv hkn
        (if seed = 0 then 0 else rand4 k) hp'
      rw [e1]
      simp only []
      dsimp only at i1 b1
      have hlt : advance (pixval ny img (buf_arg k)) ths < ths.length :=
        lt_of_le_of_ne (advance_le _ ths) hstop
      refine ih st1 (Nat.le_of_lt hkn) p1 ?_ ?_
      · intro m hm
        rw [i1]
        exact hanti m (Nat.lt_succ_of_lt hm)
      · intro slot
        by_cases hsa : slot = advance (pixval ny img (buf_arg k)) ths
        · left
          refine ⟨by rw [hsa]; exact hlt, k, le_rfl, hkn, hsa.symm, ?_, st1, p1, ?_⟩
          · intro j' h1 h2
            omega
          · rw [b1, hsa, setInt_same]
        · rw [b1, setInt_other _ _ hsa]
          rcases hsl slot with ⟨h0, j, h1, h2, h3, h4, h5⟩ | ⟨h1, h2⟩
          · left
            refine ⟨h0, j, Nat.le_of_succ_le h1, h2, h3, ?_, h5⟩
            intro j' h6 h7
            by_cases hj' : j' = k
            · rw [hj']
              exact fun e => hsa e.symm
            · exact h4 j' (by omega) h7
          · right
            refine ⟨?_, h2⟩
            intro j h3 h4
            by_cases hj : j = k
            · rw [hj]
              exact fun e => hsa e.symm
            · exact h1 j (by omega) h4

/-- The output of `compute_nclusters` on any threshold sequence: a slot `c`
at which the search stops for some pixel value holds the number of components
at the threshold `c`; every other slot is left as it was. -/
theorem compute_slots {nx ny : Nat} {img : Int → Int → Int} {buf_arg : Nat → Nat}
    {ths : List Int} {s seed : Int} {rand4 : Nat → Nat} (buf0 : Nat → Int)
    (hv : ValidOrder (nx * ny) buf_arg) (hasc : Ascending (nx * ny) ny img buf_arg) :
    ∃ st, compute_nclusters nx ny img buf_arg ths buf0 s seed rand4 = some st ∧
      ∀ c, ((c < ths.length ∧ ∃ p, p < nx * ny ∧ advance (pixval ny img p) ths = c) →
          CountsComponents nx ny img (ths.getD c 0) s (st.buf_nclusters c)) ∧
        (¬ (c < ths.length ∧ ∃ p, p < nx * ny ∧ advance (pixval ny img p) ths = c) →
          st.buf_nclusters c = buf0 c) := by
  obtain ⟨st, k', hrun, hk', hsl, hlow⟩ :=
    @count_flood_slots nx ny img buf_arg ths s seed rand4 buf0 hv hasc (nx * ny) _ le_rfl
      (count_pinv_init nx ny buf_arg s buf0) (fun m _ => Nat.zero_le _)
      (fun slot => Or.inr ⟨fun j h1 h2 => absurd h2 (not_lt.2 h1), rfl⟩)
  refine ⟨st, hrun, fun c => ⟨?_, ?_⟩⟩
  · rintro ⟨hc, p, hp, hpc⟩
    obtain ⟨m, hm, rfl⟩ := hv.surj p hp
    have hmk : k' ≤ m := by
      by_contra hx
      have := hlow m (not_le.1 hx)
      omega
    rcases hsl c with ⟨_, j, h1, h2, h3, h4, st0, h5, h6⟩ | ⟨h1, _⟩
    · have hjc : ths.getD c 0 ≤ pixval ny img (buf_arg j) := by
        have := advance_stop (pixval ny img (buf_arg j)) ths (by rw [h3]; exact hc)
        rw [h3] at this
        exact this
      have hFl : ∀ x, Flooded (nx * ny) buf_arg j x ↔ InThr nx ny img (ths.getD c 0) x := by
        refine flooded_iff_inThr hv hasc (Nat.le_of_lt h2) ?_ ?_
        · intro j2 h7 h8
          exact le_trans hjc (hasc j j2 h7 h8)
        · by_cases hj0 : j = 0
          · exact Or.inl hj0
          · right
            by_contra hx
            have hge : ths.getD c 0 ≤ pixval ny img (buf_arg (j - 1)) := not_lt.1 hx
            have e1 : advance (pixval ny img (buf_arg (j - 1))) ths ≤ c :=
              advance_le_of _ ths c hc hge
            have e2 : c ≤ advance (pixval ny img (buf_arg (j - 1))) ths := by
              rw [← h3]
              exact advance_antitone (hasc (j - 1) j (Nat.sub_le _ _) h2) ths
            have e3 : advance (pixval ny img (buf_arg (j - 1))) ths = c := le_antisymm e1 e2
            by_cases hjk : k' ≤ j - 1
            · exact h4 (j - 1) hjk (by omega) e3
            · have := hlow (j - 1) (not_le.1 hjk)
              omega
      have hu : UF (nx * ny) st0.v_next (InThr nx ny img (ths.getD c 0))
          (AdjF nx ny (InThr nx ny img (ths.getD c 0))) := by
        have e : Flooded (nx * ny) buf_arg j = InThr nx ny img (ths.getD c 0) :=
          funext (fun x => propext (hFl x))
        rw [← e]
        exact h5.uf
      rw [h6, h5.count]
      exact rootCount_counts hu h5.sizes
    · exact absurd hpc (h1 m hmk hm)
  · intro hno
    rcases hsl c with ⟨h0, j, h1, h2, h3, _⟩ | ⟨_, h2⟩
    · exact absurd ⟨h0, buf_arg j, hv.range j h2, h3⟩ hno
    · exact h2

end Ncluster

/-- **C33.** For every grid, intensity order that is a permutation sorted by
ascending value, strictly descending threshold sequence, size threshold and
direction seed, `compute_nclusters` returns; every output slot `k` for which
some pixel value `v` satisfies `thresholds[k] <= v`, and `v < thresholds[k-1]`
when `k > 0`, holds the number of maximal 4-connected sets of pixels of value
`>= thresholds[k]` with at least `size_threshold` pixels, and every other slot
holds the value it had before the call. -/
theorem C33_count_descending_thresholds (nx ny : Nat) (img : Int → Int → Int)
    (buf_arg : Nat → Nat) (buf_thresholds : List Int) (buf_nclusters : Nat → Int)
    (size_threshold seed : Int) (rand4 : Nat → Nat)
    (hv : ValidOrder (nx * ny) buf_arg) (hasc : Ascending (nx * ny) ny img buf_arg)
    (hdesc : buf_thresholds.Pairwise (fun a b => b < a)) :
    ∃ st, Ncluster.compute_nclusters nx ny img buf_arg buf_thresholds buf_nclusters
        size_threshold seed rand4 = some st ∧
      ∀ k,
        ((k < buf_thresholds.length ∧ ∃ p, p < nx * ny ∧
            buf_thresholds.getD k 0 ≤ pixval ny img p ∧
            (0 < k → pixval ny img p < buf_thresholds.getD (k - 1) 0)) →
          CountsComponents nx ny img (buf_thresholds.getD k 0) size_threshold
            (st.buf_nclusters k)) ∧
        (¬ (k < buf_thresholds.length ∧ ∃ p, p < nx * ny ∧
            buf_thresholds.getD k 0 ≤ pixval ny img p ∧
            (0 < k → pixval ny img p < buf_thresholds.getD (k - 1) 0)) →
          st.buf_nclusters k = buf_nclusters k) := by
  obtain ⟨st, hrun, h⟩ := @Ncluster.compute_slots nx ny img buf_arg buf_thresholds
    size_threshold seed rand4 buf_nclusters hv hasc
  refine ⟨st, hrun, fun k => ⟨?_, ?_⟩⟩
  · rintro ⟨hk, p, hp, h1, h2⟩
    exact (h k).1 ⟨hk, p, hp, Ncluster.advance_desc hdesc hk h1 h2⟩
  · intro hno
    apply (h k).2
    rintro ⟨hk, p, hp, hpk⟩
    apply hno
    refine ⟨hk, p, hp, ?_, ?_⟩
    · have := Ncluster.advance_stop (pixval ny img p) buf_thresholds (by rw [hpk]; exact hk)
      rw [hpk] at this
      exact this
    · intro hpos
      exact Ncluster.advance_passed (pixval ny img p) buf_thresholds (k - 1)
        (by rw [hpk]; omega)

/-- Instance of C33 on the 2 × 2 grid with values 0, 1, 2, 3 (the value of a
pixel is its index), the identity order, the thresholds 3, 1, size threshold 1
and the output initialised to 0. -/
theorem C33_count_descending_thresholds_witness :
    ValidOrder (2 * 2) (fun i => i) ∧
    Ascending (2 * 2) 2 (fun ix iy => ix * 2 + iy) (fun i => i) ∧
    ([3, 1] : List Int).Pairwise (fun a b => b < a) ∧
    ∃ st, Ncluster.compute_nclusters 2 2 (fun ix iy => ix * 2 + iy) (fun i => i) [3, 1]
        (fun _ => 0) 1 0 (fun _ => 0) = some st ∧
      ∀ k,
        ((k < ([3, 1] : List Int).length ∧ ∃ p, p < 2 * 2 ∧
            ([3, 1] : List Int).getD k 0 ≤ pixval 2 (fun ix iy => ix * 2 + iy) p ∧
            (0 < k → pixval 2 (fun ix iy => ix * 2 + iy) p <
              ([3, 1] : List Int).getD (k - 1) 0)) →
          CountsComponents 2 2 (fun ix iy => ix * 2 + iy) (([3, 1] : List Int).getD k 0) 1
            (st.buf_nclusters k)) ∧
        (¬ (k < ([3, 1] : List Int).length ∧ ∃ p, p < 2 * 2 ∧
            ([3, 1] : List Int).getD k 0 ≤ pixval 2 (fun ix iy => ix * 2 + iy) p ∧
            (0 < k → pixval 2 (fun ix iy => ix * 2 + iy) p <
              ([3, 1] : List Int).getD (k - 1) 0)) →
          st.buf_nclusters k = (fun _ : Nat => (0 : Int)) k) :=
  have hv : ValidOrder (2 * 2) (fun i => i) :=
    ⟨fun _ h => h, fun _ _ _ _ h => h, fun p h => ⟨p, h, rfl⟩⟩
  have hasc : Ascending (2 * 2) 2 (fun ix iy => ix * 2 + iy) (fun i => i) := by
    intro i j hij hj
    simp only [pixval]
    omega
  have hdesc : ([3, 1] : List Int).Pairwise (fun a b => b < a) := by decide
  ⟨hv, hasc, hdesc,
    C33_count_descending_thresholds 2 2 _ _ [3, 1] (fun _ => 0) 1 0 (fun _ => 0) hv hasc hdesc⟩

end Cellular

namespace Cellular

/-! ## Every marked pixel lies in a component of a size in the window -/

namespace Nuclei

/-- The loop over the pixels of one threshold does not move upwards. -/
theorem batch_le {nx ny : Nat} {img : Int → Int → Int} {buf_arg : Nat → Nat} {pt : Int}
    {size_min size_max : Nat} :
    ∀ (k : Nat) (st : State) (k' : Nat) (st' : State),
      batch nx ny img buf_arg pt size_min size_max k st = some (k', st') → k' ≤ k := by
  intro k
  induction k with
  | zero =>
    intro st k' st' h
    unfold batch at h
    cases h
    exact le_rfl
  | succ k ih =>
    intro st k' st' h
    unfold batch at h
    simp only [] at h
    split_ifs at h with hlt
    · cases h
      exact le_rfl
    · cases hf : floodPixel nx ny size_min size_max (buf_arg k)
          { st with asserts := st.asserts && decide (buf_arg k < nx * ny) } with
      | none => rw [hf] at h; cases h
      | some st1 =>
        rw [hf] at h
        exact Nat.le_succ_of_le (ih st1 k' st' h)

/-- A batch that floods no pixel leaves the set of updated clusters as it
was. -/
theorem batch_idle {nx ny : Nat} {img : Int → Int → Int} {buf_arg : Nat → Nat} {pt : Int}
    {size_min size_max : Nat} {k : Nat} {st st' : State}
    (h : batch nx ny img buf_arg pt size_min size_max k st = some (k, st')) :
    st'.updated_clusters = st.updated_clusters := by
  cases k with
  | zero =>
    unfold batch at h
    cases h
    rfl
  | succ k =>
    unfold batch at h
    simp only [] at h
    split_ifs at h with hlt
    · cases h
      rfl
    · cases hf : floodPixel nx ny size_min size_max (buf_arg k)
          { st with asserts := st.asserts && decide (buf_arg k < nx * ny) } with
      | none => rw [hf] at h; cases h
      | some st1 =>
        rw [hf] at h
        have := batch_le k st1 (k + 1) st' h
        omega

/-- The pixel list of a top of a forest whose classes are the reachability
classes at threshold `t` is a maximal 4-connected set of pixels of value
`>= t`. -/
theorem class_component {nx ny : Nat} {img : Int → Int → Int} {t : Int} {v_next : Nat → Int}
    (hu : UF (nx * ny) v_next (InThr nx ny img t) (AdjF nx ny (InThr nx ny img t)))
    {r : Nat} {l : List Nat} (hr : v_next r = (r : Int)) (hl : ClassList v_next r l) :
    IsComponent nx ny img t l.toFinset ∧ l.toFinset.card = l.length := by
  have hF : InThr nx ny img t r := (hu.flooded r).2 (by rw [hr]; exact Int.ofNat_nonneg _)
  refine ⟨isComponent_iff_class.2 ⟨r, hF, fun q => ?_⟩, List.toFinset_card_of_nodup hl.1⟩
  rw [List.mem_toFinset, hl.2 q]
  constructor
  · intro hT
    exact (hu.conn r q hF (flooded_of_top hu hT)).1 ⟨r, top_self hr, hT⟩
  · intro hR
    obtain ⟨r', h1, h2⟩ := (hu.conn r q hF (reach_inThr hF hR)).2 hR
    rw [top_of_root hr h1] at h2
    exact h2

/-- The loop over the thresholds returns, and it marks only pixels of
components, at one of the thresholds, whose size is in the window. -/
theorem mark_sweep_window {nx ny : Nat} {img : Int → Int → Int} {buf_arg : Nat → Nat}
    {size_min size_max : Nat} (hv : ValidOrder (nx * ny) buf_arg)
    (hasc : Ascending (nx * ny) ny img buf_arg) (full : List Int) :
    ∀ (ths : List Int) (k : Nat) (st : State), (∀ t ∈ ths, t ∈ full) → k ≤ nx * ny →
      PInv nx ny buf_arg size_min size_max False k st →
      (∀ i, st.buf_nuclei i = true → InWindow nx ny img full size_min size_max i) →
      ∃ st', sweep nx ny img buf_arg size_min size_max ths k st = some st' ∧
        ∀ i, st'.buf_nuclei i = true → InWindow nx ny img full size_min size_max i := by
  intro ths
  induction ths with
  | nil =>
    intro k st _ _ _ hm
    exact ⟨st, rfl, hm⟩
  | cons pt rest ih =>
    intro k st hsub hk h hm
    unfold sweep
    have hp0 : PInv nx ny buf_arg size_min size_max False k
        { st with updated_clusters := [] } :=
      mark_pinv_frame h rfl rfl (fun hf => absurd hf not_false)
    obtain ⟨k', st1, e1, hk', p1, b1, hge, hstop⟩ :=
      @mark_batch_inv nx ny img buf_arg pt size_min size_max False hv k _ hk hp0
    rw [e1]
    simp only []
    have hp1 : PInv nx ny buf_arg size_min size_max False k'
        { st1 with buf_nuclei := markUpdated size_min size_max st1 } :=
      mark_pinv_frame p1 rfl rfl (fun hf => absurd hf not_false)
    refine ih k' _ (fun t ht => hsub t (List.mem_cons_of_mem _ ht)) (le_trans hk' hk) hp1 ?_
    intro i hi
    dsimp only at hi
    rw [markUpdated_iff, b1] at hi
    rcases hi with hi | ⟨c, hc, ⟨hmin, hmax⟩, hic⟩
    · exact hm i hi
    · have hne : k' ≠ k := by
        intro e
        rw [e] at e1
        have := batch_idle e1
        dsimp only at this
        rw [this] at hc
        exact absurd hc (List.not_mem_nil c)
      have hlt : k' < k := lt_of_le_of_ne hk' hne
      have hkn : k' < nx * ny := lt_of_lt_of_le hlt hk
      have hge' : ∀ j, k' ≤ j → j < nx * ny → pt ≤ pixval ny img (buf_arg j) := by
        intro j h1 h2
        exact le_trans (hge k' le_rfl hlt) (hasc k' j h1 h2)
      have hu : UF (nx * ny) st1.v_next (InThr nx ny img pt)
          (AdjF nx ny (InThr nx ny img pt)) := by
        have e : Flooded (nx * ny) buf_arg k' = InThr nx ny img pt :=
          funext (fun x => propext (flooded_iff_inThr hv hasc (Nat.le_of_lt hkn) hge' hstop x))
        rw [← e]
        exact p1.uf
      have hroot : st1.v_next c = (c : Int) := by
        by_contra hx
        rw [p1.empty c hx] at hic
        exact absurd hic (List.not_mem_nil i)
      obtain ⟨hS, hcard⟩ := class_component hu hroot (p1.lists c hroot)
      exact ⟨pt, hsub pt (List.mem_cons_self _ _), _, hS, List.mem_toFinset.2 hic,
        by rw [hcard]; exact hmin, by rw [hcard]; exact hmax⟩

end Nuclei

/-- **C32.** For every grid, intensity order that is a permutation sorted by
ascending value, threshold sequence and size window, `mark_nuclei` started on
an all-false mask returns, and every pixel that is true in the mask afterwards
belongs, for some threshold `t` of the sequence, to a maximal 4-connected set
of pixels of value `>= t` (the cluster of the pixel at the end of the batch of
`t`) whose number of pixels is within `[size_min, size_max]`, and has value
`>= t`; no pixel whose value is below every threshold is marked. -/
theorem C32_marked_pixels_in_window (nx ny : Nat) (img : Int → Int → Int) (buf_arg : Nat → Nat)
    (buf_thresholds : List Int) (size_min size_max : Nat)
    (hv : ValidOrder (nx * ny) buf_arg) (hasc : Ascending (nx * ny) ny img buf_arg) :
    ∃ st, Nuclei.mark_nuclei nx ny img buf_arg buf_thresholds size_min size_max
        (fun _ => false) = some st ∧
      (∀ p, st.buf_nuclei p = true →
        ∃ t ∈ buf_thresholds, t ≤ pixval ny img p ∧
          ∃ S : Finset Nat, IsComponent nx ny img t S ∧ p ∈ S ∧
            size_min ≤ S.card ∧ S.card ≤ size_max) ∧
      ∀ p, (∀ t ∈ buf_thresholds, pixval ny img p < t) → st.buf_nuclei p = false := by
  obtain ⟨st, hrun, hm⟩ := @Nuclei.mark_sweep_window nx ny img buf_arg size_min size_max hv hasc
    buf_thresholds buf_thresholds (nx * ny) _ (fun _ h => h) le_rfl
    (Nuclei.mark_pinv_init nx ny buf_arg size_min size_max False (fun _ => false))
    (fun i hi => by cases hi)
  have hmark : ∀ p, st.buf_nuclei p = true →
      ∃ t ∈ buf_thresholds, t ≤ pixval ny img p ∧
        ∃ S : Finset Nat, IsComponent nx ny img t S ∧ p ∈ S ∧
          size_min ≤ S.card ∧ S.card ≤ size_max := by
    intro p hp
    obtain ⟨t, ht, S, hS, hpS, h1, h2⟩ := hm p hp
    exact ⟨t, ht, (hS.2.1 p hpS).2, S, hS, hpS, h1, h2⟩
  refine ⟨st, hrun, hmark, ?_⟩
  intro p hlow
  cases hb : st.buf_nuclei p with
  | false => rfl
  | true =>
    obtain ⟨t, ht, hge, _⟩ := hmark p hb
    exact absurd hge (not_le.2 (hlow t ht))

/-- Instance of C32 on the 1 × 2 grid of values 10, 10 with the identity
order, thresholds `[5, 7]` and the window `[2, 3]`. -/
theorem C32_marked_pixels_in_window_witness :
    ValidOrder (1 * 2) (fun i => i) ∧
    Ascending (1 * 2) 2 (fun _ _ => 10) (fun i => i) ∧
    ∃ st, Nuclei.mark_nuclei 1 2 (fun _ _ => 10) (fun i => i) [5, 7] 2 3
        (fun _ => false) = some st ∧
      (∀ p, st.buf_nuclei p = true →
        ∃ t ∈ ([5, 7] : List Int), t ≤ pixval 2 (fun _ _ => 10) p ∧
          ∃ S : Finset Nat, IsComponent 1 2 (fun _ _ => 10) t S ∧ p ∈ S ∧
            2 ≤ S.card ∧ S.card ≤ 3) ∧
      ∀ p, (∀ t ∈ ([5, 7] : List Int), pixval 2 (fun _ _ => 10) p < t) →
        st.buf_nuclei p = false :=
  have hv : ValidOrder (1 * 2) (fun i => i) :=
    ⟨fun _ h => h, fun _ _ _ _ h => h, fun p h => ⟨p, h, rfl⟩⟩
  have hasc : Ascending (1 * 2) 2 (fun _ _ => 10) (fun i => i) := fun _ _ _ _ => le_rfl
  ⟨hv, hasc, C32_marked_pixels_in_window 1 2 _ _ [5, 7] 2 3 hv hasc⟩

end Cellular
